import Mathlib

/-!
contract_rag: hybrid retrieval fusion and ingestion coordinator

A shallow embedding of the Go sources

* `logic/ingestion/transform/score/score.go` (`normalizeScores`, `HybridReranker`),
* `service/ingestion.go` (`cleanText`, `UploadAndProcess`),
* `api/handler/handler.go` (`Upload`),
* `storage/postgres/repo.go`, `storage/es/indexer.go` (the store operations the
  coordinator calls),
* `logic/retrieval/analyze.go` (`AnalyzeQuery`), `types/serach.go`,
* `service/retrieval.go` (`Search`, `convertFiltersToES`),
* `storage/es/retriever.go` (`buildFilterQueries`, `SearchByParties`),
* `storage/milvus/retriever.go` (`BuildExpr`),
* `storage/postgres/repo.go` (`SearchContracts`, `ExpireContracts`),
* `logic/ingestion/transform/score/score.go` (`NewReranker`, `Transform`),
* `logic/ingestion/extract/extract.go` (`ExtractAndClean`), `vars/const.go`,

followed by theorems about them.

Conventions of the embedding.

* `float64` scores and weights are rationals (`ℚ`): rounding, NaN and infinities
  are outside the model.
* A `*schema.Document` is `Option Document`; `none` is the nil pointer.  Every
  slice entry is its own object (the retrievers of this repository allocate a
  fresh `&schema.Document{}` per hit), so a slice of pointers is a list of values
  and in-place mutation is state passing: a function that mutates its documents
  returns the documents it leaves behind.
* A Go runtime panic is the result `none`.
* A Go `map` is an association list; the order of the list is the insertion
  order, which Go itself does not keep (`range` over a map visits the entries in
  an unspecified order).
* The three stores are lists of rows, and a write or delete that succeeds has
  taken effect when the call returns.  The language model, the splitter, the
  parsers of the standard library, the UUID generator and the outcome of every
  store write are parameters of a run (`Env`).  Writes and deletes may fail, and
  so may the lookup by file name; other reads follow the store's contract.
-/

namespace ContractRag

/-! ## `schema.Document` (github.com/cloudwego/eino/schema) -/

/-- The values this repository stores in `Document.MetaData`, a `map[string]any`. -/
inductive MetaValue where
  | float (x : ℚ)
  | str (s : String)
  | int (n : Int)
  | time (t : Int)
  deriving DecidableEq, Repr

/-- A `map[string]any`.  A nil map and an empty map are both `[]`: the code reads
them alike and allocates the map before it writes. -/
abbrev MetaData := List (String × MetaValue)

/-- The read `m[key]` with the comma-ok result. -/
def MetaData.get (m : MetaData) (key : String) : Option MetaValue :=
  match m with
  | [] => none
  | (k, v) :: rest => if k = key then some v else MetaData.get rest key

/-- The assignment `m[key] = v`. -/
def MetaData.set (m : MetaData) (key : String) (v : MetaValue) : MetaData :=
  match m with
  | [] => [(key, v)]
  | (k, w) :: rest => if k = key then (k, v) :: rest else (k, w) :: MetaData.set rest key v

/-- The struct `schema.Document`. -/
structure Document where
  ID : String
  Content : String
  MetaData : MetaData
  deriving DecidableEq, Repr

/-- The metadata key under which eino keeps a document's score. -/
def docMetaDataKeyScore : String := "_score"

/-- The method `(*Document).Score`: the `float64` stored under `_score`, and 0 when
the key is missing or holds another type. -/
def Document.Score (d : Document) : ℚ :=
  match d.MetaData.get docMetaDataKeyScore with
  | some (MetaValue.float x) => x
  | _ => 0

/-- The method `(*Document).WithScore`: writes the score into the receiver's
metadata and returns the receiver, so the object the slice points to changes. -/
def Document.WithScore (d : Document) (score : ℚ) : Document :=
  { d with MetaData := d.MetaData.set docMetaDataKeyScore (MetaValue.float score) }

/-! ## `score.go`: the fusion reranker -/

/-- The struct `HybridRerankerConfig`; `TopK` is a Go `int` and may be negative. -/
structure HybridRerankerConfig where
  MilvusWeight : ℚ
  ESWeight : ℚ
  TopK : Int
  deriving DecidableEq, Repr

/-- The function `DefaultHybridRerankerConfig`. -/
def DefaultHybridRerankerConfig : HybridRerankerConfig :=
  { MilvusWeight := 6 / 10, ESWeight := 4 / 10, TopK := 10 }

/-- The struct `RerankedDocument`; `Document` is the embedded pointer. -/
structure RerankedDocument where
  Document : Document
  FinalScore : ℚ
  Sources : List String
  deriving DecidableEq, Repr

/-- The first loop of `normalizeScores`: every `doc.Score()` dereferences the
pointer, so a nil entry panics; otherwise the running maximum and minimum. -/
def scanMaxMin : List (Option Document) → ℚ → ℚ → Option (ℚ × ℚ)
  | [], maxScore, minScore => some (maxScore, minScore)
  | none :: _, _, _ => none
  | some doc :: rest, maxScore, minScore =>
      let score := doc.Score
      let maxScore := if score > maxScore then score else maxScore
      let minScore := if score < minScore then score else minScore
      scanMaxMin rest maxScore minScore

/-- The two rewriting loops of `normalizeScores`, `doc = doc.WithScore(f doc)` for
every entry.  They run only after `scanMaxMin` met no nil entry. -/
def rescore (f : Document → ℚ) (docs : List (Option Document)) : List (Option Document) :=
  docs.map (fun doc => doc.map (fun d => d.WithScore (f d)))

/-- The function `normalizeScores`.  The result is the slice's documents after the
call, or `none` when the call panics on a nil entry. -/
def normalizeScores (docs : List (Option Document)) : Option (List (Option Document)) :=
  match docs with
  | [] => some []
  | none :: _ => none
  | some first :: _ =>
      match scanMaxMin docs first.Score first.Score with
      | none => none
      | some (maxScore, minScore) =>
          if maxScore = minScore then
            some (rescore (fun _ => 1) docs)
          else
            some (rescore (fun d => (d.Score - minScore) / (maxScore - minScore)) docs)

/-- The `docMap` of `HybridReranker`, keyed by document ID, in insertion order. -/
abbrev DocMap := List (String × RerankedDocument)

/-- The test `_, exists := docMap[id]`. -/
def DocMap.exists (m : DocMap) (id : String) : Bool :=
  m.any (fun e => decide (e.1 = id))

/-- The else-branch of a merge loop: the entry under `id` gets the weighted score
added and the label appended. -/
def DocMap.accumulate (m : DocMap) (id : String) (add : ℚ) (label : String) : DocMap :=
  m.map (fun e =>
    if e.1 = id then
      (e.1, { e.2 with FinalScore := e.2.FinalScore + add, Sources := e.2.Sources ++ [label] })
    else e)

/-- One iteration of a merge loop of `HybridReranker` for the source `label` with
weight `weight`. -/
def mergeDoc (weight : ℚ) (label : String) (docMap : DocMap) (doc : Option Document) : DocMap :=
  match doc with
  | none => docMap
  | some doc =>
      if docMap.exists doc.ID then
        docMap.accumulate doc.ID (doc.Score * weight) label
      else
        docMap ++ [(doc.ID, { Document := doc, FinalScore := doc.Score * weight, Sources := [label] })]

/-- Steps 1 and 2 of `HybridReranker`: both normalisations, then the Milvus loop
and the ES loop over the normalised documents. -/
def mergeResults (milvusDocs esDocs : List (Option Document)) (config : HybridRerankerConfig) :
    Option DocMap :=
  match normalizeScores milvusDocs with
  | none => none
  | some milvusDocs =>
      match normalizeScores esDocs with
      | none => none
      | some esDocs =>
          let docMap : DocMap := milvusDocs.foldl (mergeDoc config.MilvusWeight "milvus") []
          some (esDocs.foldl (mergeDoc config.ESWeight "es") docMap)

/-- What `sort.Slice` with `less(i, j) = results[i].FinalScore > results[j].FinalScore`
guarantees of its result: no later element is `less` than an earlier one. -/
def SortedByFinalScore (results : List RerankedDocument) : Prop :=
  results.Pairwise (fun a b => ¬ (b.FinalScore > a.FinalScore))

instance (results : List RerankedDocument) : Decidable (SortedByFinalScore results) := by
  unfold SortedByFinalScore; infer_instance

/-- Step 5 of `HybridReranker`: `results[:config.TopK]` when the slice is longer than
`TopK`; slicing with a negative bound panics. -/
def truncateTopK (results : List RerankedDocument) (TopK : Int) : Option (List RerankedDocument) :=
  if (results.length : Int) > TopK then
    if TopK < 0 then none else some (results.take TopK.toNat)
  else some results

/-- The function `HybridReranker` as a relation between its arguments and what a
run can produce (`none`: the run panics).  Steps 3 and 4 are not functions of the
input: `range docMap` yields the entries in an order Go does not fix, and
`sort.Slice` is not stable; a run may leave any arrangement of the merged items
that is sorted by `FinalScore`. -/
def HybridReranker (milvusDocs esDocs : List (Option Document))
    (config : Option HybridRerankerConfig) (out : Option (List RerankedDocument)) : Prop :=
  let config := config.getD DefaultHybridRerankerConfig
  match mergeResults milvusDocs esDocs config with
  | none => out = none
  | some docMap =>
      ∃ results : List RerankedDocument,
        results.Perm (docMap.map Prod.snd) ∧ SortedByFinalScore results ∧
          out = truncateTopK results config.TopK

/-- One run of steps 3 to 5: the entries in insertion order, sorted by a stable
insertion sort.  This is the run the specification describes. -/
def HybridRerankerStable (milvusDocs esDocs : List (Option Document))
    (config : Option HybridRerankerConfig) : Option (List RerankedDocument) :=
  let config := config.getD DefaultHybridRerankerConfig
  match mergeResults milvusDocs esDocs config with
  | none => none
  | some docMap =>
      truncateTopK
        ((docMap.map Prod.snd).insertionSort (fun a b => a.FinalScore ≥ b.FinalScore))
        config.TopK

/-- A document with the given ID and raw score, as a retriever builds it. -/
def mkDoc (id : String) (score : ℚ) : Document :=
  (Document.mk id "" []).WithScore score

/-! ## `service/ingestion.go`: text cleaning -/

/-- The class `[\x00-\x08\x0B-\x0C\x0E-\x1F\x7F]` of the first expression of `cleanText`. -/
def isControlChar (c : Char) : Bool :=
  let n := c.toNat
  n ≤ 0x08 || (0x0B ≤ n && n ≤ 0x0C) || (0x0E ≤ n && n ≤ 0x1F) || n = 0x7F

/-- The class `\s` of Go's `regexp` (RE2): tab, line feed, form feed, carriage return, space. -/
def isReSpace (c : Char) : Bool :=
  c = '\t' || c = '\n' || c.toNat = 0x0C || c = '\r' || c = ' '

/-- The predicate `unicode.IsSpace`, which `strings.TrimSpace` trims by. -/
def isUnicodeSpace (c : Char) : Bool :=
  let n := c.toNat
  (0x09 ≤ n && n ≤ 0x0D) || n = 0x20 || n = 0x85 || n = 0xA0 || n = 0x1680 ||
    (0x2000 ≤ n && n ≤ 0x200A) || n = 0x2028 || n = 0x2029 || n = 0x202F || n = 0x205F ||
    n = 0x3000

/-- The characters a pending run of `n` placeholder characters leaves behind: nothing
when the run matches `[甲]{3,}`, the run itself otherwise. -/
def flushRun (n : Nat) : List Char :=
  if n ≥ 3 then [] else List.replicate n '甲'

/-- The replacement of every match of `[甲]{3,}` by the empty string; `n` is the length of
the run of `甲` read so far.  A greedy match takes a whole maximal run. -/
def stripRuns : List Char → Nat → List Char
  | [], n => flushRun n
  | c :: rest, n =>
      if c = '甲' then stripRuns rest (n + 1)
      else flushRun n ++ c :: stripRuns rest 0

/-- The replacement of every match of `\s+` by one space; `inRun` tells that the
previous character was part of the current match. -/
def collapseSpace : List Char → Bool → List Char
  | [], _ => []
  | c :: rest, inRun =>
      if isReSpace c then
        if inRun then collapseSpace rest true else ' ' :: collapseSpace rest true
      else c :: collapseSpace rest false

/-- The function `strings.TrimSpace` on the characters of a string. -/
def trimSpace (cs : List Char) : List Char :=
  ((cs.dropWhile isUnicodeSpace).reverse.dropWhile isUnicodeSpace).reverse

/-- The function `cleanText`. -/
def cleanText (text : String) : String :=
  let text := text.data.filter (fun c => !isControlChar c)
  let text := stripRuns text 0
  let text := collapseSpace text false
  String.mk (trimSpace text)

/-! ## The stores and the collaborators of the ingestion coordinator -/

/-- A `time.Time` as seconds since the zero time; `time.Time{}` is 0. -/
abbrev Time := Int

/-- The constants `StatusExpired` and `StatusActive` of `types/serach.go`. -/
def StatusExpired : Int := 2

/-- See `StatusExpired`. -/
def StatusActive : Int := 1

/-- The dynamic type of `ContractRawData.TotalAmount` (an `interface{}` decoded from
JSON): a number, a string, or another JSON value. -/
inductive AmountValue where
  | number (x : ℚ)
  | text (s : String)
  | other
  deriving DecidableEq, Repr

/-- The struct `types.ContractRawData`; a nil pointer or nil interface is `none`. -/
structure ContractRawData where
  PartyA : String
  PartyB : String
  SignDate : Option String
  EndDate : Option String
  ContractType : String
  TotalAmount : Option AmountValue
  Summary : String
  Keywords : List String
  deriving DecidableEq, Repr

/-- The struct `postgres.Contract`, a row of the table `contracts`. -/
structure Contract where
  DocID : String
  FileName : String
  PartyA : String
  PartyB : String
  ContractType : String
  ContractStatus : Int
  SignDate : Option Time
  EndDate : Option Time
  TotalAmount : ℚ
  Summary : String
  CreatedAt : Time
  UpdatedAt : Time
  deriving DecidableEq, Repr

/-- One document of the keyword index as `ESIndexer.Store` writes it: the `_id` and the
body; a metadata field the chunk lacks is `none` (JSON null). -/
structure ESDoc where
  DocumentID : String
  doc_id : String
  chunk_id : String
  content : String
  keywords : List String
  fields : List (String × Option MetaValue)
  deriving DecidableEq, Repr

/-- What a bulk write did: everything was written, or the call returned an error after
`written` leading items had reached the store. -/
inductive StoreOutcome where
  | ok
  | failed (written : Nat)
  deriving DecidableEq, Repr

/-- The collaborators of one run, each a function of the arguments of the call: the
clock, the UUID generator (`uuid n` is the `n`-th UUID the process draws), the
language-model extraction, the two parsers of the standard library, the semantic
splitter, for the lookup by file name whether the query fails, and for each store write
whether it fails. -/
structure Env where
  now : Time
  uuid : Nat → String
  extract : Document → Option ContractRawData
  timeParse : String → Option Time
  parseFloat : String → Option ℚ
  split : Document → Option (List Document)
  pgGetFails : String → Bool
  pgCreateFails : Contract → Bool
  pgDeleteFails : String → Bool
  esStore : String → List Document → StoreOutcome
  esDeleteFails : String → Bool
  milvusStore : List Document → StoreOutcome

/-- The three stores and the number of UUIDs drawn so far. -/
structure Stores where
  pg : List Contract
  es : List ESDoc
  milvus : List Document
  uuids : Nat
  deriving DecidableEq, Repr

/-! ## `storage/postgres/repo.go` and `storage/es/indexer.go` -/

/-- The method `ContractRepo.GetByFileName`: the first row with that file name and a nil
error; `nil, err` when the query fails and when there is no such row (`First` then
returns `ErrRecordNotFound`).  `true` in the second component is a non-nil error. -/
def ContractRepo.GetByFileName (env : Env) (pg : List Contract) (filename : String) :
    Option Contract × Bool :=
  if env.pgGetFails filename then (none, true)
  else
    match pg.find? (fun c => decide (c.FileName = filename)) with
    | some contract => (some contract, false)
    | none => (none, true)

/-- The method `ContractRepo.Create`: an insert, refused when the statement fails or
the primary key `doc_id` is taken.  `false` in the second component is a nil error. -/
def ContractRepo.Create (env : Env) (pg : List Contract) (contract : Contract) :
    List Contract × Bool :=
  if env.pgCreateFails contract || pg.any (fun c => decide (c.DocID = contract.DocID)) then
    (pg, true)
  else (pg ++ [contract], false)

/-- The method `ContractRepo.Delete`: removes the rows with that `doc_id`. -/
def ContractRepo.Delete (env : Env) (pg : List Contract) (id : String) :
    List Contract × Bool :=
  if env.pgDeleteFails id then (pg, true)
  else (pg.filter (fun c => !decide (c.DocID = id)), false)

/-- The body `docModel` that `ESIndexer.Store` builds for one chunk. -/
def esDocOf (docID : String) (keywords : List String) (chunk : Document) : ESDoc :=
  { DocumentID := chunk.ID
    doc_id := docID
    chunk_id := chunk.ID
    content := chunk.Content
    keywords := keywords
    fields := ["party_a", "party_b", "sign_date", "end_date", "amount", "contract_type",
      "contract_status"].map (fun k => (k, chunk.MetaData.get k)) }

/-- The bulk action `index` for one item: it replaces the document with the same `_id`. -/
def esIndex (es : List ESDoc) (d : ESDoc) : List ESDoc :=
  es.filter (fun e => !decide (e.DocumentID = d.DocumentID)) ++ [d]

/-- The method `ESIndexer.Store`. -/
def ESIndexer.Store (env : Env) (es : List ESDoc) (docID : String) (chunks : List Document)
    (keywords : List String) : List ESDoc × Bool :=
  match env.esStore docID chunks with
  | StoreOutcome.ok => ((chunks.map (esDocOf docID keywords)).foldl esIndex es, false)
  | StoreOutcome.failed n =>
      (((chunks.take n).map (esDocOf docID keywords)).foldl esIndex es, true)

/-- The method `ESIndexer.DeleteByDocID`: a delete-by-query on the term `doc_id`. -/
def ESIndexer.DeleteByDocID (env : Env) (es : List ESDoc) (docID : String) :
    List ESDoc × Bool :=
  if env.esDeleteFails docID then (es, true)
  else (es.filter (fun e => !decide (e.doc_id = docID)), false)

/-- The call `s.indexer.Store(ctx, chunks)` on the vector store. -/
def Indexer.Store (env : Env) (milvus : List Document) (chunks : List Document) :
    List Document × Bool :=
  match env.milvusStore chunks with
  | StoreOutcome.ok => (milvus ++ chunks, false)
  | StoreOutcome.failed n => (milvus ++ chunks.take n, true)

/-! ## `service/ingestion.go`: `UploadAndProcess` -/

/-- The constant `file.MetaKeyFileName` of eino-ext. -/
def MetaKeyFileName : String := "_file_name"

/-- The string stored under `MetaKeyFileName`, as `fileName.(string)` reads it. -/
def fileNameOf (doc : Document) : String :=
  match doc.MetaData.get MetaKeyFileName with
  | some (MetaValue.str s) => s
  | _ => ""

/-- Lines 115-127: a date field becomes a `*time.Time` when the text is present and
non-empty; the error of `time.Parse` is dropped, so an unparsable text gives the zero
time. -/
def parseDateField (env : Env) (v : Option String) : Option Time :=
  match v with
  | none => none
  | some s => if s ≠ "" then some ((env.timeParse s).getD 0) else none

/-- Lines 129-134: the status at ingestion. -/
def statusOf (env : Env) (endDate : Option Time) : Int :=
  match endDate with
  | some t => if t < env.now then StatusExpired else StatusActive
  | none => StatusActive

/-- Lines 136-161: the amount.  `strings.ReplaceAll` with a one-character pattern and an
empty replacement removes the character; `strings.Contains` tests its presence. -/
def amountOf (env : Env) (v : Option AmountValue) : ℚ :=
  match v with
  | some (AmountValue.number x) => x
  | some (AmountValue.text s) =>
      if s ≠ "" then
        let cleanAmount := s.data.filter (fun c => !decide (c = ','))
        let hasUnit := cleanAmount.contains '万'
        let cleanAmount := if hasUnit then cleanAmount.filter (fun c => !decide (c = '万')) else cleanAmount
        let multiplier : ℚ := if hasUnit then 10000 else 1
        match env.parseFloat (String.mk cleanAmount) with
        | some val => val * multiplier
        | none => 0
      else 0
  | _ => 0

/-- Lines 216-222: every chunk has its content cleaned, and those whose content is not
blank are kept. -/
def cleanChunksOf (chunks : List Document) : List Document :=
  (chunks.map (fun chunk => { chunk with Content := cleanText chunk.Content })).filter
    (fun chunk => decide ((trimSpace chunk.Content.data).length ≠ 0))

/-- Lines 234-255 for one chunk: a fresh ID and the document's fields in the metadata. -/
def enrichChunk (docID : String) (entity : ContractRawData) (totalAmount : ℚ) (status : Int)
    (signDate endDate : Option Time) (id : String) (chunk : Document) : Document :=
  let m := chunk.MetaData
  let m := m.set "doc_id" (MetaValue.str docID)
  let m := m.set "party_a" (MetaValue.str entity.PartyA)
  let m := m.set "party_b" (MetaValue.str entity.PartyB)
  let m := m.set "amount" (MetaValue.float totalAmount)
  let m := m.set "contract_type" (MetaValue.str entity.ContractType)
  let m := m.set "contract_status" (MetaValue.int status)
  let m := match signDate with
    | some t => m.set "sign_date" (MetaValue.time t)
    | none => m
  let m := match endDate with
    | some t => m.set "end_date" (MetaValue.time t)
    | none => m
  { chunk with ID := id, MetaData := m }

/-- Lines 229-256: the loop over the kept chunks; chunk `i` draws the UUID `first + i`.
(The blank test of line 230 never fires on a kept chunk; it is kept as in the source.) -/
def enrichChunks (env : Env) (docID : String) (entity : ContractRawData) (totalAmount : ℚ)
    (status : Int) (signDate endDate : Option Time) :
    List Document → Nat → List Document × Nat
  | [], next => ([], next)
  | chunk :: rest, next =>
      if (trimSpace chunk.Content.data).length = 0 then
        let r := enrichChunks env docID entity totalAmount status signDate endDate rest next
        (chunk :: r.1, r.2)
      else
        let r := enrichChunks env docID entity totalAmount status signDate endDate rest (next + 1)
        (enrichChunk docID entity totalAmount status signDate endDate (env.uuid next) chunk :: r.1,
          r.2)

/-- How the body of the document loop ended for one document. -/
inductive Outcome where
  | duplicate
  | extractFailed
  | createFailed (docID : String)
  | splitFailed (docID : String)
  | emptyChunks (docID : String)
  | esFailed (docID : String)
  | milvusFailed (docID : String)
  | done (docID : String)
  deriving DecidableEq, Repr

/-- Stage S5, lines 268-287: the vector-store write; on failure the relational record
and the keyword-store entries of the document are deleted (the errors of the deletes are
dropped) and the loop goes on. -/
def vectorStage (env : Env) (st : Stores) (docID : String) (chunks : List Document) :
    Outcome × Stores :=
  let vec := Indexer.Store env st.milvus chunks
  let st := { st with milvus := vec.1 }
  if vec.2 then
    let st := { st with pg := (ContractRepo.Delete env st.pg docID).1 }
    let st := { st with es := (ESIndexer.DeleteByDocID env st.es docID).1 }
    (Outcome.milvusFailed docID, st)
  else (Outcome.done docID, st)

/-- Stage S4, lines 258-266: the keyword-store write; on failure the relational record is
deleted and the function returns. -/
def keywordStage (env : Env) (st : Stores) (docID : String) (chunks : List Document)
    (keywords : List String) : Outcome × Stores :=
  let stored := ESIndexer.Store env st.es docID chunks keywords
  let st := { st with es := stored.1 }
  if stored.2 then
    (Outcome.esFailed docID, { st with pg := (ContractRepo.Delete env st.pg docID).1 })
  else vectorStage env st docID chunks

/-- Stage S3, lines 193-256: splitting, cleaning and enriching.  A splitter error deletes
the relational record; an empty list of kept chunks only goes on with the next document. -/
def chunkStage (env : Env) (st : Stores) (doc : Document) (docID : String)
    (entity : ContractRawData) (totalAmount : ℚ) (status : Int)
    (signDate endDate : Option Time) : Outcome × Stores :=
  match env.split doc with
  | none =>
      (Outcome.splitFailed docID, { st with pg := (ContractRepo.Delete env st.pg docID).1 })
  | some chunks =>
      let cleanChunks := cleanChunksOf chunks
      if cleanChunks.length = 0 then (Outcome.emptyChunks docID, st)
      else
        let enriched :=
          enrichChunks env docID entity totalAmount status signDate endDate cleanChunks st.uuids
        keywordStage env { st with uuids := enriched.2 } docID enriched.1 entity.Keywords

/-- The body of the loop of `UploadAndProcess` (lines 96-287) for one document: the
duplicate check, the extraction, the canonical fields, the relational insert (stage S2),
then the stages S3 to S5.  The duplicate check reads only the row the lookup returns
(`if one != nil`); the lookup's error is never read. -/
def processDoc (env : Env) (st : Stores) (doc : Document) : Outcome × Stores :=
  let fileName := fileNameOf doc
  match (ContractRepo.GetByFileName env st.pg fileName).1 with
  | some _ => (Outcome.duplicate, st)
  | none =>
    match env.extract doc with
    | none => (Outcome.extractFailed, st)
    | some entity =>
      let signDate := parseDateField env entity.SignDate
      let endDate := parseDateField env entity.EndDate
      let status := statusOf env endDate
      let totalAmount := amountOf env entity.TotalAmount
      let docID := env.uuid st.uuids
      let st := { st with uuids := st.uuids + 1 }
      let now := env.now
      let created := ContractRepo.Create env st.pg
        { DocID := docID, FileName := fileName, PartyA := entity.PartyA, PartyB := entity.PartyB,
          SignDate := signDate, EndDate := endDate, ContractStatus := status,
          ContractType := entity.ContractType, TotalAmount := totalAmount,
          Summary := entity.Summary, CreatedAt := now, UpdatedAt := now }
      if created.2 then (Outcome.createFailed docID, st)
      else
        chunkStage env { st with pg := created.1 } doc docID entity totalAmount status signDate
          endDate

/-- What a call of `UploadAndProcess` returns and leaves behind: the `[]string`, whether
the `error` is non-nil, the stores, and (for stating properties) how each document the
loop reached ended. -/
structure UploadResult where
  docsID : List String
  err : Bool
  stores : Stores
  trace : List Outcome
  deriving DecidableEq, Repr

/-- The document loop of `UploadAndProcess`.  A failed keyword-store write returns
`nil, err` at once; every other failure goes on with the next document.  The `err`
returned after the loop is the one declared before it, which is nil there: the loop
body declares its own `err` (`one, err := ...`). -/
def uploadLoop (env : Env) : List Document → Stores → List String → List Outcome → UploadResult
  | [], st, docsID, trace => { docsID := docsID, err := false, stores := st, trace := trace }
  | doc :: rest, st, docsID, trace =>
      match processDoc env st doc with
      | (Outcome.done docID, st) =>
          uploadLoop env rest st (docsID ++ [docID]) (trace ++ [Outcome.done docID])
      | (Outcome.esFailed docID, st) =>
          { docsID := [], err := true, stores := st, trace := trace ++ [Outcome.esFailed docID] }
      | (o, st) => uploadLoop env rest st docsID (trace ++ [o])

/-- An uploaded file once opened: its name and what the PDF parser makes of it (`none`:
the parser returns an error). -/
structure UploadedFile where
  Filename : String
  parsed : Option (List Document)
  deriving DecidableEq, Repr

/-- The method `ContractService.UploadAndProcess`, from the call of the parser on. -/
def ContractService.UploadAndProcess (env : Env) (fileHeader : UploadedFile) (st : Stores) :
    UploadResult :=
  match fileHeader.parsed with
  | none => { docsID := [], err := true, stores := st, trace := [] }
  | some docs =>
      let docs := docs.map (fun doc =>
        { doc with MetaData := doc.MetaData.set MetaKeyFileName (MetaValue.str fileHeader.Filename) })
      uploadLoop env docs st [] []

/-! ## `api/handler/handler.go`: `Upload` -/

/-- The JSON the handler answers with.  The first three are `response.Fail`: the
multipart form could not be read, the form holds no file, and "all files failed" with the
list of failed file names in the message.  The last is `response.Success` with the fields
`doc_ids`, `total_count` and `fail_files`. -/
inductive UploadResponse where
  | formError
  | noFile
  | allFailed (errorFiles : List String)
  | success (doc_ids : List String) (total_count : Nat) (fail_files : List String)
  deriving DecidableEq, Repr

/-- The loop of `Upload` over the files of the form. -/
def uploadFiles (env : Env) :
    List UploadedFile → Stores → List String → List String → List String × List String × Stores
  | [], st, allDocIDs, errorFiles => (allDocIDs, errorFiles, st)
  | file :: rest, st, allDocIDs, errorFiles =>
      let r := ContractService.UploadAndProcess env file st
      if r.err then uploadFiles env rest r.stores allDocIDs (errorFiles ++ [file.Filename])
      else uploadFiles env rest r.stores (allDocIDs ++ r.docsID) errorFiles

/-- The method `ContractHandler.Upload`; `form` is the list `form.File["file"]`, or
`none` when `c.MultipartForm()` returns an error. -/
def ContractHandler.Upload (env : Env) (form : Option (List UploadedFile)) (st : Stores) :
    UploadResponse × Stores :=
  match form with
  | none => (UploadResponse.formError, st)
  | some files =>
      if files.length = 0 then (UploadResponse.noFile, st)
      else
        let r := uploadFiles env files st [] []
        let allDocIDs := r.1
        let errorFiles := r.2.1
        if allDocIDs.length = 0 ∧ errorFiles.length > 0 then
          (UploadResponse.allFailed errorFiles, r.2.2)
        else (UploadResponse.success allDocIDs allDocIDs.length errorFiles, r.2.2)

/-! ## `types/serach.go`: the search intent -/

/-- The struct `types.DateRange`. -/
structure DateRange where
  Start : String
  End : String
  deriving DecidableEq, Repr

/-- The struct `types.AmountRange`; a nil `*float64` is `none`. -/
structure AmountRange where
  Min : Option ℚ
  Max : Option ℚ
  deriving DecidableEq, Repr

/-- The struct `types.FilterConditions`; a nil slice is `[]`, a nil pointer is `none`. -/
structure FilterConditions where
  AnyParty : List String
  PartyA : String
  PartyB : String
  ContractType : String
  Status : String
  DateRange : Option DateRange
  AmountRange : Option AmountRange
  deriving DecidableEq, Repr

/-- The zero value of `types.FilterConditions`: no filter of any kind. -/
def FilterConditions.zero : FilterConditions :=
  { AnyParty := [], PartyA := "", PartyB := "", ContractType := "", Status := "",
    DateRange := none, AmountRange := none }

/-- The struct `types.SearchIntent`. -/
structure SearchIntent where
  Intent : String
  Filters : FilterConditions
  SemanticQuery : String
  Keywords : List String
  deriving DecidableEq, Repr

/-- The constants `PG` and `HY` of `vars/const.go`. -/
def PG : String := "structured_only"

/-- See `PG`. -/
def HY : String := "hybrid"

/-! ## `logic/retrieval/analyze.go`: `AnalyzeQuery` -/

/-- The function `strings.Index` for a one-character pattern; `none` is the result -1.  The
model counts characters where Go counts bytes; the two patterns used are ASCII, so the
slices taken at these positions are the same. -/
def indexChar (c : Char) : List Char → Option Nat
  | [] => none
  | x :: rest => if x = c then some 0 else (indexChar c rest).map (fun i => i + 1)

/-- The function `strings.LastIndex` for a one-character pattern. -/
def lastIndexChar (c : Char) (s : List Char) : Option Nat :=
  (indexChar c s.reverse).map (fun i => s.length - 1 - i)

/-- Lines 124-132: the text from the first opening brace to the last closing brace when
the latter comes after the former, and the text itself otherwise. -/
def recoverJSON (raw : List Char) : List Char :=
  match indexChar '{' raw, lastIndexChar '}' raw with
  | some start, some stop =>
      if stop > start then (raw.drop start).take (stop + 1 - start) else raw
  | _, _ => raw

/-- The function `strings.Replace(s, old, new, -1)` for a non-empty `old`: the occurrences
of `old` are replaced from left to right without overlap; `skip` is the number of
characters of the current occurrence still to pass over. -/
def replaceAll (old new : List Char) : List Char → Nat → List Char
  | [], _ => []
  | _ :: cs, skip + 1 => replaceAll old new cs skip
  | c :: cs, 0 =>
      if old.isPrefixOf (c :: cs) then new ++ replaceAll old new cs (old.length - 1)
      else c :: replaceAll old new cs 0

/-- The text the repair of line 135 looks for. -/
def filtersArray : List Char := "\"filters\": []".data

/-- The text the repair of line 135 puts in its place. -/
def filtersObject : List Char := "\"filters\": \x7b\x7d".data

/-- The intent returned when the response does not decode (line 143). -/
def fallbackIntent (query : String) : SearchIntent :=
  { Intent := "hybrid", Filters := FilterConditions.zero, SemanticQuery := query, Keywords := [] }

/-- The function `AnalyzeQuery` from the call of the model on.  `chatModel query` is the
content of the model's answer, `none` when `Generate` returns an error; `unmarshal` is
`json.Unmarshal` into a `types.SearchIntent`, `none` when it returns an error.  The result
`none` is the return `nil, err`. -/
def AnalyzeQuery (unmarshal : String → Option SearchIntent) (query : String)
    (chatModel : String → Option String) : Option SearchIntent :=
  match chatModel query with
  | none => none
  | some content =>
      let raw := recoverJSON content.data
      let raw := replaceAll filtersArray filtersObject raw 0
      match unmarshal (String.mk raw) with
      | none => some (fallbackIntent query)
      | some intent =>
          if intent.Intent = "" then some { intent with Intent := "hybrid" } else some intent

/-! ## `encoding/json`: decoding into `types.SearchIntent` -/

/-- A JSON value; numbers are rationals. -/
inductive Json where
  | null
  | bool (b : Bool)
  | num (x : ℚ)
  | str (s : String)
  | arr (xs : List Json)
  | obj (kvs : List (String × Json))
  deriving Repr

/-- JSON whitespace. -/
def isJsonSpace (c : Char) : Bool :=
  c = ' ' || c = '\t' || c = '\n' || c = '\r'

/-- The value of a decimal digit. -/
def digitValue (c : Char) : Option Nat :=
  if '0' ≤ c ∧ c ≤ '9' then some (c.toNat - '0'.toNat) else none

/-- The value of a hexadecimal digit. -/
def hexValue (c : Char) : Option Nat :=
  if '0' ≤ c ∧ c ≤ '9' then some (c.toNat - '0'.toNat)
  else if 'a' ≤ c ∧ c ≤ 'f' then some (c.toNat - 'a'.toNat + 10)
  else if 'A' ≤ c ∧ c ≤ 'F' then some (c.toNat - 'A'.toNat + 10)
  else none

/-- The leading decimal digits of a text: their number, their value, and the rest. -/
def takeDigits : List Char → Nat → Nat → Nat × Nat × List Char
  | [], count, value => (count, value, [])
  | c :: rest, count, value =>
      match digitValue c with
      | some d => takeDigits rest (count + 1) (value * 10 + d)
      | none => (count, value, c :: rest)

/-- A JSON number without its sign: integer part (no leading zero before another digit),
optional fraction, optional exponent. -/
def parseJsonUnsigned (cs : List Char) : Option (ℚ × List Char) :=
  let int := takeDigits cs 0 0
  if int.1 = 0 then none
  else if int.1 > 1 ∧ cs.head? = some '0' then none
  else
    let frac : Option (ℚ × List Char) :=
      match int.2.2 with
      | '.' :: rest =>
          let f := takeDigits rest 0 0
          if f.1 = 0 then none
          else some ((int.2.1 : ℚ) + (f.2.1 : ℚ) / (10 : ℚ) ^ f.1, f.2.2)
      | rest => some ((int.2.1 : ℚ), rest)
    match frac with
    | none => none
    | some (m, rest) =>
        match rest with
        | e :: rest' =>
            if e = 'e' ∨ e = 'E' then
              let signed : Bool × List Char :=
                match rest' with
                | '+' :: r => (false, r)
                | '-' :: r => (true, r)
                | r => (false, r)
              let x := takeDigits signed.2 0 0
              if x.1 = 0 then none
              else if signed.1 then some (m / (10 : ℚ) ^ x.2.1, x.2.2)
              else some (m * (10 : ℚ) ^ x.2.1, x.2.2)
            else some (m, rest)
        | [] => some (m, [])

/-- Four hexadecimal digits. -/
def parseHex4 : List Char → Option (Nat × List Char)
  | a :: b :: c :: d :: rest =>
      match hexValue a, hexValue b, hexValue c, hexValue d with
      | some a, some b, some c, some d => some (((a * 16 + b) * 16 + c) * 16 + d, rest)
      | _, _, _, _ => none
  | _ => none

/-- The characters of a JSON string after its opening quote, up to the closing quote.  An
escaped surrogate pair is one character; a lone surrogate is U+FFFD as in Go. -/
def parseJsonString : Nat → List Char → List Char → Option (String × List Char)
  | 0, _, _ => none
  | _ + 1, [], _ => none
  | fuel + 1, c :: rest, acc =>
      if c = '"' then some (String.mk acc.reverse, rest)
      else if c = '\\' then
        match rest with
        | 'u' :: rest' =>
            match parseHex4 rest' with
            | none => none
            | some (hi, rest'') =>
                if 0xD800 ≤ hi ∧ hi < 0xDC00 then
                  match rest'' with
                  | '\\' :: 'u' :: rest3 =>
                      match parseHex4 rest3 with
                      | some (lo, rest4) =>
                          if 0xDC00 ≤ lo ∧ lo < 0xE000 then
                            parseJsonString fuel rest4
                              (Char.ofNat (0x10000 + (hi - 0xD800) * 0x400 + (lo - 0xDC00)) :: acc)
                          else parseJsonString fuel rest'' (Char.ofNat 0xFFFD :: acc)
                      | none => none
                  | _ => parseJsonString fuel rest'' (Char.ofNat 0xFFFD :: acc)
                else if 0xDC00 ≤ hi ∧ hi < 0xE000 then
                  parseJsonString fuel rest'' (Char.ofNat 0xFFFD :: acc)
                else parseJsonString fuel rest'' (Char.ofNat hi :: acc)
        | e :: rest' =>
            let plain : Option Char :=
              if e = '"' then some '"' else if e = '\\' then some '\\'
              else if e = '/' then some '/' else if e = 'b' then some (Char.ofNat 8)
              else if e = 'f' then some (Char.ofNat 12) else if e = 'n' then some '\n'
              else if e = 'r' then some '\r' else if e = 't' then some '\t' else none
            match plain with
            | some x => parseJsonString fuel rest' (x :: acc)
            | none => none
        | [] => none
      else if c.toNat < 0x20 then none
      else parseJsonString fuel rest (c :: acc)

/-- What the parser is in the middle of: a value, the rest of an array, the rest of an
object. -/
inductive JsonTask where
  | value
  | elems (acc : List Json)
  | members (acc : List (String × Json))

/-- The JSON grammar, with `fuel` bounding the number of steps.  For `value` the result
holds the value; for `elems` and `members` it holds the finished array or object, the
opening bracket and the items in `acc` having been read. -/
def parseJson : Nat → JsonTask → List Char → Option (Json × List Char)
  | 0, _, _ => none
  | fuel + 1, JsonTask.value, cs =>
      match cs.dropWhile isJsonSpace with
      | 'n' :: 'u' :: 'l' :: 'l' :: rest => some (Json.null, rest)
      | 't' :: 'r' :: 'u' :: 'e' :: rest => some (Json.bool true, rest)
      | 'f' :: 'a' :: 'l' :: 's' :: 'e' :: rest => some (Json.bool false, rest)
      | '"' :: rest =>
          match parseJsonString (rest.length + 1) rest [] with
          | some (s, rest') => some (Json.str s, rest')
          | none => none
      | '[' :: rest =>
          match rest.dropWhile isJsonSpace with
          | ']' :: rest' => some (Json.arr [], rest')
          | _ => parseJson fuel (JsonTask.elems []) rest
      | '{' :: rest =>
          match rest.dropWhile isJsonSpace with
          | '}' :: rest' => some (Json.obj [], rest')
          | _ => parseJson fuel (JsonTask.members []) rest
      | '-' :: rest =>
          match parseJsonUnsigned rest with
          | some (x, rest') => some (Json.num (-x), rest')
          | none => none
      | rest =>
          match parseJsonUnsigned rest with
          | some (x, rest') => some (Json.num x, rest')
          | none => none
  | fuel + 1, JsonTask.elems acc, cs =>
      match parseJson fuel JsonTask.value cs with
      | none => none
      | some (v, rest) =>
          match rest.dropWhile isJsonSpace with
          | ',' :: rest' => parseJson fuel (JsonTask.elems (v :: acc)) rest'
          | ']' :: rest' => some (Json.arr (v :: acc).reverse, rest')
          | _ => none
  | fuel + 1, JsonTask.members acc, cs =>
      match cs.dropWhile isJsonSpace with
      | '"' :: rest =>
          match parseJsonString (rest.length + 1) rest [] with
          | none => none
          | some (key, rest') =>
              match rest'.dropWhile isJsonSpace with
              | ':' :: rest'' =>
                  match parseJson fuel JsonTask.value rest'' with
                  | none => none
                  | some (v, rest3) =>
                      match rest3.dropWhile isJsonSpace with
                      | ',' :: rest4 => parseJson fuel (JsonTask.members ((key, v) :: acc)) rest4
                      | '}' :: rest4 => some (Json.obj ((key, v) :: acc).reverse, rest4)
                      | _ => none
              | _ => none
      | _ => none

/-- A whole text as one JSON value: only whitespace may follow the value. -/
def parseJsonText (s : String) : Option Json :=
  match parseJson (2 * s.length + 2) JsonTask.value s.data with
  | some (v, rest) => if rest.all isJsonSpace then some v else none
  | none => none

/-- Decoding into a Go `string`: `some none` for JSON null (the field keeps its value),
`none` for a value of another type (an `UnmarshalTypeError`). -/
def Json.asString : Json → Option (Option String)
  | Json.null => some none
  | Json.str s => some (some s)
  | _ => none

/-- Decoding into a `*float64`. -/
def Json.asNumber : Json → Option (Option ℚ)
  | Json.null => some none
  | Json.num x => some (some x)
  | _ => none

/-- Decoding into a `[]string`: null gives the nil slice. -/
def Json.asStrings : Json → Option (List String)
  | Json.null => some []
  | Json.arr xs =>
      xs.foldr (fun x acc =>
        match x, acc with
        | Json.str s, some l => some (s :: l)
        | Json.null, some l => some ("" :: l)
        | _, _ => none) (some [])
  | _ => none

/-- Whether the object key `key` names the struct field with JSON name `name`: Go takes
the exact name and otherwise one that is equal under case folding (ASCII here). -/
def keyMatches (key name : String) : Bool :=
  key.data.map Char.toLower = name.data

/-- Decoding a JSON object into a `types.DateRange`, member by member. -/
def decodeDateRange : List (String × Json) → DateRange → Option DateRange
  | [], d => some d
  | (k, v) :: rest, d =>
      if keyMatches k "start" then
        match v.asString with
        | some (some s) => decodeDateRange rest { d with Start := s }
        | some none => decodeDateRange rest d
        | none => none
      else if keyMatches k "end" then
        match v.asString with
        | some (some s) => decodeDateRange rest { d with End := s }
        | some none => decodeDateRange rest d
        | none => none
      else decodeDateRange rest d

/-- Decoding a JSON object into a `types.AmountRange`, member by member. -/
def decodeAmountRange : List (String × Json) → AmountRange → Option AmountRange
  | [], a => some a
  | (k, v) :: rest, a =>
      if keyMatches k "min" then
        match v.asNumber with
        | some x => decodeAmountRange rest { a with Min := x }
        | none => none
      else if keyMatches k "max" then
        match v.asNumber with
        | some x => decodeAmountRange rest { a with Max := x }
        | none => none
      else decodeAmountRange rest a

/-- Setting a Go `string` field from a JSON value. -/
def setString (v : Json) (old : String) : Option String :=
  match v.asString with
  | some (some s) => some s
  | some none => some old
  | none => none

/-- Decoding a JSON object into a `types.FilterConditions`, member by member; a member
that names no field is skipped, a member of the wrong type is an error. -/
def decodeFilters : List (String × Json) → FilterConditions → Option FilterConditions
  | [], f => some f
  | (k, v) :: rest, f =>
      if keyMatches k "any_party" then
        match v.asStrings with
        | some l => decodeFilters rest { f with AnyParty := l }
        | none => none
      else if keyMatches k "party_a" then
        match setString v f.PartyA with
        | some s => decodeFilters rest { f with PartyA := s }
        | none => none
      else if keyMatches k "party_b" then
        match setString v f.PartyB with
        | some s => decodeFilters rest { f with PartyB := s }
        | none => none
      else if keyMatches k "contract_type" then
        match setString v f.ContractType with
        | some s => decodeFilters rest { f with ContractType := s }
        | none => none
      else if keyMatches k "status" then
        match setString v f.Status with
        | some s => decodeFilters rest { f with Status := s }
        | none => none
      else if keyMatches k "date_range" then
        match v with
        | Json.null => decodeFilters rest { f with DateRange := none }
        | Json.obj kvs =>
            match decodeDateRange kvs (f.DateRange.getD { Start := "", End := "" }) with
            | some d => decodeFilters rest { f with DateRange := some d }
            | none => none
        | _ => none
      else if keyMatches k "amount_range" then
        match v with
        | Json.null => decodeFilters rest { f with AmountRange := none }
        | Json.obj kvs =>
            match decodeAmountRange kvs (f.AmountRange.getD { Min := none, Max := none }) with
            | some a => decodeFilters rest { f with AmountRange := some a }
            | none => none
        | _ => none
      else decodeFilters rest f

/-- Decoding a JSON object into a `types.SearchIntent`, member by member. -/
def decodeIntent : List (String × Json) → SearchIntent → Option SearchIntent
  | [], i => some i
  | (k, v) :: rest, i =>
      if keyMatches k "intent" then
        match setString v i.Intent with
        | some s => decodeIntent rest { i with Intent := s }
        | none => none
      else if keyMatches k "filters" then
        match v with
        | Json.null => decodeIntent rest i
        | Json.obj kvs =>
            match decodeFilters kvs i.Filters with
            | some f => decodeIntent rest { i with Filters := f }
            | none => none
        | _ => none
      else if keyMatches k "semantic_query" then
        match setString v i.SemanticQuery with
        | some s => decodeIntent rest { i with SemanticQuery := s }
        | none => none
      else if keyMatches k "keywords" then
        match v.asStrings with
        | some l => decodeIntent rest { i with Keywords := l }
        | none => none
      else decodeIntent rest i

/-- The call `json.Unmarshal([]byte(raw), &intent)` on a zero `types.SearchIntent`: the
decoded intent, or `none` when the call returns an error (a syntax error, or a value of a
type the target does not take).  JSON null decodes without error and changes nothing. -/
def jsonUnmarshalIntent (raw : String) : Option SearchIntent :=
  let zero : SearchIntent :=
    { Intent := "", Filters := FilterConditions.zero, SemanticQuery := "", Keywords := [] }
  match parseJsonText raw with
  | none => none
  | some Json.null => some zero
  | some (Json.obj kvs) => decodeIntent kvs zero
  | some _ => none

/-! ## `time.Parse` with the layout `2006-01-02`, and `strconv.ParseFloat` -/

/-- Leap years of the proleptic Gregorian calendar. -/
def isLeapYear (y : Nat) : Bool :=
  y % 4 = 0 && (y % 100 ≠ 0 || y % 400 = 0)

/-- The number of days of month `m` of year `y`. -/
def daysIn (y m : Nat) : Nat :=
  if m = 2 then (if isLeapYear y then 29 else 28)
  else if m = 4 ∨ m = 6 ∨ m = 9 ∨ m = 11 then 30 else 31

/-- The number of days from January 1 of year 1 to the given date. -/
def daysSinceZero (y m d : Nat) : Int :=
  let y1 : Int := (y : Int) - 1
  365 * y1 + y1 / 4 - y1 / 100 + y1 / 400 +
    (((List.range (m - 1)).map (fun i => daysIn y (i + 1))).sum : Nat) + ((d : Int) - 1)

/-- The call `time.Parse("2006-01-02", s)`: four digits, a hyphen, two digits, a hyphen,
two digits and nothing else, naming a day that exists; the result is midnight UTC of that
day, `none` is an error. -/
def timeParseDate (s : String) : Option Time :=
  match s.data with
  | [y1, y2, y3, y4, '-', m1, m2, '-', d1, d2] =>
      match digitValue y1, digitValue y2, digitValue y3, digitValue y4,
        digitValue m1, digitValue m2, digitValue d1, digitValue d2 with
      | some y1, some y2, some y3, some y4, some m1, some m2, some d1, some d2 =>
          let y := ((y1 * 10 + y2) * 10 + y3) * 10 + y4
          let m := m1 * 10 + m2
          let d := d1 * 10 + d2
          if 1 ≤ m ∧ m ≤ 12 ∧ 1 ≤ d ∧ d ≤ daysIn y m then some (daysSinceZero y m d * 86400)
          else none
      | _, _, _, _, _, _, _, _ => none
  | _ => none

/-- The decimal fragment of `strconv.ParseFloat(s, 64)`: an optional sign, digits with an
optional decimal point, at least one digit.  Exponents, hexadecimal floats, infinities and
NaN, which `ParseFloat` also takes, are left out (`none`). -/
def parseDecimal (s : String) : Option ℚ :=
  let signed : Bool × List Char :=
    match s.data with
    | '+' :: r => (false, r)
    | '-' :: r => (true, r)
    | r => (false, r)
  let int := takeDigits signed.2 0 0
  let value : Option ℚ :=
    match int.2.2 with
    | [] => if int.1 = 0 then none else some (int.2.1 : ℚ)
    | '.' :: rest =>
        let f := takeDigits rest 0 0
        if f.2.2 ≠ [] ∨ int.1 + f.1 = 0 then none
        else some ((int.2.1 : ℚ) + (f.2.1 : ℚ) / (10 : ℚ) ^ f.1)
    | _ => none
  value.map (fun x => if signed.1 then -x else x)

/-! ## `storage/es/retriever.go`: the keyword-store filter -/

/-- The struct `es.Filter`; a nil pointer is `none`, a nil slice is `[]`. -/
structure es.Filter where
  AnyParty : List String
  PartyA : String
  PartyB : String
  ContractType : String
  ContractStatus : Option Int
  SignDateStart : Option Time
  SignDateEnd : Option Time
  EndDateStart : Option Time
  EndDateEnd : Option Time
  AmountMin : Option ℚ
  AmountMax : Option ℚ
  DocIDs : List String
  deriving DecidableEq, Repr

/-- A value in a query body: a string, an `int`, a `float64`, or the RFC 3339 text of an
instant (`t.Format(time.RFC3339)`). -/
inductive ESValue where
  | str (s : String)
  | int (n : Int)
  | num (x : ℚ)
  | rfc3339 (t : Time)
  deriving DecidableEq, Repr

/-- One entry of the list `buildFilterQueries` returns.  `boolShould` is the `bool` query
with its `should` list of `term` queries and `minimum_should_match`; `range` holds the map
from field to the map from `gte` / `lte` to the bound, in insertion order. -/
inductive ESQuery where
  | term (field : String) (value : ESValue)
  | terms (field : String) (values : List String)
  | range (fields : List (String × List (String × ESValue)))
  | boolShould (should : List (String × ESValue)) (minimum_should_match : Nat)
  deriving DecidableEq, Repr

/-- The map `rangeFilters` of `buildFilterQueries` (lines 345-379): one entry for each of
`sign_date`, `end_date` and `amount` that has a bound. -/
def buildRangeFilters (filters : es.Filter) : List (String × List (String × ESValue)) :=
  let rangeFilters : List (String × List (String × ESValue)) := []
  let rangeFilters :=
    if filters.SignDateStart ≠ none ∨ filters.SignDateEnd ≠ none then
      rangeFilters ++ [("sign_date",
        (filters.SignDateStart.map (fun t => ("gte", ESValue.rfc3339 t))).toList ++
          (filters.SignDateEnd.map (fun t => ("lte", ESValue.rfc3339 t))).toList)]
    else rangeFilters
  let rangeFilters :=
    if filters.EndDateStart ≠ none ∨ filters.EndDateEnd ≠ none then
      rangeFilters ++ [("end_date",
        (filters.EndDateStart.map (fun t => ("gte", ESValue.rfc3339 t))).toList ++
          (filters.EndDateEnd.map (fun t => ("lte", ESValue.rfc3339 t))).toList)]
    else rangeFilters
  let rangeFilters :=
    if filters.AmountMin ≠ none ∨ filters.AmountMax ≠ none then
      rangeFilters ++ [("amount",
        (filters.AmountMin.map (fun x => ("gte", ESValue.num x))).toList ++
          (filters.AmountMax.map (fun x => ("lte", ESValue.num x))).toList)]
    else rangeFilters
  rangeFilters

/-- The function `buildFilterQueries`. -/
def buildFilterQueries (filters : Option es.Filter) : List ESQuery :=
  match filters with
  | none => []
  | some filters =>
      let filterQueries : List ESQuery := []
      let filterQueries :=
        if filters.AnyParty.length > 0 then
          filterQueries ++ [ESQuery.boolShould
            (filters.AnyParty.flatMap (fun party =>
              [("party_a", ESValue.str party), ("party_b", ESValue.str party)])) 1]
        else filterQueries
      let filterQueries :=
        if filters.PartyA ≠ "" then
          filterQueries ++ [ESQuery.term "party_a" (ESValue.str filters.PartyA)]
        else filterQueries
      let filterQueries :=
        if filters.PartyB ≠ "" then
          filterQueries ++ [ESQuery.term "party_b" (ESValue.str filters.PartyB)]
        else filterQueries
      let filterQueries :=
        if filters.ContractType ≠ "" then
          filterQueries ++ [ESQuery.term "contract_type" (ESValue.str filters.ContractType)]
        else filterQueries
      let filterQueries :=
        if filters.ContractStatus ≠ none then
          filterQueries ++ [ESQuery.term "contract_status"
            (ESValue.int (filters.ContractStatus.getD 0))]
        else filterQueries
      let rangeFilters := buildRangeFilters filters
      let filterQueries :=
        if rangeFilters.length > 0 then filterQueries ++ [ESQuery.range rangeFilters]
        else filterQueries
      let filterQueries :=
        if filters.DocIDs.length > 0 then filterQueries ++ [ESQuery.terms "doc_id" filters.DocIDs]
        else filterQueries
      filterQueries

/-- The function `SearchByParties`: no request for an empty list; otherwise the `doc_id`s
of the hits, each once.  `hits parties` is the `doc_id` of every hit of the `bool should`
query over `party_a` and `party_b` (at most 100 hits), `none` when the request fails.  Go
collects the IDs in a map and ranges over it, so the order of the result is not fixed. -/
def SearchByParties (hits : List String → Option (List String)) (parties : List String) :
    Option (List String) :=
  if parties.length = 0 then some []
  else
    match hits parties with
    | none => none
    | some ids => some ids.eraseDups

/-! ## `storage/milvus/retriever.go`: `BuildExpr` -/

/-- The verb `%f` of `fmt.Sprintf` on a `float64`: six digits after the point, the exact
value rounded half to even. -/
def formatFloat6 (x : ℚ) : String :=
  let scaled := x.num.natAbs * 1000000
  let q := scaled / x.den
  let r := scaled % x.den
  let q := if 2 * r > x.den ∨ (2 * r = x.den ∧ q % 2 = 1) then q + 1 else q
  let frac := toString (q % 1000000)
  (if x.num < 0 then "-" else "") ++ toString (q / 1000000) ++ "." ++
    String.mk (List.replicate (6 - frac.length) '0') ++ frac

/-- The seconds between the zero time (January 1 of year 1) and the Unix epoch. -/
def unixToInternal : Int := 62135596800

/-- The function `parseDateToTimestamp`: the Unix time of midnight UTC of the day, `none`
when `time.Parse` returns an error. -/
def parseDateToTimestamp (dateStr : String) : Option Int :=
  match timeParseDate dateStr with
  | none => none
  | some t => some (t - unixToInternal)

/-- Step 6 of `BuildExpr` (lines 183-198): the clauses of the date range, appended to
`exprs`.  A bound that `parseDateToTimestamp` rejects adds nothing. -/
def appendDateExprs (exprs : List String) (filters : FilterConditions) : List String :=
  match filters.DateRange with
  | none => exprs
  | some dateRange =>
      let exprs :=
        if dateRange.Start ≠ "" then
          match parseDateToTimestamp dateRange.Start with
          | some t => exprs ++ ["sign_date >= " ++ toString t]
          | none => exprs
        else exprs
      if dateRange.End ≠ "" then
        match parseDateToTimestamp dateRange.End with
        | some t => exprs ++ ["sign_date <= " ++ toString (t + 86399)]
        | none => exprs
      else exprs

/-- Step 7 of `BuildExpr` (lines 200-208): the clauses of the amount range, appended to
`exprs`.  A bound that is not greater than 0 adds nothing. -/
def appendAmountExprs (exprs : List String) (filters : FilterConditions) : List String :=
  match filters.AmountRange with
  | none => exprs
  | some amountRange =>
      let exprs :=
        match amountRange.Min with
        | some min => if min > 0 then exprs ++ ["amount >= " ++ formatFloat6 min] else exprs
        | none => exprs
      match amountRange.Max with
      | some max => if max > 0 then exprs ++ ["amount <= " ++ formatFloat6 max] else exprs
      | none => exprs

/-- The slice `exprs` of `BuildExpr` before it is joined. -/
def buildExprs (filters : FilterConditions) : List String :=
  let exprs : List String := []
  let exprs :=
    if filters.AnyParty.length > 0 then
      let partyExprs := filters.AnyParty.map (fun party =>
        "(party_a == '" ++ party ++ "' || party_b == '" ++ party ++ "')")
      exprs ++ ["(" ++ " || ".intercalate partyExprs ++ ")"]
    else exprs
  let exprs :=
    if filters.PartyA ≠ "" then exprs ++ ["party_a == '" ++ filters.PartyA ++ "'"] else exprs
  let exprs :=
    if filters.PartyB ≠ "" then exprs ++ ["party_b == '" ++ filters.PartyB ++ "'"] else exprs
  let exprs :=
    if filters.ContractType ≠ "" then exprs ++ ["contract_type == '" ++ filters.ContractType ++ "'"]
    else exprs
  let exprs :=
    if filters.Status ≠ "" then exprs ++ ["contract_status == '" ++ filters.Status ++ "'"]
    else exprs
  let exprs := appendDateExprs exprs filters
  let exprs := appendAmountExprs exprs filters
  exprs

/-- The function `BuildExpr`. -/
def BuildExpr (filters : FilterConditions) : String :=
  " && ".intercalate (buildExprs filters)

/-! ## `storage/postgres/repo.go`: `SearchContracts` and `ExpireContracts` -/

/-- One `Where` of the statement `SearchContracts` builds; GORM joins them with `AND`.
`anyPartyLike` is the `OR` over its patterns of `party_a LIKE p OR party_b LIKE p`. -/
inductive SQLCond where
  | docIDIn (ids : List String)
  | anyPartyLike (patterns : List String)
  | partyALike (pattern : String)
  | partyBLike (pattern : String)
  | typeIsOrFileNameLike (contractType pattern : String)
  | statusIs (status : Int)
  | signDateGE (text : String)
  | signDateLE (text : String)
  | amountGE (x : ℚ)
  | amountLE (x : ℚ)
  deriving DecidableEq, Repr

/-- Steps 5 and 6 of `SearchContracts` (lines 122-140): the conditions of the date range
and of the amount range, appended to `tx`. -/
def appendRangeConds (tx : List SQLCond) (conditions : FilterConditions) : List SQLCond :=
  let tx :=
    match conditions.DateRange with
    | none => tx
    | some dateRange =>
        let tx := if dateRange.Start ≠ "" then tx ++ [SQLCond.signDateGE dateRange.Start] else tx
        if dateRange.End ≠ "" then tx ++ [SQLCond.signDateLE dateRange.End] else tx
  match conditions.AmountRange with
  | none => tx
  | some amountRange =>
      let tx :=
        match amountRange.Min with
        | some min => tx ++ [SQLCond.amountGE min]
        | none => tx
      match amountRange.Max with
      | some max => tx ++ [SQLCond.amountLE max]
      | none => tx

/-- The statement `SearchContracts` builds.  `docIDs` is the variadic parameter, a slice of
slices. -/
def searchConds (conditions : FilterConditions) (docIDs : List (List String)) : List SQLCond :=
  let tx : List SQLCond := []
  let tx :=
    if docIDs.length > 0 ∧ (docIDs.headD []).length > 0 then
      tx ++ [SQLCond.docIDIn (docIDs.headD [])]
    else tx
  let tx :=
    if (docIDs.length = 0 ∨ (docIDs.headD []).length = 0) ∧ conditions.AnyParty.length > 0 then
      tx ++ [SQLCond.anyPartyLike (conditions.AnyParty.map (fun party => "%" ++ party ++ "%"))]
    else tx
  let tx :=
    if conditions.PartyA ≠ "" then tx ++ [SQLCond.partyALike ("%" ++ conditions.PartyA ++ "%")]
    else tx
  let tx :=
    if conditions.PartyB ≠ "" then tx ++ [SQLCond.partyBLike ("%" ++ conditions.PartyB ++ "%")]
    else tx
  let tx :=
    if conditions.ContractType ≠ "" then
      tx ++ [SQLCond.typeIsOrFileNameLike conditions.ContractType
        ("%" ++ conditions.ContractType ++ "%")]
    else tx
  let tx :=
    if conditions.Status ≠ "" then
      if conditions.Status = "已过期" ∨ conditions.Status = "expired" then
        tx ++ [SQLCond.statusIs StatusExpired]
      else tx ++ [SQLCond.statusIs StatusActive]
    else tx
  appendRangeConds tx conditions

/-- What the database makes of a statement, beyond the rows: the operator `LIKE`
(`like value pattern`), the conversion of a text parameter compared with a timestamp
column (`none`: the statement is refused), and whether the statement fails for a reason of
its own (connection, timeout). -/
structure SQLEngine where
  like : String → String → Bool
  timestamp : String → Option Time
  fails : List SQLCond → Bool

/-- Whether a row satisfies one condition.  A comparison with a null column is not true,
and neither is one with a text the database does not convert. -/
def SQLCond.holds (db : SQLEngine) (c : Contract) : SQLCond → Bool
  | SQLCond.docIDIn ids => ids.contains c.DocID
  | SQLCond.anyPartyLike patterns =>
      patterns.any (fun p => db.like c.PartyA p || db.like c.PartyB p)
  | SQLCond.partyALike p => db.like c.PartyA p
  | SQLCond.partyBLike p => db.like c.PartyB p
  | SQLCond.typeIsOrFileNameLike t p => decide (c.ContractType = t) || db.like c.FileName p
  | SQLCond.statusIs s => decide (c.ContractStatus = s)
  | SQLCond.signDateGE text =>
      match db.timestamp text, c.SignDate with
      | some t, some d => decide (d ≥ t)
      | _, _ => false
  | SQLCond.signDateLE text =>
      match db.timestamp text, c.SignDate with
      | some t, some d => decide (d ≤ t)
      | _, _ => false
  | SQLCond.amountGE x => decide (c.TotalAmount ≥ x)
  | SQLCond.amountLE x => decide (c.TotalAmount ≤ x)

/-- Whether the database can evaluate a condition: the text of a date bound converts. -/
def SQLCond.valid (db : SQLEngine) : SQLCond → Bool
  | SQLCond.signDateGE text => (db.timestamp text).isSome
  | SQLCond.signDateLE text => (db.timestamp text).isSome
  | _ => true

/-- The statement `SELECT doc_id FROM contracts WHERE ...`: the `doc_id` of every row that
satisfies all conditions (in the order of the table; SQL fixes none), `none` when the
statement fails. -/
def findDocIDs (db : SQLEngine) (pg : List Contract) (conds : List SQLCond) :
    Option (List String) :=
  if db.fails conds || !conds.all (SQLCond.valid db) then none
  else some ((pg.filter (fun c => conds.all (SQLCond.holds db c))).map Contract.DocID)

/-- The method `ContractRepo.SearchContracts`. -/
def ContractRepo.SearchContracts (db : SQLEngine) (pg : List Contract)
    (conditions : FilterConditions) (docIDs : List (List String)) : Option (List String) :=
  findDocIDs db pg (searchConds conditions docIDs)

/-- The `WHERE` of `ExpireContracts`: `contract_status = StatusActive AND end_date < now`;
a null `end_date` does not compare. -/
def expireWhere (now : Time) (c : Contract) : Bool :=
  decide (c.ContractStatus = StatusActive) &&
    (match c.EndDate with
      | some d => decide (d < now)
      | none => false)

/-- The method `ContractRepo.ExpireContracts`: one `UPDATE` of the rows that satisfy
`expireWhere`, which GORM extends by `updated_at`, set to its clock `stamp`.  The result
is the table afterwards, `RowsAffected`, and whether the error is non-nil (`fails`:
nothing changes). -/
def ContractRepo.ExpireContracts (fails : Bool) (stamp : Time) (pg : List Contract)
    (now : Time) : List Contract × Int × Bool :=
  if fails then (pg, 0, true)
  else
    (pg.map (fun c =>
        if expireWhere now c then { c with ContractStatus := StatusExpired, UpdatedAt := stamp }
        else c),
      ((pg.filter (expireWhere now)).length : Int), false)

/-! ## `service/retrieval.go`: `Search` -/

/-- The method `convertFiltersToES`. -/
def RetrievalService.convertFiltersToES (filters : Option FilterConditions) : Option es.Filter :=
  match filters with
  | none => none
  | some filters =>
      let esFilter : es.Filter :=
        { AnyParty := filters.AnyParty, PartyA := filters.PartyA, PartyB := filters.PartyB,
          ContractType := filters.ContractType, ContractStatus := none, SignDateStart := none,
          SignDateEnd := none, EndDateStart := none, EndDateEnd := none, AmountMin := none,
          AmountMax := none, DocIDs := [] }
      let esFilter :=
        if filters.Status ≠ "" then
          let status : Int := 1
          let status := if filters.Status = "已过期" ∨ filters.Status = "过期" then 0 else status
          { esFilter with ContractStatus := some status }
        else esFilter
      let esFilter :=
        match filters.DateRange with
        | none => esFilter
        | some dateRange =>
            let esFilter :=
              if dateRange.Start ≠ "" then
                match timeParseDate dateRange.Start with
                | some t => { esFilter with SignDateStart := some t }
                | none => esFilter
              else esFilter
            if dateRange.End ≠ "" then
              match timeParseDate dateRange.End with
              | some t => { esFilter with SignDateEnd := some t }
              | none => esFilter
            else esFilter
      let esFilter :=
        match filters.AmountRange with
        | none => esFilter
        | some amountRange =>
            { esFilter with AmountMin := amountRange.Min, AmountMax := amountRange.Max }
      some esFilter

/-- The collaborators of a search: the language model and the JSON decoder of
`AnalyzeQuery`, the party query of the keyword store, the database, and the two
retrievers (`none`: the call returns an error). -/
structure QueryEnv where
  chatModel : String → Option String
  unmarshal : String → Option SearchIntent
  partyHits : List String → Option (List String)
  db : SQLEngine
  vectorSearch : String → String → Option (List (Option Document))
  keywordSearch : String → List ESQuery → Option (List (Option Document))

/-- The string `Search` returns: "无法分析用户输入", "ES 查询失败: ...",
"抱歉，没有找到符合条件的合同", "PG查询失败", "根据条件，共找到 n 份合同。", the empty
string next to a retriever's error, and "混合检索完成：融合后 n 条结果，总耗时 ...". -/
inductive Answer where
  | analyzeFailed
  | partySearchFailed
  | noResults
  | pgFailed
  | found (n : Nat)
  | retrievalFailed
  | hybrid (n : Nat)
  deriving DecidableEq, Repr

/-- A request `Search` sends to a store. -/
inductive StoreCall where
  | partySearch (parties : List String)
  | pgSearch (conds : List SQLCond)
  | pgGet (docID : String)
  | vectorSearch (query expr : String)
  | keywordSearch (query : String) (filters : List ESQuery)
  deriving DecidableEq, Repr

/-- What a call of `Search` returns, and (for stating properties) the requests it sent. -/
structure SearchResult where
  answer : Answer
  err : Bool
  calls : List StoreCall
  deriving DecidableEq, Repr

/-- Lines 72-92 of `Search`: the relational query restricted to `esDocIDs` when that list
is not empty, then one read per document found (its result is only printed). -/
def relationalStage (env : QueryEnv) (pg : List Contract) (filters : FilterConditions)
    (esDocIDs : List String) (calls : List StoreCall) : SearchResult :=
  let calls := calls ++ [StoreCall.pgSearch (searchConds filters [esDocIDs])]
  match ContractRepo.SearchContracts env.db pg filters [esDocIDs] with
  | none => { answer := Answer.pgFailed, err := true, calls := calls }
  | some docIDs =>
      if docIDs.length = 0 then { answer := Answer.noResults, err := false, calls := calls }
      else
        { answer := Answer.found docIDs.length, err := false,
          calls := calls ++ docIDs.map StoreCall.pgGet }

/-- The branch `analyzeQuery.Intent == vars.PG` of `Search` (lines 52-92). -/
def structuredSearch (env : QueryEnv) (pg : List Contract) (filters : FilterConditions) :
    SearchResult :=
  if filters.AnyParty.length > 0 then
    match SearchByParties env.partyHits filters.AnyParty with
    | none =>
        { answer := Answer.partySearchFailed, err := true,
          calls := [StoreCall.partySearch filters.AnyParty] }
    | some esDocIDs =>
        if esDocIDs.length = 0 then
          { answer := Answer.noResults, err := false,
            calls := [StoreCall.partySearch filters.AnyParty] }
        else relationalStage env pg filters esDocIDs [StoreCall.partySearch filters.AnyParty]
  else relationalStage env pg filters [] []

/-- The other branch of `Search` (lines 94-132); `none` when `HybridReranker` panics. -/
def hybridSearch (env : QueryEnv) (intent : SearchIntent) : Option SearchResult :=
  let expr := BuildExpr intent.Filters
  let calls := [StoreCall.vectorSearch intent.SemanticQuery expr]
  match env.vectorSearch intent.SemanticQuery expr with
  | none => some { answer := Answer.retrievalFailed, err := true, calls := calls }
  | some milvusDocs =>
      let esFilters := RetrievalService.convertFiltersToES (some intent.Filters)
      let esQuery := intent.SemanticQuery ++ " " ++ " ".intercalate intent.Keywords
      let calls := calls ++ [StoreCall.keywordSearch esQuery (buildFilterQueries esFilters)]
      match env.keywordSearch esQuery (buildFilterQueries esFilters) with
      | none => some { answer := Answer.retrievalFailed, err := true, calls := calls }
      | some esDocs =>
          match HybridRerankerStable milvusDocs esDocs none with
          | none => none
          | some rerankedDocs =>
              some { answer := Answer.hybrid rerankedDocs.length, err := false, calls := calls }

/-- The method `RetrievalService.Search`; `pg` is the table `contracts`. -/
def RetrievalService.Search (env : QueryEnv) (pg : List Contract) (query : String) :
    Option SearchResult :=
  match AnalyzeQuery env.unmarshal query env.chatModel with
  | none => some { answer := Answer.analyzeFailed, err := true, calls := [] }
  | some analyzeQuery =>
      if analyzeQuery.Intent = PG then some (structuredSearch env pg analyzeQuery.Filters)
      else hybridSearch env analyzeQuery

/-! ## `score.go`: the score reranker -/

/-- The struct `Config` of the score reranker; a nil `ScoreFieldKey` is `none`. -/
structure Config where
  ScoreFieldKey : Option String

/-- The struct `reranker`.  The getter reads through the document pointer, so on a nil
document it panics (`none`). -/
structure reranker where
  scoreGetter : Option Document → Option ℚ

/-- The function `NewReranker`: the getter is `Score()` without a key, and with a
key the `float64` filed under it (0 when the key is missing or holds another type).
A nil `config` panics. -/
def NewReranker (config : Option Config) : Option reranker :=
  match config with
  | none => none
  | some config =>
    match config.ScoreFieldKey with
    | none =>
      some { scoreGetter := fun doc =>
        match doc with
        | none => none
        | some doc => some doc.Score }
    | some key =>
      some { scoreGetter := fun doc =>
        match doc with
        | none => none
        | some doc =>
          match doc.MetaData.get key with
          | some (MetaValue.float vv) => some vv
          | _ => some 0 }

/-- The order `sortedDocuments.Less` between two entries whose scores can be read. -/
def sortedDocuments.Less (scoreGetter : Option Document → Option ℚ) (a b : Option Document) :
    Prop :=
  (scoreGetter a).getD 0 > (scoreGetter b).getD 0

instance (scoreGetter : Option Document → Option ℚ) (a b : Option Document) :
    Decidable (sortedDocuments.Less scoreGetter a b) := by
  unfold sortedDocuments.Less; infer_instance

/-- The placement loop of `Transform` from index `i` on: the entry at an even index goes
to `ret[i/2]`, the entry at an odd index to `ret[len(ret)-1-i/2]`. -/
def placeLoop (copied : List (Option Document)) (i : Nat) (ret : List (Option Document)) :
    List (Option Document) :=
  match copied with
  | [] => ret
  | d :: rest =>
    placeLoop rest (i + 1)
      (if i % 2 = 0 then ret.set (i / 2) d else ret.set (ret.length - 1 - i / 2) d)

/-- What a call of `Transform` leaves: the slice `src` of the caller and the slice
returned. -/
structure Transformed where
  src : List (Option Document)
  ret : List (Option Document)
  deriving DecidableEq

/-- The method `reranker.Transform` as a relation between the slice and what a run can
produce (`none`: the run panics).  `sort.Sort` is not stable and works on the copy: a run
may leave any arrangement of the copy in which no entry is `Less` than an earlier one;
on two or more entries it reads the score of every entry. -/
def reranker.Transform (r : reranker) (src : List (Option Document))
    (out : Option Transformed) : Prop :=
  let copied := src
  if copied.length ≥ 2 ∧ copied.any (fun d => (r.scoreGetter d).isNone) = true then out = none
  else
    ∃ sorted : List (Option Document),
      sorted.Perm copied ∧
        sorted.Pairwise (fun a b => ¬ sortedDocuments.Less r.scoreGetter b a) ∧
        out = some { src := src, ret := placeLoop sorted 0 (List.replicate src.length none) }

/-- One run of `Transform`: the copy sorted by a stable insertion sort. -/
def reranker.TransformStable (r : reranker) (src : List (Option Document)) :
    Option Transformed :=
  let copied := src
  if copied.length ≥ 2 ∧ copied.any (fun d => (r.scoreGetter d).isNone) = true then none
  else
    let sorted := copied.insertionSort
      (fun a b => (r.scoreGetter a).getD 0 ≥ (r.scoreGetter b).getD 0)
    some { src := src, ret := placeLoop sorted 0 (List.replicate src.length none) }

/-! ## `logic/ingestion/extract/extract.go`: `ExtractAndClean` -/

/-- The UTF-8 encoding of one character, as the bytes of a Go string hold it. -/
def utf8EncodeChar (c : Char) : List Nat :=
  let v := c.toNat
  if v < 0x80 then [v]
  else if v < 0x800 then [0xC0 + v / 0x40, 0x80 + v % 0x40]
  else if v < 0x10000 then [0xE0 + v / 0x1000, 0x80 + v / 0x40 % 0x40, 0x80 + v % 0x40]
  else [0xF0 + v / 0x40000, 0x80 + v / 0x1000 % 0x40, 0x80 + v / 0x40 % 0x40, 0x80 + v % 0x40]

/-- The bytes of the Go string that holds the text `s`. -/
def utf8Encode (s : String) : List Nat :=
  s.data.flatMap utf8EncodeChar

/-- The constant `vars.EXTARACT`, the template of the extraction prompt. -/
def EXTARACT : String :=
  "\n".intercalate [
      "",
      "你是一个专业的合同数据录入员。请从以下合同文本中提取关键结构化信息。",
      "当前日期: \x7b\x7b.CurrentDate\x7d\x7d (用于推算相对时间，如\"有效期一年\")",
      "",
      "请严格按照以下规则提取字段 (JSON格式):",
      "",
      "1. **party_a**: 甲方/委托方/出租方/雇主 (全称)。",
      "2. **party_b**: 乙方/受托方/承租方/员工 (全称)。",
      "",
      "3. **contract_type**: 合同类型。为了便于数据库索引，请优先将其归类为以下**标准类别**之一：",
      "   - [物资采购合同, 销售合同, 房屋租赁合同, 劳动合同, 劳务派遣合同, 保密协议]",
      "   - [软件开发合同, 技术服务合同, 居间服务合同, 咨询服务合同, 运维服务合同]",
      "   - [借款合同, 担保合同, 股权转让协议, 投融资协议]",
      "   - [建设工程合同, 装修工程合同, 品牌加盟合同, 框架合作协议, 补充协议]",
      "   *如果以上均不匹配，请根据合同标题或内容提取最简短、通用的法律名称（不超过6个字，例如\"赠与合同\"）。",
      "",
      "4. **sign_date**: 签署日期 (格式: YYYY-MM-DD)。如果文中未提及具体日期，留空。",
      "5. **end_date**: 截止/到期日期 (格式: YYYY-MM-DD)。",
      "   - 必须基于\"签署日期\"或\"生效日期\" + \"有效期\"进行推算。",
      "   - 如果是\"永久\"、\"长期\"或未提及，留空。",
      "",
      "6. **total_amount**: 合同总金额 (纯数字，单位: 元)。",
      "   - 必须将\"万元\"、\"亿元\"、\"美元\"等统一换算为\"人民币元\"。",
      "   - 如果不涉及金额(如保密协议)或金额不固定(如框架协议)，填 0。",
      "   - 如果有多个金额，提取总包金额或上限金额。",
      "",
      "7. **summary**: 简明摘要 (100字以内)。格式：\"A公司与B公司签署了XX合同，主要关于XX的交易/合作，总金额XX元，有效期至XX。\"",
      "8. **keywords**: 提取3-5个核心关键词 (用于全文检索)，如产品名、项目地、核心条款等。",
      "",
      "文本内容:",
      "\x7b\x7b.Content\x7d\x7d",
      "",
      "Output JSON only:",
      ""]

/-- The function `strings.Replace(s, old, new, -1)` on the bytes of a string, for a
non-empty `old`; `skip` is the number of bytes of the current occurrence still to pass
over. -/
def replaceAllBytes (old new : List Nat) : List Nat → Nat → List Nat
  | [], _ => []
  | _ :: bs, skip + 1 => replaceAllBytes old new bs skip
  | b :: bs, 0 =>
      if old.isPrefixOf (b :: bs) then new ++ replaceAllBytes old new bs (old.length - 1)
      else b :: replaceAllBytes old new bs 0

/-- The function `strings.ReplaceAll` on the bytes of a string. -/
def ReplaceAll (s old new : List Nat) : List Nat :=
  replaceAllBytes old new s 0

/-- Lines 30-33: the bytes of the document content, cut to `content[:10000]` when there
are more than 10000. -/
def promptContent (content : String) : List Nat :=
  let content := utf8Encode content
  if content.length > 10000 then content.take 10000 else content

/-- Lines 35-36: the prompt, the template with the content and then the current date put
in; `today` is `time.Now().Format("2006-01-02")`. -/
def extractPrompt (today content : String) : List Nat :=
  let prompt := ReplaceAll (utf8Encode EXTARACT) (utf8Encode "\x7b\x7b.Content\x7d\x7d")
    (promptContent content)
  ReplaceAll prompt (utf8Encode "\x7b\x7b.CurrentDate\x7d\x7d") (utf8Encode today)

/-- The function `strings.TrimPrefix`. -/
def TrimPrefix (s pre : List Char) : List Char :=
  if pre.isPrefixOf s then s.drop pre.length else s

/-- The function `strings.TrimSuffix`. -/
def TrimSuffix (s suf : List Char) : List Char :=
  if suf.isSuffixOf s then s.take (s.length - suf.length) else s

/-- Lines 45-49: the answer without surrounding white space and code-fence markers. -/
def stripFences (content : String) : String :=
  let jsonStr := trimSpace content.data
  let jsonStr := TrimPrefix jsonStr "```json".data
  let jsonStr := TrimPrefix jsonStr "```".data
  let jsonStr := TrimSuffix jsonStr "```".data
  String.mk jsonStr

/-- The function `ExtractAndClean`.  `generate prompt` is the content of the model's
answer to the prompt, `none` when `Generate` returns an error; `unmarshal` is
`json.Unmarshal` into a `types.ContractRawData`, `none` when it returns an error.  The
result `none` is the return `nil, err`. -/
def ExtractAndClean (today : String) (generate : List Nat → Option String)
    (unmarshal : String → Option ContractRawData) (data : Document) :
    Option ContractRawData :=
  let content := data.Content
  match generate (extractPrompt today content) with
  | none => none
  | some content => unmarshal (stripFences content)

/-! ## `encoding/json`: decoding into `types.ContractRawData` -/

/-- Decoding into an `interface{}`: null gives nil, a number a `float64`, a string a
`string`, and a boolean, an array or an object a value of another type. -/
def Json.asAny : Json → Option AmountValue
  | Json.null => none
  | Json.num x => some (AmountValue.number x)
  | Json.str s => some (AmountValue.text s)
  | _ => some AmountValue.other

/-- Decoding into a `*string`: null gives the nil pointer; `none` is the error for a
value of another type. -/
def Json.asStringPtr : Json → Option (Option String)
  | Json.null => some none
  | Json.str s => some (some s)
  | _ => none

/-- Decoding a JSON object into a `types.ContractRawData`, member by member; a member
that names no field is skipped, a member of the wrong type is an error. -/
def decodeRawData : List (String × Json) → ContractRawData → Option ContractRawData
  | [], r => some r
  | (k, v) :: rest, r =>
      if keyMatches k "party_a" then
        match setString v r.PartyA with
        | some s => decodeRawData rest { r with PartyA := s }
        | none => none
      else if keyMatches k "party_b" then
        match setString v r.PartyB with
        | some s => decodeRawData rest { r with PartyB := s }
        | none => none
      else if keyMatches k "sign_date" then
        match v.asStringPtr with
        | some p => decodeRawData rest { r with SignDate := p }
        | none => none
      else if keyMatches k "end_date" then
        match v.asStringPtr with
        | some p => decodeRawData rest { r with EndDate := p }
        | none => none
      else if keyMatches k "contract_type" then
        match setString v r.ContractType with
        | some s => decodeRawData rest { r with ContractType := s }
        | none => none
      else if keyMatches k "total_amount" then
        decodeRawData rest { r with TotalAmount := v.asAny }
      else if keyMatches k "summary" then
        match setString v r.Summary with
        | some s => decodeRawData rest { r with Summary := s }
        | none => none
      else if keyMatches k "keywords" then
        match v.asStrings with
        | some l => decodeRawData rest { r with Keywords := l }
        | none => none
      else decodeRawData rest r

/-- The call `json.Unmarshal([]byte(jsonStr), &info)` on a zero `types.ContractRawData`:
the decoded record, or `none` when the call returns an error (a syntax error, or a value
of a type the target does not take).  JSON null decodes without error and changes
nothing. -/
def jsonUnmarshalRawData (raw : String) : Option ContractRawData :=
  let zero : ContractRawData :=
    { PartyA := "", PartyB := "", SignDate := none, EndDate := none, ContractType := "",
      TotalAmount := none, Summary := "", Keywords := [] }
  match parseJsonText raw with
  | none => none
  | some Json.null => some zero
  | some (Json.obj kvs) => decodeRawData kvs zero
  | some _ => none

/-! ## Definitions used in the statements and proofs -/

/-- The largest element of a list of scores (0 for the empty list). -/
def maxOf : List ℚ → ℚ
  | [] => 0
  | s :: rest => rest.foldl max s

/-- The smallest element of a list of scores (0 for the empty list). -/
def minOf : List ℚ → ℚ
  | [] => 0
  | s :: rest => rest.foldl min s

/-- Min-max normalisation of the score `s` within `scores`, as the specification states
it: `(s - min) / (max - min)`, and the constant 1 when all scores are equal. -/
def minMaxNormalized (scores : List ℚ) (s : ℚ) : ℚ :=
  if maxOf scores = minOf scores then 1
  else (s - minOf scores) / (maxOf scores - minOf scores)

/-- The documents `normalizeScores` leaves behind on a slice without nil entries. -/
def normalizedDocs (ds : List Document) : List Document :=
  ds.map (fun d => d.WithScore (minMaxNormalized (ds.map Document.Score) d.Score))

/-- The entry of `docMap` under `id`, the read `docMap[id]`. -/
def DocMap.find : DocMap → String → Option RerankedDocument
  | [], _ => none
  | (k, r) :: rest, id => if k = id then some r else DocMap.find rest id

/-- What one iteration of a merge loop makes of the entry `r` under the ID of `d`. -/
def aggregate (weight : ℚ) (label : String) (r : Option RerankedDocument) (d : Document) :
    RerankedDocument :=
  match r with
  | some r => { r with FinalScore := r.FinalScore + d.Score * weight, Sources := r.Sources ++ [label] }
  | none => { Document := d, FinalScore := d.Score * weight, Sources := [label] }

/-- A well-formed `docMap`: no key twice, and every entry is filed under its document's ID. -/
def DocMap.WF (m : DocMap) : Prop :=
  (m.map Prod.fst).Nodup ∧ ∀ e ∈ m, e.2.Document.ID = e.1

/-- The merge loop over a slice without nil entries. -/
def mergeLoop (weight : ℚ) (label : String) (m : DocMap) (docs : List Document) : DocMap :=
  (docs.map some).foldl (mergeDoc weight label) m

/-- The `docMap` that steps 1 and 2 build from two slices without nil entries. -/
def mergedMap (mil es : List Document) (config : HybridRerankerConfig) : DocMap :=
  mergeLoop config.ESWeight "es"
    (mergeLoop config.MilvusWeight "milvus" [] (normalizedDocs mil)) (normalizedDocs es)

/-- The normalised copy of `a` within `ds`. -/
def normalizedDoc (ds : List Document) (a : Document) : Document :=
  a.WithScore (minMaxNormalized (ds.map Document.Score) a.Score)

/-- The merged item of document `id` with normalised score `score`. -/
def mkReranked (id : String) (score finalScore : ℚ) (sources : List String) : RerankedDocument :=
  { Document := mkDoc id score, FinalScore := finalScore, Sources := sources }

/-- The vector list of the end-to-end scenario of the specification. -/
def scenarioVector : List Document := [mkDoc "A" 10, mkDoc "B" 0]

/-- The keyword list of the end-to-end scenario of the specification. -/
def scenarioKeyword : List Document := [mkDoc "A" 0, mkDoc "C" 5]

/-- The result of the end-to-end scenario of the specification. -/
def scenarioResult : List RerankedDocument :=
  [mkReranked "A" 1 (6 / 10) ["milvus", "es"], mkReranked "C" 1 (4 / 10) ["es"],
    mkReranked "B" 0 0 ["milvus"]]

/-- The stores `st'` hold, next to what `st` held, only rows and entries of document `d`,
and no UUID was given back. -/
def Stores.Extends (d : String) (st st' : Stores) : Prop :=
  (∀ c ∈ st'.pg, c ∈ st.pg ∨ c.DocID = d) ∧ (∀ e ∈ st'.es, e ∈ st.es ∨ e.doc_id = d) ∧
    st.uuids ≤ st'.uuids

/-- Neither the relational store nor the keyword store holds anything of document `d`. -/
def Stores.Clean (d : String) (st : Stores) : Prop :=
  (∀ c ∈ st.pg, c.DocID ≠ d) ∧ (∀ e ∈ st.es, e.doc_id ≠ d)

/-- The document ID an outcome carries. -/
def Outcome.docID : Outcome → Option String
  | Outcome.duplicate => none
  | Outcome.extractFailed => none
  | Outcome.createFailed d => some d
  | Outcome.splitFailed d => some d
  | Outcome.emptyChunks d => some d
  | Outcome.esFailed d => some d
  | Outcome.milvusFailed d => some d
  | Outcome.done d => some d

/-- A UUID generator for concrete runs: the `n`-th UUID is `n + 1` letters `u`. -/
def unaryUUID (n : Nat) : String := String.mk (List.replicate (n + 1) 'u')

/-- The metadata a language model could extract from the sample document. -/
def sampleEntity : ContractRawData :=
  { PartyA := "Acme", PartyB := "Bolt", SignDate := some "2024-01-01", EndDate := none,
    ContractType := "purchase", TotalAmount := some (AmountValue.number 1000),
    Summary := "supply of parts", Keywords := ["parts"] }

/-- A run in which every collaborator succeeds; the splitter returns the document as its
one chunk. -/
def sampleEnv : Env :=
  { now := 1000
    uuid := unaryUUID
    extract := fun _ => some sampleEntity
    timeParse := fun _ => some 500
    parseFloat := fun _ => none
    split := fun doc => some [doc]
    pgGetFails := fun _ => false
    pgCreateFails := fun _ => false
    pgDeleteFails := fun _ => false
    esStore := fun _ _ => StoreOutcome.ok
    esDeleteFails := fun _ => false
    milvusStore := fun _ => StoreOutcome.ok }

/-- An uploaded file `a.pdf` that parses into one document. -/
def sampleFile : UploadedFile :=
  { Filename := "a.pdf", parsed := some [{ ID := "", Content := "supply contract", MetaData := [] }] }

/-- The three stores empty, no UUID drawn yet. -/
def emptyStores : Stores := { pg := [], es := [], milvus := [], uuids := 0 }

/-- The number of rows of the relational store with file name `f`. -/
def countFileName (f : String) (pg : List Contract) : Nat :=
  (pg.filter (fun c => decide (c.FileName = f))).length

/-- The sample run with a failing vector-store write (nothing written). -/
def vectorFailEnv : Env :=
  { sampleEnv with milvusStore := fun _ => StoreOutcome.failed 0 }

/-- The sample run with a splitter whose one chunk is blank. -/
def blankChunkEnv : Env :=
  { sampleEnv with split := fun _ => some [{ ID := "", Content := " \n\t ", MetaData := [] }] }

/-- The sample run with a failing metadata extraction. -/
def extractFailEnv : Env :=
  { sampleEnv with extract := fun _ => none }

/-- The sample run in which the lookup by file name fails (the query returns an error). -/
def lookupFailEnv : Env :=
  { sampleEnv with pgGetFails := fun _ => true }

/-- An uploaded file `b.pdf` that parses into two documents. -/
def twoDocFile : UploadedFile :=
  { Filename := "b.pdf",
    parsed := some [{ ID := "", Content := "first part", MetaData := [] },
      { ID := "", Content := "second part", MetaData := [] }] }

/-- The sample run in which the keyword-store write fails for the document that drew the
ID `u` (nothing written) and succeeds for every other document. -/
def keywordFailFirstEnv : Env :=
  { sampleEnv with
    esStore := fun docID _ => if docID = "u" then StoreOutcome.failed 0 else StoreOutcome.ok }

/-- The sample run in which the vector-store write fails for the chunks of the document
that drew the ID `u` (nothing written) and succeeds for every other document. -/
def vectorFailFirstEnv : Env :=
  { sampleEnv with
    milvusStore := fun chunks =>
      if chunks.any (fun c => decide (c.Content = "first part")) then StoreOutcome.failed 0
      else StoreOutcome.ok }

/-- What a language model could extract from a contract whose dates are not written as
`YYYY-MM-DD`: the sign date in Chinese notation, the end date "long-term". -/
def looseEntity : ContractRawData :=
  { PartyA := "Acme", PartyB := "Bolt", SignDate := some "2024年1月1日", EndDate := some "长期",
    ContractType := "purchase", TotalAmount := some (AmountValue.text "1万5"),
    Summary := "supply of parts", Keywords := ["parts"] }

/-- The sample run on June 1, 2025 with the parsers of the standard library and the
extraction `looseEntity`. -/
def looseEnv : Env :=
  { sampleEnv with
    now := 63884332800
    timeParse := timeParseDate
    parseFloat := parseDecimal
    extract := fun _ => some looseEntity }

/-- A model answer that writes the filters as `"filters": []`, after a word of prose. -/
def arrayAnswer : String :=
  "Sure:\n\x7b\"intent\": \"structured_only\", \"filters\": [], \"semantic_query\": \"\", \"keywords\": [\"合同\"]\x7d"

/-- The object of `arrayAnswer` up to the key `filters`. -/
def arrayAnswerHead : List Char := "\x7b\"intent\": \"structured_only\", ".data

/-- The object of `arrayAnswer` after the empty array. -/
def arrayAnswerTail : List Char := ", \"semantic_query\": \"\", \"keywords\": [\"合同\"]\x7d".data

/-- Whether a text, with `k` characters `甲` standing right before it, has no three `甲`
in a row. -/
def noRun : Nat → List Char → Bool
  | _, [] => true
  | k, c :: rest => if c = '甲' then decide (k + 1 < 3) && noRun (k + 1) rest else noRun 0 rest

/-- Whether a text, standing right after a space when `prev` holds, has no two spaces in
a row. -/
def noDouble : Bool → List Char → Bool
  | _, [] => true
  | prev, c :: rest => if c = ' ' then !prev && noDouble true rest else noDouble false rest

/-- The sample run with a splitter that returns three chunks, the second of them blank. -/
def threeChunkEnv : Env :=
  { sampleEnv with
    split := fun _ => some [{ ID := "", Content := " first\tpart ", MetaData := [] },
      { ID := "", Content := " \n ", MetaData := [] },
      { ID := "", Content := "second  part", MetaData := [] }] }

/-- The written chunk `w` is the splitter's chunk `orig` cleaned and enriched from the row
`record`: its content is `cleanText` of the original content and is not empty, the keys
`doc_id`, `party_a`, `party_b`, `amount`, `contract_type` and `contract_status` of its
metadata hold the values of the row, and the keys `sign_date` and `end_date` hold the
dates of the row when the row has them. -/
def EnrichedChunk (record : Contract) (orig w : Document) : Prop :=
  w.Content = cleanText orig.Content ∧ w.Content ≠ "" ∧
  w.MetaData.get "doc_id" = some (MetaValue.str record.DocID) ∧
  w.MetaData.get "party_a" = some (MetaValue.str record.PartyA) ∧
  w.MetaData.get "party_b" = some (MetaValue.str record.PartyB) ∧
  w.MetaData.get "amount" = some (MetaValue.float record.TotalAmount) ∧
  w.MetaData.get "contract_type" = some (MetaValue.str record.ContractType) ∧
  w.MetaData.get "contract_status" = some (MetaValue.int record.ContractStatus) ∧
  (∀ t, record.SignDate = some t → w.MetaData.get "sign_date" = some (MetaValue.time t)) ∧
  (∀ t, record.EndDate = some t → w.MetaData.get "end_date" = some (MetaValue.time t))

/-- The one document of `sampleFile` as the loop sees it, the file name in its metadata. -/
def sampleDoc : Document :=
  { ID := "", Content := "supply contract",
    MetaData := [(MetaKeyFileName, MetaValue.str "a.pdf")] }

/-- What ingestion makes of a contract whose end date has passed: the status of the row
and the value under `contract_status` in the keyword store. -/
def expiredChunk : Document :=
  enrichChunk "u" sampleEntity 1000 (statusOf sampleEnv (some 500)) none (some 500) "uu"
    { ID := "", Content := "supply contract", MetaData := [] }

/-- The condition of the `UPDATE` of `ExpireContracts` on a row: the status is
`StatusActive` and the end date is present and before `now`. -/
def dueToExpire (now : Time) (c : Contract) : Prop :=
  c.ContractStatus = StatusActive ∧ ∃ d, c.EndDate = some d ∧ d < now

/-- Three rows for `ExpireContracts` at time 1000: active and ended at 500, active without
an end date, expired and ended at 100, active and ending at 1000. -/
def expirySample : List Contract :=
  [{ DocID := "a", FileName := "a.pdf", PartyA := "", PartyB := "", ContractType := "",
     ContractStatus := 1, SignDate := none, EndDate := some 500, TotalAmount := 0,
     Summary := "", CreatedAt := 0, UpdatedAt := 0 },
   { DocID := "b", FileName := "b.pdf", PartyA := "", PartyB := "", ContractType := "",
     ContractStatus := 1, SignDate := none, EndDate := none, TotalAmount := 0,
     Summary := "", CreatedAt := 0, UpdatedAt := 0 },
   { DocID := "c", FileName := "c.pdf", PartyA := "", PartyB := "", ContractType := "",
     ContractStatus := 2, SignDate := none, EndDate := some 100, TotalAmount := 0,
     Summary := "", CreatedAt := 0, UpdatedAt := 0 },
   { DocID := "d", FileName := "d.pdf", PartyA := "", PartyB := "", ContractType := "",
     ContractStatus := 1, SignDate := none, EndDate := some 1000, TotalAmount := 0,
     Summary := "", CreatedAt := 0, UpdatedAt := 0 }]

/-- The clause of `BuildExpr` for the party list: present when the list is not empty. -/
def partyGroupClause (f : FilterConditions) : Option String :=
  if f.AnyParty ≠ [] then
    some ("(" ++ " || ".intercalate (f.AnyParty.map (fun p =>
      "(party_a == '" ++ p ++ "' || party_b == '" ++ p ++ "')")) ++ ")")
  else none

/-- The clause for `partyA`: present when the text is not empty. -/
def partyAClause (f : FilterConditions) : Option String :=
  if f.PartyA ≠ "" then some ("party_a == '" ++ f.PartyA ++ "'") else none

/-- The clause for `partyB`: present when the text is not empty. -/
def partyBClause (f : FilterConditions) : Option String :=
  if f.PartyB ≠ "" then some ("party_b == '" ++ f.PartyB ++ "'") else none

/-- The clause for the contract type: present when the text is not empty. -/
def contractTypeClause (f : FilterConditions) : Option String :=
  if f.ContractType ≠ "" then some ("contract_type == '" ++ f.ContractType ++ "'") else none

/-- The clause for the status: present when the text is not empty. -/
def statusClause (f : FilterConditions) : Option String :=
  if f.Status ≠ "" then some ("contract_status == '" ++ f.Status ++ "'") else none

/-- The clause for the start of the date range: present when the range is there, the text
is not empty and it is a date `YYYY-MM-DD`; the bound is the Unix time of that day's
midnight. -/
def dateStartClause (f : FilterConditions) : Option String :=
  match f.DateRange with
  | some d =>
      if d.Start ≠ "" then
        (parseDateToTimestamp d.Start).map (fun t => "sign_date >= " ++ toString t)
      else none
  | none => none

/-- The clause for the end of the date range: as for the start; the bound is the last
second of the day. -/
def dateEndClause (f : FilterConditions) : Option String :=
  match f.DateRange with
  | some d =>
      if d.End ≠ "" then
        (parseDateToTimestamp d.End).map (fun t => "sign_date <= " ++ toString (t + 86399))
      else none
  | none => none

/-- The clause for the lower amount bound: present when the range and the bound are there
and the bound is greater than 0; the bound is printed with six decimals. -/
def amountMinClause (f : FilterConditions) : Option String :=
  match f.AmountRange.bind AmountRange.Min with
  | some x => if x > 0 then some ("amount >= " ++ formatFloat6 x) else none
  | none => none

/-- The clause for the upper amount bound: as for the lower bound. -/
def amountMaxClause (f : FilterConditions) : Option String :=
  match f.AmountRange.bind AmountRange.Max with
  | some x => if x > 0 then some ("amount <= " ++ formatFloat6 x) else none
  | none => none

/-- The nine clauses of a filter set in the order of `BuildExpr`, `none` for a clause that
is not present. -/
def filterClauses (f : FilterConditions) : List (Option String) :=
  [partyGroupClause f, partyAClause f, partyBClause f, contractTypeClause f, statusClause f,
    dateStartClause f, dateEndClause f, amountMinClause f, amountMaxClause f]

/-- A filter set with every kind of filter present. -/
def fullFilters : FilterConditions :=
  { AnyParty := ["甲公司", "B"], PartyA := "Acme", PartyB := "Bolt", ContractType := "采购合同",
    Status := "已过期", DateRange := some { Start := "2024-01-01", End := "2024-12-31" },
    AmountRange := some { Min := some 1000, Max := some 500000 } }

/-- The bounds on the field `amount` in the `range` entries of a keyword-store filter. -/
def amountBounds (qs : List ESQuery) : List (String × ESValue) :=
  qs.flatMap (fun q =>
    match q with
    | ESQuery.range fields =>
        (fields.filter (fun e => decide (e.1 = "amount"))).flatMap Prod.snd
    | _ => [])

/-- The conditions of `SearchContracts` other than the two on the parties of the party
list: partyA, partyB, contract type, status, date range and amount range, in this order. -/
def relationalFilters (f : FilterConditions) : List SQLCond :=
  (if f.PartyA ≠ "" then [SQLCond.partyALike ("%" ++ f.PartyA ++ "%")] else []) ++
  (if f.PartyB ≠ "" then [SQLCond.partyBLike ("%" ++ f.PartyB ++ "%")] else []) ++
  (if f.ContractType ≠ "" then
    [SQLCond.typeIsOrFileNameLike f.ContractType ("%" ++ f.ContractType ++ "%")] else []) ++
  (if f.Status ≠ "" then
    [SQLCond.statusIs (if f.Status = "已过期" ∨ f.Status = "expired" then StatusExpired
      else StatusActive)] else []) ++
  (match f.DateRange with
    | some d =>
        (if d.Start ≠ "" then [SQLCond.signDateGE d.Start] else []) ++
          (if d.End ≠ "" then [SQLCond.signDateLE d.End] else [])
    | none => []) ++
  (match f.AmountRange with
    | some a =>
        (a.Min.map SQLCond.amountGE).toList ++ (a.Max.map SQLCond.amountLE).toList
    | none => [])

/-- The answer of the structured path for the list of document IDs found. -/
def answerFor (found : List String) : Answer :=
  if found = [] then Answer.noResults else Answer.found found.length

/-- Three rows of the table `contracts`: `u` and `w` are purchases, `v` is a lease; the
party `Acme` is on `u` and `v`. -/
def samplePg : List Contract :=
  [{ DocID := "u", FileName := "a.pdf", PartyA := "Acme", PartyB := "Bolt",
     ContractType := "purchase", ContractStatus := 1, SignDate := none, EndDate := none,
     TotalAmount := 1000, Summary := "", CreatedAt := 0, UpdatedAt := 0 },
   { DocID := "v", FileName := "b.pdf", PartyA := "Cord", PartyB := "Acme",
     ContractType := "lease", ContractStatus := 1, SignDate := none, EndDate := none,
     TotalAmount := 2000, Summary := "", CreatedAt := 0, UpdatedAt := 0 },
   { DocID := "w", FileName := "c.pdf", PartyA := "Zed", PartyB := "Bolt",
     ContractType := "purchase", ContractStatus := 1, SignDate := none, EndDate := none,
     TotalAmount := 3000, Summary := "", CreatedAt := 0, UpdatedAt := 0 }]

/-- A search in which the language model answers `answer`, the party query of the keyword
store returns the hits `hits`, and the database matches a `LIKE` pattern only against the
value between two percent signs. -/
def sampleQueryEnv (answer : String) (hits : Option (List String)) : QueryEnv :=
  { chatModel := fun _ => some answer
    unmarshal := jsonUnmarshalIntent
    partyHits := fun _ => hits
    db := { like := fun value pattern => decide (pattern = "%" ++ value ++ "%"),
            timestamp := timeParseDate, fails := fun _ => false }
    vectorSearch := fun _ _ => some []
    keywordSearch := fun _ _ => some [] }

/-- A structured intent with the party `Acme` and the type `purchase`. -/
def partyAnswer : String :=
  "\x7b\"intent\": \"structured_only\", \"filters\": \x7b\"any_party\": [\"Acme\"], \"contract_type\": \"purchase\"\x7d\x7d"

/-- A structured intent with the type `purchase` and no party. -/
def typeAnswer : String :=
  "\x7b\"intent\": \"structured_only\", \"filters\": \x7b\"contract_type\": \"purchase\"\x7d\x7d"

/-- The intent `partyAnswer` decodes to. -/
def partyIntent : SearchIntent :=
  { Intent := "structured_only",
    Filters := { FilterConditions.zero with AnyParty := ["Acme"], ContractType := "purchase" },
    SemanticQuery := "", Keywords := [] }

/-- The intent `typeAnswer` decodes to. -/
def typeIntent : SearchIntent :=
  { Intent := "structured_only",
    Filters := { FilterConditions.zero with ContractType := "purchase" },
    SemanticQuery := "", Keywords := [] }

/-- The entries at the even indexes and the entries at the odd indexes of a list. -/
def alternate {α : Type} : List α → List α × List α
  | [] => ([], [])
  | a :: l => (a :: (alternate l).2, (alternate l).1)

/-- The primacy and recency arrangement: the entries at the even indexes in order,
then the entries at the odd indexes in reverse order. -/
def placed {α : Type} (s : List α) : List α :=
  (alternate s).1 ++ (alternate s).2.reverse

/-- The index in the sorted slice of the entry that position `p` of a result of length
`n` receives. -/
def sourceIndex (n p : Nat) : Nat :=
  if p < (n + 1) / 2 then 2 * p else 2 * (n - 1 - p) + 1

/-- The score the getter of `config` reads from a document. -/
def scoreOf (config : Config) (d : Document) : ℚ :=
  match config.ScoreFieldKey with
  | none => d.Score
  | some key =>
    match d.MetaData.get key with
    | some (MetaValue.float vv) => vv
    | _ => 0

/-- The reranker `NewReranker` builds from `config`. -/
def rerankerOf (config : Config) : reranker :=
  (NewReranker (some config)).getD { scoreGetter := fun _ => none }

/-- Five documents with the scores 5, 4, 3, 2 and 1. -/
def docA : Document := mkDoc "a" 5

def docB : Document := mkDoc "b" 4

def docC : Document := mkDoc "c" 3

def docD : Document := mkDoc "d" 2

def docE : Document := mkDoc "e" 1

/-- A sequence of bytes is well-formed UTF-8 when it is the encoding of some text. -/
def WellFormedUTF8 (bs : List Nat) : Prop :=
  ∃ s : String, utf8Encode s = bs

/-- A content of 10001 bytes: 9999 times the letter `a`, then `é` (two bytes). -/
def splitContent : String :=
  String.mk (List.replicate 9999 'a' ++ ['é'])

/-- A content of 10002 bytes in which a character ends at byte 10000. -/
def boundaryContent : String :=
  String.mk (List.replicate 10000 'a' ++ ['é'])

/-- The optional fraction of a JSON number after the integer part `intValue`. -/
def jsonFraction (intValue : Nat) (r : List Char) : Option (ℚ × List Char) :=
  match r with
  | '.' :: rest =>
      let f := takeDigits rest 0 0
      if f.1 = 0 then none
      else some ((intValue : ℚ) + (f.2.1 : ℚ) / (10 : ℚ) ^ f.1, f.2.2)
  | rest => some ((intValue : ℚ), rest)

/-- The optional exponent of a JSON number after the mantissa `m`. -/
def jsonExponent (m : ℚ) (rest : List Char) : Option (ℚ × List Char) :=
  match rest with
  | e :: rest' =>
      if e = 'e' ∨ e = 'E' then
        let signed : Bool × List Char :=
          match rest' with
          | '+' :: r => (false, r)
          | '-' :: r => (true, r)
          | r => (false, r)
        let x := takeDigits signed.2 0 0
        if x.1 = 0 then none
        else if signed.1 then some (m / (10 : ℚ) ^ x.2.1, x.2.2)
        else some (m * (10 : ℚ) ^ x.2.1, x.2.2)
      else some (m, rest)
  | [] => some (m, [])

/-- The sign of an exponent and what follows it. -/
def jsonExponentSign (rest' : List Char) : Bool × List Char :=
  match rest' with
  | '+' :: r => (false, r)
  | '-' :: r => (true, r)
  | r => (false, r)

/-- The second half of an escaped surrogate pair in a JSON string; `k` reads the rest of
the string. -/
def jsonStringEscapeLow (k : List Char → List Char → Option (String × List Char)) (hi : Nat)
    (rest'' acc : List Char) : Option (String × List Char) :=
  match rest'' with
  | '\\' :: 'u' :: rest3 =>
      match parseHex4 rest3 with
      | some (lo, rest4) =>
          if 0xDC00 ≤ lo ∧ lo < 0xE000 then
            k rest4
              (Char.ofNat (0x10000 + (hi - 0xD800) * 0x400 + (lo - 0xDC00)) :: acc)
          else k rest'' (Char.ofNat 0xFFFD :: acc)
      | none => none
  | _ => k rest'' (Char.ofNat 0xFFFD :: acc)

/-- An escape in a JSON string, after the backslash; `k` reads the rest of the string. -/
def jsonStringEscape (k : List Char → List Char → Option (String × List Char))
    (rest acc : List Char) : Option (String × List Char) :=
  match rest with
  | 'u' :: rest' =>
      match parseHex4 rest' with
      | none => none
      | some (hi, rest'') =>
          if 0xD800 ≤ hi ∧ hi < 0xDC00 then jsonStringEscapeLow k hi rest'' acc
          else if 0xDC00 ≤ hi ∧ hi < 0xE000 then
            k rest'' (Char.ofNat 0xFFFD :: acc)
          else k rest'' (Char.ofNat hi :: acc)
  | e :: rest' =>
      let plain : Option Char :=
        if e = '"' then some '"' else if e = '\\' then some '\\'
        else if e = '/' then some '/' else if e = 'b' then some (Char.ofNat 8)
        else if e = 'f' then some (Char.ofNat 12) else if e = 'n' then some '\n'
        else if e = 'r' then some '\r' else if e = 't' then some '\t' else none
      match plain with
      | some x => k rest' (x :: acc)
      | none => none
  | [] => none

/-- One step of `parseJsonString`; `k` reads the rest of the string. -/
def jsonStringStep (k : List Char → List Char → Option (String × List Char))
    (cs acc : List Char) : Option (String × List Char) :=
  match cs with
  | [] => none
  | c :: rest =>
      if c = '"' then some (String.mk acc.reverse, rest)
      else if c = '\\' then jsonStringEscape k rest acc
      else if c.toNat < 0x20 then none
      else k rest (c :: acc)

/-- The rest of an array after its opening bracket; `k` is the parser one level down. -/
def jsonArrayOpen (k : JsonTask → List Char → Option (Json × List Char)) (rest : List Char) :
    Option (Json × List Char) :=
  match rest.dropWhile isJsonSpace with
  | ']' :: rest' => some (Json.arr [], rest')
  | _ => k (JsonTask.elems []) rest

/-- The rest of an object after its opening brace; `k` is the parser one level down. -/
def jsonObjectOpen (k : JsonTask → List Char → Option (Json × List Char)) (rest : List Char) :
    Option (Json × List Char) :=
  match rest.dropWhile isJsonSpace with
  | '}' :: rest' => some (Json.obj [], rest')
  | _ => k (JsonTask.members []) rest

/-- A JSON value at the head of `d`, a text that does not begin with white space. -/
def jsonValueOf (k : JsonTask → List Char → Option (Json × List Char)) (d : List Char) :
    Option (Json × List Char) :=
  match d with
  | 'n' :: 'u' :: 'l' :: 'l' :: rest => some (Json.null, rest)
  | 't' :: 'r' :: 'u' :: 'e' :: rest => some (Json.bool true, rest)
  | 'f' :: 'a' :: 'l' :: 's' :: 'e' :: rest => some (Json.bool false, rest)
  | '"' :: rest =>
      match parseJsonString (rest.length + 1) rest [] with
      | some (s, rest') => some (Json.str s, rest')
      | none => none
  | '[' :: rest => jsonArrayOpen k rest
  | '{' :: rest => jsonObjectOpen k rest
  | '-' :: rest =>
      match parseJsonUnsigned rest with
      | some (x, rest') => some (Json.num (-x), rest')
      | none => none
  | rest =>
      match parseJsonUnsigned rest with
      | some (x, rest') => some (Json.num x, rest')
      | none => none

/-- What follows an element of an array. -/
def jsonElemsNext (k : JsonTask → List Char → Option (Json × List Char)) (v : Json)
    (acc : List Json) (d : List Char) : Option (Json × List Char) :=
  match d with
  | ',' :: rest' => k (JsonTask.elems (v :: acc)) rest'
  | ']' :: rest' => some (Json.arr (v :: acc).reverse, rest')
  | _ => none

/-- What follows a member of an object. -/
def jsonMembersNext (k : JsonTask → List Char → Option (Json × List Char)) (key : String)
    (v : Json) (acc : List (String × Json)) (d : List Char) : Option (Json × List Char) :=
  match d with
  | ',' :: rest4 => k (JsonTask.members ((key, v) :: acc)) rest4
  | '}' :: rest4 => some (Json.obj ((key, v) :: acc).reverse, rest4)
  | _ => none

/-- A member of an object from its colon on. -/
def jsonMemberColon (k : JsonTask → List Char → Option (Json × List Char)) (key : String)
    (acc : List (String × Json)) (d : List Char) : Option (Json × List Char) :=
  match d with
  | ':' :: rest'' =>
      match k JsonTask.value rest'' with
      | none => none
      | some (v, rest3) => jsonMembersNext k key v acc (rest3.dropWhile isJsonSpace)
  | _ => none

/-- A member of an object at the head of `d`. -/
def jsonMembersOf (k : JsonTask → List Char → Option (Json × List Char))
    (acc : List (String × Json)) (d : List Char) : Option (Json × List Char) :=
  match d with
  | '"' :: rest =>
      match parseJsonString (rest.length + 1) rest [] with
      | none => none
      | some (key, rest') => jsonMemberColon k key acc (rest'.dropWhile isJsonSpace)
  | _ => none

/-- The answer that wraps the text `j` in a code fence marked `json`. -/
def fenced (j : String) : String :=
  String.mk ("```json\n".data ++ (j.data ++ "\n```".data))

/-- A JSON object for a `types.ContractRawData`. -/
def sampleAnswer : String :=
  "\x7b\"party_a\":\"Acme\",\"end_date\":null,\"total_amount\":1000,\"keywords\":[\"parts\"]\x7d"

/-- The record `sampleAnswer` decodes to. -/
def sampleRecord : ContractRawData :=
  { PartyA := "Acme", PartyB := "", SignDate := none, EndDate := none, ContractType := "",
    TotalAmount := some (AmountValue.number 1000), Summary := "", Keywords := ["parts"] }

/-! ## Theorems -/

theorem MetaData.get_set_self (m : MetaData) (k : String) (v : MetaValue) :
    (m.set k v).get k = some v := by
  induction m with
  | nil => simp [MetaData.set, MetaData.get]
  | cons e rest ih =>
    obtain ⟨k', w⟩ := e
    by_cases h : k' = k
    · simp [MetaData.set, MetaData.get, h]
    · simp [MetaData.set, MetaData.get, h, ih]

@[simp] theorem Document.Score_WithScore (d : Document) (s : ℚ) : (d.WithScore s).Score = s := by
  simp [Document.Score, Document.WithScore, MetaData.get_set_self]

@[simp] theorem Document.ID_WithScore (d : Document) (s : ℚ) : (d.WithScore s).ID = d.ID := rfl

@[simp] theorem Document.Content_WithScore (d : Document) (s : ℚ) :
    (d.WithScore s).Content = d.Content := rfl

theorem ite_gt_eq_max (s mx : ℚ) : (if s > mx then s else mx) = max mx s := by
  rcases lt_trichotomy mx s with h | h | h
  · simp [h, max_eq_right h.le]
  · simp [h]
  · simp [not_lt.mpr h.le, max_eq_left h.le]

theorem ite_lt_eq_min (s mn : ℚ) : (if s < mn then s else mn) = min mn s := by
  rcases lt_trichotomy mn s with h | h | h
  · simp [not_lt.mpr h.le, min_eq_left h.le]
  · simp [h]
  · simp [h, min_eq_right h.le]

theorem foldl_max_ge (l : List ℚ) (a : ℚ) : a ≤ l.foldl max a ∧ ∀ s ∈ l, s ≤ l.foldl max a := by
  induction l generalizing a with
  | nil => simp
  | cons x rest ih =>
    obtain ⟨h1, h2⟩ := ih (max a x)
    refine ⟨le_trans (le_max_left a x) h1, ?_⟩
    intro s hs
    rcases List.mem_cons.mp hs with rfl | hs
    · exact le_trans (le_max_right a s) h1
    · exact h2 s hs

theorem foldl_max_mem (l : List ℚ) (a : ℚ) : l.foldl max a = a ∨ l.foldl max a ∈ l := by
  induction l generalizing a with
  | nil => simp
  | cons x rest ih =>
    simp only [List.foldl_cons, List.mem_cons]
    rcases ih (max a x) with h | h
    · rw [h]
      rcases max_choice a x with h' | h'
      · left; exact h'
      · right; left; exact h'
    · right; right; exact h

theorem foldl_min_le (l : List ℚ) (a : ℚ) : l.foldl min a ≤ a ∧ ∀ s ∈ l, l.foldl min a ≤ s := by
  induction l generalizing a with
  | nil => simp
  | cons x rest ih =>
    obtain ⟨h1, h2⟩ := ih (min a x)
    refine ⟨le_trans h1 (min_le_left a x), ?_⟩
    intro s hs
    rcases List.mem_cons.mp hs with rfl | hs
    · exact le_trans h1 (min_le_right a s)
    · exact h2 s hs

theorem foldl_min_mem (l : List ℚ) (a : ℚ) : l.foldl min a = a ∨ l.foldl min a ∈ l := by
  induction l generalizing a with
  | nil => simp
  | cons x rest ih =>
    simp only [List.foldl_cons, List.mem_cons]
    rcases ih (min a x) with h | h
    · rw [h]
      rcases min_choice a x with h' | h'
      · left; exact h'
      · right; left; exact h'
    · right; right; exact h

/-- On a non-empty list `maxOf` is the greatest element. -/
theorem maxOf_isGreatest (l : List ℚ) (h : l ≠ []) : maxOf l ∈ l ∧ ∀ s ∈ l, s ≤ maxOf l := by
  cases l with
  | nil => exact absurd rfl h
  | cons x rest =>
    obtain ⟨h1, h2⟩ := foldl_max_ge rest x
    refine ⟨?_, ?_⟩
    · rcases foldl_max_mem rest x with h | h
      · simp [maxOf, h]
      · simp [maxOf, h]
    · intro s hs
      rcases List.mem_cons.mp hs with rfl | hs
      · exact h1
      · exact h2 s hs

/-- On a non-empty list `minOf` is the least element. -/
theorem minOf_isLeast (l : List ℚ) (h : l ≠ []) : minOf l ∈ l ∧ ∀ s ∈ l, minOf l ≤ s := by
  cases l with
  | nil => exact absurd rfl h
  | cons x rest =>
    obtain ⟨h1, h2⟩ := foldl_min_le rest x
    refine ⟨?_, ?_⟩
    · rcases foldl_min_mem rest x with h | h
      · simp [minOf, h]
      · simp [minOf, h]
    · intro s hs
      rcases List.mem_cons.mp hs with rfl | hs
      · exact h1
      · exact h2 s hs

theorem scanMaxMin_map_some (ds : List Document) (mx mn : ℚ) :
    scanMaxMin (ds.map some) mx mn =
      some ((ds.map Document.Score).foldl max mx, (ds.map Document.Score).foldl min mn) := by
  induction ds generalizing mx mn with
  | nil => simp [scanMaxMin]
  | cons d rest ih =>
    simp only [List.map_cons, scanMaxMin, List.foldl_cons]
    rw [ite_gt_eq_max, ite_lt_eq_min]
    exact ih _ _

theorem scanMaxMin_isSome (docs : List (Option Document)) (mx mn : ℚ) (r : ℚ × ℚ)
    (h : scanMaxMin docs mx mn = some r) : ∃ ds : List Document, docs = ds.map some := by
  induction docs generalizing mx mn with
  | nil => exact ⟨[], rfl⟩
  | cons d rest ih =>
    cases d with
    | none => simp [scanMaxMin] at h
    | some d =>
      simp only [scanMaxMin] at h
      obtain ⟨ds, hds⟩ := ih _ _ h
      exact ⟨d :: ds, by simp [hds]⟩

theorem normalizeScores_map_some (ds : List Document) :
    normalizeScores (ds.map some) = some ((normalizedDocs ds).map some) := by
  cases ds with
  | nil => simp [normalizeScores, normalizedDocs]
  | cons d rest =>
    have hscan := scanMaxMin_map_some (d :: rest) d.Score d.Score
    simp only [List.map_cons] at hscan
    simp only [List.map_cons, normalizeScores, hscan]
    have hmx : List.foldl max d.Score (d.Score :: List.map Document.Score rest)
        = maxOf (d.Score :: List.map Document.Score rest) := by simp [maxOf]
    have hmn : List.foldl min d.Score (d.Score :: List.map Document.Score rest)
        = minOf (d.Score :: List.map Document.Score rest) := by simp [minOf]
    rw [hmx, hmn]
    by_cases heq : maxOf (d.Score :: List.map Document.Score rest)
        = minOf (d.Score :: List.map Document.Score rest)
    · simp [heq, rescore, normalizedDocs, minMaxNormalized]
    · simp [heq, rescore, normalizedDocs, minMaxNormalized]

theorem normalizeScores_isSome (docs docs' : List (Option Document))
    (h : normalizeScores docs = some docs') :
    ∃ ds : List Document, docs = ds.map some ∧ docs' = (normalizedDocs ds).map some := by
  have hds : ∃ ds : List Document, docs = ds.map some := by
    cases docs with
    | nil => exact ⟨[], rfl⟩
    | cons d rest =>
      cases d with
      | none => simp [normalizeScores] at h
      | some d =>
        simp only [normalizeScores] at h
        cases hs : scanMaxMin (some d :: rest) d.Score d.Score with
        | none => simp [hs] at h
        | some r => exact scanMaxMin_isSome _ _ _ r hs
  obtain ⟨ds, rfl⟩ := hds
  refine ⟨ds, rfl, ?_⟩
  rw [normalizeScores_map_some] at h
  exact (Option.some.inj h).symm

theorem DocMap.exists_eq (m : DocMap) (id : String) : m.exists id = (m.find id).isSome := by
  induction m with
  | nil => rfl
  | cons e rest ih =>
    obtain ⟨k, r⟩ := e
    by_cases h : k = id
    · simp [DocMap.exists, DocMap.find, h]
    · simp only [DocMap.exists] at ih
      simp [DocMap.exists, DocMap.find, h, ih]

theorem DocMap.find_isSome_iff (m : DocMap) (id : String) :
    (m.find id).isSome ↔ id ∈ m.map Prod.fst := by
  induction m with
  | nil => simp [DocMap.find]
  | cons e rest ih =>
    obtain ⟨k, r⟩ := e
    by_cases h : k = id
    · simp [DocMap.find, h]
    · have h' : ¬ id = k := fun h' => h h'.symm
      simp [DocMap.find, h, h', ih]

theorem DocMap.find_eq_none_iff (m : DocMap) (id : String) :
    m.find id = none ↔ id ∉ m.map Prod.fst := by
  rw [← DocMap.find_isSome_iff]
  cases m.find id <;> simp

theorem DocMap.find_append_single (m : DocMap) (k : String) (r : RerankedDocument) (id : String) :
    DocMap.find (m ++ [(k, r)]) id =
      match m.find id with
      | some x => some x
      | none => if k = id then some r else none := by
  induction m with
  | nil => simp [DocMap.find]
  | cons e rest ih =>
    obtain ⟨k', r'⟩ := e
    by_cases h : k' = id
    · simp [DocMap.find, h]
    · simp [DocMap.find, h, ih]

theorem DocMap.find_accumulate (m : DocMap) (k : String) (add : ℚ) (label : String) (id : String) :
    (m.accumulate k add label).find id =
      if k = id then
        (m.find id).map (fun r =>
          { r with FinalScore := r.FinalScore + add, Sources := r.Sources ++ [label] })
      else m.find id := by
  induction m with
  | nil => simp [DocMap.accumulate, DocMap.find]
  | cons e rest ih =>
    obtain ⟨k', r'⟩ := e
    have hcons : DocMap.accumulate ((k', r') :: rest) k add label =
        (if k' = k then
            (k', { r' with FinalScore := r'.FinalScore + add, Sources := r'.Sources ++ [label] })
          else (k', r')) :: DocMap.accumulate rest k add label := rfl
    rw [hcons]
    by_cases h1 : k' = k
    · subst h1
      rw [if_pos rfl]
      by_cases h2 : k' = id
      · simp [DocMap.find, h2]
      · simp only [DocMap.find, h2, if_false]
        rw [ih]; simp [h2]
    · rw [if_neg h1]
      by_cases h2 : k' = id
      · have h3 : ¬ k = id := fun h3 => h1 (h2.trans h3.symm)
        simp [DocMap.find, h2, h3]
      · simp only [DocMap.find, h2, if_false]
        rw [ih]

theorem DocMap.keys_accumulate (m : DocMap) (k : String) (add : ℚ) (label : String) :
    (m.accumulate k add label).map Prod.fst = m.map Prod.fst := by
  simp only [DocMap.accumulate, List.map_map]
  apply List.map_congr_left
  intro e _
  by_cases h : e.1 = k <;> simp [h]

theorem find_mergeDoc (weight : ℚ) (label : String) (m : DocMap) (d : Document) (id : String) :
    (mergeDoc weight label m (some d)).find id =
      if d.ID = id then some (aggregate weight label (m.find id) d) else m.find id := by
  simp only [mergeDoc, DocMap.exists_eq]
  cases hf : m.find d.ID with
  | none =>
    simp only [Option.isSome_none, Bool.false_eq_true, if_false, DocMap.find_append_single]
    by_cases h : d.ID = id
    · subst h; simp [hf, aggregate]
    · simp only [h, if_false]
      cases m.find id <;> rfl
  | some r0 =>
    simp only [Option.isSome_some, if_true, DocMap.find_accumulate]
    by_cases h : d.ID = id
    · subst h; simp [hf, aggregate]
    · simp [h]

theorem WF_mergeDoc (weight : ℚ) (label : String) (m : DocMap) (d : Document) (h : m.WF) :
    (mergeDoc weight label m (some d)).WF := by
  obtain ⟨hn, hid⟩ := h
  simp only [mergeDoc, DocMap.exists_eq]
  cases hf : m.find d.ID with
  | none =>
    simp only [Option.isSome_none, Bool.false_eq_true, if_false]
    have hnot := (DocMap.find_eq_none_iff m d.ID).mp hf
    refine ⟨?_, ?_⟩
    · rw [List.map_append, List.nodup_append]
      refine ⟨hn, by simp, ?_⟩
      intro a ha hb
      simp only [List.map_cons, List.map_nil, List.mem_singleton] at hb
      subst hb
      exact hnot ha
    · intro e he
      rcases List.mem_append.mp he with he | he
      · exact hid e he
      · simp only [List.mem_singleton] at he
        subst he; rfl
  | some r0 =>
    simp only [Option.isSome_some, if_true]
    refine ⟨by rw [DocMap.keys_accumulate]; exact hn, ?_⟩
    intro e he
    simp only [DocMap.accumulate, List.mem_map] at he
    obtain ⟨e0, he0, rfl⟩ := he
    by_cases hk : e0.1 = d.ID
    · simp [hk, hid e0 he0]
    · simp [hk, hid e0 he0]

theorem keys_mergeDoc_mem (weight : ℚ) (label : String) (m : DocMap) (d : Document) (id : String) :
    id ∈ (mergeDoc weight label m (some d)).map Prod.fst ↔ id ∈ m.map Prod.fst ∨ id = d.ID := by
  rw [← DocMap.find_isSome_iff, ← DocMap.find_isSome_iff, find_mergeDoc]
  by_cases h : d.ID = id
  · subst h; simp
  · have h' : ¬ id = d.ID := fun h' => h h'.symm
    simp [h, h']

theorem mergeLoop_cons (weight : ℚ) (label : String) (m : DocMap) (d : Document)
    (docs : List Document) :
    mergeLoop weight label m (d :: docs) =
      mergeLoop weight label (mergeDoc weight label m (some d)) docs := rfl

theorem WF_mergeLoop (weight : ℚ) (label : String) (m : DocMap) (docs : List Document)
    (h : m.WF) : (mergeLoop weight label m docs).WF := by
  induction docs generalizing m with
  | nil => exact h
  | cons d rest ih => rw [mergeLoop_cons]; exact ih _ (WF_mergeDoc _ _ _ _ h)

theorem keys_mergeLoop_mem (weight : ℚ) (label : String) (m : DocMap) (docs : List Document)
    (id : String) :
    id ∈ (mergeLoop weight label m docs).map Prod.fst ↔
      id ∈ m.map Prod.fst ∨ id ∈ docs.map Document.ID := by
  induction docs generalizing m with
  | nil => simp [mergeLoop]
  | cons d rest ih =>
    rw [mergeLoop_cons, ih, keys_mergeDoc_mem]
    simp only [List.map_cons, List.mem_cons]
    tauto

theorem find_mergeLoop (weight : ℚ) (label : String) (m : DocMap) (docs : List Document)
    (id : String) :
    (mergeLoop weight label m docs).find id =
      (docs.filter (fun d => decide (d.ID = id))).foldl
        (fun r d => some (aggregate weight label r d)) (m.find id) := by
  induction docs generalizing m with
  | nil => simp [mergeLoop]
  | cons d rest ih =>
    rw [mergeLoop_cons, ih, find_mergeDoc]
    by_cases h : d.ID = id
    · simp [h, List.filter_cons]
    · simp [h, List.filter_cons]

theorem filter_id_of_nodup (ds : List Document) (hn : (ds.map Document.ID).Nodup) (a : Document)
    (ha : a ∈ ds) : ds.filter (fun d => decide (d.ID = a.ID)) = [a] := by
  induction ds with
  | nil => simp at ha
  | cons d rest ih =>
    simp only [List.map_cons, List.nodup_cons] at hn
    rcases List.mem_cons.mp ha with rfl | ha
    · have : ∀ x ∈ rest, ¬ x.ID = a.ID := by
        intro x hx hxa
        exact hn.1 (hxa ▸ List.mem_map_of_mem _ hx)
      simp only [List.filter_cons, decide_True, if_true, List.cons.injEq, true_and]
      rw [List.filter_eq_nil_iff]
      intro x hx
      simpa using this x hx
    · have hne : ¬ d.ID = a.ID := by
        intro hda
        exact hn.1 (hda ▸ List.mem_map_of_mem _ ha)
      simp [List.filter_cons, hne, ih hn.2 ha]

theorem filter_id_of_not_mem (ds : List Document) (id : String) (h : id ∉ ds.map Document.ID) :
    ds.filter (fun d => decide (d.ID = id)) = [] := by
  rw [List.filter_eq_nil_iff]
  intro x hx
  simp only [decide_eq_true_eq]
  intro hxa
  exact h (hxa ▸ List.mem_map_of_mem _ hx)

theorem values_filter (m : DocMap) (h : m.WF) (id : String) :
    (m.map Prod.snd).filter (fun r => decide (r.Document.ID = id)) = (m.find id).toList := by
  induction m with
  | nil => simp [DocMap.find]
  | cons e rest ih =>
    obtain ⟨k, r⟩ := e
    obtain ⟨hn, hid⟩ := h
    simp only [List.map_cons, List.nodup_cons] at hn
    have hrest : DocMap.WF rest := ⟨hn.2, fun e he => hid e (List.mem_cons_of_mem _ he)⟩
    have hk : r.Document.ID = k := hid (k, r) (List.mem_cons_self _ _)
    by_cases hki : k = id
    · have hnone : DocMap.find rest id = none := by
        rw [DocMap.find_eq_none_iff]; rw [← hki]; exact hn.1
      simp [List.filter_cons, hk, hki, DocMap.find, ih hrest, hnone]
    · simp [List.filter_cons, hk, hki, DocMap.find, ih hrest]

theorem mem_values_iff (m : DocMap) (h : m.WF) (r : RerankedDocument) :
    r ∈ m.map Prod.snd ↔ m.find r.Document.ID = some r := by
  have hf := values_filter m h r.Document.ID
  constructor
  · intro hr
    have : r ∈ (m.map Prod.snd).filter (fun x => decide (x.Document.ID = r.Document.ID)) := by
      simp [List.mem_filter, hr]
    rw [hf] at this
    simpa [Option.mem_toList] using this
  · intro hr
    have : r ∈ (m.find r.Document.ID).toList := by simp [hr]
    rw [← hf] at this
    exact (List.mem_filter.mp this).1

theorem mergeResults_map_some (mil es : List Document) (config : HybridRerankerConfig) :
    mergeResults (mil.map some) (es.map some) config = some (mergedMap mil es config) := by
  simp only [mergeResults, normalizeScores_map_some]
  rfl

theorem mergeResults_isSome (milvusDocs esDocs : List (Option Document))
    (config : HybridRerankerConfig) (docMap : DocMap)
    (h : mergeResults milvusDocs esDocs config = some docMap) :
    ∃ mil es : List Document, milvusDocs = mil.map some ∧ esDocs = es.map some ∧
      docMap = mergedMap mil es config := by
  have h0 := h
  unfold mergeResults at h
  cases h1 : normalizeScores milvusDocs with
  | none => simp [h1] at h
  | some m =>
    cases h2 : normalizeScores esDocs with
    | none => simp [h1, h2] at h
    | some e =>
      obtain ⟨mil, rfl, _⟩ := normalizeScores_isSome _ _ h1
      obtain ⟨es, rfl, _⟩ := normalizeScores_isSome _ _ h2
      refine ⟨mil, es, rfl, rfl, ?_⟩
      rw [mergeResults_map_some] at h0
      exact (Option.some.inj h0).symm

theorem normalizedDocs_ids (ds : List Document) :
    (normalizedDocs ds).map Document.ID = ds.map Document.ID := by
  simp [normalizedDocs, Function.comp_def]

theorem WF_nil : DocMap.WF [] := ⟨by simp, by simp⟩

theorem WF_mergedMap (mil es : List Document) (config : HybridRerankerConfig) :
    (mergedMap mil es config).WF :=
  WF_mergeLoop _ _ _ _ (WF_mergeLoop _ _ _ _ WF_nil)

theorem keys_mergedMap_mem (mil es : List Document) (config : HybridRerankerConfig)
    (id : String) :
    id ∈ (mergedMap mil es config).map Prod.fst ↔ id ∈ (mil ++ es).map Document.ID := by
  simp only [mergedMap, keys_mergeLoop_mem, normalizedDocs_ids, List.map_nil, List.not_mem_nil,
    false_or, List.map_append, List.mem_append]

theorem length_mergedMap (mil es : List Document) (config : HybridRerankerConfig) :
    (mergedMap mil es config).length = ((mil ++ es).map Document.ID).dedup.length := by
  have hperm : ((mergedMap mil es config).map Prod.fst).Perm
      ((mil ++ es).map Document.ID).dedup := by
    rw [List.perm_ext_iff_of_nodup (WF_mergedMap mil es config).1 (List.nodup_dedup _)]
    intro id
    rw [keys_mergedMap_mem, List.mem_dedup]
  simpa using hperm.length_eq

theorem normalizedDocs_filter (ds : List Document) (hn : (ds.map Document.ID).Nodup)
    (a : Document) (ha : a ∈ ds) :
    (normalizedDocs ds).filter (fun d => decide (d.ID = a.ID)) = [normalizedDoc ds a] := by
  have hmem : normalizedDoc ds a ∈ normalizedDocs ds :=
    List.mem_map_of_mem (fun d => d.WithScore (minMaxNormalized (ds.map Document.Score) d.Score)) ha
  have := filter_id_of_nodup (normalizedDocs ds) (by rw [normalizedDocs_ids]; exact hn) _ hmem
  simpa [normalizedDoc] using this

theorem normalizedDocs_filter_nil (ds : List Document) (id : String)
    (h : id ∉ ds.map Document.ID) :
    (normalizedDocs ds).filter (fun d => decide (d.ID = id)) = [] :=
  filter_id_of_not_mem _ _ (by rw [normalizedDocs_ids]; exact h)

theorem find_mergedMap_both (mil es : List Document) (config : HybridRerankerConfig)
    (hm : (mil.map Document.ID).Nodup) (he : (es.map Document.ID).Nodup)
    (a b : Document) (ha : a ∈ mil) (hb : b ∈ es) (hab : a.ID = b.ID) :
    (mergedMap mil es config).find a.ID = some
      { Document := normalizedDoc mil a
        FinalScore := minMaxNormalized (mil.map Document.Score) a.Score * config.MilvusWeight +
          minMaxNormalized (es.map Document.Score) b.Score * config.ESWeight
        Sources := ["milvus", "es"] } := by
  simp only [mergedMap, find_mergeLoop]
  rw [normalizedDocs_filter mil hm a ha, hab, normalizedDocs_filter es he b hb, ← hab]
  simp [DocMap.find, aggregate, normalizedDoc]

theorem find_mergedMap_milvus (mil es : List Document) (config : HybridRerankerConfig)
    (hm : (mil.map Document.ID).Nodup)
    (a : Document) (ha : a ∈ mil) (hb : a.ID ∉ es.map Document.ID) :
    (mergedMap mil es config).find a.ID = some
      { Document := normalizedDoc mil a
        FinalScore := minMaxNormalized (mil.map Document.Score) a.Score * config.MilvusWeight
        Sources := ["milvus"] } := by
  simp only [mergedMap, find_mergeLoop]
  rw [normalizedDocs_filter mil hm a ha, normalizedDocs_filter_nil es _ hb]
  simp [DocMap.find, aggregate, normalizedDoc]

theorem find_mergedMap_es (mil es : List Document) (config : HybridRerankerConfig)
    (he : (es.map Document.ID).Nodup)
    (b : Document) (hb : b ∈ es) (ha : b.ID ∉ mil.map Document.ID) :
    (mergedMap mil es config).find b.ID = some
      { Document := normalizedDoc es b
        FinalScore := minMaxNormalized (es.map Document.Score) b.Score * config.ESWeight
        Sources := ["es"] } := by
  simp only [mergedMap, find_mergeLoop]
  rw [normalizedDocs_filter es he b hb, normalizedDocs_filter_nil mil _ ha]
  simp [DocMap.find, aggregate, normalizedDoc]

theorem minMaxNormalized_bounds (scores : List ℚ) (s : ℚ) (hs : s ∈ scores) :
    0 ≤ minMaxNormalized scores s ∧ minMaxNormalized scores s ≤ 1 := by
  have hne : scores ≠ [] := List.ne_nil_of_mem hs
  have hmax := (maxOf_isGreatest scores hne).2 s hs
  have hmin := (minOf_isLeast scores hne).2 s hs
  unfold minMaxNormalized
  by_cases heq : maxOf scores = minOf scores
  · simp [heq]
  · rw [if_neg heq]
    have hlt : 0 < maxOf scores - minOf scores := by
      have : minOf scores ≤ maxOf scores := le_trans hmin hmax
      have : minOf scores < maxOf scores := lt_of_le_of_ne this (fun h => heq h.symm)
      linarith
    refine ⟨div_nonneg (by linarith) hlt.le, ?_⟩
    rw [div_le_one hlt]
    linarith

theorem truncateTopK_of_le (results : List RerankedDocument) (TopK : Int)
    (h : (results.length : Int) ≤ TopK) : truncateTopK results TopK = some results := by
  simp [truncateTopK, not_lt.mpr h]

/-- The relation `HybridReranker` on slices without nil entries. -/
theorem HybridReranker_map_some (mil es : List Document) (config : Option HybridRerankerConfig)
    (res : Option (List RerankedDocument)) :
    HybridReranker (mil.map some) (es.map some) config res ↔
      ∃ results : List RerankedDocument,
        results.Perm ((mergedMap mil es (config.getD DefaultHybridRerankerConfig)).map Prod.snd) ∧
          SortedByFinalScore results ∧
          res = truncateTopK results (config.getD DefaultHybridRerankerConfig).TopK := by
  simp only [HybridReranker, mergeResults_map_some]

/-- The stable run is one of the runs of `HybridReranker`. -/
theorem HybridReranker_stable (milvusDocs esDocs : List (Option Document))
    (config : Option HybridRerankerConfig) :
    HybridReranker milvusDocs esDocs config (HybridRerankerStable milvusDocs esDocs config) := by
  simp only [HybridReranker, HybridRerankerStable]
  cases mergeResults milvusDocs esDocs (config.getD DefaultHybridRerankerConfig) with
  | none => simp
  | some docMap =>
    simp only
    refine ⟨_, List.perm_insertionSort _ _, ?_, rfl⟩
    haveI : IsTotal RerankedDocument (fun a b => a.FinalScore ≥ b.FinalScore) :=
      ⟨fun a b => le_total b.FinalScore a.FinalScore⟩
    haveI : IsTrans RerankedDocument (fun a b => a.FinalScore ≥ b.FinalScore) :=
      ⟨fun a b c hab hbc => le_trans hbc hab⟩
    have hs := List.sorted_insertionSort (fun a b : RerankedDocument => a.FinalScore ≥ b.FinalScore)
      (docMap.map Prod.snd)
    have hs' : List.Pairwise (fun a b : RerankedDocument => a.FinalScore ≥ b.FinalScore)
        ((docMap.map Prod.snd).insertionSort (fun a b => a.FinalScore ≥ b.FinalScore)) := hs
    exact hs'.imp (fun h => not_lt.mpr h)

theorem perm_values_length (mil es : List Document) (config : HybridRerankerConfig)
    (results : List RerankedDocument)
    (hperm : results.Perm ((mergedMap mil es config).map Prod.snd)) :
    results.length = ((mil ++ es).map Document.ID).dedup.length := by
  rw [hperm.length_eq, List.length_map, length_mergedMap]

theorem perm_filter_find (m : DocMap) (hwf : m.WF) (results : List RerankedDocument)
    (hperm : results.Perm (m.map Prod.snd)) (id : String) (r : RerankedDocument)
    (hfind : m.find id = some r) :
    results.filter (fun x => decide (x.Document.ID = id)) = [r] := by
  have h := hperm.filter (fun x => decide (x.Document.ID = id))
  rw [values_filter m hwf id, hfind] at h
  exact List.perm_singleton.mp h

/-- C6: on every non-empty slice of non-nil documents `normalizeScores` returns and leaves,
position by position, a document with the same ID and content whose `Score()` is
`(s - min) / (max - min)` when the greatest score `mx` differs from the least score `mn`
(so a document with the least score gets 0 and one with the greatest gets 1) and 1 when
they are equal; the merge loops of `HybridReranker` run on these documents.  The empty
slice is left unchanged. -/
theorem C6_normalizeScores_takes_effect (docs : List Document) (mx mn : ℚ)
    (hne : docs ≠ [])
    (hmx : mx ∈ docs.map Document.Score ∧ ∀ s ∈ docs.map Document.Score, s ≤ mx)
    (hmn : mn ∈ docs.map Document.Score ∧ ∀ s ∈ docs.map Document.Score, mn ≤ s) :
    normalizeScores [] = some [] ∧
    ∃ docs' : List Document,
      normalizeScores (docs.map some) = some (docs'.map some) ∧
      (∀ config esDocs, mergeResults (docs.map some) (esDocs.map some) config =
        some (mergeLoop config.ESWeight "es" (mergeLoop config.MilvusWeight "milvus" [] docs')
          (normalizedDocs esDocs))) ∧
      List.Forall₂ (fun d d' : Document =>
        d'.ID = d.ID ∧ d'.Content = d.Content ∧
        d'.Score = (if mx = mn then 1 else (d.Score - mn) / (mx - mn)) ∧
        (mx ≠ mn → d.Score = mn → d'.Score = 0) ∧
        (mx ≠ mn → d.Score = mx → d'.Score = 1)) docs docs' := by
  have hsne : docs.map Document.Score ≠ [] := by simpa using hne
  have hMax : maxOf (docs.map Document.Score) = mx :=
    le_antisymm (hmx.2 _ (maxOf_isGreatest _ hsne).1) ((maxOf_isGreatest _ hsne).2 _ hmx.1)
  have hMin : minOf (docs.map Document.Score) = mn :=
    le_antisymm ((minOf_isLeast _ hsne).2 _ hmn.1) (hmn.2 _ (minOf_isLeast _ hsne).1)
  refine ⟨rfl, normalizedDocs docs, normalizeScores_map_some docs, ?_, ?_⟩
  · intro config esDocs
    rw [mergeResults_map_some]; rfl
  · unfold normalizedDocs
    rw [List.forall₂_map_right_iff, List.forall₂_same]
    intro d _
    simp only [Document.ID_WithScore, Document.Content_WithScore, Document.Score_WithScore,
      minMaxNormalized, hMax, hMin, true_and]
    refine ⟨?_, ?_⟩
    · intro hne' hd
      rw [if_neg hne', hd, sub_self, zero_div]
    · intro hne' hd
      rw [if_neg hne', hd]
      exact div_self (sub_ne_zero.mpr hne')

/-- C6, at the slice with scores 10, 0 and 5: the scores become 1, 0 and 1/2. -/
theorem C6_normalizeScores_takes_effect_witness :
    [mkDoc "A" 10, mkDoc "B" 0, mkDoc "C" 5] ≠ [] ∧
    normalizeScores [] = some [] ∧
    ∃ docs' : List Document,
      normalizeScores ([mkDoc "A" 10, mkDoc "B" 0, mkDoc "C" 5].map some) =
        some (docs'.map some) ∧
      (∀ config esDocs,
        mergeResults ([mkDoc "A" 10, mkDoc "B" 0, mkDoc "C" 5].map some) (esDocs.map some) config =
        some (mergeLoop config.ESWeight "es" (mergeLoop config.MilvusWeight "milvus" [] docs')
          (normalizedDocs esDocs))) ∧
      List.Forall₂ (fun d d' : Document =>
        d'.ID = d.ID ∧ d'.Content = d.Content ∧
        d'.Score = (if (10 : ℚ) = 0 then 1 else (d.Score - 0) / (10 - 0)) ∧
        ((10 : ℚ) ≠ 0 → d.Score = 0 → d'.Score = 0) ∧
        ((10 : ℚ) ≠ 0 → d.Score = 10 → d'.Score = 1))
        [mkDoc "A" 10, mkDoc "B" 0, mkDoc "C" 5] docs' :=
  ⟨by simp,
    C6_normalizeScores_takes_effect [mkDoc "A" 10, mkDoc "B" 0, mkDoc "C" 5] 10 0 (by simp)
      (by norm_num [mkDoc]) (by norm_num [mkDoc])⟩

/-- C1: for vector and keyword result lists in which no ID occurs twice within a list, and a
`TopK` not smaller than the number of distinct IDs, `HybridReranker` returns, and in what it
returns an ID present in both lists occurs exactly once, with `Sources` the two labels
`milvus` and `es` and `FinalScore` the sum of `MilvusWeight` times its normalised vector
score and `ESWeight` times its normalised keyword score; an ID present in one list only
occurs exactly once, with that list's label alone and `FinalScore` its normalised score
times that source's weight. -/
theorem C1_fusion_dedup (milvusDocs esDocs : List Document)
    (config : Option HybridRerankerConfig)
    (hm : (milvusDocs.map Document.ID).Nodup) (he : (esDocs.map Document.ID).Nodup)
    (hk : (((milvusDocs ++ esDocs).map Document.ID).dedup.length : Int) ≤
      (config.getD DefaultHybridRerankerConfig).TopK) :
    (∃ res, HybridReranker (milvusDocs.map some) (esDocs.map some) config res) ∧
    ∀ res, HybridReranker (milvusDocs.map some) (esDocs.map some) config res →
      ∃ out, res = some out ∧
        (∀ a ∈ milvusDocs, ∀ b ∈ esDocs, a.ID = b.ID →
          ∃ r, out.filter (fun x => decide (x.Document.ID = a.ID)) = [r] ∧
            r.Sources = ["milvus", "es"] ∧
            r.FinalScore =
              (config.getD DefaultHybridRerankerConfig).MilvusWeight *
                  minMaxNormalized (milvusDocs.map Document.Score) a.Score +
                (config.getD DefaultHybridRerankerConfig).ESWeight *
                  minMaxNormalized (esDocs.map Document.Score) b.Score) ∧
        (∀ a ∈ milvusDocs, a.ID ∉ esDocs.map Document.ID →
          ∃ r, out.filter (fun x => decide (x.Document.ID = a.ID)) = [r] ∧
            r.Sources = ["milvus"] ∧
            r.FinalScore = minMaxNormalized (milvusDocs.map Document.Score) a.Score *
              (config.getD DefaultHybridRerankerConfig).MilvusWeight) ∧
        (∀ b ∈ esDocs, b.ID ∉ milvusDocs.map Document.ID →
          ∃ r, out.filter (fun x => decide (x.Document.ID = b.ID)) = [r] ∧
            r.Sources = ["es"] ∧
            r.FinalScore = minMaxNormalized (esDocs.map Document.Score) b.Score *
              (config.getD DefaultHybridRerankerConfig).ESWeight) := by
  refine ⟨⟨_, HybridReranker_stable _ _ _⟩, ?_⟩
  intro res hres
  rw [HybridReranker_map_some] at hres
  obtain ⟨results, hperm, _, hout⟩ := hres
  have hlen := perm_values_length _ _ _ _ hperm
  rw [truncateTopK_of_le _ _ (by rw [hlen]; exact hk)] at hout
  have hwf := WF_mergedMap milvusDocs esDocs (config.getD DefaultHybridRerankerConfig)
  refine ⟨results, hout, ?_, ?_, ?_⟩
  · intro a ha b hb hab
    refine ⟨_, perm_filter_find _ hwf _ hperm _ _
      (find_mergedMap_both _ _ _ hm he a b ha hb hab), rfl, ?_⟩
    simp only
    ring
  · intro a ha hb
    exact ⟨_, perm_filter_find _ hwf _ hperm _ _
      (find_mergedMap_milvus _ _ _ hm a ha hb), rfl, rfl⟩
  · intro b hb ha
    exact ⟨_, perm_filter_find _ hwf _ hperm _ _
      (find_mergedMap_es _ _ _ he b hb ha), rfl, rfl⟩

theorem mem_of_truncateTopK (results out : List RerankedDocument) (TopK : Int)
    (h : some out = truncateTopK results TopK) : out.Sublist results := by
  unfold truncateTopK at h
  by_cases h1 : (results.length : Int) > TopK
  · by_cases h2 : TopK < 0
    · simp [h1, h2] at h
    · simp only [h1, h2, if_true, if_false, Option.some.injEq] at h
      rw [h]; exact List.take_sublist _ _
  · simp only [h1, if_false, Option.some.injEq] at h
    rw [h]

/-- C2, as amended: for vector and keyword lists in which no ID occurs twice within a list,
and non-negative weights, every item `HybridReranker` returns has its `FinalScore` in
`[0, MilvusWeight + ESWeight]`; with the default configuration that is `[0, 1]`. -/
theorem C2_fusion_score_bounds (milvusDocs esDocs : List Document)
    (config : Option HybridRerankerConfig)
    (hm : (milvusDocs.map Document.ID).Nodup) (he : (esDocs.map Document.ID).Nodup)
    (hw1 : 0 ≤ (config.getD DefaultHybridRerankerConfig).MilvusWeight)
    (hw2 : 0 ≤ (config.getD DefaultHybridRerankerConfig).ESWeight) :
    ∀ out, HybridReranker (milvusDocs.map some) (esDocs.map some) config (some out) →
      ∀ r ∈ out,
        0 ≤ r.FinalScore ∧
        r.FinalScore ≤ (config.getD DefaultHybridRerankerConfig).MilvusWeight +
          (config.getD DefaultHybridRerankerConfig).ESWeight ∧
        (config = none → r.FinalScore ≤ 1) := by
  intro out hres r hr
  rw [HybridReranker_map_some] at hres
  obtain ⟨results, hperm, _, hout⟩ := hres
  have hwf := WF_mergedMap milvusDocs esDocs (config.getD DefaultHybridRerankerConfig)
  have hr' : r ∈ (mergedMap milvusDocs esDocs (config.getD DefaultHybridRerankerConfig)).map
      Prod.snd := hperm.subset ((mem_of_truncateTopK _ _ _ hout).subset hr)
  have hfind := (mem_values_iff _ hwf r).mp hr'
  have hkey : r.Document.ID ∈ (milvusDocs ++ esDocs).map Document.ID := by
    rw [← keys_mergedMap_mem milvusDocs esDocs (config.getD DefaultHybridRerankerConfig),
      ← DocMap.find_isSome_iff, hfind]; rfl
  have hbound : 0 ≤ r.FinalScore ∧
      r.FinalScore ≤ (config.getD DefaultHybridRerankerConfig).MilvusWeight +
        (config.getD DefaultHybridRerankerConfig).ESWeight := by
    by_cases hinM : r.Document.ID ∈ milvusDocs.map Document.ID
    · obtain ⟨a, ha, haid⟩ := List.mem_map.mp hinM
      have hsa := minMaxNormalized_bounds (milvusDocs.map Document.Score) a.Score
        (List.mem_map_of_mem _ ha)
      by_cases hinE : r.Document.ID ∈ esDocs.map Document.ID
      · obtain ⟨b, hb, hbid⟩ := List.mem_map.mp hinE
        have hsb := minMaxNormalized_bounds (esDocs.map Document.Score) b.Score
          (List.mem_map_of_mem _ hb)
        have h := find_mergedMap_both milvusDocs esDocs
          (config.getD DefaultHybridRerankerConfig) hm he a b ha hb (haid.trans hbid.symm)
        rw [haid, hfind] at h
        rw [Option.some.inj h]
        simp only
        constructor
        · nlinarith [mul_nonneg hsa.1 hw1, mul_nonneg hsb.1 hw2]
        · nlinarith [mul_le_of_le_one_left hw1 hsa.2, mul_le_of_le_one_left hw2 hsb.2]
      · have h := find_mergedMap_milvus milvusDocs esDocs
          (config.getD DefaultHybridRerankerConfig) hm a ha (by rw [haid]; exact hinE)
        rw [haid, hfind] at h
        rw [Option.some.inj h]
        simp only
        constructor
        · nlinarith [mul_nonneg hsa.1 hw1]
        · nlinarith [mul_le_of_le_one_left hw1 hsa.2]
    · have hinE : r.Document.ID ∈ esDocs.map Document.ID := by
        rw [List.map_append, List.mem_append] at hkey
        exact hkey.resolve_left hinM
      obtain ⟨b, hb, hbid⟩ := List.mem_map.mp hinE
      have hsb := minMaxNormalized_bounds (esDocs.map Document.Score) b.Score
        (List.mem_map_of_mem _ hb)
      have h := find_mergedMap_es milvusDocs esDocs
        (config.getD DefaultHybridRerankerConfig) he b hb (by rw [hbid]; exact hinM)
      rw [hbid, hfind] at h
      rw [Option.some.inj h]
      simp only
      constructor
      · nlinarith [mul_nonneg hsb.1 hw2]
      · nlinarith [mul_le_of_le_one_left hw2 hsb.2]
  refine ⟨hbound.1, hbound.2, ?_⟩
  intro hc
  subst hc
  have := hbound.2
  simp only [Option.getD_none, DefaultHybridRerankerConfig] at this
  linarith

theorem exists_map_some_of_ne_none (l : List (Option Document)) (h : ∀ d ∈ l, d ≠ none) :
    ∃ ds : List Document, l = ds.map some := by
  induction l with
  | nil => exact ⟨[], rfl⟩
  | cons d rest ih =>
    obtain ⟨ds, hds⟩ := ih (fun x hx => h x (List.mem_cons_of_mem _ hx))
    cases d with
    | none => exact absurd rfl (h none (List.mem_cons_self _ _))
    | some d => exact ⟨d :: ds, by simp [hds]⟩

theorem filterMap_id_map_some (ds : List Document) :
    (ds.map some).filterMap id = ds := by
  induction ds with
  | nil => rfl
  | cons d rest ih => simp [List.filterMap_cons, ih]

theorem truncateTopK_isSome (results : List RerankedDocument) (TopK : Int) (h : 0 ≤ TopK) :
    ∃ out, truncateTopK results TopK = some out := by
  unfold truncateTopK
  by_cases h1 : (results.length : Int) > TopK
  · exact ⟨results.take TopK.toNat, by simp [h1, not_lt.mpr h]⟩
  · exact ⟨results, by simp [h1]⟩

theorem length_truncateTopK (results out : List RerankedDocument) (TopK : Int) (h : 0 ≤ TopK)
    (hout : some out = truncateTopK results TopK) :
    (out.length : Int) = min TopK results.length := by
  unfold truncateTopK at hout
  by_cases h1 : (results.length : Int) > TopK
  · simp only [h1, not_lt.mpr h, if_true, if_false, Option.some.injEq] at hout
    rw [hout, List.length_take]
    have h2 : TopK.toNat ≤ results.length := by omega
    rw [Nat.min_eq_left h2, Int.toNat_of_nonneg h]
    exact (min_eq_left h1.le).symm
  · simp only [h1, if_false, Option.some.injEq] at hout
    rw [hout]
    exact (min_eq_right (not_lt.mp h1)).symm

theorem left_out_of_truncateTopK (results out : List RerankedDocument) (TopK : Int)
    (hs : SortedByFinalScore results) (hout : some out = truncateTopK results TopK)
    (r : RerankedDocument) (hr : r ∈ results) (hro : r ∉ out) :
    ∀ r' ∈ out, ¬ (r.FinalScore > r'.FinalScore) := by
  unfold truncateTopK at hout
  by_cases h1 : (results.length : Int) > TopK
  · by_cases h2 : TopK < 0
    · simp [h1, h2] at hout
    · simp only [h1, h2, if_true, if_false, Option.some.injEq] at hout
      subst hout
      have hsplit := List.take_append_drop TopK.toNat results
      have hr' : r ∈ List.drop TopK.toNat results := by
        rw [← hsplit, List.mem_append] at hr
        exact hr.resolve_left hro
      unfold SortedByFinalScore at hs
      rw [← hsplit, List.pairwise_append] at hs
      intro r' hr'o
      exact hs.2.2 r' hr'o r hr'
  · simp only [h1, if_false, Option.some.injEq] at hout
    subst hout
    exact absurd hr hro

/-- Sorting and truncation: for every `TopK ≥ 0`, what `HybridReranker` returns is sorted
by `FinalScore` in descending order, has length `min(TopK, number of distinct IDs among
the non-nil input documents)`, consists of merged items, and no merged item left out has a
`FinalScore` strictly greater than a returned one.  When no input document is nil the
function does return, and never panics. -/
theorem HybridReranker_sorted_topK (milvusDocs esDocs : List (Option Document))
    (config : Option HybridRerankerConfig)
    (hk : 0 ≤ (config.getD DefaultHybridRerankerConfig).TopK) :
    ((∀ d ∈ milvusDocs ++ esDocs, d ≠ none) →
      (∃ out, HybridReranker milvusDocs esDocs config (some out)) ∧
        ¬ HybridReranker milvusDocs esDocs config none) ∧
    ∀ out, HybridReranker milvusDocs esDocs config (some out) →
      out.Pairwise (fun a b => a.FinalScore ≥ b.FinalScore) ∧
      (out.length : Int) = min (config.getD DefaultHybridRerankerConfig).TopK
        ((((milvusDocs ++ esDocs).filterMap id).map Document.ID).dedup.length : Int) ∧
      ∃ docMap, mergeResults milvusDocs esDocs (config.getD DefaultHybridRerankerConfig) =
          some docMap ∧
        (∀ r ∈ out, r ∈ docMap.map Prod.snd) ∧
        ∀ r ∈ docMap.map Prod.snd, r ∉ out → ∀ r' ∈ out, ¬ (r.FinalScore > r'.FinalScore) := by
  constructor
  · intro hnil
    obtain ⟨mil, hmil⟩ := exists_map_some_of_ne_none milvusDocs
      (fun d hd => hnil d (List.mem_append_left _ hd))
    obtain ⟨es, hes⟩ := exists_map_some_of_ne_none esDocs
      (fun d hd => hnil d (List.mem_append_right _ hd))
    subst hmil; subst hes
    constructor
    · have hrun := HybridReranker_stable (mil.map some) (es.map some) config
      have hsome : ∃ out, HybridRerankerStable (mil.map some) (es.map some) config = some out := by
        simp only [HybridRerankerStable, mergeResults_map_some]
        exact truncateTopK_isSome _ _ hk
      obtain ⟨out, hout⟩ := hsome
      exact ⟨out, hout ▸ hrun⟩
    · intro hnone
      rw [HybridReranker_map_some] at hnone
      obtain ⟨results, _, _, hres⟩ := hnone
      obtain ⟨out, hout⟩ := truncateTopK_isSome results _ hk
      rw [hout] at hres
      exact Option.noConfusion hres
  · intro out hrun
    have hrun' := hrun
    unfold HybridReranker at hrun'
    cases hmr : mergeResults milvusDocs esDocs (config.getD DefaultHybridRerankerConfig) with
    | none =>
      simp only [hmr] at hrun'
      exact Option.noConfusion hrun'
    | some docMap =>
      simp only [hmr] at hrun'
      obtain ⟨results, hperm, hsorted, hout⟩ := hrun'
      obtain ⟨mil, es, hmil, hes, hmap⟩ := mergeResults_isSome _ _ _ _ hmr
      have hsub := mem_of_truncateTopK _ _ _ hout
      refine ⟨?_, ?_, docMap, rfl, ?_, ?_⟩
      · exact (List.Pairwise.sublist hsub hsorted).imp (fun h => not_lt.mp h)
      · rw [length_truncateTopK results out _ hk hout]
        subst hmil; subst hes; subst hmap
        rw [perm_values_length _ _ _ _ hperm, ← List.map_append, filterMap_id_map_some]
      · intro r hr
        exact hperm.subset (hsub.subset hr)
      · intro r hr hro
        exact left_out_of_truncateTopK results out _ hsorted hout r (hperm.symm.subset hr) hro

theorem sorted_scores_eq (l₁ l₂ : List RerankedDocument) (hperm : l₁.Perm l₂)
    (h₁ : SortedByFinalScore l₁) (h₂ : SortedByFinalScore l₂) :
    l₁.map RerankedDocument.FinalScore = l₂.map RerankedDocument.FinalScore := by
  have conv : ∀ l : List RerankedDocument, SortedByFinalScore l →
      List.Sorted (fun x y : ℚ => x ≥ y) (l.map RerankedDocument.FinalScore) := by
    intro l hl
    unfold List.Sorted
    rw [List.pairwise_map]
    exact hl.imp (fun h => not_lt.mp h)
  exact List.eq_of_perm_of_sorted (hperm.map _) (conv l₁ h₁) (conv l₂ h₂)

theorem eq_of_map_eq_of_injOn {α β : Type} (f : α → β) (l₁ l₂ : List α)
    (hmap : l₁.map f = l₂.map f)
    (hinj : ∀ a ∈ l₁, ∀ b ∈ l₂, f a = f b → a = b) : l₁ = l₂ := by
  induction l₁ generalizing l₂ with
  | nil =>
    cases l₂ with
    | nil => rfl
    | cons b rest => simp at hmap
  | cons a rest ih =>
    cases l₂ with
    | nil => simp at hmap
    | cons b rest₂ =>
      simp only [List.map_cons, List.cons.injEq] at hmap
      have hab := hinj a (List.mem_cons_self _ _) b (List.mem_cons_self _ _) hmap.1
      rw [hab, ih rest₂ hmap.2
        (fun x hx y hy => hinj x (List.mem_cons_of_mem _ hx) y (List.mem_cons_of_mem _ hy))]

theorem sorted_perm_unique (l₁ l₂ : List RerankedDocument) (hperm : l₁.Perm l₂)
    (h₁ : SortedByFinalScore l₁) (h₂ : SortedByFinalScore l₂)
    (hnd : (l₁.map RerankedDocument.FinalScore).Nodup) : l₁ = l₂ :=
  eq_of_map_eq_of_injOn RerankedDocument.FinalScore l₁ l₂ (sorted_scores_eq l₁ l₂ hperm h₁ h₂)
    (fun _ ha _ hb hab => List.inj_on_of_nodup_map hnd ha (hperm.symm.subset hb) hab)

theorem map_truncateTopK (results : List RerankedDocument) (TopK : Int) :
    (truncateTopK results TopK).map (List.map RerankedDocument.FinalScore) =
      if ((results.map RerankedDocument.FinalScore).length : Int) > TopK then
        if TopK < 0 then none
        else some ((results.map RerankedDocument.FinalScore).take TopK.toNat)
      else some (results.map RerankedDocument.FinalScore) := by
  unfold truncateTopK
  by_cases h1 : (results.length : Int) > TopK
  · by_cases h2 : TopK < 0
    · simp [h1, h2]
    · simp [h1, h2, List.map_take]
  · simp [h1]

/-- C4, as amended: the order in which `HybridReranker` returns merged items of equal
`FinalScore` is not fixed.  What is a function of the two input lists and the
configuration is the sequence of `FinalScore`s of the result (any two runs agree on it,
and on whether the call panics), and the whole result when no two merged items have the
same `FinalScore`. -/
theorem C4_tie_order (milvusDocs esDocs : List (Option Document))
    (config : Option HybridRerankerConfig) :
    (∀ res₁ res₂, HybridReranker milvusDocs esDocs config res₁ →
      HybridReranker milvusDocs esDocs config res₂ →
      res₁.map (List.map RerankedDocument.FinalScore) =
        res₂.map (List.map RerankedDocument.FinalScore)) ∧
    (∀ docMap, mergeResults milvusDocs esDocs (config.getD DefaultHybridRerankerConfig) =
        some docMap →
      (docMap.map (fun e => e.2.FinalScore)).Nodup →
      ∀ res₁ res₂, HybridReranker milvusDocs esDocs config res₁ →
        HybridReranker milvusDocs esDocs config res₂ → res₁ = res₂) := by
  constructor
  · intro res₁ res₂ h₁ h₂
    unfold HybridReranker at h₁ h₂
    cases hmr : mergeResults milvusDocs esDocs (config.getD DefaultHybridRerankerConfig) with
    | none =>
      simp only [hmr] at h₁ h₂
      rw [h₁, h₂]
    | some docMap =>
      simp only [hmr] at h₁ h₂
      obtain ⟨r₁, hp₁, hs₁, ho₁⟩ := h₁
      obtain ⟨r₂, hp₂, hs₂, ho₂⟩ := h₂
      rw [ho₁, ho₂, map_truncateTopK, map_truncateTopK,
        sorted_scores_eq r₁ r₂ (hp₁.trans hp₂.symm) hs₁ hs₂]
  · intro docMap hmr hnd res₁ res₂ h₁ h₂
    unfold HybridReranker at h₁ h₂
    simp only [hmr] at h₁ h₂
    obtain ⟨r₁, hp₁, hs₁, ho₁⟩ := h₁
    obtain ⟨r₂, hp₂, hs₂, ho₂⟩ := h₂
    have hnd₁ : (r₁.map RerankedDocument.FinalScore).Nodup := by
      have hp := hp₁.map RerankedDocument.FinalScore
      rw [List.map_map] at hp
      exact hp.nodup_iff.mpr hnd
    rw [ho₁, ho₂, sorted_perm_unique r₁ r₂ (hp₁.trans hp₂.symm) hs₁ hs₂ hnd₁]

theorem mergeResults_tie :
    mergeResults [some (mkDoc "A" 1), some (mkDoc "B" 1)] [] DefaultHybridRerankerConfig =
      some [("A", mkReranked "A" 1 (6 / 10) ["milvus"]), ("B", mkReranked "B" 1 (6 / 10) ["milvus"])] := by
  with_unfolding_all decide

/-- C4 fails as stated: for the vector list `[A, B]` with equal scores and an empty keyword
list both merged items have `FinalScore` 0.6; `A` was inserted first, and both `[A, B]` and
`[B, A]` are results of `HybridReranker`, so ties need not keep the insertion order and the
output is not a function of the input. -/
theorem C4_counterexample :
    HybridReranker [some (mkDoc "A" 1), some (mkDoc "B" 1)] [] none
      (some [mkReranked "A" 1 (6 / 10) ["milvus"], mkReranked "B" 1 (6 / 10) ["milvus"]]) ∧
    HybridReranker [some (mkDoc "A" 1), some (mkDoc "B" 1)] [] none
      (some [mkReranked "B" 1 (6 / 10) ["milvus"], mkReranked "A" 1 (6 / 10) ["milvus"]]) ∧
    (mkReranked "A" 1 (6 / 10) ["milvus"]).FinalScore =
      (mkReranked "B" 1 (6 / 10) ["milvus"]).FinalScore := by
  refine ⟨?_, ?_, rfl⟩
  · simp only [HybridReranker, Option.getD_none, mergeResults_tie]
    refine ⟨_, List.Perm.refl _, ?_, ?_⟩
    · simp [SortedByFinalScore, mkReranked]
    · with_unfolding_all decide
  · simp only [HybridReranker, Option.getD_none, mergeResults_tie]
    refine ⟨_, List.Perm.swap _ _ _, ?_, ?_⟩
    · simp [SortedByFinalScore, mkReranked]
    · with_unfolding_all decide

/-- C2 fails as stated: for the vector list `[A, A]` (one ID twice, equal scores) and an
empty keyword list, with the default weights, `HybridReranker` returns one item whose
`FinalScore` is 1.2, above `MilvusWeight + ESWeight = 1`. -/
theorem C2_counterexample :
    HybridReranker [some (mkDoc "A" 1), some (mkDoc "A" 1)] [] none
      (some [mkReranked "A" 1 (12 / 10) ["milvus", "milvus"]]) ∧
    ¬ ((mkReranked "A" 1 (12 / 10) ["milvus", "milvus"]).FinalScore ≤
      DefaultHybridRerankerConfig.MilvusWeight + DefaultHybridRerankerConfig.ESWeight) := by
  constructor
  · have h := HybridReranker_stable [some (mkDoc "A" 1), some (mkDoc "A" 1)] [] none
    have he : HybridRerankerStable [some (mkDoc "A" 1), some (mkDoc "A" 1)] [] none =
        some [mkReranked "A" 1 (12 / 10) ["milvus", "milvus"]] := by
      with_unfolding_all decide
    rwa [he] at h
  · norm_num [mkReranked, DefaultHybridRerankerConfig]

theorem mergeResults_scenario :
    mergeResults [some (mkDoc "A" 10), some (mkDoc "B" 0)] [some (mkDoc "A" 0), some (mkDoc "C" 5)]
        DefaultHybridRerankerConfig =
      some [("A", mkReranked "A" 1 (6 / 10) ["milvus", "es"]),
        ("B", mkReranked "B" 0 0 ["milvus"]), ("C", mkReranked "C" 1 (4 / 10) ["es"])] := by
  with_unfolding_all decide

/-- C5: for the vector list `[A score 10, B score 0]` and the keyword list
`[A score 0, C score 5]` with a nil configuration, the one result of `HybridReranker` is
the three items `A`, `C`, `B` in this order, with `FinalScore` 0.6, 0.4 and 0, `A` tagged
`milvus` and `es`, `C` tagged `es`, `B` tagged `milvus`. -/
theorem C5_end_to_end_scenario (res : Option (List RerankedDocument)) :
    HybridReranker [some (mkDoc "A" 10), some (mkDoc "B" 0)]
        [some (mkDoc "A" 0), some (mkDoc "C" 5)] none res ↔
      res = some [mkReranked "A" 1 (6 / 10) ["milvus", "es"], mkReranked "C" 1 (4 / 10) ["es"],
        mkReranked "B" 0 0 ["milvus"]] := by
  have hsorted : SortedByFinalScore [mkReranked "A" 1 (6 / 10) ["milvus", "es"],
      mkReranked "C" 1 (4 / 10) ["es"], mkReranked "B" 0 0 ["milvus"]] := by
    simp only [SortedByFinalScore, mkReranked, List.pairwise_cons, List.mem_cons,
      List.mem_singleton, List.not_mem_nil, List.Pairwise.nil]
    norm_num
  have hperm : List.Perm [mkReranked "A" 1 (6 / 10) ["milvus", "es"],
      mkReranked "C" 1 (4 / 10) ["es"], mkReranked "B" 0 0 ["milvus"]]
      [mkReranked "A" 1 (6 / 10) ["milvus", "es"], mkReranked "B" 0 0 ["milvus"],
        mkReranked "C" 1 (4 / 10) ["es"]] :=
    List.Perm.cons _ (List.Perm.swap _ _ _)
  have htrunc : truncateTopK [mkReranked "A" 1 (6 / 10) ["milvus", "es"],
      mkReranked "C" 1 (4 / 10) ["es"], mkReranked "B" 0 0 ["milvus"]] 10 =
      some [mkReranked "A" 1 (6 / 10) ["milvus", "es"], mkReranked "C" 1 (4 / 10) ["es"],
        mkReranked "B" 0 0 ["milvus"]] := by
    with_unfolding_all decide
  simp only [HybridReranker, Option.getD_none, mergeResults_scenario, List.map_cons, List.map_nil]
  constructor
  · rintro ⟨results, hp, hs, hres⟩
    have hnd : (results.map RerankedDocument.FinalScore).Nodup := by
      have := (hp.map RerankedDocument.FinalScore).nodup_iff
      rw [this]
      simp only [mkReranked, List.map_cons, List.map_nil, List.nodup_cons, List.mem_cons,
        List.mem_singleton, List.not_mem_nil, List.nodup_nil]
      norm_num
    have heq := sorted_perm_unique results _ (hp.trans hperm.symm) hs hsorted hnd
    rw [hres, heq]
    exact htrunc
  · intro hres
    exact ⟨_, hperm, hsorted, by rw [hres]; exact htrunc.symm⟩

theorem scenario_run :
    HybridReranker (scenarioVector.map some) (scenarioKeyword.map some) none
      (some scenarioResult) := by
  have h := HybridReranker_stable (scenarioVector.map some) (scenarioKeyword.map some) none
  have he : HybridRerankerStable (scenarioVector.map some) (scenarioKeyword.map some) none =
      some scenarioResult := by
    with_unfolding_all decide
  rwa [he] at h

/-- C1 at the end-to-end scenario with a nil configuration and its result. -/
theorem C1_fusion_dedup_witness :
    (scenarioVector.map Document.ID).Nodup ∧ (scenarioKeyword.map Document.ID).Nodup ∧
    (((scenarioVector ++ scenarioKeyword).map Document.ID).dedup.length : Int) ≤
      ((none : Option HybridRerankerConfig).getD DefaultHybridRerankerConfig).TopK ∧
    HybridReranker (scenarioVector.map some) (scenarioKeyword.map some) none
      (some scenarioResult) ∧
    ∃ out, some scenarioResult = some out ∧
        (∀ a ∈ scenarioVector, ∀ b ∈ scenarioKeyword, a.ID = b.ID →
          ∃ r, out.filter (fun x => decide (x.Document.ID = a.ID)) = [r] ∧
            r.Sources = ["milvus", "es"] ∧
            r.FinalScore =
              ((none : Option HybridRerankerConfig).getD DefaultHybridRerankerConfig).MilvusWeight *
                  minMaxNormalized (scenarioVector.map Document.Score) a.Score +
                ((none : Option HybridRerankerConfig).getD DefaultHybridRerankerConfig).ESWeight *
                  minMaxNormalized (scenarioKeyword.map Document.Score) b.Score) ∧
        (∀ a ∈ scenarioVector, a.ID ∉ scenarioKeyword.map Document.ID →
          ∃ r, out.filter (fun x => decide (x.Document.ID = a.ID)) = [r] ∧
            r.Sources = ["milvus"] ∧
            r.FinalScore = minMaxNormalized (scenarioVector.map Document.Score) a.Score *
              ((none : Option HybridRerankerConfig).getD DefaultHybridRerankerConfig).MilvusWeight) ∧
        (∀ b ∈ scenarioKeyword, b.ID ∉ scenarioVector.map Document.ID →
          ∃ r, out.filter (fun x => decide (x.Document.ID = b.ID)) = [r] ∧
            r.Sources = ["es"] ∧
            r.FinalScore = minMaxNormalized (scenarioKeyword.map Document.Score) b.Score *
              ((none : Option HybridRerankerConfig).getD DefaultHybridRerankerConfig).ESWeight) :=
  ⟨by decide, by decide, by decide, scenario_run,
    (C1_fusion_dedup scenarioVector scenarioKeyword none (by decide) (by decide) (by decide)).2
      (some scenarioResult) scenario_run⟩

/-- C2 at the end-to-end scenario with a nil configuration, for the item `A` of its
result. -/
theorem C2_fusion_score_bounds_witness :
    (scenarioVector.map Document.ID).Nodup ∧ (scenarioKeyword.map Document.ID).Nodup ∧
    HybridReranker (scenarioVector.map some) (scenarioKeyword.map some) none
      (some scenarioResult) ∧
    mkReranked "A" 1 (6 / 10) ["milvus", "es"] ∈ scenarioResult ∧
    (0 ≤ (mkReranked "A" 1 (6 / 10) ["milvus", "es"]).FinalScore ∧
      (mkReranked "A" 1 (6 / 10) ["milvus", "es"]).FinalScore ≤
        ((none : Option HybridRerankerConfig).getD DefaultHybridRerankerConfig).MilvusWeight +
        ((none : Option HybridRerankerConfig).getD DefaultHybridRerankerConfig).ESWeight ∧
      ((none : Option HybridRerankerConfig) = none →
        (mkReranked "A" 1 (6 / 10) ["milvus", "es"]).FinalScore ≤ 1)) :=
  ⟨by decide, by decide, scenario_run, List.mem_cons_self _ _,
    C2_fusion_score_bounds scenarioVector scenarioKeyword none (by decide) (by decide)
      (by norm_num [DefaultHybridRerankerConfig]) (by norm_num [DefaultHybridRerankerConfig])
      scenarioResult scenario_run _ (List.mem_cons_self _ _)⟩

/-- Sorting and truncation at the end-to-end scenario with a nil configuration (`TopK` 10)
and its result. -/
theorem HybridReranker_sorted_topK_witness :
    0 ≤ ((none : Option HybridRerankerConfig).getD DefaultHybridRerankerConfig).TopK ∧
    HybridReranker (scenarioVector.map some) (scenarioKeyword.map some) none
      (some scenarioResult) ∧
    (scenarioResult.Pairwise (fun a b => a.FinalScore ≥ b.FinalScore) ∧
      (scenarioResult.length : Int) =
        min ((none : Option HybridRerankerConfig).getD DefaultHybridRerankerConfig).TopK
          (((((scenarioVector.map some ++ scenarioKeyword.map some).filterMap id).map
            Document.ID).dedup.length : Nat) : Int) ∧
      ∃ docMap, mergeResults (scenarioVector.map some) (scenarioKeyword.map some)
          ((none : Option HybridRerankerConfig).getD DefaultHybridRerankerConfig) = some docMap ∧
        (∀ r ∈ scenarioResult, r ∈ docMap.map Prod.snd) ∧
        ∀ r ∈ docMap.map Prod.snd, r ∉ scenarioResult →
          ∀ r' ∈ scenarioResult, ¬ (r.FinalScore > r'.FinalScore)) :=
  ⟨by decide, scenario_run,
    (HybridReranker_sorted_topK (scenarioVector.map some) (scenarioKeyword.map some) none
      (by decide)).2
      scenarioResult scenario_run⟩

theorem mem_pgCreate (env : Env) (pg : List Contract) (c x : Contract)
    (hx : x ∈ (ContractRepo.Create env pg c).1) : x ∈ pg ∨ x = c := by
  unfold ContractRepo.Create at hx
  split at hx
  · exact Or.inl hx
  · simpa using hx

theorem pgCreate_ok (env : Env) (pg : List Contract) (c : Contract)
    (h : (ContractRepo.Create env pg c).2 = false) : (ContractRepo.Create env pg c).1 = pg ++ [c] := by
  unfold ContractRepo.Create at h ⊢
  split
  · rename_i hc; simp [hc] at h
  · rfl

theorem mem_pgDelete (env : Env) (pg : List Contract) (id : String) (x : Contract)
    (hx : x ∈ (ContractRepo.Delete env pg id).1) : x ∈ pg := by
  unfold ContractRepo.Delete at hx
  split at hx
  · exact hx
  · exact (List.mem_filter.mp hx).1

theorem pgDelete_ok (env : Env) (pg : List Contract) (id : String)
    (h : env.pgDeleteFails id = false) : ∀ x ∈ (ContractRepo.Delete env pg id).1, x.DocID ≠ id := by
  intro x hx
  simp only [ContractRepo.Delete, h, Bool.false_eq_true, if_false, List.mem_filter] at hx
  simpa using hx.2

theorem mem_foldl_esIndex (news : List ESDoc) (es : List ESDoc) (e : ESDoc)
    (he : e ∈ news.foldl esIndex es) : e ∈ es ∨ e ∈ news := by
  induction news generalizing es with
  | nil => exact Or.inl he
  | cons n rest ih =>
    rcases ih _ he with h | h
    · simp only [esIndex, List.mem_append, List.mem_filter, List.mem_singleton] at h
      rcases h with h | h
      · exact Or.inl h.1
      · exact Or.inr (h ▸ List.mem_cons_self _ _)
    · exact Or.inr (List.mem_cons_of_mem _ h)

theorem mem_esStoreChunks (env : Env) (es : List ESDoc) (docID : String) (chunks : List Document)
    (keywords : List String) (e : ESDoc)
    (he : e ∈ (ESIndexer.Store env es docID chunks keywords).1) : e ∈ es ∨ e.doc_id = docID := by
  unfold ESIndexer.Store at he
  split at he
  · rcases mem_foldl_esIndex _ _ _ he with h | h
    · exact Or.inl h
    · obtain ⟨c, _, rfl⟩ := List.mem_map.mp h
      exact Or.inr rfl
  · rcases mem_foldl_esIndex _ _ _ he with h | h
    · exact Or.inl h
    · obtain ⟨c, _, rfl⟩ := List.mem_map.mp h
      exact Or.inr rfl

theorem mem_DeleteByDocID (env : Env) (es : List ESDoc) (docID : String) (e : ESDoc)
    (he : e ∈ (ESIndexer.DeleteByDocID env es docID).1) : e ∈ es := by
  unfold ESIndexer.DeleteByDocID at he
  split at he
  · exact he
  · exact (List.mem_filter.mp he).1

theorem DeleteByDocID_ok (env : Env) (es : List ESDoc) (docID : String)
    (h : env.esDeleteFails docID = false) :
    ∀ e ∈ (ESIndexer.DeleteByDocID env es docID).1, e.doc_id ≠ docID := by
  intro e he
  simp only [ESIndexer.DeleteByDocID, h, Bool.false_eq_true, if_false, List.mem_filter] at he
  simpa using he.2

theorem enrichChunks_next (env : Env) (docID : String) (entity : ContractRawData) (amount : ℚ)
    (status : Int) (signDate endDate : Option Time) (chunks : List Document) (next : Nat) :
    next ≤ (enrichChunks env docID entity amount status signDate endDate chunks next).2 := by
  induction chunks generalizing next with
  | nil => simp [enrichChunks]
  | cons c rest ih =>
    simp only [enrichChunks]
    split
    · exact ih next
    · exact le_trans (Nat.le_succ next) (ih (next + 1))

theorem Stores.Extends.trans {d : String} {a b c : Stores} (h₁ : Stores.Extends d a b)
    (h₂ : Stores.Extends d b c) : Stores.Extends d a c := by
  refine ⟨?_, ?_, le_trans h₁.2.2 h₂.2.2⟩
  · intro x hx
    rcases h₂.1 x hx with h | h
    · exact h₁.1 x h
    · exact Or.inr h
  · intro x hx
    rcases h₂.2.1 x hx with h | h
    · exact h₁.2.1 x h
    · exact Or.inr h

theorem vectorStage_extends (env : Env) (st : Stores) (docID : String) (chunks : List Document) :
    Stores.Extends docID st (vectorStage env st docID chunks).2 := by
  simp only [vectorStage]
  split
  · refine ⟨?_, ?_, le_refl _⟩
    · intro c hc; exact Or.inl (mem_pgDelete _ _ _ _ hc)
    · intro e he; exact Or.inl (mem_DeleteByDocID _ _ _ _ he)
  · exact ⟨fun c hc => Or.inl hc, fun e he => Or.inl he, le_refl _⟩

theorem vectorStage_outcome (env : Env) (st : Stores) (docID : String) (chunks : List Document) :
    (vectorStage env st docID chunks).1 = Outcome.milvusFailed docID ∨
      (vectorStage env st docID chunks).1 = Outcome.done docID := by
  simp only [vectorStage]
  split
  · exact Or.inl rfl
  · exact Or.inr rfl

theorem vectorStage_clean (env : Env) (st : Stores) (docID : String) (chunks : List Document)
    (h : (vectorStage env st docID chunks).1 = Outcome.milvusFailed docID)
    (hpg : env.pgDeleteFails docID = false) (hes : env.esDeleteFails docID = false) :
    Stores.Clean docID (vectorStage env st docID chunks).2 := by
  simp only [vectorStage] at h ⊢
  split
  · exact ⟨pgDelete_ok env _ _ hpg, DeleteByDocID_ok env _ _ hes⟩
  · rename_i hv
    simp [hv] at h

theorem keywordStage_extends (env : Env) (st : Stores) (docID : String) (chunks : List Document)
    (keywords : List String) :
    Stores.Extends docID st (keywordStage env st docID chunks keywords).2 := by
  simp only [keywordStage]
  split
  · refine ⟨?_, ?_, le_refl _⟩
    · intro c hc; exact Or.inl (mem_pgDelete _ _ _ _ hc)
    · intro e he; exact mem_esStoreChunks _ _ _ _ _ _ he
  · refine Stores.Extends.trans ?_ (vectorStage_extends _ _ _ _)
    exact ⟨fun c hc => Or.inl hc, fun e he => mem_esStoreChunks _ _ _ _ _ _ he, le_refl _⟩

theorem keywordStage_outcome (env : Env) (st : Stores) (docID : String) (chunks : List Document)
    (keywords : List String) :
    (keywordStage env st docID chunks keywords).1 = Outcome.esFailed docID ∨
      (keywordStage env st docID chunks keywords).1 = Outcome.milvusFailed docID ∨
      (keywordStage env st docID chunks keywords).1 = Outcome.done docID := by
  simp only [keywordStage]
  split
  · exact Or.inl rfl
  · exact Or.inr (vectorStage_outcome _ _ _ _)

theorem keywordStage_clean (env : Env) (st : Stores) (docID : String) (chunks : List Document)
    (keywords : List String)
    (h : (keywordStage env st docID chunks keywords).1 = Outcome.milvusFailed docID)
    (hpg : env.pgDeleteFails docID = false) (hes : env.esDeleteFails docID = false) :
    Stores.Clean docID (keywordStage env st docID chunks keywords).2 := by
  simp only [keywordStage] at h ⊢
  split
  · rename_i hv
    simp [hv] at h
  · rename_i hv
    simp only [hv] at h
    exact vectorStage_clean _ _ _ _ h hpg hes

theorem chunkStage_extends (env : Env) (st : Stores) (doc : Document) (docID : String)
    (entity : ContractRawData) (amount : ℚ) (status : Int) (signDate endDate : Option Time) :
    Stores.Extends docID st
      (chunkStage env st doc docID entity amount status signDate endDate).2 := by
  simp only [chunkStage]
  split
  · exact ⟨fun c hc => Or.inl (mem_pgDelete _ _ _ _ hc), fun e he => Or.inl he, le_refl _⟩
  · split
    · exact ⟨fun c hc => Or.inl hc, fun e he => Or.inl he, le_refl _⟩
    · refine Stores.Extends.trans ?_ (keywordStage_extends _ _ _ _ _)
      exact ⟨fun c hc => Or.inl hc, fun e he => Or.inl he, enrichChunks_next _ _ _ _ _ _ _ _ _⟩

theorem chunkStage_clean (env : Env) (st : Stores) (doc : Document) (docID : String)
    (entity : ContractRawData) (amount : ℚ) (status : Int) (signDate endDate : Option Time)
    (h : (chunkStage env st doc docID entity amount status signDate endDate).1 =
      Outcome.milvusFailed docID)
    (hpg : env.pgDeleteFails docID = false) (hes : env.esDeleteFails docID = false) :
    Stores.Clean docID (chunkStage env st doc docID entity amount status signDate endDate).2 := by
  simp only [chunkStage] at h ⊢
  split
  · rename_i hv; simp [hv] at h
  · rename_i chunks hv
    simp only [hv] at h
    split
    · rename_i hl; simp [hl] at h
    · rename_i hl
      simp only [hl, if_false] at h
      exact keywordStage_clean _ _ _ _ _ h hpg hes

theorem keywordStage_docID (env : Env) (st : Stores) (docID : String) (chunks : List Document)
    (keywords : List String) :
    (keywordStage env st docID chunks keywords).1.docID = some docID := by
  rcases keywordStage_outcome env st docID chunks keywords with h | h | h <;>
    rw [h] <;> rfl

theorem chunkStage_docID (env : Env) (st : Stores) (doc : Document) (docID : String)
    (entity : ContractRawData) (amount : ℚ) (status : Int) (signDate endDate : Option Time) :
    (chunkStage env st doc docID entity amount status signDate endDate).1.docID = some docID := by
  simp only [chunkStage]
  split
  · rfl
  · split
    · rfl
    · exact keywordStage_docID _ _ _ _ _

theorem processDoc_extends (env : Env) (st : Stores) (doc : Document) :
    Stores.Extends (env.uuid st.uuids) st (processDoc env st doc).2 := by
  simp only [processDoc]
  split
  · exact ⟨fun c hc => Or.inl hc, fun e he => Or.inl he, le_refl _⟩
  · split
    · exact ⟨fun c hc => Or.inl hc, fun e he => Or.inl he, le_refl _⟩
    · split
      · exact ⟨fun c hc => Or.inl hc, fun e he => Or.inl he, Nat.le_succ _⟩
      · refine Stores.Extends.trans ?_ (chunkStage_extends _ _ _ _ _ _ _ _ _)
        refine ⟨?_, fun e he => Or.inl he, Nat.le_succ _⟩
        intro c hc
        rcases mem_pgCreate _ _ _ _ hc with h | h
        · exact Or.inl h
        · exact Or.inr (by rw [h])

theorem processDoc_docID (env : Env) (st : Stores) (doc : Document) (d : String)
    (h : (processDoc env st doc).1.docID = some d) :
    d = env.uuid st.uuids ∧ st.uuids < (processDoc env st doc).2.uuids := by
  simp only [processDoc] at h ⊢
  split
  · rename_i hv; simp [hv, Outcome.docID] at h
  · rename_i hv
    simp only [hv] at h
    split
    · rename_i hx; simp [hx, Outcome.docID] at h
    · rename_i entity hx
      simp only [hx] at h ⊢
      split
      · rename_i hc
        rw [if_pos hc] at h
        simp only [Outcome.docID, Option.some.injEq] at h
        exact ⟨h.symm, Nat.lt_succ_self _⟩
      · rename_i hc
        rw [if_neg hc] at h
        rw [chunkStage_docID] at h
        refine ⟨(Option.some.inj h).symm, ?_⟩
        have hle := (chunkStage_extends env
          { st with uuids := st.uuids + 1, pg := (ContractRepo.Create env st.pg
              { DocID := env.uuid st.uuids, FileName := fileNameOf doc, PartyA := entity.PartyA,
                PartyB := entity.PartyB, ContractType := entity.ContractType,
                ContractStatus := statusOf env (parseDateField env entity.EndDate),
                SignDate := parseDateField env entity.SignDate,
                EndDate := parseDateField env entity.EndDate,
                TotalAmount := amountOf env entity.TotalAmount, Summary := entity.Summary,
                CreatedAt := env.now, UpdatedAt := env.now }).1 }
          doc (env.uuid st.uuids) entity (amountOf env entity.TotalAmount)
          (statusOf env (parseDateField env entity.EndDate)) (parseDateField env entity.SignDate)
          (parseDateField env entity.EndDate)).2.2
        exact Nat.lt_of_succ_le hle

theorem processDoc_clean (env : Env) (st : Stores) (doc : Document) (d : String)
    (h : (processDoc env st doc).1 = Outcome.milvusFailed d)
    (hpg : env.pgDeleteFails d = false) (hes : env.esDeleteFails d = false) :
    Stores.Clean d (processDoc env st doc).2 := by
  have hid := (processDoc_docID env st doc d (by rw [h]; rfl)).1
  subst hid
  simp only [processDoc] at h ⊢
  split
  · rename_i hv; simp [hv] at h
  · rename_i hv
    simp only [hv] at h
    split
    · rename_i hx; simp [hx] at h
    · rename_i entity hx
      simp only [hx] at h ⊢
      split
      · rename_i hc
        rw [if_pos hc] at h
        exact Outcome.noConfusion h
      · rename_i hc
        rw [if_neg hc] at h
        exact chunkStage_clean _ _ _ _ _ _ _ _ _ h hpg hes

theorem uploadLoop_cons_done (env : Env) (doc : Document) (rest : List Document)
    (st st' : Stores) (docsID : List String) (trace : List Outcome) (id : String)
    (h : processDoc env st doc = (Outcome.done id, st')) :
    uploadLoop env (doc :: rest) st docsID trace =
      uploadLoop env rest st' (docsID ++ [id]) (trace ++ [Outcome.done id]) := by
  simp only [uploadLoop, h]

theorem uploadLoop_cons_esFailed (env : Env) (doc : Document) (rest : List Document)
    (st st' : Stores) (docsID : List String) (trace : List Outcome) (id : String)
    (h : processDoc env st doc = (Outcome.esFailed id, st')) :
    uploadLoop env (doc :: rest) st docsID trace =
      { docsID := [], err := true, stores := st', trace := trace ++ [Outcome.esFailed id] } := by
  simp only [uploadLoop, h]

theorem uploadLoop_cons_other (env : Env) (doc : Document) (rest : List Document)
    (st st' : Stores) (docsID : List String) (trace : List Outcome) (o : Outcome)
    (h : processDoc env st doc = (o, st'))
    (h₁ : ∀ id, o ≠ Outcome.done id) (h₂ : ∀ id, o ≠ Outcome.esFailed id) :
    uploadLoop env (doc :: rest) st docsID trace =
      uploadLoop env rest st' docsID (trace ++ [o]) := by
  cases o with
  | done id => exact absurd rfl (h₁ id)
  | esFailed id => exact absurd rfl (h₂ id)
  | _ => simp only [uploadLoop, h]

theorem Stores.Clean.of_extends {d d' : String} {st st' : Stores} (hc : Stores.Clean d st)
    (he : Stores.Extends d' st st') (hne : d' ≠ d) : Stores.Clean d st' := by
  refine ⟨?_, ?_⟩
  · intro c hcm
    rcases he.1 c hcm with h | h
    · exact hc.1 c h
    · rw [h]; exact hne
  · intro e hem
    rcases he.2.1 e hem with h | h
    · exact hc.2 e h
    · rw [h]; exact hne

theorem uploadLoop_compensated (env : Env) (huuid : Function.Injective env.uuid) (d : String)
    (hpg : env.pgDeleteFails d = false) (hes : env.esDeleteFails d = false)
    (docs : List Document) :
    ∀ (st : Stores) (docsID : List String) (trace : List Outcome),
      (∀ x ∈ docsID, ∃ j, j < st.uuids ∧ x = env.uuid j) →
      (Outcome.milvusFailed d ∈ trace →
        Stores.Clean d st ∧ (∃ k, k < st.uuids ∧ d = env.uuid k) ∧ d ∉ docsID) →
      Outcome.milvusFailed d ∈ (uploadLoop env docs st docsID trace).trace →
        Stores.Clean d (uploadLoop env docs st docsID trace).stores ∧
          d ∉ (uploadLoop env docs st docsID trace).docsID := by
  induction docs with
  | nil =>
    intro st docsID trace _ hold hin
    simp only [uploadLoop] at hin ⊢
    exact ⟨(hold hin).1, (hold hin).2.2⟩
  | cons doc rest ih =>
    intro st docsID trace hids hold hin
    have hext := processDoc_extends env st doc
    -- what the step does to a document settled earlier
    have holder : Outcome.milvusFailed d ∈ trace →
        Stores.Clean d (processDoc env st doc).2 ∧
          (∃ k, k < (processDoc env st doc).2.uuids ∧ d = env.uuid k) ∧
          d ≠ env.uuid st.uuids := by
      intro hmem
      obtain ⟨hclean, ⟨k, hk, hdk⟩, _⟩ := hold hmem
      have hne : env.uuid st.uuids ≠ d := by
        rw [hdk]
        intro heq
        exact absurd (huuid heq) (Nat.ne_of_gt hk)
      exact ⟨hclean.of_extends hext hne, ⟨k, lt_of_lt_of_le hk hext.2.2, hdk⟩, fun h => hne h.symm⟩
    have hids' : ∀ x ∈ docsID, ∃ j, j < (processDoc env st doc).2.uuids ∧ x = env.uuid j := by
      intro x hx
      obtain ⟨j, hj, hxj⟩ := hids x hx
      exact ⟨j, lt_of_lt_of_le hj hext.2.2, hxj⟩
    cases hstep : processDoc env st doc with
    | mk o st' =>
      rw [hstep] at holder hids' hext
      simp only at holder hids' hext
      by_cases hdone : ∃ id, o = Outcome.done id
      · obtain ⟨id, rfl⟩ := hdone
        have hid := processDoc_docID env st doc id (by rw [hstep]; rfl)
        rw [hstep] at hid
        rw [uploadLoop_cons_done env doc rest st st' docsID trace id hstep] at hin ⊢
        refine ih st' (docsID ++ [id]) (trace ++ [Outcome.done id]) ?_ ?_ hin
        · intro x hx
          rcases List.mem_append.mp hx with hx | hx
          · exact hids' x hx
          · simp only [List.mem_singleton] at hx
            exact ⟨st.uuids, hid.2, hx.trans hid.1⟩
        · intro hmem
          have hmem' : Outcome.milvusFailed d ∈ trace := by
            rcases List.mem_append.mp hmem with h | h
            · exact h
            · simp at h
          obtain ⟨hc, hk, hne⟩ := holder hmem'
          refine ⟨hc, hk, ?_⟩
          intro hd
          rcases List.mem_append.mp hd with h | h
          · exact (hold hmem').2.2 h
          · simp only [List.mem_singleton] at h
            exact hne (h.trans hid.1)
      · by_cases hesf : ∃ id, o = Outcome.esFailed id
        · obtain ⟨id, rfl⟩ := hesf
          rw [uploadLoop_cons_esFailed env doc rest st st' docsID trace id hstep] at hin ⊢
          simp only at hin ⊢
          have hmem' : Outcome.milvusFailed d ∈ trace := by
            rcases List.mem_append.mp hin with h | h
            · exact h
            · simp at h
          exact ⟨(holder hmem').1, by simp⟩
        · have h₁ : ∀ id, o ≠ Outcome.done id := fun id h => hdone ⟨id, h⟩
          have h₂ : ∀ id, o ≠ Outcome.esFailed id := fun id h => hesf ⟨id, h⟩
          rw [uploadLoop_cons_other env doc rest st st' docsID trace o hstep h₁ h₂] at hin ⊢
          refine ih st' docsID (trace ++ [o]) hids' ?_ hin
          intro hmem
          rcases List.mem_append.mp hmem with h | h
          · obtain ⟨hc, hk, _⟩ := holder h
            exact ⟨hc, hk, (hold h).2.2⟩
          · simp only [List.mem_singleton] at h
            subst h
            have hid := processDoc_docID env st doc d (by rw [hstep]; rfl)
            have hclean := processDoc_clean env st doc d (by rw [hstep]) hpg hes
            rw [hstep] at hid hclean
            refine ⟨hclean, ⟨st.uuids, hid.2, hid.1⟩, ?_⟩
            intro hd
            obtain ⟨j, hj, hdj⟩ := hids d hd
            rw [hid.1] at hdj
            exact absurd (huuid hdj) (Nat.ne_of_gt hj)

/-- C7: when the vector-store write (stage S5) fails for a document with ID `docID` and the
two compensating deletes for that ID succeed, then after `UploadAndProcess` has returned
the relational store holds no row with that `doc_id`, the keyword store holds no entry
with that `doc_id`, and the ID is not among the returned ones.  UUIDs are taken to be
fresh (`uuid` is injective). -/
theorem C7_vector_failure_compensated (env : Env) (fileHeader : UploadedFile) (st : Stores)
    (docID : String) (huuid : Function.Injective env.uuid)
    (hfail : Outcome.milvusFailed docID ∈ (ContractService.UploadAndProcess env fileHeader st).trace)
    (hpg : env.pgDeleteFails docID = false) (hes : env.esDeleteFails docID = false) :
    (∀ c ∈ (ContractService.UploadAndProcess env fileHeader st).stores.pg, c.DocID ≠ docID) ∧
    (∀ e ∈ (ContractService.UploadAndProcess env fileHeader st).stores.es, e.doc_id ≠ docID) ∧
    docID ∉ (ContractService.UploadAndProcess env fileHeader st).docsID := by
  unfold ContractService.UploadAndProcess at hfail ⊢
  cases hp : fileHeader.parsed with
  | none => simp [hp] at hfail
  | some docs =>
    simp only [hp] at hfail ⊢
    have h := uploadLoop_compensated env huuid docID hpg hes _ st [] []
      (by simp) (by simp) hfail
    exact ⟨h.1.1, h.1.2, h.2⟩

theorem fileNameOf_set (doc : Document) (f : String) :
    fileNameOf { doc with MetaData := doc.MetaData.set MetaKeyFileName (MetaValue.str f) } = f := by
  simp [fileNameOf, MetaData.get_set_self]

theorem GetByFileName_of_mem (env : Env) (pg : List Contract) (f : String)
    (hget : env.pgGetFails f = false) (h : ∃ c ∈ pg, c.FileName = f) :
    ∃ c, ContractRepo.GetByFileName env pg f = (some c, false) := by
  obtain ⟨c, hc, hf⟩ := h
  have : (pg.find? (fun c => decide (c.FileName = f))).isSome := by
    rw [List.find?_isSome]
    exact ⟨c, hc, by simp [hf]⟩
  obtain ⟨c', hc'⟩ := Option.isSome_iff_exists.mp this
  exact ⟨c', by simp only [ContractRepo.GetByFileName, hget, hc', Bool.false_eq_true, if_false]⟩

theorem GetByFileName_of_failure (env : Env) (pg : List Contract) (f : String)
    (hget : env.pgGetFails f = true) : ContractRepo.GetByFileName env pg f = (none, true) := by
  simp only [ContractRepo.GetByFileName, hget, if_true]

theorem countFileName_of_none (env : Env) (pg : List Contract) (f : String)
    (hget : env.pgGetFails f = false)
    (h : (ContractRepo.GetByFileName env pg f).1 = none) : countFileName f pg = 0 := by
  simp only [ContractRepo.GetByFileName, hget, Bool.false_eq_true, if_false] at h
  have hfind : pg.find? (fun c => decide (c.FileName = f)) = none := by
    cases hf : pg.find? (fun c => decide (c.FileName = f)) with
    | none => rfl
    | some c =>
      rw [hf] at h
      cases h
  rw [List.find?_eq_none] at hfind
  unfold countFileName
  rw [List.length_eq_zero, List.filter_eq_nil_iff]
  exact hfind

theorem processDoc_duplicate (env : Env) (st : Stores) (doc : Document)
    (hget : env.pgGetFails (fileNameOf doc) = false)
    (h : ∃ c ∈ st.pg, c.FileName = fileNameOf doc) :
    processDoc env st doc = (Outcome.duplicate, st) := by
  obtain ⟨c, hc⟩ := GetByFileName_of_mem env _ _ hget h
  simp only [processDoc, hc]

theorem uploadLoop_duplicates (env : Env) (f : String) (docs : List Document)
    (hget : env.pgGetFails f = false) :
    ∀ (st : Stores) (docsID : List String) (trace : List Outcome),
      (∀ doc ∈ docs, fileNameOf doc = f) → (∃ c ∈ st.pg, c.FileName = f) →
      uploadLoop env docs st docsID trace =
        { docsID := docsID, err := false, stores := st,
          trace := trace ++ docs.map (fun _ => Outcome.duplicate) } := by
  induction docs with
  | nil => intro st docsID trace _ _; simp [uploadLoop]
  | cons doc rest ih =>
    intro st docsID trace hname hex
    have hdup := processDoc_duplicate env st doc
      (by rw [hname doc (List.mem_cons_self _ _)]; exact hget)
      (by rw [hname doc (List.mem_cons_self _ _)]; exact hex)
    rw [uploadLoop_cons_other env doc rest st st docsID trace Outcome.duplicate hdup
      (fun _ h => Outcome.noConfusion h) (fun _ h => Outcome.noConfusion h)]
    rw [ih st docsID _ (fun d hd => hname d (List.mem_cons_of_mem _ hd)) hex]
    simp

theorem vectorStage_pg (env : Env) (st : Stores) (docID : String) (chunks : List Document) :
    (vectorStage env st docID chunks).2.pg.Sublist st.pg ∧
      ((vectorStage env st docID chunks).1 = Outcome.done docID →
        (vectorStage env st docID chunks).2.pg = st.pg) := by
  simp only [vectorStage]
  split
  · refine ⟨?_, fun h => Outcome.noConfusion h⟩
    simp only [ContractRepo.Delete]
    split
    · exact List.Sublist.refl _
    · exact List.filter_sublist _
  · exact ⟨List.Sublist.refl _, fun _ => rfl⟩

theorem pgDelete_sublist (env : Env) (pg : List Contract) (id : String) :
    (ContractRepo.Delete env pg id).1.Sublist pg := by
  simp only [ContractRepo.Delete]
  split
  · exact List.Sublist.refl _
  · exact List.filter_sublist _

theorem keywordStage_pg (env : Env) (st : Stores) (docID : String) (chunks : List Document)
    (keywords : List String) :
    (keywordStage env st docID chunks keywords).2.pg.Sublist st.pg ∧
      ((keywordStage env st docID chunks keywords).1 = Outcome.done docID →
        (keywordStage env st docID chunks keywords).2.pg = st.pg) := by
  simp only [keywordStage]
  split
  · exact ⟨pgDelete_sublist _ _ _, fun h => Outcome.noConfusion h⟩
  · exact vectorStage_pg env _ docID chunks

theorem chunkStage_pg (env : Env) (st : Stores) (doc : Document) (docID : String)
    (entity : ContractRawData) (amount : ℚ) (status : Int) (signDate endDate : Option Time) :
    (chunkStage env st doc docID entity amount status signDate endDate).2.pg.Sublist st.pg ∧
      ((chunkStage env st doc docID entity amount status signDate endDate).1 =
          Outcome.done docID →
        (chunkStage env st doc docID entity amount status signDate endDate).2.pg = st.pg) := by
  simp only [chunkStage]
  split
  · exact ⟨pgDelete_sublist _ _ _, fun h => Outcome.noConfusion h⟩
  · split
    · exact ⟨List.Sublist.refl _, fun _ => rfl⟩
    · exact keywordStage_pg env _ docID _ entity.Keywords

theorem processDoc_pg (env : Env) (st : Stores) (doc : Document) :
    (∃ cs : List Contract, cs.length ≤ 1 ∧ (processDoc env st doc).2.pg.Sublist (st.pg ++ cs)) ∧
    (∀ id, (processDoc env st doc).1 = Outcome.done id →
      ∃ c ∈ (processDoc env st doc).2.pg, c.FileName = fileNameOf doc) := by
  simp only [processDoc]
  split
  · exact ⟨⟨[], by simp, by simp⟩, fun _ h => Outcome.noConfusion h⟩
  · split
    · exact ⟨⟨[], by simp, by simp⟩, fun _ h => Outcome.noConfusion h⟩
    · rename_i entity _
      split
      · exact ⟨⟨[], by simp, by simp⟩, fun _ h => Outcome.noConfusion h⟩
      · rename_i hc
        have hcreated := pgCreate_ok env _ _ (by simpa using hc)
        have hstage := chunkStage_pg env
          { st with uuids := st.uuids + 1, pg := (ContractRepo.Create env st.pg
              { DocID := env.uuid st.uuids, FileName := fileNameOf doc, PartyA := entity.PartyA,
                PartyB := entity.PartyB, ContractType := entity.ContractType,
                ContractStatus := statusOf env (parseDateField env entity.EndDate),
                SignDate := parseDateField env entity.SignDate,
                EndDate := parseDateField env entity.EndDate,
                TotalAmount := amountOf env entity.TotalAmount, Summary := entity.Summary,
                CreatedAt := env.now, UpdatedAt := env.now }).1 }
          doc (env.uuid st.uuids) entity (amountOf env entity.TotalAmount)
          (statusOf env (parseDateField env entity.EndDate)) (parseDateField env entity.SignDate)
          (parseDateField env entity.EndDate)
        simp only [hcreated] at hstage
        simp only [hcreated]
        refine ⟨⟨_, by simp, hstage.1⟩, ?_⟩
        intro id hid
        have hdocid := chunkStage_docID env
          { st with uuids := st.uuids + 1, pg := st.pg ++ [
              { DocID := env.uuid st.uuids, FileName := fileNameOf doc, PartyA := entity.PartyA,
                PartyB := entity.PartyB, ContractType := entity.ContractType,
                ContractStatus := statusOf env (parseDateField env entity.EndDate),
                SignDate := parseDateField env entity.SignDate,
                EndDate := parseDateField env entity.EndDate,
                TotalAmount := amountOf env entity.TotalAmount, Summary := entity.Summary,
                CreatedAt := env.now, UpdatedAt := env.now }] }
          doc (env.uuid st.uuids) entity (amountOf env entity.TotalAmount)
          (statusOf env (parseDateField env entity.EndDate)) (parseDateField env entity.SignDate)
          (parseDateField env entity.EndDate)
        rw [hid] at hdocid
        simp only [Outcome.docID, Option.some.injEq] at hdocid
        subst hdocid
        rw [hstage.2 hid]
        exact ⟨_, List.mem_append_right _ (List.mem_singleton_self _), rfl⟩

theorem countFileName_processDoc (env : Env) (st : Stores) (doc : Document)
    (hlookup : env.pgGetFails (fileNameOf doc) = false)
    (h : countFileName (fileNameOf doc) st.pg ≤ 1) :
    countFileName (fileNameOf doc) (processDoc env st doc).2.pg ≤ 1 := by
  cases hget : (ContractRepo.GetByFileName env st.pg (fileNameOf doc)).1 with
  | some c =>
    simp only [processDoc, hget]
    exact h
  | none =>
    have hzero := countFileName_of_none env _ _ hlookup hget
    obtain ⟨⟨cs, hcs, hsub⟩, _⟩ := processDoc_pg env st doc
    have hle := (hsub.filter (fun c => decide (c.FileName = fileNameOf doc))).length_le
    unfold countFileName at hzero ⊢
    rw [List.filter_append, List.length_append, hzero] at hle
    refine le_trans hle ?_
    rw [Nat.zero_add]
    exact le_trans (List.length_filter_le _ _) hcs

theorem uploadLoop_count (env : Env) (f : String) (docs : List Document)
    (hget : env.pgGetFails f = false) :
    ∀ (st : Stores) (docsID : List String) (trace : List Outcome),
      (∀ doc ∈ docs, fileNameOf doc = f) → countFileName f st.pg ≤ 1 →
      countFileName f (uploadLoop env docs st docsID trace).stores.pg ≤ 1 := by
  induction docs with
  | nil => intro st docsID trace _ h; simpa [uploadLoop] using h
  | cons doc rest ih =>
    intro st docsID trace hname hcnt
    have hstep := countFileName_processDoc env st doc
      (by rw [hname doc (List.mem_cons_self _ _)]; exact hget)
      (by rw [hname doc (List.mem_cons_self _ _)]; exact hcnt)
    rw [hname doc (List.mem_cons_self _ _)] at hstep
    have hrest : ∀ d ∈ rest, fileNameOf d = f := fun d hd => hname d (List.mem_cons_of_mem _ hd)
    cases hp : processDoc env st doc with
    | mk o st' =>
      rw [hp] at hstep
      by_cases hdone : ∃ id, o = Outcome.done id
      · obtain ⟨id, rfl⟩ := hdone
        rw [uploadLoop_cons_done env doc rest st st' docsID trace id hp]
        exact ih _ _ _ hrest hstep
      · by_cases hesf : ∃ id, o = Outcome.esFailed id
        · obtain ⟨id, rfl⟩ := hesf
          rw [uploadLoop_cons_esFailed env doc rest st st' docsID trace id hp]
          exact hstep
        · rw [uploadLoop_cons_other env doc rest st st' docsID trace o hp
            (fun id h => hdone ⟨id, h⟩) (fun id h => hesf ⟨id, h⟩)]
          exact ih _ _ _ hrest hstep

theorem uploadLoop_stored (env : Env) (f : String) (docs : List Document)
    (hget : env.pgGetFails f = false) :
    ∀ (st : Stores) (docsID : List String) (trace : List Outcome),
      (∀ doc ∈ docs, fileNameOf doc = f) →
      (docsID ≠ [] → ∃ c ∈ st.pg, c.FileName = f) →
      (uploadLoop env docs st docsID trace).docsID ≠ [] →
      ∃ c ∈ (uploadLoop env docs st docsID trace).stores.pg, c.FileName = f := by
  induction docs with
  | nil => intro st docsID trace _ h hne; exact h (by simpa [uploadLoop] using hne)
  | cons doc rest ih =>
    intro st docsID trace hname hinv hne
    have hrest : ∀ d ∈ rest, fileNameOf d = f := fun d hd => hname d (List.mem_cons_of_mem _ hd)
    have hf := hname doc (List.mem_cons_self _ _)
    cases hp : processDoc env st doc with
    | mk o st' =>
      by_cases hdone : ∃ id, o = Outcome.done id
      · obtain ⟨id, rfl⟩ := hdone
        rw [uploadLoop_cons_done env doc rest st st' docsID trace id hp] at hne ⊢
        refine ih _ _ _ hrest ?_ hne
        intro _
        obtain ⟨c, hc, hcf⟩ := (processDoc_pg env st doc).2 id (by rw [hp])
        rw [hp] at hc
        exact ⟨c, hc, hcf.trans hf⟩
      · by_cases hesf : ∃ id, o = Outcome.esFailed id
        · obtain ⟨id, rfl⟩ := hesf
          rw [uploadLoop_cons_esFailed env doc rest st st' docsID trace id hp] at hne
          exact absurd rfl hne
        · rw [uploadLoop_cons_other env doc rest st st' docsID trace o hp
            (fun id h => hdone ⟨id, h⟩) (fun id h => hesf ⟨id, h⟩)] at hne ⊢
          refine ih _ _ _ hrest ?_ hne
          intro hd
          have hex := hinv hd
          have hdup := processDoc_duplicate env st doc (by rw [hf]; exact hget)
            (by rw [hf]; exact hex)
          rw [hp] at hdup
          rw [(Prod.mk.inj hdup).2]
          exact hex

/-- Idempotence of the upload when the lookup by file name does not fail: when the
relational store already holds a row with the file's name, `UploadAndProcess` on a file
that parses leaves all three stores as they were, returns no document ID and no error,
and every document of the file ends as a duplicate.  Hence a second upload of a file name
whose first upload returned a document ID changes nothing, and the relational store then
holds exactly one row with that file name. -/
theorem upload_idempotent_of_lookup (env₁ env₂ : Env) (fileHeader : UploadedFile)
    (docs : List Document) (st : Stores) (hparsed : fileHeader.parsed = some docs)
    (hget₁ : env₁.pgGetFails fileHeader.Filename = false)
    (hget₂ : env₂.pgGetFails fileHeader.Filename = false) :
    ((∃ c ∈ st.pg, c.FileName = fileHeader.Filename) →
      (ContractService.UploadAndProcess env₁ fileHeader st).stores = st ∧
      (ContractService.UploadAndProcess env₁ fileHeader st).docsID = [] ∧
      (ContractService.UploadAndProcess env₁ fileHeader st).err = false ∧
      ∀ o ∈ (ContractService.UploadAndProcess env₁ fileHeader st).trace, o = Outcome.duplicate) ∧
    ((∀ c ∈ st.pg, c.FileName ≠ fileHeader.Filename) →
      (ContractService.UploadAndProcess env₁ fileHeader st).docsID ≠ [] →
      (ContractService.UploadAndProcess env₂ fileHeader (ContractService.UploadAndProcess env₁ fileHeader st).stores).stores =
        (ContractService.UploadAndProcess env₁ fileHeader st).stores ∧
      (ContractService.UploadAndProcess env₂ fileHeader (ContractService.UploadAndProcess env₁ fileHeader st).stores).docsID = [] ∧
      (ContractService.UploadAndProcess env₂ fileHeader (ContractService.UploadAndProcess env₁ fileHeader st).stores).err = false ∧
      countFileName fileHeader.Filename
        (ContractService.UploadAndProcess env₂ fileHeader (ContractService.UploadAndProcess env₁ fileHeader st).stores).stores.pg
        = 1) := by
  have hnames : ∀ doc ∈ docs.map (fun doc : Document =>
      { doc with MetaData := doc.MetaData.set MetaKeyFileName (MetaValue.str fileHeader.Filename) }),
      fileNameOf doc = fileHeader.Filename := by
    intro doc hdoc
    obtain ⟨d, _, rfl⟩ := List.mem_map.mp hdoc
    exact fileNameOf_set d _
  have hnoop : ∀ (env : Env) (s : Stores), env.pgGetFails fileHeader.Filename = false →
      (∃ c ∈ s.pg, c.FileName = fileHeader.Filename) →
      (ContractService.UploadAndProcess env fileHeader s).stores = s ∧
      (ContractService.UploadAndProcess env fileHeader s).docsID = [] ∧
      (ContractService.UploadAndProcess env fileHeader s).err = false ∧
      ∀ o ∈ (ContractService.UploadAndProcess env fileHeader s).trace, o = Outcome.duplicate := by
    intro env s hget hex
    simp only [ContractService.UploadAndProcess, hparsed]
    rw [uploadLoop_duplicates env fileHeader.Filename _ hget s [] [] hnames hex]
    refine ⟨rfl, rfl, rfl, ?_⟩
    intro o ho
    simp only [List.nil_append, List.mem_map] at ho
    obtain ⟨_, _, rfl⟩ := ho
    rfl
  refine ⟨hnoop env₁ st hget₁, ?_⟩
  intro hfresh hids
  have hex : ∃ c ∈ (ContractService.UploadAndProcess env₁ fileHeader st).stores.pg,
      c.FileName = fileHeader.Filename := by
    simp only [ContractService.UploadAndProcess, hparsed] at hids ⊢
    exact uploadLoop_stored env₁ fileHeader.Filename _ hget₁ st [] [] hnames
      (fun h => absurd rfl h) hids
  have hcount : countFileName fileHeader.Filename (ContractService.UploadAndProcess env₁ fileHeader st).stores.pg
      ≤ 1 := by
    simp only [ContractService.UploadAndProcess, hparsed]
    refine uploadLoop_count env₁ fileHeader.Filename _ hget₁ st [] [] hnames ?_
    have : countFileName fileHeader.Filename st.pg = 0 := by
      unfold countFileName
      rw [List.length_eq_zero, List.filter_eq_nil_iff]
      intro c hc
      simpa using hfresh c hc
    omega
  obtain ⟨h1, h2, h3, _⟩ := hnoop env₂ _ hget₂ hex
  refine ⟨h1, h2, h3, ?_⟩
  rw [h1]
  have hpos : 0 < countFileName fileHeader.Filename
      (ContractService.UploadAndProcess env₁ fileHeader st).stores.pg := by
    obtain ⟨c, hc, hcf⟩ := hex
    unfold countFileName
    exact List.length_pos_of_mem (List.mem_filter.mpr ⟨hc, by simp [hcf]⟩)
  omega

theorem unaryUUID_injective : Function.Injective unaryUUID := by
  intro a b h
  have := congrArg String.length h
  simpa [unaryUUID, String.length] using this

/-- C7 at the sample file with a failing vector-store write: the document drew the ID `u`,
and afterwards neither store holds anything under `u` and no ID is returned. -/
theorem C7_vector_failure_compensated_witness :
    Function.Injective vectorFailEnv.uuid ∧
    Outcome.milvusFailed "u" ∈ (ContractService.UploadAndProcess vectorFailEnv sampleFile emptyStores).trace ∧
    vectorFailEnv.pgDeleteFails "u" = false ∧ vectorFailEnv.esDeleteFails "u" = false ∧
    (∀ c ∈ (ContractService.UploadAndProcess vectorFailEnv sampleFile emptyStores).stores.pg, c.DocID ≠ "u") ∧
    (∀ e ∈ (ContractService.UploadAndProcess vectorFailEnv sampleFile emptyStores).stores.es, e.doc_id ≠ "u") ∧
    "u" ∉ (ContractService.UploadAndProcess vectorFailEnv sampleFile emptyStores).docsID :=
  ⟨unaryUUID_injective, by decide, rfl, rfl,
    C7_vector_failure_compensated vectorFailEnv sampleFile emptyStores "u" unaryUUID_injective
      (by decide) rfl rfl⟩

/-- C8, the code at the failing input: the splitter returns one chunk that is blank after
cleaning.  The row inserted at stage S2 is still in the relational store when
`UploadAndProcess` returns, and the keyword store holds no chunk for it; the delete that
the splitter-error branch performs is missing on this branch. -/
theorem C8_blank_chunks_leave_record :
    (ContractService.UploadAndProcess blankChunkEnv sampleFile emptyStores).trace = [Outcome.emptyChunks "u"] ∧
    (ContractService.UploadAndProcess blankChunkEnv sampleFile emptyStores).stores.pg.map Contract.DocID = ["u"] ∧
    (ContractService.UploadAndProcess blankChunkEnv sampleFile emptyStores).stores.es = [] ∧
    (ContractService.UploadAndProcess blankChunkEnv sampleFile emptyStores).docsID = [] ∧
    (ContractService.UploadAndProcess blankChunkEnv sampleFile emptyStores).err = false ∧
    blankChunkEnv.pgDeleteFails "u" = false := by
  decide

/-- The sample file uploaded twice with a working lookup: the first upload into empty
stores returns an ID, and the second upload changes nothing and leaves one row named
`a.pdf`. -/
theorem upload_idempotent_of_lookup_witness :
    sampleFile.parsed = some [{ ID := "", Content := "supply contract", MetaData := [] }] ∧
    (ContractService.UploadAndProcess sampleEnv sampleFile
        (ContractService.UploadAndProcess sampleEnv sampleFile emptyStores).stores).stores =
      (ContractService.UploadAndProcess sampleEnv sampleFile emptyStores).stores ∧
    (ContractService.UploadAndProcess sampleEnv sampleFile
        (ContractService.UploadAndProcess sampleEnv sampleFile emptyStores).stores).docsID = [] ∧
    (ContractService.UploadAndProcess sampleEnv sampleFile
        (ContractService.UploadAndProcess sampleEnv sampleFile emptyStores).stores).err = false ∧
    countFileName sampleFile.Filename
      (ContractService.UploadAndProcess sampleEnv sampleFile
        (ContractService.UploadAndProcess sampleEnv sampleFile emptyStores).stores).stores.pg = 1 :=
  ⟨rfl, (upload_idempotent_of_lookup sampleEnv sampleEnv sampleFile _ emptyStores rfl rfl rfl).2
    (by decide) (by decide)⟩

/-- C10, the code at the failing input: one uploaded file whose metadata extraction fails
(and likewise one whose vector-store write fails).  `UploadAndProcess` returns no ID and a
nil error, so `Upload` answers with success, no document ID and an empty `fail_files`. -/
theorem C10_failed_file_not_reported :
    (ContractService.UploadAndProcess extractFailEnv sampleFile emptyStores).trace = [Outcome.extractFailed] ∧
    (ContractService.UploadAndProcess extractFailEnv sampleFile emptyStores).err = false ∧
    (ContractHandler.Upload extractFailEnv (some [sampleFile]) emptyStores).1 = UploadResponse.success [] 0 [] ∧
    (ContractService.UploadAndProcess vectorFailEnv sampleFile emptyStores).trace = [Outcome.milvusFailed "u"] ∧
    (ContractHandler.Upload vectorFailEnv (some [sampleFile]) emptyStores).1 = UploadResponse.success [] 0 [] := by
  decide

/-- C11, the code at a failing keyword-store write (stage S4): whatever documents remain
and whatever IDs were collected before, the loop stops there and `UploadAndProcess`
returns `nil` and the error; the remaining documents are not processed and the IDs of
the documents that succeeded before are not returned. -/
theorem C11_keyword_failure_aborts_batch (env : Env) (doc : Document) (rest : List Document)
    (st st' : Stores) (docsID : List String) (trace : List Outcome) (docID : String)
    (h : processDoc env st doc = (Outcome.esFailed docID, st')) :
    uploadLoop env (doc :: rest) st docsID trace =
      { docsID := [], err := true, stores := st', trace := trace ++ [Outcome.esFailed docID] } := by
  simp only [uploadLoop, h]

/-- C11 at the file `b.pdf` of two documents, the keyword-store write failing for the
first: the call returns no ID and an error after the first document, although the second
document, processed from the stores the call leaves behind, is ingested; with the
vector-store write failing instead, the second document is processed and its ID returned. -/
theorem C11_keyword_failure_aborts_batch_witness :
    processDoc keywordFailFirstEnv emptyStores
        { ID := "", Content := "first part", MetaData := [(MetaKeyFileName, MetaValue.str "b.pdf")] } =
      (Outcome.esFailed "u", { pg := [], es := [], milvus := [], uuids := 2 }) ∧
    uploadLoop keywordFailFirstEnv
        [{ ID := "", Content := "first part", MetaData := [(MetaKeyFileName, MetaValue.str "b.pdf")] },
          { ID := "", Content := "second part", MetaData := [(MetaKeyFileName, MetaValue.str "b.pdf")] }]
        emptyStores [] [] =
      { docsID := [], err := true, stores := { pg := [], es := [], milvus := [], uuids := 2 },
        trace := [Outcome.esFailed "u"] } ∧
    (ContractService.UploadAndProcess keywordFailFirstEnv twoDocFile emptyStores).docsID = [] ∧
    (ContractService.UploadAndProcess keywordFailFirstEnv twoDocFile emptyStores).err = true ∧
    (ContractService.UploadAndProcess keywordFailFirstEnv twoDocFile emptyStores).trace =
      [Outcome.esFailed "u"] ∧
    (processDoc keywordFailFirstEnv
        (ContractService.UploadAndProcess keywordFailFirstEnv twoDocFile emptyStores).stores
        { ID := "", Content := "second part",
          MetaData := [(MetaKeyFileName, MetaValue.str "b.pdf")] }).1 = Outcome.done "uuu" ∧
    (ContractService.UploadAndProcess vectorFailFirstEnv twoDocFile emptyStores).trace =
      [Outcome.milvusFailed "u", Outcome.done "uuu"] ∧
    (ContractService.UploadAndProcess vectorFailFirstEnv twoDocFile emptyStores).docsID = ["uuu"] :=
  ⟨by decide,
    C11_keyword_failure_aborts_batch keywordFailFirstEnv _ _ emptyStores _ [] [] "u"
      (by decide),
    by decide, by decide, by decide, by decide, by decide, by decide⟩

/-- C12: when the model answers and the recovered, repaired text does not decode,
`AnalyzeQuery` returns no error and the intent of kind `HY` whose semantic query is the
query itself, with no filter of any kind and no keyword. -/
theorem C12_undecodable_gives_fallback (unmarshal : String → Option SearchIntent)
    (query content : String) (chatModel : String → Option String)
    (hresp : chatModel query = some content)
    (hdec : unmarshal (String.mk
      (replaceAll filtersArray filtersObject (recoverJSON content.data) 0)) = none) :
    AnalyzeQuery unmarshal query chatModel =
      some { Intent := HY,
             Filters := { AnyParty := [], PartyA := "", PartyB := "", ContractType := "",
                          Status := "", DateRange := none, AmountRange := none },
             SemanticQuery := query, Keywords := [] } := by
  simp only [AnalyzeQuery, hresp, hdec, fallbackIntent, FilterConditions.zero, HY]

/-- C12 with the decoder of `encoding/json`, at an answer in prose. -/
theorem C12_undecodable_gives_fallback_witness :
    jsonUnmarshalIntent (String.mk (replaceAll filtersArray filtersObject
      (recoverJSON "Sorry, I cannot help with that.".data) 0)) = none ∧
    AnalyzeQuery jsonUnmarshalIntent "合同 2024" (fun _ => some "Sorry, I cannot help with that.") =
      some { Intent := "hybrid",
             Filters := { AnyParty := [], PartyA := "", PartyB := "", ContractType := "",
                          Status := "", DateRange := none, AmountRange := none },
             SemanticQuery := "合同 2024", Keywords := [] } :=
  ⟨by decide,
    C12_undecodable_gives_fallback jsonUnmarshalIntent "合同 2024" "Sorry, I cannot help with that."
      (fun _ => some "Sorry, I cannot help with that.") rfl (by decide)⟩

/-- C15: when the model answers and the recovered, repaired text decodes to `intent`,
`AnalyzeQuery` returns no error and an intent with the decoded filters, semantic query and
keywords, whose kind is `HY` when the decoded kind is empty (the key `intent` missing, null
or the empty string) and the decoded kind otherwise. -/
theorem C15_missing_kind_defaults_to_hybrid (unmarshal : String → Option SearchIntent)
    (query content : String) (chatModel : String → Option String) (intent : SearchIntent)
    (hresp : chatModel query = some content)
    (hdec : unmarshal (String.mk
      (replaceAll filtersArray filtersObject (recoverJSON content.data) 0)) = some intent) :
    (intent.Intent = "" →
      AnalyzeQuery unmarshal query chatModel =
        some { Intent := HY, Filters := intent.Filters, SemanticQuery := intent.SemanticQuery,
               Keywords := intent.Keywords }) ∧
    (intent.Intent ≠ "" → AnalyzeQuery unmarshal query chatModel = some intent) := by
  constructor
  · intro h
    simp only [AnalyzeQuery, hresp, hdec, h, HY, if_true]
  · intro h
    simp only [AnalyzeQuery, hresp, hdec, if_neg h]

/-- C15 with the decoder of `encoding/json`: an answer without the key `intent` gets the
kind `hybrid` and keeps its filters, semantic query and keywords; an answer with the kind
`structured_only` is returned as decoded. -/
theorem C15_missing_kind_defaults_to_hybrid_witness :
    jsonUnmarshalIntent (String.mk (replaceAll filtersArray filtersObject (recoverJSON
        "\x7b\"filters\": \x7b\"party_a\": \"Acme\"\x7d, \"semantic_query\": \"supply\", \"keywords\": [\"parts\"]\x7d".data) 0)) =
      some { Intent := "",
             Filters := { AnyParty := [], PartyA := "Acme", PartyB := "", ContractType := "",
                          Status := "", DateRange := none, AmountRange := none },
             SemanticQuery := "supply", Keywords := ["parts"] } ∧
    AnalyzeQuery jsonUnmarshalIntent "q" (fun _ => some
        "\x7b\"filters\": \x7b\"party_a\": \"Acme\"\x7d, \"semantic_query\": \"supply\", \"keywords\": [\"parts\"]\x7d") =
      some { Intent := "hybrid",
             Filters := { AnyParty := [], PartyA := "Acme", PartyB := "", ContractType := "",
                          Status := "", DateRange := none, AmountRange := none },
             SemanticQuery := "supply", Keywords := ["parts"] } ∧
    AnalyzeQuery jsonUnmarshalIntent "q" (fun _ => some
        "\x7b\"intent\": \"structured_only\", \"filters\": \x7b\"party_a\": \"Acme\"\x7d\x7d") =
      some { Intent := "structured_only",
             Filters := { AnyParty := [], PartyA := "Acme", PartyB := "", ContractType := "",
                          Status := "", DateRange := none, AmountRange := none },
             SemanticQuery := "", Keywords := [] } :=
  ⟨by decide,
    (C15_missing_kind_defaults_to_hybrid jsonUnmarshalIntent "q" _ (fun _ => some
        "\x7b\"filters\": \x7b\"party_a\": \"Acme\"\x7d, \"semantic_query\": \"supply\", \"keywords\": [\"parts\"]\x7d")
      { Intent := "",
        Filters := { AnyParty := [], PartyA := "Acme", PartyB := "", ContractType := "",
                     Status := "", DateRange := none, AmountRange := none },
        SemanticQuery := "supply", Keywords := ["parts"] } rfl (by decide)).1 (by decide),
    (C15_missing_kind_defaults_to_hybrid jsonUnmarshalIntent "q" _ (fun _ => some
        "\x7b\"intent\": \"structured_only\", \"filters\": \x7b\"party_a\": \"Acme\"\x7d\x7d")
      { Intent := "structured_only",
        Filters := { AnyParty := [], PartyA := "Acme", PartyB := "", ContractType := "",
                     Status := "", DateRange := none, AmountRange := none },
        SemanticQuery := "", Keywords := [] } rfl (by decide)).2 (by decide)⟩

theorem MetaData.get_set_of_ne (m : MetaData) (k k' : String) (v : MetaValue) (h : k' ≠ k) :
    (m.set k v).get k' = m.get k' := by
  induction m with
  | nil => simp [MetaData.set, MetaData.get, Ne.symm h]
  | cons e rest ih =>
    obtain ⟨k₀, w⟩ := e
    by_cases h₀ : k₀ = k
    · subst h₀
      simp [MetaData.set, MetaData.get, Ne.symm h]
    · by_cases h₁ : k₀ = k'
      · subst h₁
        simp [MetaData.set, MetaData.get, h₀]
      · simp [MetaData.set, MetaData.get, h₀, h₁, ih]

/-- C16, the code at a date text that `time.Parse` rejects: the error is dropped, so the
date of the record is the zero time (January 1 of year 1), not null, and every chunk gets
the key `sign_date` (likewise `end_date`) with that value. -/
theorem C16_unparsable_date_is_zero_time (env : Env) (s : String) (docID id : String)
    (entity : ContractRawData) (amount : ℚ) (status : Int) (endDate : Option Time)
    (chunk : Document) (hs : s ≠ "") (hparse : env.timeParse s = none) :
    parseDateField env (some s) = some 0 ∧
    (enrichChunk docID entity amount status (parseDateField env (some s)) endDate id
        chunk).MetaData.get "sign_date" = some (MetaValue.time 0) ∧
    (enrichChunk docID entity amount status endDate (parseDateField env (some s)) id
        chunk).MetaData.get "end_date" = some (MetaValue.time 0) := by
  have h : parseDateField env (some s) = some 0 := by
    simp [parseDateField, hs, hparse]
  refine ⟨h, ?_, ?_⟩
  · rw [h]
    cases endDate
    · simp [enrichChunk, MetaData.get_set_self]
    · simp only [enrichChunk]
      rw [MetaData.get_set_of_ne _ _ _ _ (by decide), MetaData.get_set_self]
  · rw [h]
    simp [enrichChunk, MetaData.get_set_self]

/-- C16 in the run of June 1, 2025 on the sample file, the extraction giving the sign date
`2024年1月1日` and the end date `长期`: `time.Parse` rejects both, the record holds the zero
time for both, and the chunk written to the vector store has both keys. -/
theorem C16_unparsable_date_is_zero_time_witness :
    "2024年1月1日" ≠ "" ∧ looseEnv.timeParse "2024年1月1日" = none ∧
    looseEnv.timeParse "长期" = none ∧
    (parseDateField looseEnv (some "2024年1月1日") = some 0 ∧
      (enrichChunk "u" looseEntity 0 2 (parseDateField looseEnv (some "2024年1月1日")) none "uu"
          { ID := "", Content := "supply contract", MetaData := [] }).MetaData.get "sign_date" =
        some (MetaValue.time 0) ∧
      (enrichChunk "u" looseEntity 0 2 none (parseDateField looseEnv (some "2024年1月1日")) "uu"
          { ID := "", Content := "supply contract", MetaData := [] }).MetaData.get "end_date" =
        some (MetaValue.time 0)) ∧
    (ContractService.UploadAndProcess looseEnv sampleFile emptyStores).trace = [Outcome.done "u"] ∧
    (ContractService.UploadAndProcess looseEnv sampleFile emptyStores).stores.pg.map
      (fun c => (c.SignDate, c.EndDate)) = [(some 0, some 0)] ∧
    (ContractService.UploadAndProcess looseEnv sampleFile emptyStores).stores.milvus.map
      (fun c => (c.MetaData.get "sign_date", c.MetaData.get "end_date")) =
      [(some (MetaValue.time 0), some (MetaValue.time 0))] :=
  ⟨by decide, by decide, by decide,
    C16_unparsable_date_is_zero_time looseEnv "2024年1月1日" "u" "uu" looseEntity 0 2 none
      { ID := "", Content := "supply contract", MetaData := [] } (by decide) (by decide),
    by decide, by decide, by decide⟩

/-- C17, the code at an end date that `time.Parse` rejects.  The status is `StatusExpired`
exactly when the canonical end date is non-null and before the ingestion time, and
`StatusActive` otherwise; but the canonical end date of an unparsable text is the zero
time, not null, so at any ingestion time after the zero time such a document is stored as
expired. -/
theorem C17_unparsable_end_date_is_expired (env : Env) (s : String) (hs : s ≠ "")
    (hparse : env.timeParse s = none) (hnow : 0 < env.now) :
    (∀ endDate : Option Time,
      (statusOf env endDate = StatusExpired ↔ ∃ t, endDate = some t ∧ t < env.now) ∧
      (statusOf env endDate = StatusActive ↔ ¬ ∃ t, endDate = some t ∧ t < env.now)) ∧
    statusOf env (parseDateField env (some s)) = StatusExpired := by
  constructor
  · intro endDate
    cases endDate with
    | none => simp [statusOf, StatusExpired, StatusActive]
    | some t =>
      by_cases h : t < env.now
      · simp [statusOf, StatusExpired, StatusActive, h]
      · simp [statusOf, StatusExpired, StatusActive, h]
  · simp [parseDateField, hs, hparse, statusOf, hnow]

/-- C17 in the run of June 1, 2025 on the sample file, the extraction giving the end date
`长期` (long-term): the record is stored with the status 2, `StatusExpired`. -/
theorem C17_unparsable_end_date_is_expired_witness :
    "长期" ≠ "" ∧ looseEnv.timeParse "长期" = none ∧ 0 < looseEnv.now ∧
    statusOf looseEnv (parseDateField looseEnv (some "长期")) = StatusExpired ∧
    (ContractService.UploadAndProcess looseEnv sampleFile emptyStores).stores.pg.map
      Contract.ContractStatus = [2] ∧
    (ContractService.UploadAndProcess looseEnv sampleFile emptyStores).stores.milvus.map
      (fun c => c.MetaData.get "contract_status") = [some (MetaValue.int 2)] :=
  ⟨by decide, by decide, by decide,
    (C17_unparsable_end_date_is_expired looseEnv "长期" (by decide) (by decide) (by decide)).2,
    by decide, by decide⟩

theorem filter_comma_unit (cs : List Char) :
    (cs.filter (fun c => !decide (c = ','))).filter (fun c => !decide (c = '万')) =
      cs.filter (fun c => decide (c ≠ ',' ∧ c ≠ '万')) := by
  rw [List.filter_filter]
  congr 1
  funext c
  by_cases h₁ : c = ',' <;> by_cases h₂ : c = '万' <;> simp [h₁, h₂]

theorem filter_comma (cs : List Char) :
    cs.filter (fun c => !decide (c = ',')) = cs.filter (fun c => decide (c ≠ ',')) := by
  congr 1
  funext c
  simp

/-- C18, a text amount with the unit inside: `1万5` does not end with the unit and is not a
number once the commas are removed, yet the code removes the unit wherever it stands and
multiplies: the amount is 150000, not 0.  Likewise `万100` gives 1000000. -/
theorem C18_counterexample :
    "1万5".data.getLast? ≠ some '万' ∧
    parseDecimal (String.mk ("1万5".data.filter (fun c => !decide (c = ',')))) = none ∧
    amountOf looseEnv (some (AmountValue.text "1万5")) = 150000 ∧
    amountOf looseEnv (some (AmountValue.text "万100")) = 1000000 := by
  have h₁ : looseEnv.parseFloat "15" = some 15 := by decide
  have h₂ : looseEnv.parseFloat "100" = some 100 := by decide
  have e₁ : amountOf looseEnv (some (AmountValue.text "1万5")) =
      (match looseEnv.parseFloat "15" with
        | some val => val * 10000
        | none => 0) := rfl
  have e₂ : amountOf looseEnv (some (AmountValue.text "万100")) =
      (match looseEnv.parseFloat "100" with
        | some val => val * 10000
        | none => 0) := rfl
  refine ⟨by decide, by decide, ?_, ?_⟩
  · rw [e₁, h₁]
    norm_num
  · rw [e₂, h₂]
    norm_num

/-- C18 amended: a numeric amount is stored unchanged; an absent value, an empty text and
a value that is neither number nor text give 0; a non-empty text has its commas removed
and, when it contains the unit `万` anywhere, every `万` removed as well, and the amount is
the number `strconv.ParseFloat` reads from what is left, times 10000 when the unit was
there, and 0 when `ParseFloat` reads none. -/
theorem C18_amount_canonical (env : Env) :
    (∀ x : ℚ, amountOf env (some (AmountValue.number x)) = x) ∧
    amountOf env none = 0 ∧ amountOf env (some (AmountValue.text "")) = 0 ∧
    amountOf env (some AmountValue.other) = 0 ∧
    (∀ s : String, s ≠ "" → '万' ∉ s.data →
      amountOf env (some (AmountValue.text s)) =
        (env.parseFloat (String.mk (s.data.filter (fun c => decide (c ≠ ','))))).getD 0) ∧
    (∀ s : String, '万' ∈ s.data →
      amountOf env (some (AmountValue.text s)) =
        (env.parseFloat (String.mk
          (s.data.filter (fun c => decide (c ≠ ',' ∧ c ≠ '万'))))).getD 0 * 10000) := by
  refine ⟨fun x => rfl, rfl, rfl, rfl, ?_, ?_⟩
  · intro s hs h
    have hc : (s.data.filter (fun c => !decide (c = ','))).contains '万' = false := by
      simp [List.mem_filter, h]
    simp only [amountOf, if_pos hs, hc, Bool.false_eq_true, if_false]
    rw [filter_comma]
    cases env.parseFloat _ <;> simp
  · intro s h
    have hs : s ≠ "" := by
      intro e
      subst e
      simp at h
    have hc : (s.data.filter (fun c => !decide (c = ','))).contains '万' = true := by
      simp [List.mem_filter, h]
    simp only [amountOf, if_pos hs, hc, if_true, filter_comma_unit]
    cases env.parseFloat _ <;> simp

/-- C18 amended, with the decimal parser: the number 2500 is kept, `1,000` gives 1000,
`100万` gives 1000000, and `about 100` gives 0. -/
theorem C18_amount_canonical_witness :
    amountOf looseEnv (some (AmountValue.number 2500)) = 2500 ∧
    ("1,000" ≠ "" ∧ '万' ∉ "1,000".data ∧
      amountOf looseEnv (some (AmountValue.text "1,000")) =
        (looseEnv.parseFloat (String.mk ("1,000".data.filter (fun c => decide (c ≠ ','))))).getD 0 ∧
      looseEnv.parseFloat (String.mk ("1,000".data.filter (fun c => decide (c ≠ ',')))) =
        some 1000) ∧
    ('万' ∈ "100万".data ∧
      amountOf looseEnv (some (AmountValue.text "100万")) =
        (looseEnv.parseFloat (String.mk
          ("100万".data.filter (fun c => decide (c ≠ ',' ∧ c ≠ '万'))))).getD 0 * 10000 ∧
      looseEnv.parseFloat (String.mk
          ("100万".data.filter (fun c => decide (c ≠ ',' ∧ c ≠ '万')))) = some 100) ∧
    ("about 100" ≠ "" ∧ '万' ∉ "about 100".data ∧
      amountOf looseEnv (some (AmountValue.text "about 100")) =
        (looseEnv.parseFloat (String.mk
          ("about 100".data.filter (fun c => decide (c ≠ ','))))).getD 0 ∧
      looseEnv.parseFloat (String.mk ("about 100".data.filter (fun c => decide (c ≠ ',')))) =
        none) :=
  ⟨(C18_amount_canonical looseEnv).1 2500,
    ⟨by decide, by decide,
      (C18_amount_canonical looseEnv).2.2.2.2.1 "1,000" (by decide) (by decide), by decide⟩,
    ⟨by decide, (C18_amount_canonical looseEnv).2.2.2.2.2 "100万" (by decide), by decide⟩,
    ⟨by decide, by decide,
      (C18_amount_canonical looseEnv).2.2.2.2.1 "about 100" (by decide) (by decide), by decide⟩⟩

theorem indexChar_append (c : Char) (pre rest : List Char) (h : c ∉ pre) :
    indexChar c (pre ++ c :: rest) = some pre.length := by
  induction pre with
  | nil => simp [indexChar]
  | cons x xs ih =>
    have hx : x ≠ c := fun e => h (by simp [e])
    have hxs : c ∉ xs := fun e => h (by simp [e])
    simp [indexChar, hx, ih hxs]

theorem lastIndexChar_append (c : Char) (xs suf : List Char) (h : c ∉ suf) :
    lastIndexChar c (xs ++ c :: suf) = some xs.length := by
  have hr : (xs ++ c :: suf).reverse = suf.reverse ++ c :: xs.reverse := by simp
  have hs : c ∉ suf.reverse := by simpa using h
  simp only [lastIndexChar, hr, indexChar_append c _ _ hs, Option.map_some']
  simp

theorem indexChar_spec (c : Char) (l : List Char) (i : Nat) (h : indexChar c l = some i) :
    l[i]? = some c := by
  induction l generalizing i with
  | nil => simp [indexChar] at h
  | cons x xs ih =>
    simp only [indexChar] at h
    split at h
    · rename_i hx
      cases h
      simp [hx]
    · cases hi : indexChar c xs with
      | none => simp [hi] at h
      | some j =>
        simp [hi] at h
        subst h
        simpa using ih j hi

theorem lastIndexChar_spec (c : Char) (l : List Char) (j : Nat)
    (h : lastIndexChar c l = some j) : l[j]? = some c := by
  simp only [lastIndexChar] at h
  cases hi : indexChar c l.reverse with
  | none => simp [hi] at h
  | some i =>
    simp [hi] at h
    have hs := indexChar_spec c l.reverse i hi
    have hlt : i < l.length := by
      have := (List.getElem?_eq_some_iff.mp hs).1
      simpa using this
    rw [List.getElem?_reverse hlt] at hs
    rw [← h]
    exact hs

/-- C14: the recovery step takes the text from the first opening brace to the last closing
brace.  When the response is `pre ++ obj ++ suf` with `obj` starting with an opening brace
and ending with a closing brace, no opening brace in `pre` and no closing brace in `suf`,
the recovered text is `obj`; when no opening brace of the response is followed, later on,
by a closing brace, the recovered text is the response. -/
theorem C14_recoverJSON :
    (∀ pre obj suf : List Char, obj.head? = some '{' → obj.getLast? = some '}' →
      '{' ∉ pre → '}' ∉ suf → recoverJSON (pre ++ obj ++ suf) = obj) ∧
    (∀ raw : List Char,
      (¬ ∃ i j : Nat, i < j ∧ raw[i]? = some '{' ∧ raw[j]? = some '}') →
        recoverJSON raw = raw) := by
  constructor
  · intro pre obj suf hhead hlast hpre hsuf
    obtain ⟨t, rfl⟩ : ∃ t, obj = '{' :: t := by
      cases obj with
      | nil => simp at hhead
      | cons x t =>
        simp at hhead
        exact ⟨t, by rw [hhead]⟩
    obtain ⟨init, hinit⟩ : ∃ init, '{' :: t = init ++ ['}'] := by
      rcases List.eq_nil_or_concat ('{' :: t) with h | ⟨init, b, h⟩
      · simp at h
      · rw [h] at hlast
        simp at hlast
        exact ⟨init, by rw [h, hlast]; simp⟩
    have hne : init ≠ [] := by
      intro e
      rw [e] at hinit
      simp at hinit
    have hlen : 0 < init.length := List.length_pos.mpr hne
    have h₁ : indexChar '{' (pre ++ ('{' :: t) ++ suf) = some pre.length := by
      rw [List.append_assoc, List.cons_append]
      exact indexChar_append _ _ _ hpre
    have h₂ : lastIndexChar '}' (pre ++ ('{' :: t) ++ suf) = some (pre.length + init.length) := by
      rw [hinit]
      have := lastIndexChar_append '}' (pre ++ init) suf hsuf
      simpa [List.append_assoc] using this
    simp only [recoverJSON, h₁, h₂]
    rw [if_pos (by omega)]
    rw [List.append_assoc, List.drop_left, hinit]
    have : pre.length + init.length + 1 - pre.length = (init ++ ['}']).length := by
      simp
      omega
    rw [this, List.take_left]
  · intro raw hraw
    simp only [recoverJSON]
    split
    · rename_i start stop hstart hstop
      split
      · rename_i hlt
        exact absurd ⟨start, stop, hlt, indexChar_spec _ _ _ hstart,
          lastIndexChar_spec _ _ _ hstop⟩ hraw
      · rfl
    · rfl

/-- C14 at an object between a sentence and a closing fence, and at a response whose only
closing brace stands before its only opening brace. -/
theorem C14_recoverJSON_witness :
    "\x7b\"intent\": \"hybrid\"\x7d".data.head? = some '{' ∧
    "\x7b\"intent\": \"hybrid\"\x7d".data.getLast? = some '}' ∧
    '{' ∉ "Here is the result:\n".data ∧ '}' ∉ "\nDone.".data ∧
    recoverJSON ("Here is the result:\n".data ++ "\x7b\"intent\": \"hybrid\"\x7d".data ++
      "\nDone.".data) = "\x7b\"intent\": \"hybrid\"\x7d".data ∧
    (¬ ∃ i j : Nat, i < j ∧ "\x7d \x7b".data[i]? = some '{' ∧ "\x7d \x7b".data[j]? = some '}') ∧
    recoverJSON "\x7d \x7b".data = "\x7d \x7b".data :=
  have h : ¬ ∃ i j : Nat, i < j ∧ "\x7d \x7b".data[i]? = some '{' ∧
      "\x7d \x7b".data[j]? = some '}' := by
    rintro ⟨i, j, hij, hi, hj⟩
    rcases j with _ | j
    · omega
    · rcases j with _ | j
      · simp at hj
      · rcases j with _ | j
        · simp at hj
        · simp at hj
  ⟨by decide, by decide, by decide, by decide,
    C14_recoverJSON.1 _ _ _ (by decide) (by decide) (by decide) (by decide), h,
    C14_recoverJSON.2 _ h⟩

theorem replaceAll_skip (old new xs post : List Char) :
    replaceAll old new (xs ++ post) xs.length = replaceAll old new post 0 := by
  induction xs with
  | nil => simp
  | cons x xs ih => simpa [replaceAll] using ih

theorem replaceAll_cons_zero (old new : List Char) (c : Char) (cs : List Char) :
    replaceAll old new (c :: cs) 0 =
      if old.isPrefixOf (c :: cs) then new ++ replaceAll old new cs (old.length - 1)
      else c :: replaceAll old new cs 0 := by
  simp [replaceAll]

theorem replaceAll_of_no_occurrence (old new s : List Char)
    (h : ∀ k, k < s.length → old.isPrefixOf (s.drop k) = false) :
    replaceAll old new s 0 = s := by
  induction s with
  | nil => simp [replaceAll]
  | cons c cs ih =>
    have h₀ : old.isPrefixOf (c :: cs) = false := by simpa using h 0 (by simp)
    have h₁ : ∀ k, k < cs.length → old.isPrefixOf (cs.drop k) = false := by
      intro k hk
      simpa using h (k + 1) (by simpa using hk)
    simp [replaceAll, h₀, ih h₁]

theorem replaceAll_first_occurrence (old new pre post : List Char) (hold : old ≠ [])
    (h : ∀ k, k < pre.length → old.isPrefixOf ((pre ++ old ++ post).drop k) = false) :
    replaceAll old new (pre ++ old ++ post) 0 = pre ++ new ++ replaceAll old new post 0 := by
  induction pre with
  | nil =>
    obtain ⟨c, cs, rfl⟩ := List.exists_cons_of_ne_nil hold
    have hp : (c :: cs).isPrefixOf (c :: cs ++ post) = true := by
      rw [ List.isPrefixOf_iff_prefix]
      exact List.prefix_append _ _
    have hs := replaceAll_skip (c :: cs) new cs post
    simp only [List.cons_append] at hp
    rw [List.nil_append, List.cons_append, replaceAll_cons_zero, if_pos hp]
    simpa using hs
  | cons p ps ih =>
    have h₀ : old.isPrefixOf (p :: ps ++ old ++ post) = false := by
      simpa using h 0 (by simp)
    have h₁ : ∀ k, k < ps.length → old.isPrefixOf ((ps ++ old ++ post).drop k) = false := by
      intro k hk
      simpa using h (k + 1) (by simpa using hk)
    simp only [List.cons_append] at h₀
    rw [List.cons_append, List.cons_append, replaceAll_cons_zero, h₀, ih h₁]
    simp

/-- C13, an empty array written without the space: the response
`\x7b"intent":"structured_only","filters":[],"semantic_query":"","keywords":["合同"]\x7d`
is an intent object but for its `filters`, and decodes once the array is an object; the
repair looks for the text `"filters": []` with one space, leaves this response as it is,
the decoding fails and `AnalyzeQuery` returns the fallback intent.  The same holds with a
space between the brackets. -/
theorem C13_counterexample :
    jsonUnmarshalIntent
        "\x7b\"intent\":\"structured_only\",\"filters\":\x7b\x7d,\"semantic_query\":\"\",\"keywords\":[\"合同\"]\x7d" =
      some { Intent := "structured_only", Filters := FilterConditions.zero, SemanticQuery := "",
             Keywords := ["合同"] } ∧
    AnalyzeQuery jsonUnmarshalIntent "合同" (fun _ => some
        "\x7b\"intent\":\"structured_only\",\"filters\":[],\"semantic_query\":\"\",\"keywords\":[\"合同\"]\x7d") =
      some (fallbackIntent "合同") ∧
    AnalyzeQuery jsonUnmarshalIntent "合同" (fun _ => some
        "\x7b\"intent\": \"structured_only\", \"filters\": [ ], \"semantic_query\": \"\", \"keywords\": [\"合同\"]\x7d") =
      some (fallbackIntent "合同") ∧
    fallbackIntent "合同" ≠
      { Intent := "structured_only", Filters := FilterConditions.zero, SemanticQuery := "",
        Keywords := ["合同"] } := by
  decide

/-- C13 amended: when the recovered text holds the text `"filters": []` (one space after
the colon, nothing between the brackets) once, at the end of `pre`, and the text with
`"filters": \x7b\x7d` in its place decodes to `intent`, `AnalyzeQuery` returns that intent,
its kind set to `HY` when empty, and not the fallback intent. -/
theorem C13_filters_array_repaired (unmarshal : String → Option SearchIntent)
    (query content : String) (chatModel : String → Option String) (pre post : List Char)
    (intent : SearchIntent) (hresp : chatModel query = some content)
    (hrec : recoverJSON content.data = pre ++ filtersArray ++ post)
    (hfirst : ∀ k, k < pre.length →
      filtersArray.isPrefixOf ((pre ++ filtersArray ++ post).drop k) = false)
    (hlater : ∀ k, k < post.length → filtersArray.isPrefixOf (post.drop k) = false)
    (hdec : unmarshal (String.mk (pre ++ filtersObject ++ post)) = some intent) :
    AnalyzeQuery unmarshal query chatModel =
      some { Intent := if intent.Intent = "" then HY else intent.Intent,
             Filters := intent.Filters, SemanticQuery := intent.SemanticQuery,
             Keywords := intent.Keywords } := by
  have hrep : replaceAll filtersArray filtersObject (recoverJSON content.data) 0 =
      pre ++ filtersObject ++ post := by
    rw [hrec, replaceAll_first_occurrence _ _ _ _ (by decide) hfirst,
      replaceAll_of_no_occurrence _ _ _ hlater]
  simp only [AnalyzeQuery, hresp, hrep, hdec, HY]
  split <;> rfl

/-- C13 amended, with the decoder of `encoding/json`: an answer that writes
`"filters": []` between the kind `structured_only` and the keywords.  The intent returned
has that kind, those keywords and no filter. -/
theorem C13_filters_array_repaired_witness :
    recoverJSON arrayAnswer.data = arrayAnswerHead ++ filtersArray ++ arrayAnswerTail ∧
    (∀ k, k < arrayAnswerHead.length →
      filtersArray.isPrefixOf ((arrayAnswerHead ++ filtersArray ++ arrayAnswerTail).drop k) =
        false) ∧
    (∀ k, k < arrayAnswerTail.length →
      filtersArray.isPrefixOf (arrayAnswerTail.drop k) = false) ∧
    jsonUnmarshalIntent (String.mk (arrayAnswerHead ++ filtersObject ++ arrayAnswerTail)) =
      some { Intent := "structured_only", Filters := FilterConditions.zero, SemanticQuery := "",
             Keywords := ["合同"] } ∧
    AnalyzeQuery jsonUnmarshalIntent "合同" (fun _ => some arrayAnswer) =
      some { Intent := "structured_only",
             Filters := { AnyParty := [], PartyA := "", PartyB := "", ContractType := "",
                          Status := "", DateRange := none, AmountRange := none },
             SemanticQuery := "", Keywords := ["合同"] } :=
  ⟨by decide, by decide, by decide, by decide,
    C13_filters_array_repaired jsonUnmarshalIntent "合同" arrayAnswer (fun _ => some arrayAnswer)
      arrayAnswerHead arrayAnswerTail
      { Intent := "structured_only", Filters := FilterConditions.zero, SemanticQuery := "",
        Keywords := ["合同"] }
      rfl (by decide) (by decide) (by decide) (by decide)⟩

theorem noRun_mono (l : List Char) (j k : Nat) (hjk : j ≤ k) (h : noRun k l = true) :
    noRun j l = true := by
  induction l generalizing j k with
  | nil => simp [noRun]
  | cons c rest ih =>
    simp only [noRun] at h ⊢
    split
    · rename_i hc
      rw [if_pos hc] at h
      simp only [Bool.and_eq_true, decide_eq_true_eq] at h ⊢
      exact ⟨by omega, ih (j + 1) (k + 1) (by omega) h.2⟩
    · rename_i hc
      rw [if_neg hc] at h
      exact h

theorem noRun_replicate (m j : Nat) (c : Char) (rest : List Char) (hc : c ≠ '甲')
    (hm : j + m ≤ 2) (h : noRun 0 rest = true) :
    noRun j (List.replicate m '甲' ++ c :: rest) = true := by
  induction m generalizing j with
  | zero => simpa [noRun, hc] using h
  | succ m ih =>
    simp only [List.replicate_succ, List.cons_append, noRun, if_true, Bool.and_eq_true,
      decide_eq_true_eq]
    exact ⟨by omega, ih (j + 1) (by omega)⟩

theorem noRun_replicate_nil (m j : Nat) (hm : j + m ≤ 2) :
    noRun j (List.replicate m '甲') = true := by
  induction m generalizing j with
  | zero => simp [noRun]
  | succ m ih =>
    simp only [List.replicate_succ, noRun, if_true, Bool.and_eq_true, decide_eq_true_eq]
    exact ⟨by omega, ih (j + 1) (by omega)⟩

theorem noRun_stripRuns (l : List Char) (n : Nat) : noRun 0 (stripRuns l n) = true := by
  induction l generalizing n with
  | nil =>
    simp only [stripRuns, flushRun]
    split
    · simp [noRun]
    · exact noRun_replicate_nil n 0 (by omega)
  | cons c rest ih =>
    simp only [stripRuns]
    split
    · exact ih (n + 1)
    · rename_i hc
      simp only [flushRun]
      split
      · simpa [noRun, hc] using ih 0
      · exact noRun_replicate n 0 c _ hc (by omega) (ih 0)

theorem noRun_collapseSpace (l : List Char) (k : Nat) (b : Bool) (hb : b = true → k = 0)
    (h : noRun k l = true) : noRun k (collapseSpace l b) = true := by
  induction l generalizing k b with
  | nil => simp [collapseSpace, noRun]
  | cons c rest ih =>
    simp only [collapseSpace]
    split
    · rename_i hs
      have hc : c ≠ '甲' := by
        intro e
        rw [e] at hs
        exact absurd hs (by decide)
      simp only [noRun, if_neg hc] at h
      split
      · rename_i hrun
        rw [hb hrun]
        exact ih 0 true (fun _ => rfl) h
      · have : (' ' : Char) ≠ '甲' := by decide
        simp only [noRun, if_neg this]
        exact ih 0 true (fun _ => rfl) h
    · simp only [noRun] at h ⊢
      split
      · rename_i hc
        rw [if_pos hc] at h
        simp only [Bool.and_eq_true, decide_eq_true_eq] at h ⊢
        exact ⟨h.1, ih (k + 1) false (by simp) h.2⟩
      · rename_i hc
        rw [if_neg hc] at h
        exact ih 0 false (by simp) h

theorem noRun_index (l : List Char) (k : Nat) (h : noRun k l = true) (i : Nat) :
    ¬ (l[i]? = some '甲' ∧ l[i + 1]? = some '甲' ∧ l[i + 2]? = some '甲') := by
  induction l generalizing k i with
  | nil => simp
  | cons c rest ih =>
    have htail : noRun 0 rest = true := by
      simp only [noRun] at h
      split at h
      · simp only [Bool.and_eq_true] at h
        exact noRun_mono rest 0 (k + 1) (by omega) h.2
      · exact h
    cases i with
    | zero =>
      rintro ⟨h₀, h₁, h₂⟩
      cases rest with
      | nil => simp at h₁
      | cons x rest₁ =>
        cases rest₁ with
        | nil => simp at h₂
        | cons y r =>
          simp at h₀ h₁ h₂
          subst h₀ h₁ h₂
          simp [noRun] at h
          omega
    | succ i =>
      simpa using ih 0 htail i

theorem noDouble_collapseSpace (l : List Char) (b : Bool) :
    noDouble b (collapseSpace l b) = true := by
  induction l generalizing b with
  | nil => simp [collapseSpace, noDouble]
  | cons c rest ih =>
    simp only [collapseSpace]
    split
    · split
      · rename_i hrun
        have := ih true
        rwa [hrun]
      · rename_i hrun
        have hb : b = false := by simpa using hrun
        simp [noDouble, hb, ih true]
    · rename_i hs
      have hc : c ≠ ' ' := by
        intro e
        rw [e] at hs
        exact hs (by decide)
      simp only [noDouble, if_neg hc]
      exact ih false

theorem noDouble_index (l : List Char) (b : Bool) (h : noDouble b l = true) (i : Nat) :
    ¬ (l[i]? = some ' ' ∧ l[i + 1]? = some ' ') := by
  induction l generalizing b i with
  | nil => simp
  | cons c rest ih =>
    cases i with
    | zero =>
      rintro ⟨h₀, h₁⟩
      cases rest with
      | nil => simp at h₁
      | cons x r =>
        simp at h₀ h₁
        subst h₀ h₁
        simp [noDouble] at h
    | succ i =>
      have htail : ∃ b', noDouble b' rest = true := by
        simp only [noDouble] at h
        split at h
        · simp only [Bool.and_eq_true] at h
          exact ⟨true, h.2⟩
        · exact ⟨false, h⟩
      obtain ⟨b', hb'⟩ := htail
      simpa using ih b' hb' i

theorem trimSpace_eq (cs : List Char) :
    trimSpace cs = (cs.dropWhile isUnicodeSpace).rdropWhile isUnicodeSpace := rfl

theorem trimSpace_segment (cs : List Char) : ∃ a b, cs = a ++ trimSpace cs ++ b := by
  obtain ⟨a, ha⟩ := List.dropWhile_suffix (l := cs) isUnicodeSpace
  obtain ⟨b, hb⟩ := List.rdropWhile_prefix isUnicodeSpace (l := cs.dropWhile isUnicodeSpace)
  refine ⟨a, b, ?_⟩
  rw [trimSpace_eq, List.append_assoc, hb, ha]

theorem getElem?_segment (a t b : List Char) (i : Nat) (c : Char) (h : t[i]? = some c) :
    (a ++ t ++ b)[a.length + i]? = some c := by
  have hi : i < t.length := (List.getElem?_eq_some_iff.mp h).1
  rw [List.append_assoc, List.getElem?_append_right (by omega)]
  simp only [Nat.add_sub_cancel_left]
  rw [List.getElem?_append_left hi]
  exact h

theorem mem_trimSpace (cs : List Char) (c : Char) (h : c ∈ trimSpace cs) : c ∈ cs := by
  obtain ⟨a, b, hab⟩ := trimSpace_segment cs
  rw [hab]
  simp [h]

theorem mem_stripRuns (l : List Char) (n : Nat) (c : Char) (h : c ∈ stripRuns l n) :
    c ∈ l ∨ c = '甲' := by
  induction l generalizing n with
  | nil =>
    simp only [stripRuns, flushRun] at h
    split at h
    · simp at h
    · exact Or.inr (List.eq_of_mem_replicate h)
  | cons x rest ih =>
    simp only [stripRuns] at h
    split at h
    · rcases ih _ h with h | h
      · exact Or.inl (List.mem_cons_of_mem _ h)
      · exact Or.inr h
    · simp only [flushRun, List.mem_append, List.mem_cons] at h
      rcases h with h | h | h
      · split at h
        · simp at h
        · exact Or.inr (List.eq_of_mem_replicate h)
      · exact Or.inl (by simp [h])
      · rcases ih _ h with h | h
        · exact Or.inl (List.mem_cons_of_mem _ h)
        · exact Or.inr h

theorem mem_collapseSpace (l : List Char) (b : Bool) (c : Char) (h : c ∈ collapseSpace l b) :
    (c ∈ l ∧ isReSpace c = false) ∨ c = ' ' := by
  induction l generalizing b with
  | nil => simp [collapseSpace] at h
  | cons x rest ih =>
    simp only [collapseSpace] at h
    split at h
    · split at h
      · rcases ih _ h with h | h
        · exact Or.inl ⟨List.mem_cons_of_mem _ h.1, h.2⟩
        · exact Or.inr h
      · simp only [List.mem_cons] at h
        rcases h with h | h
        · exact Or.inr h
        · rcases ih _ h with h | h
          · exact Or.inl ⟨List.mem_cons_of_mem _ h.1, h.2⟩
          · exact Or.inr h
    · rename_i hx
      simp only [List.mem_cons] at h
      rcases h with h | h
      · refine Or.inl ⟨by simp [h], ?_⟩
        rw [h]
        simpa using hx
      · rcases ih _ h with h | h
        · exact Or.inl ⟨List.mem_cons_of_mem _ h.1, h.2⟩
        · exact Or.inr h

theorem head?_trimSpace (cs : List Char) (c : Char) (h : (trimSpace cs).head? = some c) :
    isUnicodeSpace c = false := by
  obtain ⟨b, hb⟩ := List.rdropWhile_prefix isUnicodeSpace (l := cs.dropWhile isUnicodeSpace)
  rw [trimSpace_eq] at h
  obtain ⟨t, ht⟩ := List.head?_eq_some_iff.mp h
  have hd : (cs.dropWhile isUnicodeSpace).head? = some c := by
    rw [← hb, ht]
    rfl
  have := List.head?_dropWhile_not isUnicodeSpace cs
  rw [hd] at this
  exact this

theorem getLast?_trimSpace (cs : List Char) (c : Char) (h : (trimSpace cs).getLast? = some c) :
    isUnicodeSpace c = false := by
  rw [trimSpace_eq] at h
  have hne : (cs.dropWhile isUnicodeSpace).rdropWhile isUnicodeSpace ≠ [] := by
    intro e
    rw [e] at h
    simp at h
  have := List.rdropWhile_last_not isUnicodeSpace (cs.dropWhile isUnicodeSpace) hne
  rw [List.getLast?_eq_getLast _ hne] at h
  cases h
  simpa using this

theorem cleanText_data (text : String) :
    (cleanText text).data =
      trimSpace (collapseSpace (stripRuns (text.data.filter (fun c => !isControlChar c)) 0) false) :=
  rfl

/-- C20: for every input, the output of `cleanText` holds no character of the class
`[\x00-\x08\x0B-\x0C\x0E-\x1F\x7F]`, no three `甲` in a row, no tab, line feed or carriage
return and no two spaces in a row (so every run of whitespace is one space), and neither
starts nor ends with a character for which `unicode.IsSpace` holds, which space, tab, line
feed and carriage return are. -/
theorem C20_cleanText_output (text : String) :
    (∀ c ∈ (cleanText text).data, isControlChar c = false) ∧
    (∀ i : Nat, ¬ ((cleanText text).data[i]? = some '甲' ∧
      (cleanText text).data[i + 1]? = some '甲' ∧ (cleanText text).data[i + 2]? = some '甲')) ∧
    (∀ c ∈ (cleanText text).data, c ≠ '\t' ∧ c ≠ '\n' ∧ c ≠ '\r') ∧
    (∀ i : Nat, ¬ ((cleanText text).data[i]? = some ' ' ∧
      (cleanText text).data[i + 1]? = some ' ')) ∧
    (∀ c, (cleanText text).data.head? = some c → isUnicodeSpace c = false) ∧
    (∀ c, (cleanText text).data.getLast? = some c → isUnicodeSpace c = false) ∧
    (∀ c, c = ' ' ∨ c = '\t' ∨ c = '\n' ∨ c = '\r' → isUnicodeSpace c = true) := by
  rw [cleanText_data]
  obtain ⟨a, b, hab⟩ := trimSpace_segment
    (collapseSpace (stripRuns (text.data.filter (fun c => !isControlChar c)) 0) false)
  have hrun := noRun_collapseSpace _ 0 false (by simp)
    (noRun_stripRuns (text.data.filter (fun c => !isControlChar c)) 0)
  have hdbl := noDouble_collapseSpace
    (stripRuns (text.data.filter (fun c => !isControlChar c)) 0) false
  refine ⟨?_, ?_, ?_, ?_, head?_trimSpace _, getLast?_trimSpace _, ?_⟩
  · intro c hc
    rcases mem_collapseSpace _ _ _ (mem_trimSpace _ _ hc) with h | h
    · rcases mem_stripRuns _ _ _ h.1 with h' | h'
      · simpa using (List.mem_filter.mp h').2
      · rw [h']
        decide
    · rw [h]
      decide
  · rintro i ⟨h₀, h₁, h₂⟩
    apply noRun_index _ 0 hrun (a.length + i)
    rw [hab]
    exact ⟨getElem?_segment _ _ _ _ _ h₀, getElem?_segment _ _ _ _ _ h₁,
      getElem?_segment _ _ _ _ _ h₂⟩
  · intro c hc
    rcases mem_collapseSpace _ _ _ (mem_trimSpace _ _ hc) with h | h
    · have h₂ := h.2
      refine ⟨?_, ?_, ?_⟩ <;>
      · intro e
        rw [e] at h₂
        exact absurd h₂ (by decide)
    · rw [h]
      decide
  · rintro i ⟨h₀, h₁⟩
    apply noDouble_index _ false hdbl (a.length + i)
    rw [hab]
    exact ⟨getElem?_segment _ _ _ _ _ h₀, getElem?_segment _ _ _ _ _ h₁⟩
  · rintro c (rfl | rfl | rfl | rfl) <;> decide

/-- C20 at a text with a control character, a run of three `甲`, a run of two, and runs of
mixed whitespace inside and at both ends: the output is `a bc甲甲`. -/
theorem C20_cleanText_output_witness :
    cleanText "\t a\x01 \n\n b甲甲甲c甲甲 \r\n" = "a bc甲甲" ∧
    'a' ∈ (cleanText "\t a\x01 \n\n b甲甲甲c甲甲 \r\n").data ∧ isControlChar 'a' = false ∧
    ¬ ((cleanText "\t a\x01 \n\n b甲甲甲c甲甲 \r\n").data[4]? = some '甲' ∧
      (cleanText "\t a\x01 \n\n b甲甲甲c甲甲 \r\n").data[4 + 1]? = some '甲' ∧
      (cleanText "\t a\x01 \n\n b甲甲甲c甲甲 \r\n").data[4 + 2]? = some '甲') ∧
    ('b' ≠ '\t' ∧ 'b' ≠ '\n' ∧ 'b' ≠ '\r') ∧
    ¬ ((cleanText "\t a\x01 \n\n b甲甲甲c甲甲 \r\n").data[1]? = some ' ' ∧
      (cleanText "\t a\x01 \n\n b甲甲甲c甲甲 \r\n").data[1 + 1]? = some ' ') ∧
    (cleanText "\t a\x01 \n\n b甲甲甲c甲甲 \r\n").data.head? = some 'a' ∧ isUnicodeSpace 'a' = false ∧
    (cleanText "\t a\x01 \n\n b甲甲甲c甲甲 \r\n").data.getLast? = some '甲' ∧ isUnicodeSpace '甲' = false ∧
    isUnicodeSpace '\t' = true :=
  ⟨by decide, by decide, (C20_cleanText_output "\t a\x01 \n\n b甲甲甲c甲甲 \r\n").1 'a' (by decide),
    (C20_cleanText_output "\t a\x01 \n\n b甲甲甲c甲甲 \r\n").2.1 4,
    (C20_cleanText_output "\t a\x01 \n\n b甲甲甲c甲甲 \r\n").2.2.1 'b' (by decide),
    (C20_cleanText_output "\t a\x01 \n\n b甲甲甲c甲甲 \r\n").2.2.2.1 1,
    by decide, (C20_cleanText_output "\t a\x01 \n\n b甲甲甲c甲甲 \r\n").2.2.2.2.1 'a' (by decide),
    by decide, (C20_cleanText_output "\t a\x01 \n\n b甲甲甲c甲甲 \r\n").2.2.2.2.2.1 '甲' (by decide),
    (C20_cleanText_output "\t a\x01 \n\n b甲甲甲c甲甲 \r\n").2.2.2.2.2.2 '\t' (Or.inr (Or.inl rfl))⟩

theorem trimSpace_idempotent (cs : List Char) : trimSpace (trimSpace cs) = trimSpace cs := by
  have hd : (trimSpace cs).dropWhile isUnicodeSpace = trimSpace cs := by
    cases h : trimSpace cs with
    | nil => rfl
    | cons c r =>
      have hc := head?_trimSpace cs c (by rw [h]; rfl)
      simp [List.dropWhile, hc]
  rw [trimSpace_eq (trimSpace cs), hd, trimSpace_eq cs, List.rdropWhile_idempotent]

theorem trimSpace_cleanText (s : String) : trimSpace (cleanText s).data = (cleanText s).data := by
  rw [cleanText_data, trimSpace_idempotent]

theorem cleanText_blank_iff (s : String) :
    (trimSpace (cleanText s).data).length ≠ 0 ↔ cleanText s ≠ "" := by
  rw [trimSpace_cleanText]
  constructor
  · intro h e
    rw [e] at h
    exact h rfl
  · intro h e
    apply h
    have : (cleanText s).data = [] := List.length_eq_zero.mp e
    exact String.ext this

theorem cleanChunksOf_eq (chunks : List Document) :
    cleanChunksOf chunks =
      (chunks.filter (fun chunk => decide (cleanText chunk.Content ≠ ""))).map
        (fun chunk => { chunk with Content := cleanText chunk.Content }) := by
  simp only [cleanChunksOf, List.filter_map]
  congr 1
  apply List.filter_congr
  intro c _
  simp only [Function.comp]
  exact decide_eq_decide.mpr (cleanText_blank_iff c.Content)

theorem enrichChunks_of_kept (env : Env) (docID : String) (entity : ContractRawData)
    (amount : ℚ) (status : Int) (signDate endDate : Option Time) (l : List Document)
    (next : Nat) (hl : ∀ c ∈ l, cleanText c.Content ≠ "") :
    List.Forall₂
      (fun orig w => cleanText orig.Content ≠ "" ∧
        ∃ id, w = enrichChunk docID entity amount status signDate endDate id
          { orig with Content := cleanText orig.Content })
      l
      (enrichChunks env docID entity amount status signDate endDate
        (l.map (fun chunk => { chunk with Content := cleanText chunk.Content })) next).1 := by
  induction l generalizing next with
  | nil => simp [enrichChunks]
  | cons c rest ih =>
    have hc : ¬ (trimSpace (cleanText c.Content).data).length = 0 :=
      (cleanText_blank_iff c.Content).mpr (hl c (by simp))
    simp only [List.map_cons, enrichChunks, if_neg hc]
    exact List.Forall₂.cons ⟨hl c (by simp), _, rfl⟩ (ih (next + 1) (fun x hx => hl x (List.mem_cons_of_mem _ hx)))

theorem enrichChunk_fields (docID : String) (entity : ContractRawData) (amount : ℚ)
    (status : Int) (signDate endDate : Option Time) (id : String) (chunk : Document) :
    (enrichChunk docID entity amount status signDate endDate id chunk).Content = chunk.Content ∧
    (enrichChunk docID entity amount status signDate endDate id chunk).MetaData.get "doc_id" =
      some (MetaValue.str docID) ∧
    (enrichChunk docID entity amount status signDate endDate id chunk).MetaData.get "party_a" =
      some (MetaValue.str entity.PartyA) ∧
    (enrichChunk docID entity amount status signDate endDate id chunk).MetaData.get "party_b" =
      some (MetaValue.str entity.PartyB) ∧
    (enrichChunk docID entity amount status signDate endDate id chunk).MetaData.get "amount" =
      some (MetaValue.float amount) ∧
    (enrichChunk docID entity amount status signDate endDate id chunk).MetaData.get
      "contract_type" = some (MetaValue.str entity.ContractType) ∧
    (enrichChunk docID entity amount status signDate endDate id chunk).MetaData.get
      "contract_status" = some (MetaValue.int status) ∧
    (∀ t, signDate = some t →
      (enrichChunk docID entity amount status signDate endDate id chunk).MetaData.get
        "sign_date" = some (MetaValue.time t)) ∧
    (∀ t, endDate = some t →
      (enrichChunk docID entity amount status signDate endDate id chunk).MetaData.get
        "end_date" = some (MetaValue.time t)) := by
  refine ⟨rfl, ?_, ?_, ?_, ?_, ?_, ?_, ?_, ?_⟩
  all_goals
    cases signDate <;> cases endDate <;>
      simp [enrichChunk, MetaData.get_set_self, MetaData.get_set_of_ne]

theorem vectorStage_done (env : Env) (st st' : Stores) (docID d : String)
    (chunks : List Document) (h : vectorStage env st docID chunks = (Outcome.done d, st')) :
    d = docID ∧ st' = { st with milvus := st.milvus ++ chunks } := by
  simp only [vectorStage, Indexer.Store] at h
  cases hm : env.milvusStore chunks with
  | ok =>
    simp [hm] at h
    exact ⟨h.1.symm, h.2.symm⟩
  | failed n => simp [hm] at h

theorem keywordStage_done (env : Env) (st st' : Stores) (docID d : String)
    (chunks : List Document) (keywords : List String)
    (h : keywordStage env st docID chunks keywords = (Outcome.done d, st')) :
    d = docID ∧
      st' = { st with es := (chunks.map (esDocOf docID keywords)).foldl esIndex st.es,
                      milvus := st.milvus ++ chunks } := by
  simp only [keywordStage, ESIndexer.Store] at h
  cases he : env.esStore docID chunks with
  | ok =>
    simp [he] at h
    have := vectorStage_done _ _ _ _ _ _ h
    exact ⟨this.1, this.2⟩
  | failed n => simp [he] at h

theorem chunkStage_done (env : Env) (st st' : Stores) (doc : Document) (docID d : String)
    (entity : ContractRawData) (amount : ℚ) (status : Int) (signDate endDate : Option Time)
    (chunks : List Document) (hsplit : env.split doc = some chunks)
    (h : chunkStage env st doc docID entity amount status signDate endDate =
      (Outcome.done d, st')) :
    d = docID ∧ st'.pg = st.pg ∧
      st'.milvus = st.milvus ++
        (enrichChunks env docID entity amount status signDate endDate (cleanChunksOf chunks)
          st.uuids).1 ∧
      st'.es = (((enrichChunks env docID entity amount status signDate endDate
        (cleanChunksOf chunks) st.uuids).1).map (esDocOf docID entity.Keywords)).foldl esIndex
          st.es := by
  simp only [chunkStage, hsplit] at h
  split at h
  · simp at h
  · have := keywordStage_done _ _ _ _ _ _ _ h
    rw [this.2]
    exact ⟨this.1, rfl, rfl, rfl⟩

theorem processDoc_done (env : Env) (st st' : Stores) (doc : Document) (d : String)
    (entity : ContractRawData) (chunks : List Document)
    (hextract : env.extract doc = some entity) (hsplit : env.split doc = some chunks)
    (h : processDoc env st doc = (Outcome.done d, st')) :
    d = env.uuid st.uuids ∧
    st'.pg = st.pg ++
      [{ DocID := d, FileName := fileNameOf doc, PartyA := entity.PartyA,
         PartyB := entity.PartyB, SignDate := parseDateField env entity.SignDate,
         EndDate := parseDateField env entity.EndDate,
         ContractStatus := statusOf env (parseDateField env entity.EndDate),
         ContractType := entity.ContractType,
         TotalAmount := amountOf env entity.TotalAmount, Summary := entity.Summary,
         CreatedAt := env.now, UpdatedAt := env.now }] ∧
    st'.milvus = st.milvus ++
      (enrichChunks env d entity (amountOf env entity.TotalAmount)
        (statusOf env (parseDateField env entity.EndDate))
        (parseDateField env entity.SignDate) (parseDateField env entity.EndDate)
        (cleanChunksOf chunks) (st.uuids + 1)).1 ∧
    st'.es = (((enrichChunks env d entity (amountOf env entity.TotalAmount)
        (statusOf env (parseDateField env entity.EndDate))
        (parseDateField env entity.SignDate) (parseDateField env entity.EndDate)
        (cleanChunksOf chunks) (st.uuids + 1)).1).map (esDocOf d entity.Keywords)).foldl
          esIndex st.es := by
  simp only [processDoc] at h
  split at h
  · simp at h
  · rw [hextract] at h
    simp only at h
    split at h
    · simp at h
    · rename_i hcreate
      have hpg : (ContractRepo.Create env st.pg
          { DocID := env.uuid st.uuids, FileName := fileNameOf doc, PartyA := entity.PartyA,
            PartyB := entity.PartyB, SignDate := parseDateField env entity.SignDate,
            EndDate := parseDateField env entity.EndDate,
            ContractStatus := statusOf env (parseDateField env entity.EndDate),
            ContractType := entity.ContractType,
            TotalAmount := amountOf env entity.TotalAmount, Summary := entity.Summary,
            CreatedAt := env.now, UpdatedAt := env.now }).1 = st.pg ++
          [{ DocID := env.uuid st.uuids, FileName := fileNameOf doc, PartyA := entity.PartyA,
             PartyB := entity.PartyB, SignDate := parseDateField env entity.SignDate,
             EndDate := parseDateField env entity.EndDate,
             ContractStatus := statusOf env (parseDateField env entity.EndDate),
             ContractType := entity.ContractType,
             TotalAmount := amountOf env entity.TotalAmount, Summary := entity.Summary,
             CreatedAt := env.now, UpdatedAt := env.now }] := by
        simp only [ContractRepo.Create] at hcreate ⊢
        split
        · rename_i hc
          rw [if_pos hc] at hcreate
          simp at hcreate
        · rfl
      have := chunkStage_done _ _ _ _ _ _ _ _ _ _ _ _ hsplit h
      obtain ⟨hd, h₁, h₂, h₃⟩ := this
      subst hd
      refine ⟨rfl, ?_, ?_, ?_⟩
      · rw [h₁]
        exact hpg
      · rw [h₂]
      · rw [h₃]

/-- C19: when a document is ingested (outcome `done`), the splitter having returned
`chunks`, one list `written` of chunks is appended to the vector store and indexed in the
keyword store, one row `record` is added to the relational store, and `written`
corresponds, one to one and in order, to the chunks of `chunks` whose cleaned content is
not empty, each written chunk being its original cleaned and enriched from the row
(`EnrichedChunk`). -/
theorem C19_chunk_enrichment (env : Env) (st st' : Stores) (doc : Document) (docID : String)
    (entity : ContractRawData) (chunks : List Document)
    (hextract : env.extract doc = some entity) (hsplit : env.split doc = some chunks)
    (hdone : processDoc env st doc = (Outcome.done docID, st')) :
    ∃ (written : List Document) (record : Contract),
      st'.milvus = st.milvus ++ written ∧
      st'.es = (written.map (esDocOf docID entity.Keywords)).foldl esIndex st.es ∧
      st'.pg = st.pg ++ [record] ∧ record.DocID = docID ∧
      List.Forall₂ (EnrichedChunk record)
        (chunks.filter (fun chunk => decide (cleanText chunk.Content ≠ ""))) written := by
  obtain ⟨_, hpg, hmilvus, hes⟩ := processDoc_done env st st' doc docID entity chunks hextract
    hsplit hdone
  refine ⟨_, _, hmilvus, hes, hpg, rfl, ?_⟩
  rw [cleanChunksOf_eq]
  have hkept : ∀ c ∈ chunks.filter (fun chunk => decide (cleanText chunk.Content ≠ "")),
      cleanText c.Content ≠ "" := by
    intro c hc
    simpa using (List.mem_filter.mp hc).2
  refine List.Forall₂.imp ?_ (enrichChunks_of_kept env docID entity _ _ _ _ _ _ hkept)
  rintro orig w ⟨hne, id, rfl⟩
  have hf := enrichChunk_fields docID entity (amountOf env entity.TotalAmount)
    (statusOf env (parseDateField env entity.EndDate)) (parseDateField env entity.SignDate)
    (parseDateField env entity.EndDate) id { orig with Content := cleanText orig.Content }
  obtain ⟨h₀, h₁, h₂, h₃, h₄, h₅, h₆, h₇, h₈⟩ := hf
  refine ⟨h₀, ?_, h₁, h₂, h₃, h₄, h₅, h₆, h₇, h₈⟩
  rw [h₀]
  exact hne

/-- C19 in the sample run with a splitter returning ` first\tpart `, a blank chunk and
`second  part`: two chunks are written to both stores, `first part` and `second part`, with
the fields of the row `u`. -/
theorem C19_chunk_enrichment_witness :
    threeChunkEnv.extract sampleDoc = some sampleEntity ∧
    threeChunkEnv.split sampleDoc =
      some [{ ID := "", Content := " first\tpart ", MetaData := [] },
        { ID := "", Content := " \n ", MetaData := [] },
        { ID := "", Content := "second  part", MetaData := [] }] ∧
    processDoc threeChunkEnv emptyStores sampleDoc =
      (Outcome.done "u", (processDoc threeChunkEnv emptyStores sampleDoc).2) ∧
    (∃ (written : List Document) (record : Contract),
      (processDoc threeChunkEnv emptyStores sampleDoc).2.milvus = emptyStores.milvus ++ written ∧
      (processDoc threeChunkEnv emptyStores sampleDoc).2.es =
        (written.map (esDocOf "u" sampleEntity.Keywords)).foldl esIndex emptyStores.es ∧
      (processDoc threeChunkEnv emptyStores sampleDoc).2.pg = emptyStores.pg ++ [record] ∧
      record.DocID = "u" ∧
      List.Forall₂ (EnrichedChunk record)
        ([{ ID := "", Content := " first\tpart ", MetaData := [] },
          { ID := "", Content := " \n ", MetaData := [] },
          { ID := "", Content := "second  part", MetaData := [] }].filter
            (fun chunk => decide (cleanText chunk.Content ≠ ""))) written) ∧
    (processDoc threeChunkEnv emptyStores sampleDoc).2.milvus.map
        (fun c => (c.ID, c.Content, c.MetaData.get "doc_id", c.MetaData.get "party_a")) =
      [("uu", "first part", some (MetaValue.str "u"), some (MetaValue.str "Acme")),
        ("uuu", "second part", some (MetaValue.str "u"), some (MetaValue.str "Acme"))] ∧
    (processDoc threeChunkEnv emptyStores sampleDoc).2.es.map
        (fun e => (e.DocumentID, e.doc_id, e.content)) =
      [("uu", "u", "first part"), ("uuu", "u", "second part")] :=
  ⟨rfl, rfl, Prod.ext (by decide) rfl,
    C19_chunk_enrichment threeChunkEnv emptyStores _ sampleDoc "u" sampleEntity _ rfl rfl
      (Prod.ext (by decide) rfl),
    by decide, by decide⟩

theorem convertFiltersToES_fields (filters : FilterConditions) :
    ∃ f, RetrievalService.convertFiltersToES (some filters) = some f ∧
      f.ContractStatus =
        (if filters.Status ≠ "" then
          some (if filters.Status = "已过期" ∨ filters.Status = "过期" then 0 else 1)
        else none) ∧
      f.AmountMin = filters.AmountRange.bind AmountRange.Min ∧
      f.AmountMax = filters.AmountRange.bind AmountRange.Max ∧
      f.EndDateStart = none ∧ f.EndDateEnd = none ∧ f.DocIDs = [] ∧
      f.AnyParty = filters.AnyParty ∧ f.PartyA = filters.PartyA ∧ f.PartyB = filters.PartyB ∧
      f.ContractType = filters.ContractType := by
  refine ⟨_, rfl, ?_⟩
  simp only [RetrievalService.convertFiltersToES]
  rcases filters.DateRange with _ | dateRange <;> rcases filters.AmountRange with _ | a <;>
    simp only [] <;> (repeat' split) <;> simp

/-- C23, the code at the status text `已过期`.  The keyword-store filter that
`convertFiltersToES` builds never carries the value of `types.StatusExpired`: it carries 0
for `已过期` and `过期` and 1 for every other text, while ingestion stores
`StatusExpired` = 2 on the chunks of an expired contract, and `SearchContracts` selects 2
for `已过期`.  For `过期` the keyword filter asks for expired (0) and the relational one
for active (1); for `expired` the other way round. -/
theorem C23_expired_status_filter_mismatch :
    (∀ filters : FilterConditions,
      (RetrievalService.convertFiltersToES (some filters)).bind es.Filter.ContractStatus ≠
        some StatusExpired) ∧
    StatusExpired = 2 ∧ StatusActive = 1 ∧
    (RetrievalService.convertFiltersToES (some { FilterConditions.zero with Status := "已过期" })).bind
      es.Filter.ContractStatus = some 0 ∧
    buildFilterQueries (RetrievalService.convertFiltersToES
      (some { FilterConditions.zero with Status := "已过期" })) =
        [ESQuery.term "contract_status" (ESValue.int 0)] ∧
    statusOf sampleEnv (some 500) = StatusExpired ∧
    expiredChunk.MetaData.get "contract_status" = some (MetaValue.int 2) ∧
    (esDocOf "u" [] expiredChunk).fields.lookup "contract_status" = some (some (MetaValue.int 2)) ∧
    searchConds { FilterConditions.zero with Status := "已过期" } [] = [SQLCond.statusIs 2] ∧
    (RetrievalService.convertFiltersToES (some { FilterConditions.zero with Status := "过期" })).bind
      es.Filter.ContractStatus = some 0 ∧
    searchConds { FilterConditions.zero with Status := "过期" } [] = [SQLCond.statusIs 1] ∧
    (RetrievalService.convertFiltersToES (some { FilterConditions.zero with Status := "expired" })).bind
      es.Filter.ContractStatus = some 1 ∧
    searchConds { FilterConditions.zero with Status := "expired" } [] = [SQLCond.statusIs 2] ∧
    (RetrievalService.convertFiltersToES (some { FilterConditions.zero with Status := "生效中" })).bind
      es.Filter.ContractStatus = some StatusActive := by
  refine ⟨?_, by decide, by decide, by decide, by decide, by decide, by decide, by decide,
    by decide, by decide, by decide, by decide, by decide, by decide⟩
  intro filters
  obtain ⟨f, hf, hstatus, -⟩ := convertFiltersToES_fields filters
  rw [hf, Option.bind, hstatus]
  split
  · split <;> simp [StatusExpired]
  · simp

theorem dueToExpire_iff (now : Time) (c : Contract) :
    expireWhere now c = true ↔ dueToExpire now c := by
  unfold dueToExpire expireWhere
  cases c.EndDate with
  | none => simp
  | some d => simp

/-- C25: when the statement succeeds, `ExpireContracts` returns no error and leaves the
table with the same rows in the same places, where a row that was active with an end date
before `now` has the status `StatusExpired` (and GORM's `updated_at`) and is otherwise
what it was, and every other row is what it was; so no row that was expired is active
afterwards.  The number returned is the number of rows whose status changed. -/
theorem C25_expire_contracts (stamp now : Time) (pg : List Contract) :
    (ContractRepo.ExpireContracts false stamp pg now).2.2 = false ∧
    List.Forall₂
      (fun c c' =>
        (dueToExpire now c →
          c' = { c with ContractStatus := StatusExpired, UpdatedAt := stamp }) ∧
        (¬ dueToExpire now c → c' = c) ∧
        (c.ContractStatus = StatusExpired → c'.ContractStatus = StatusExpired) ∧
        (c'.ContractStatus ≠ c.ContractStatus ↔ dueToExpire now c))
      pg (ContractRepo.ExpireContracts false stamp pg now).1 ∧
    (ContractRepo.ExpireContracts false stamp pg now).2.1 =
      (((pg.zip (ContractRepo.ExpireContracts false stamp pg now).1).filter
        (fun p => decide (p.2.ContractStatus ≠ p.1.ContractStatus))).length : Int) := by
  classical
  refine ⟨rfl, ?_, ?_⟩
  · simp only [ContractRepo.ExpireContracts, Bool.false_eq_true, if_false, dueToExpire_iff]
    rw [List.forall₂_map_right_iff, List.forall₂_same]
    intro c _
    by_cases h : dueToExpire now c
    · rw [if_pos h]
      refine ⟨fun _ => rfl, fun h' => absurd h h', fun _ => rfl, ?_⟩
      simp only [h, iff_true]
      rw [h.1]
      decide
    · rw [if_neg h]
      exact ⟨fun h' => absurd h' h, fun _ => rfl, fun h' => h', by simp [h]⟩
  · simp only [ContractRepo.ExpireContracts, Bool.false_eq_true, if_false]
    congr 1
    induction pg with
    | nil => rfl
    | cons c rest ih =>
      simp only [List.map_cons, List.zip_cons_cons, List.filter_cons]
      by_cases h : expireWhere now c = true
      · have hd := (dueToExpire_iff now c).mp h
        have hne : StatusExpired ≠ c.ContractStatus := by
          rw [hd.1]
          decide
        rw [if_pos h, if_pos h, if_pos (by simpa using hne), List.length_cons, List.length_cons,
          ih]
      · rw [if_neg h, if_neg h, if_neg (by simp), ih]

/-- C25 at four rows and the time 1000: the row that was active and ended at 500 is
expired, the three others (no end date, already expired, ending at 1000) are as they
were, and the number returned is 1. -/
theorem C25_expire_contracts_witness :
    (ContractRepo.ExpireContracts false 1000 expirySample 1000).1.map
      (fun c => (c.DocID, c.ContractStatus, c.UpdatedAt)) =
        [("a", 2, 1000), ("b", 1, 0), ("c", 2, 0), ("d", 1, 0)] ∧
    (ContractRepo.ExpireContracts false 1000 expirySample 1000).2.1 = 1 ∧
    List.Forall₂
      (fun c c' =>
        (dueToExpire 1000 c →
          c' = { c with ContractStatus := StatusExpired, UpdatedAt := 1000 }) ∧
        (¬ dueToExpire 1000 c → c' = c) ∧
        (c.ContractStatus = StatusExpired → c'.ContractStatus = StatusExpired) ∧
        (c'.ContractStatus ≠ c.ContractStatus ↔ dueToExpire 1000 c))
      expirySample (ContractRepo.ExpireContracts false 1000 expirySample 1000).1 :=
  ⟨by decide, by decide, (C25_expire_contracts 1000 1000 expirySample).2.1⟩

theorem ite_append_singleton {α : Type} (c : Prop) [Decidable c] (l : List α) (x : α) :
    (if c then l ++ [x] else l) = l ++ (if c then some x else none).toList := by
  split <;> simp

theorem reduceOption_cons_toList {α : Type} (o : Option α) (l : List (Option α)) :
    (o :: l).reduceOption = o.toList ++ l.reduceOption := by
  cases o <;> simp [List.reduceOption_cons_of_some, List.reduceOption_cons_of_none]

theorem appendDateExprs_eq (exprs : List String) (f : FilterConditions) :
    appendDateExprs exprs f = exprs ++ (dateStartClause f).toList ++ (dateEndClause f).toList := by
  simp only [appendDateExprs, dateStartClause, dateEndClause]
  rcases f.DateRange with _ | d
  · simp
  · simp only []
    rcases parseDateToTimestamp d.Start with _ | t <;>
      rcases parseDateToTimestamp d.End with _ | t' <;>
      by_cases h₁ : d.Start = "" <;> by_cases h₂ : d.End = "" <;> simp [h₁, h₂]

theorem appendAmountExprs_eq (exprs : List String) (f : FilterConditions) :
    appendAmountExprs exprs f =
      exprs ++ (amountMinClause f).toList ++ (amountMaxClause f).toList := by
  simp only [appendAmountExprs, amountMinClause, amountMaxClause]
  rcases f.AmountRange with _ | ⟨_ | x, _ | y⟩
  · simp
  · simp
  · by_cases h : y > 0 <;> simp [h]
  · by_cases h : x > 0 <;> simp [h]
  · by_cases h : x > 0 <;> by_cases h' : y > 0 <;> simp [h, h']

theorem buildExprs_eq (f : FilterConditions) :
    buildExprs f = (filterClauses f).reduceOption := by
  have hparty : (f.AnyParty.length > 0) ↔ f.AnyParty ≠ [] := by
    simp [List.length_pos]
  simp only [buildExprs, appendDateExprs_eq, appendAmountExprs_eq, filterClauses,
    partyGroupClause, partyAClause, partyBClause, contractTypeClause, statusClause, hparty,
    ite_append_singleton, List.nil_append, reduceOption_cons_toList, List.reduceOption_nil,
    List.append_nil, List.append_assoc]
  by_cases h₁ : f.AnyParty = [] <;> by_cases h₂ : f.PartyA = "" <;>
    by_cases h₃ : f.PartyB = "" <;> by_cases h₄ : f.ContractType = "" <;>
    by_cases h₅ : f.Status = "" <;> simp [h₁, h₂, h₃, h₄, h₅]

/-- C22, a lower amount bound of 0 and a start date that is not `YYYY-MM-DD`: the filter
is present in the filter set and `BuildExpr` returns the empty expression. -/
theorem C22_counterexample :
    ({ FilterConditions.zero with AmountRange := some { Min := some 0, Max := none } } :
      FilterConditions).AmountRange.bind AmountRange.Min = some 0 ∧
    BuildExpr { FilterConditions.zero with AmountRange := some { Min := some 0, Max := none } } =
      "" ∧
    BuildExpr { FilterConditions.zero with
      DateRange := some { Start := "2024/01/01", End := "" } } = "" := by
  decide

/-- C22 amended: `BuildExpr` returns the clauses of the filter set joined by ` && `, in the
order party group, partyA, partyB, contract type, status, date start, date end, amount
min, amount max, one clause for each kind that is present, where a date bound is present
only if its text is a date `YYYY-MM-DD` and an amount bound only if it is greater than 0;
the party group is the parenthesised list, joined by ` || `, of one clause per party.
A filter set with no filter yields the empty expression. -/
theorem C22_BuildExpr_clauses (f : FilterConditions) :
    BuildExpr f = " && ".intercalate
      [partyGroupClause f, partyAClause f, partyBClause f, contractTypeClause f, statusClause f,
        dateStartClause f, dateEndClause f, amountMinClause f, amountMaxClause f].reduceOption ∧
    (f.AnyParty = [] → f.PartyA = "" → f.PartyB = "" → f.ContractType = "" → f.Status = "" →
      f.DateRange = none → f.AmountRange = none → BuildExpr f = "") := by
  constructor
  · rw [BuildExpr, buildExprs_eq, filterClauses]
  · intro h₁ h₂ h₃ h₄ h₅ h₆ h₇
    rw [BuildExpr, buildExprs_eq]
    simp [filterClauses, partyGroupClause, partyAClause, partyBClause, contractTypeClause,
      statusClause, dateStartClause, dateEndClause, amountMinClause, amountMaxClause, h₁, h₂, h₃,
      h₄, h₅, h₆, h₇]
    rfl

/-- C22 amended, at a filter set with every kind of filter and at the empty one. -/
theorem C22_BuildExpr_clauses_witness :
    [partyGroupClause fullFilters, partyAClause fullFilters, partyBClause fullFilters,
        contractTypeClause fullFilters, statusClause fullFilters, dateStartClause fullFilters,
        dateEndClause fullFilters, amountMinClause fullFilters,
        amountMaxClause fullFilters].reduceOption =
      ["((party_a == '甲公司' || party_b == '甲公司') || (party_a == 'B' || party_b == 'B'))",
        "party_a == 'Acme'", "party_b == 'Bolt'", "contract_type == '采购合同'",
        "contract_status == '已过期'", "sign_date >= 1704067200", "sign_date <= 1735689599",
        "amount >= 1000.000000", "amount <= 500000.000000"] ∧
    BuildExpr fullFilters = " && ".intercalate
      [partyGroupClause fullFilters, partyAClause fullFilters, partyBClause fullFilters,
        contractTypeClause fullFilters, statusClause fullFilters, dateStartClause fullFilters,
        dateEndClause fullFilters, amountMinClause fullFilters,
        amountMaxClause fullFilters].reduceOption ∧
    BuildExpr FilterConditions.zero = "" :=
  ⟨by decide, (C22_BuildExpr_clauses fullFilters).1,
    (C22_BuildExpr_clauses FilterConditions.zero).2 rfl rfl rfl rfl rfl rfl rfl⟩

theorem amountBounds_append (qs qs' : List ESQuery) :
    amountBounds (qs ++ qs') = amountBounds qs ++ amountBounds qs' := by
  simp [amountBounds, List.flatMap_append]

theorem amountBounds_buildRangeFilters (esf : es.Filter) :
    amountBounds [ESQuery.range (buildRangeFilters esf)] =
      (esf.AmountMin.map (fun x => ("gte", ESValue.num x))).toList ++
        (esf.AmountMax.map (fun x => ("lte", ESValue.num x))).toList := by
  simp only [amountBounds, buildRangeFilters, ite_append_singleton, List.nil_append]
  rcases esf.SignDateStart with _ | s₁ <;> rcases esf.SignDateEnd with _ | s₂ <;>
    rcases esf.EndDateStart with _ | e₁ <;> rcases esf.EndDateEnd with _ | e₂ <;>
    rcases esf.AmountMin with _ | x <;> rcases esf.AmountMax with _ | y <;> simp

theorem amountBounds_buildFilterQueries (esf : es.Filter) :
    amountBounds (buildFilterQueries (some esf)) =
      (esf.AmountMin.map (fun x => ("gte", ESValue.num x))).toList ++
        (esf.AmountMax.map (fun x => ("lte", ESValue.num x))).toList := by
  have hterm : ∀ (c : Prop) [Decidable c] (field : String) (v : ESValue),
      amountBounds (if c then some (ESQuery.term field v) else none).toList = [] := by
    intro c _ field v
    split <;> simp [amountBounds]
  have hshould : ∀ (c : Prop) [Decidable c] (l : List (String × ESValue)) (n : Nat),
      amountBounds (if c then some (ESQuery.boolShould l n) else none).toList = [] := by
    intro c _ l n
    split <;> simp [amountBounds]
  have hterms : ∀ (c : Prop) [Decidable c] (field : String) (v : List String),
      amountBounds (if c then some (ESQuery.terms field v) else none).toList = [] := by
    intro c _ field v
    split <;> simp [amountBounds]
  have hrange : amountBounds
      (if (buildRangeFilters esf).length > 0 then some (ESQuery.range (buildRangeFilters esf))
        else none).toList =
      (esf.AmountMin.map (fun x => ("gte", ESValue.num x))).toList ++
        (esf.AmountMax.map (fun x => ("lte", ESValue.num x))).toList := by
    split
    · exact amountBounds_buildRangeFilters esf
    · rename_i h
      have h0 : buildRangeFilters esf = [] := by
        cases hl : buildRangeFilters esf with
        | nil => rfl
        | cons a l => simp [hl] at h
      rw [← amountBounds_buildRangeFilters esf, h0]
      simp [amountBounds]
  simp only [buildFilterQueries, ite_append_singleton, amountBounds_append, hterm, hshould,
    hterms, hrange, List.nil_append, List.append_nil]
  simp [amountBounds]

/-- C27, an upper bound of 0 (and likewise a lower bound of 0): the keyword filter holds
the bound `lte 0`, and the expression of `BuildExpr` holds no bound on the amount at all.
For the lower bound 0.0000001 the keyword filter holds that value and the expression the
text `0.000000`. -/
theorem C27_counterexample :
    amountBounds (buildFilterQueries (RetrievalService.convertFiltersToES
      (some { FilterConditions.zero with AmountRange := some { Min := some 0, Max := some 0 } }))) =
        [("gte", ESValue.num 0), ("lte", ESValue.num 0)] ∧
    buildExprs { FilterConditions.zero with AmountRange := some { Min := some 0, Max := some 0 } } =
      [] ∧
    BuildExpr { FilterConditions.zero with AmountRange := some { Min := some 0, Max := some 0 } } =
      "" ∧
    amountBounds (buildFilterQueries (RetrievalService.convertFiltersToES
      (some { FilterConditions.zero with
        AmountRange := some { Min := some (1 / 10000000), Max := none } }))) =
        [("gte", ESValue.num (1 / 10000000))] ∧
    buildExprs { FilterConditions.zero with
      AmountRange := some { Min := some (1 / 10000000), Max := none } } =
        ["amount >= 0.000000"] := by
  refine ⟨by decide, by decide, by decide, ?_, ?_⟩
  · obtain ⟨esf, hesf, -, hmin, hmax, -⟩ := convertFiltersToES_fields
      { FilterConditions.zero with AmountRange := some { Min := some (1 / 10000000), Max := none } }
    rw [hesf, amountBounds_buildFilterQueries, hmin, hmax]
    rfl
  · have h₁ : ((1 : ℚ) / 10000000).num = 1 := by norm_num
    have h₂ : ((1 : ℚ) / 10000000).den = 10000000 := by norm_num
    have h₃ : formatFloat6 (1 / 10000000) = "0.000000" := by
      simp only [formatFloat6, h₁, h₂]
      decide
    have h₄ : (1 : ℚ) / 10000000 > 0 := by norm_num
    rw [buildExprs_eq]
    simp [filterClauses, partyGroupClause, partyAClause, partyBClause, contractTypeClause,
      statusClause, dateStartClause, dateEndClause, amountMinClause, amountMaxClause,
      FilterConditions.zero, List.reduceOption]
    have h₅ : (10000000 : ℚ)⁻¹ = 1 / 10000000 := by norm_num
    rw [h₅, h₃]
    rfl

/-- C27 amended: for a filter set with an amount range, the keyword filter holds a `gte`
(`lte`) bound on `amount` exactly when the lower (upper) bound is non-null, with the bound
itself as its value; the expression of `BuildExpr` is the expression of the filter set
without the amount range followed by a lower (upper) bound clause exactly when the bound
is non-null and greater than 0, the bound printed with six decimals. -/
theorem C27_amount_bounds (f : FilterConditions) (a : AmountRange)
    (h : f.AmountRange = some a) :
    amountBounds (buildFilterQueries (RetrievalService.convertFiltersToES (some f))) =
      (a.Min.map (fun x => ("gte", ESValue.num x))).toList ++
        (a.Max.map (fun x => ("lte", ESValue.num x))).toList ∧
    buildExprs f = buildExprs { f with AmountRange := none } ++
      ((a.Min.filter (fun x => decide (x > 0))).map (fun x => "amount >= " ++ formatFloat6 x)).toList ++
      ((a.Max.filter (fun x => decide (x > 0))).map (fun x => "amount <= " ++ formatFloat6 x)).toList := by
  constructor
  · obtain ⟨esf, hesf, -, hmin, hmax, -⟩ := convertFiltersToES_fields f
    rw [hesf, amountBounds_buildFilterQueries, hmin, hmax, h]
    rfl
  · have hmin : amountMinClause f =
        (a.Min.filter (fun x => decide (x > 0))).map (fun x => "amount >= " ++ formatFloat6 x) := by
      simp only [amountMinClause, h, Option.bind]
      rcases a.Min with _ | x
      · rfl
      · by_cases hx : x > 0 <;> simp [Option.filter, hx]
    have hmax : amountMaxClause f =
        (a.Max.filter (fun x => decide (x > 0))).map (fun x => "amount <= " ++ formatFloat6 x) := by
      simp only [amountMaxClause, h, Option.bind]
      rcases a.Max with _ | x
      · rfl
      · by_cases hx : x > 0 <;> simp [Option.filter, hx]
    rw [buildExprs_eq f, buildExprs_eq { f with AmountRange := none }]
    simp only [filterClauses, reduceOption_cons_toList, List.reduceOption_nil, List.append_nil,
      hmin, hmax, List.append_assoc]
    rfl

/-- C27 amended, at the bounds 1000 and 500000 (both sides hold both bounds) and at the
bounds 0 and null (the keyword filter holds `gte 0`, the expression no bound). -/
theorem C27_amount_bounds_witness :
    fullFilters.AmountRange = some { Min := some 1000, Max := some 500000 } ∧
    (amountBounds (buildFilterQueries (RetrievalService.convertFiltersToES (some fullFilters))) =
      [("gte", ESValue.num 1000), ("lte", ESValue.num 500000)] ∧
      buildExprs fullFilters = buildExprs { fullFilters with AmountRange := none } ++
        ["amount >= " ++ formatFloat6 1000] ++ ["amount <= " ++ formatFloat6 500000]) ∧
    formatFloat6 1000 = "1000.000000" ∧ formatFloat6 500000 = "500000.000000" ∧
    (amountBounds (buildFilterQueries (RetrievalService.convertFiltersToES
        (some { fullFilters with AmountRange := some { Min := some 0, Max := none } }))) =
      [("gte", ESValue.num 0)] ∧
      buildExprs { fullFilters with AmountRange := some { Min := some 0, Max := none } } =
        buildExprs { fullFilters with AmountRange := none } ++ [] ++ []) :=
  ⟨rfl, C27_amount_bounds fullFilters { Min := some 1000, Max := some 500000 } rfl, by decide,
    by decide,
    C27_amount_bounds { fullFilters with AmountRange := some { Min := some 0, Max := none } }
      { Min := some 0, Max := none } rfl⟩

theorem appendRangeConds_eq (tx : List SQLCond) (f : FilterConditions) :
    appendRangeConds tx f = tx ++
      ((match f.DateRange with
        | some d =>
            (if d.Start ≠ "" then [SQLCond.signDateGE d.Start] else []) ++
              (if d.End ≠ "" then [SQLCond.signDateLE d.End] else [])
        | none => []) ++
      (match f.AmountRange with
        | some a =>
            (a.Min.map SQLCond.amountGE).toList ++ (a.Max.map SQLCond.amountLE).toList
        | none => [])) := by
  simp only [appendRangeConds]
  rcases f.DateRange with _ | d
  · rcases f.AmountRange with _ | ⟨_ | x, _ | y⟩ <;> simp
  · by_cases h₁ : d.Start = "" <;> by_cases h₂ : d.End = "" <;>
      rcases f.AmountRange with _ | ⟨_ | x, _ | y⟩ <;> simp [h₁, h₂]

theorem searchConds_candidates (f : FilterConditions) (ids : List String) (h : ids ≠ []) :
    searchConds f [ids] = SQLCond.docIDIn ids :: relationalFilters f := by
  have hlen : 0 < ids.length := List.length_pos.mpr h
  have hne : ¬ ids.length = 0 := by omega
  simp only [searchConds, appendRangeConds_eq, relationalFilters, List.length_singleton,
    List.headD_cons, hlen, hne, ite_append_singleton, List.nil_append]
  by_cases h₂ : f.PartyA = "" <;> by_cases h₃ : f.PartyB = "" <;>
    by_cases h₄ : f.ContractType = "" <;> by_cases h₅ : f.Status = "" <;>
    by_cases h₆ : f.Status = "已过期" ∨ f.Status = "expired" <;>
    simp [h₂, h₃, h₄, h₅, h₆]

theorem searchConds_unrestricted (f : FilterConditions) (h : f.AnyParty = []) :
    searchConds f [[]] = relationalFilters f := by
  simp only [searchConds, appendRangeConds_eq, relationalFilters, List.length_singleton,
    List.headD_cons, h, List.length_nil, ite_append_singleton, List.nil_append]
  by_cases h₂ : f.PartyA = "" <;> by_cases h₃ : f.PartyB = "" <;>
    by_cases h₄ : f.ContractType = "" <;> by_cases h₅ : f.Status = "" <;>
    by_cases h₆ : f.Status = "已过期" ∨ f.Status = "expired" <;>
    simp [h₂, h₃, h₄, h₅, h₆]

theorem findDocIDs_candidates (db : SQLEngine) (pg : List Contract) (ids : List String)
    (conds : List SQLCond) (found : List String)
    (h : findDocIDs db pg (SQLCond.docIDIn ids :: conds) = some found) :
    found = ((pg.filter (fun c => decide (c.DocID ∈ ids))).filter
      (fun c => conds.all (SQLCond.holds db c))).map Contract.DocID := by
  simp only [findDocIDs] at h
  split at h
  · exact absurd h (by simp)
  · have h' := Option.some.inj h
    rw [← h', List.filter_filter]
    congr 1
    apply List.filter_congr
    intro c _
    simp [SQLCond.holds, Bool.and_comm]

theorem findDocIDs_all (db : SQLEngine) (pg : List Contract) (conds : List SQLCond)
    (found : List String) (h : findDocIDs db pg conds = some found) :
    found = (pg.filter (fun c => conds.all (SQLCond.holds db c))).map Contract.DocID := by
  simp only [findDocIDs] at h
  split at h
  · exact absurd h (by simp)
  · exact (Option.some.inj h).symm

theorem relationalStage_spec (env : QueryEnv) (pg : List Contract) (f : FilterConditions)
    (esDocIDs : List String) (calls : List StoreCall) (conds : List SQLCond)
    (hconds : searchConds f [esDocIDs] = conds) :
    (relationalStage env pg f esDocIDs calls).calls.take (calls.length + 1) =
      calls ++ [StoreCall.pgSearch conds] ∧
    (∀ call ∈ (relationalStage env pg f esDocIDs calls).calls.drop (calls.length + 1),
      ∃ d, call = StoreCall.pgGet d) ∧
    (findDocIDs env.db pg conds = none →
      (relationalStage env pg f esDocIDs calls).answer = Answer.pgFailed ∧
        (relationalStage env pg f esDocIDs calls).err = true) ∧
    (∀ found, findDocIDs env.db pg conds = some found →
      (relationalStage env pg f esDocIDs calls).answer = answerFor found ∧
        (relationalStage env pg f esDocIDs calls).err = false) := by
  have htake : ∀ l : List StoreCall,
      (calls ++ [StoreCall.pgSearch conds] ++ l).take (calls.length + 1) =
        calls ++ [StoreCall.pgSearch conds] := by
    intro l
    have : calls.length + 1 = (calls ++ [StoreCall.pgSearch conds]).length := by simp
    rw [this, List.take_left]
  have hdrop : ∀ l : List StoreCall,
      (calls ++ [StoreCall.pgSearch conds] ++ l).drop (calls.length + 1) = l := by
    intro l
    have : calls.length + 1 = (calls ++ [StoreCall.pgSearch conds]).length := by simp
    rw [this, List.drop_left]
  have hdrop' : (calls ++ [StoreCall.pgSearch conds]).drop (calls.length + 1) = [] := by
    have := hdrop []
    simp only [List.append_nil] at this
    exact this
  have htake' : (calls ++ [StoreCall.pgSearch conds]).take (calls.length + 1) =
      calls ++ [StoreCall.pgSearch conds] := by
    have := htake []
    simp only [List.append_nil] at this
    exact this
  simp only [relationalStage, ContractRepo.SearchContracts, hconds]
  cases hfind : findDocIDs env.db pg conds with
  | none =>
    dsimp only
    refine ⟨htake', ?_, fun _ => ⟨rfl, rfl⟩, ?_⟩
    · rw [hdrop']
      intro call hcall
      cases hcall
    · intro found h
      cases h
  | some found =>
    dsimp only
    by_cases hz : found.length = 0
    · have hnil : found = [] := List.length_eq_zero.mp hz
      rw [if_pos hz]
      refine ⟨htake', ?_, ?_, ?_⟩
      · rw [hdrop']
        intro call hcall
        cases hcall
      · intro h
        cases h
      · intro found' h
        cases h
        exact ⟨by simp [answerFor, hnil], rfl⟩
    · have hnil : found ≠ [] := fun h => hz (by simp [h])
      rw [if_neg hz]
      refine ⟨htake _, ?_, ?_, ?_⟩
      · rw [hdrop]
        intro call hcall
        obtain ⟨d, -, rfl⟩ := List.mem_map.mp hcall
        exact ⟨d, rfl⟩
      · intro h
        cases h
      · intro found' h
        cases h
        exact ⟨by simp [answerFor, hnil], rfl⟩

/-- C21: let the intent be `structured_only`.  With a non-empty party list whose party
match yields no candidate, `Search` returns the no-results answer and no error, having
sent the party query only.  With a non-empty party list whose party match yields the
candidates `ids`, `Search` sends the party query and then one relational statement, the
condition `doc_id IN ids` followed by the relational filters and no condition on the party
list; when the statement succeeds it yields the rows among the candidates that satisfy the
relational filters, and the answer counts them.  With an empty party list `Search` sends
no party query, and its relational statement is the relational filters alone, evaluated
over all rows. -/
theorem C21_structured_search (env : QueryEnv) (pg : List Contract) (query : String)
    (intent : SearchIntent)
    (hintent : AnalyzeQuery env.unmarshal query env.chatModel = some intent)
    (hkind : intent.Intent = PG) :
    (intent.Filters.AnyParty ≠ [] →
      SearchByParties env.partyHits intent.Filters.AnyParty = some [] →
      RetrievalService.Search env pg query =
        some { answer := Answer.noResults, err := false,
               calls := [StoreCall.partySearch intent.Filters.AnyParty] }) ∧
    (∀ ids : List String, intent.Filters.AnyParty ≠ [] →
      SearchByParties env.partyHits intent.Filters.AnyParty = some ids → ids ≠ [] →
      ∃ r, RetrievalService.Search env pg query = some r ∧
        r.calls.take 2 = [StoreCall.partySearch intent.Filters.AnyParty,
          StoreCall.pgSearch (SQLCond.docIDIn ids :: relationalFilters intent.Filters)] ∧
        (∀ call ∈ r.calls.drop 2, ∃ d, call = StoreCall.pgGet d) ∧
        (findDocIDs env.db pg (SQLCond.docIDIn ids :: relationalFilters intent.Filters) = none →
          r.answer = Answer.pgFailed ∧ r.err = true) ∧
        (∀ found,
          findDocIDs env.db pg (SQLCond.docIDIn ids :: relationalFilters intent.Filters) =
            some found →
          found = ((pg.filter (fun c => decide (c.DocID ∈ ids))).filter
            (fun c => (relationalFilters intent.Filters).all (SQLCond.holds env.db c))).map
              Contract.DocID ∧
          r.answer = answerFor found ∧ r.err = false)) ∧
    (intent.Filters.AnyParty = [] →
      ∃ r, RetrievalService.Search env pg query = some r ∧
        r.calls.take 1 = [StoreCall.pgSearch (relationalFilters intent.Filters)] ∧
        (∀ call ∈ r.calls.drop 1, ∃ d, call = StoreCall.pgGet d) ∧
        (findDocIDs env.db pg (relationalFilters intent.Filters) = none →
          r.answer = Answer.pgFailed ∧ r.err = true) ∧
        (∀ found, findDocIDs env.db pg (relationalFilters intent.Filters) = some found →
          found = (pg.filter
            (fun c => (relationalFilters intent.Filters).all (SQLCond.holds env.db c))).map
              Contract.DocID ∧
          r.answer = answerFor found ∧ r.err = false)) := by
  have hsearch : RetrievalService.Search env pg query =
      some (structuredSearch env pg intent.Filters) := by
    simp only [RetrievalService.Search, hintent, hkind, if_true]
  refine ⟨?_, ?_, ?_⟩
  · intro hparty hnone
    have hlen : intent.Filters.AnyParty.length > 0 := List.length_pos.mpr hparty
    rw [hsearch]
    simp only [structuredSearch, hlen, if_true, hnone, List.length_nil]
  · intro ids hparty hids hne
    have hlen : intent.Filters.AnyParty.length > 0 := List.length_pos.mpr hparty
    have hlen' : ¬ ids.length = 0 := fun h => hne (List.length_eq_zero.mp h)
    have hstage : structuredSearch env pg intent.Filters =
        relationalStage env pg intent.Filters ids
          [StoreCall.partySearch intent.Filters.AnyParty] := by
      simp only [structuredSearch, hlen, if_true, hids, hlen', if_false]
    obtain ⟨h₁, h₂, h₃, h₄⟩ := relationalStage_spec env pg intent.Filters ids
      [StoreCall.partySearch intent.Filters.AnyParty] _ (searchConds_candidates _ _ hne)
    refine ⟨_, hsearch, ?_, ?_, ?_, ?_⟩
    · rw [hstage]
      exact h₁
    · rw [hstage]
      exact h₂
    · rw [hstage]
      exact h₃
    · intro found hfound
      rw [hstage]
      exact ⟨findDocIDs_candidates _ _ _ _ _ hfound, h₄ found hfound⟩
  · intro hparty
    have hlen : ¬ intent.Filters.AnyParty.length > 0 := by simp [hparty]
    have hstage : structuredSearch env pg intent.Filters =
        relationalStage env pg intent.Filters [] [] := by
      simp only [structuredSearch, hlen, if_false]
    obtain ⟨h₁, h₂, h₃, h₄⟩ := relationalStage_spec env pg intent.Filters [] [] _
      (searchConds_unrestricted _ hparty)
    refine ⟨_, hsearch, ?_, ?_, ?_, ?_⟩
    · rw [hstage]
      exact h₁
    · rw [hstage]
      exact h₂
    · rw [hstage]
      exact h₃
    · intro found hfound
      rw [hstage]
      exact ⟨findDocIDs_all _ _ _ _ hfound, h₄ found hfound⟩

/-- C21 on the three sample rows.  The party `Acme` with no hit in the keyword store: no
results, and only the party query is sent.  With the hits `u`, `v`, `u`: the statement is
`doc_id IN (u, v)` and the type filter, and finds `u` (not `w`, a purchase outside the
candidates).  Without a party: no party query, and the type filter finds `u` and `w`. -/
theorem C21_structured_search_witness :
    AnalyzeQuery jsonUnmarshalIntent "q" (fun _ => some partyAnswer) = some partyIntent ∧
    partyIntent.Intent = PG ∧ partyIntent.Filters.AnyParty ≠ [] ∧
    SearchByParties (fun _ => some []) partyIntent.Filters.AnyParty = some [] ∧
    RetrievalService.Search (sampleQueryEnv partyAnswer (some [])) samplePg "q" =
      some { answer := Answer.noResults, err := false,
             calls := [StoreCall.partySearch ["Acme"]] } ∧
    SearchByParties (fun _ => some ["u", "v", "u"]) partyIntent.Filters.AnyParty =
      some ["u", "v"] ∧
    RetrievalService.Search (sampleQueryEnv partyAnswer (some ["u", "v", "u"])) samplePg "q" =
      some { answer := Answer.found 1, err := false,
             calls := [StoreCall.partySearch ["Acme"],
               StoreCall.pgSearch [SQLCond.docIDIn ["u", "v"],
                 SQLCond.typeIsOrFileNameLike "purchase" "%purchase%"],
               StoreCall.pgGet "u"] } ∧
    (∃ r, RetrievalService.Search (sampleQueryEnv partyAnswer (some ["u", "v", "u"])) samplePg
        "q" = some r ∧
      r.calls.take 2 = [StoreCall.partySearch partyIntent.Filters.AnyParty,
        StoreCall.pgSearch (SQLCond.docIDIn ["u", "v"] :: relationalFilters partyIntent.Filters)] ∧
      (∀ call ∈ r.calls.drop 2, ∃ d, call = StoreCall.pgGet d) ∧
      (findDocIDs (sampleQueryEnv partyAnswer (some ["u", "v", "u"])).db samplePg
          (SQLCond.docIDIn ["u", "v"] :: relationalFilters partyIntent.Filters) = none →
        r.answer = Answer.pgFailed ∧ r.err = true) ∧
      (∀ found,
        findDocIDs (sampleQueryEnv partyAnswer (some ["u", "v", "u"])).db samplePg
          (SQLCond.docIDIn ["u", "v"] :: relationalFilters partyIntent.Filters) = some found →
        found = ((samplePg.filter (fun c => decide (c.DocID ∈ ["u", "v"]))).filter
          (fun c => (relationalFilters partyIntent.Filters).all
            (SQLCond.holds (sampleQueryEnv partyAnswer (some ["u", "v", "u"])).db c))).map
              Contract.DocID ∧
        r.answer = answerFor found ∧ r.err = false)) ∧
    AnalyzeQuery jsonUnmarshalIntent "q" (fun _ => some typeAnswer) = some typeIntent ∧
    typeIntent.Filters.AnyParty = [] ∧
    RetrievalService.Search (sampleQueryEnv typeAnswer none) samplePg "q" =
      some { answer := Answer.found 2, err := false,
             calls := [StoreCall.pgSearch [SQLCond.typeIsOrFileNameLike "purchase" "%purchase%"],
               StoreCall.pgGet "u", StoreCall.pgGet "w"] } :=
  ⟨by decide, rfl, by decide, rfl,
    (C21_structured_search (sampleQueryEnv partyAnswer (some [])) samplePg "q" partyIntent
      (by decide) rfl).1 (by decide) rfl,
    by decide, by decide,
    (C21_structured_search (sampleQueryEnv partyAnswer (some ["u", "v", "u"])) samplePg "q"
      partyIntent (by decide) rfl).2.1 ["u", "v"] (by decide) (by decide) (by decide),
    by decide, rfl, by decide⟩

theorem mergeResults_none_of_nil (milvusDocs esDocs : List (Option Document))
    (config : HybridRerankerConfig) (hnil : none ∈ milvusDocs ∨ none ∈ esDocs) :
    mergeResults milvusDocs esDocs config = none := by
  cases h : mergeResults milvusDocs esDocs config with
  | none => rfl
  | some docMap =>
    obtain ⟨mil, es, rfl, rfl, -⟩ := mergeResults_isSome _ _ _ _ h
    rcases hnil with h' | h' <;> simp at h'

/-- C28, the code at a nil entry: whenever one of the two lists holds a nil document,
every run of `HybridReranker` panics (`normalizeScores` calls `Score()` on every entry,
the first one included, before the merge loops and their nil guards are reached). -/
theorem C28_nil_entry_panics (milvusDocs esDocs : List (Option Document))
    (config : Option HybridRerankerConfig) (out : Option (List RerankedDocument))
    (hnil : none ∈ milvusDocs ∨ none ∈ esDocs)
    (hrun : HybridReranker milvusDocs esDocs config out) : out = none := by
  simp only [HybridReranker, mergeResults_none_of_nil _ _ _ hnil] at hrun
  exact hrun

/-- C28 at the vector list `[A, nil]` and the keyword list `[B]`: the run panics, and on
the lists without the nil entry it returns two items. -/
theorem C28_nil_entry_panics_witness :
    (none ∈ [some (mkDoc "A" 10), none] ∨ none ∈ [some (mkDoc "B" 5)]) ∧
    HybridReranker [some (mkDoc "A" 10), none] [some (mkDoc "B" 5)] none
      (HybridRerankerStable [some (mkDoc "A" 10), none] [some (mkDoc "B" 5)] none) ∧
    HybridRerankerStable [some (mkDoc "A" 10), none] [some (mkDoc "B" 5)] none = none ∧
    normalizeScores [some (mkDoc "A" 10), none] = none ∧
    (HybridRerankerStable [some (mkDoc "A" 10)] [some (mkDoc "B" 5)] none).map
      (fun results => results.map (fun r => r.Document.ID)) = some ["A", "B"] :=
  ⟨by decide, HybridReranker_stable _ _ _,
    C28_nil_entry_panics [some (mkDoc "A" 10), none] [some (mkDoc "B" 5)] none _ (by decide)
      (HybridReranker_stable _ _ _),
    by decide, by with_unfolding_all decide⟩

theorem MetaData.set_set (m : MetaData) (k : String) (v w : MetaValue) :
    (m.set k v).set k w = m.set k w := by
  induction m with
  | nil => simp [MetaData.set]
  | cons e rest ih =>
    obtain ⟨k', u⟩ := e
    by_cases h : k' = k
    · simp [MetaData.set, h]
    · simp [MetaData.set, h, ih]

theorem Document.WithScore_WithScore (d : Document) (a b : ℚ) :
    (d.WithScore a).WithScore b = d.WithScore b := by
  simp [Document.WithScore, MetaData.set_set]

theorem minMaxNormalized_idem (scores : List ℚ) (a : ℚ)
    (ha : a ∈ scores.map (minMaxNormalized scores)) :
    minMaxNormalized (scores.map (minMaxNormalized scores)) a = a := by
  have hne' : scores.map (minMaxNormalized scores) ≠ [] := List.ne_nil_of_mem ha
  have hne : scores ≠ [] := by
    intro h
    simp [h] at hne'
  have hmax' := maxOf_isGreatest _ hne'
  have hmin' := minOf_isLeast _ hne'
  have hmax := maxOf_isGreatest _ hne
  have hmin := minOf_isLeast _ hne
  by_cases heq : maxOf scores = minOf scores
  · have hall : ∀ x ∈ scores.map (minMaxNormalized scores), x = 1 := by
      intro x hx
      obtain ⟨s, -, rfl⟩ := List.mem_map.mp hx
      simp [minMaxNormalized, heq]
    have h₁ := hall _ hmax'.1
    have h₂ := hall _ hmin'.1
    have h₃ := hall _ ha
    rw [minMaxNormalized, h₁, h₂, h₃]
    simp
  · have hlt : minOf scores < maxOf scores :=
      lt_of_le_of_ne (hmax.2 _ hmin.1) (fun h => heq h.symm)
    have hsub : maxOf scores - minOf scores ≠ 0 := by
      intro h
      apply heq
      linarith
    have hone : (1 : ℚ) ∈ scores.map (minMaxNormalized scores) := by
      refine List.mem_map.mpr ⟨maxOf scores, hmax.1, ?_⟩
      rw [minMaxNormalized, if_neg heq, div_self hsub]
    have hzero : (0 : ℚ) ∈ scores.map (minMaxNormalized scores) := by
      refine List.mem_map.mpr ⟨minOf scores, hmin.1, ?_⟩
      rw [minMaxNormalized, if_neg heq, sub_self, zero_div]
    have hbounds : ∀ x ∈ scores.map (minMaxNormalized scores), 0 ≤ x ∧ x ≤ 1 := by
      intro x hx
      obtain ⟨s, hs, rfl⟩ := List.mem_map.mp hx
      exact minMaxNormalized_bounds scores s hs
    have h₁ : maxOf (scores.map (minMaxNormalized scores)) = 1 :=
      le_antisymm (hbounds _ hmax'.1).2 (hmax'.2 _ hone)
    have h₂ : minOf (scores.map (minMaxNormalized scores)) = 0 :=
      le_antisymm (hmin'.2 _ hzero) (hbounds _ hmin'.1).1
    rw [minMaxNormalized, h₁, h₂]
    simp

theorem normalizedDocs_scores (ds : List Document) :
    (normalizedDocs ds).map Document.Score =
      (ds.map Document.Score).map (minMaxNormalized (ds.map Document.Score)) := by
  simp [normalizedDocs, List.map_map, Function.comp_def]

theorem normalizedDocs_idem (ds : List Document) :
    normalizedDocs (normalizedDocs ds) = normalizedDocs ds := by
  have hs := normalizedDocs_scores ds
  conv_lhs => rw [normalizedDocs, hs]
  rw [normalizedDocs, List.map_map]
  apply List.map_congr_left
  intro d hd
  simp only [Function.comp_apply, Document.Score_WithScore, Document.WithScore_WithScore]
  congr 1
  apply minMaxNormalized_idem
  exact List.mem_map.mpr ⟨d.Score, List.mem_map.mpr ⟨d, hd, rfl⟩, rfl⟩

theorem mergedMap_normalizedDocs (mil es : List Document) (config : HybridRerankerConfig) :
    mergedMap (normalizedDocs mil) (normalizedDocs es) config = mergedMap mil es config := by
  simp only [mergedMap, normalizedDocs_idem]

/-- C29: on a slice without nil entries `normalizeScores` leaves the documents
`normalizedDocs ds` behind, and applied to these it leaves them as they are, every score
included; so a second call of `HybridReranker` on the two slices the first call left
behind, with the same configuration, builds the same `docMap` (the same `FinalScore`
under every ID) and has the same outcomes as the first call. -/
theorem C29_normalizeScores_idempotent (ds mil es : List Document)
    (config : Option HybridRerankerConfig) :
    normalizeScores (ds.map some) = some ((normalizedDocs ds).map some) ∧
    normalizeScores ((normalizedDocs ds).map some) = some ((normalizedDocs ds).map some) ∧
    (normalizedDocs (normalizedDocs ds)).map Document.Score =
      (normalizedDocs ds).map Document.Score ∧
    mergeResults ((normalizedDocs mil).map some) ((normalizedDocs es).map some)
        (config.getD DefaultHybridRerankerConfig) =
      mergeResults (mil.map some) (es.map some) (config.getD DefaultHybridRerankerConfig) ∧
    (∀ id : String,
      ((mergedMap (normalizedDocs mil) (normalizedDocs es)
          (config.getD DefaultHybridRerankerConfig)).find id).map RerankedDocument.FinalScore =
        ((mergedMap mil es (config.getD DefaultHybridRerankerConfig)).find id).map
          RerankedDocument.FinalScore) ∧
    ∀ out : Option (List RerankedDocument),
      HybridReranker ((normalizedDocs mil).map some) ((normalizedDocs es).map some) config out ↔
        HybridReranker (mil.map some) (es.map some) config out := by
  refine ⟨normalizeScores_map_some ds, ?_, ?_, ?_, ?_, ?_⟩
  · rw [normalizeScores_map_some, normalizedDocs_idem]
  · rw [normalizedDocs_idem]
  · rw [mergeResults_map_some, mergeResults_map_some, mergedMap_normalizedDocs]
  · intro id
    rw [mergedMap_normalizedDocs]
  · intro out
    rw [HybridReranker_map_some, HybridReranker_map_some, mergedMap_normalizedDocs]

theorem alternate_length {α : Type} (s : List α) :
    (alternate s).1.length = (s.length + 1) / 2 ∧ (alternate s).2.length = s.length / 2 := by
  induction s with
  | nil => simp [alternate]
  | cons a l ih =>
    obtain ⟨h₁, h₂⟩ := ih
    constructor
    · show (alternate l).2.length + 1 = (l.length + 1 + 1) / 2
      omega
    · show (alternate l).1.length = (l.length + 1) / 2
      exact h₁

theorem alternate_getElem? {α : Type} (s : List α) (k : Nat) :
    (alternate s).1[k]? = s[2 * k]? ∧ (alternate s).2[k]? = s[2 * k + 1]? := by
  induction s generalizing k with
  | nil => simp [alternate]
  | cons a l ih =>
    constructor
    · cases k with
      | zero => simp [alternate]
      | succ k =>
        have h : 2 * (k + 1) = (2 * k + 1) + 1 := by omega
        rw [h]
        simp only [alternate, List.getElem?_cons_succ]
        exact (ih k).2
    · simp only [alternate, List.getElem?_cons_succ]
      exact (ih k).1

theorem alternate_perm {α : Type} (s : List α) :
    ((alternate s).1 ++ (alternate s).2).Perm s := by
  induction s with
  | nil => simp [alternate]
  | cons a l ih =>
    simp only [alternate, List.cons_append]
    exact List.Perm.cons a (List.perm_append_comm.trans ih)

theorem alternate_map {α β : Type} (f : α → β) (s : List α) :
    alternate (s.map f) = ((alternate s).1.map f, (alternate s).2.map f) := by
  induction s with
  | nil => simp [alternate]
  | cons a l ih => simp [alternate, ih]

theorem placed_perm {α : Type} (s : List α) : (placed s).Perm s :=
  (List.Perm.append_left _ (List.reverse_perm _)).trans (alternate_perm s)

theorem placed_length {α : Type} (s : List α) : (placed s).length = s.length :=
  (placed_perm s).length_eq

theorem placed_map {α β : Type} (f : α → β) (s : List α) :
    placed (s.map f) = (placed s).map f := by
  simp [placed, alternate_map]

theorem placed_getElem? {α : Type} (s : List α) (p : Nat) (hp : p < s.length) :
    (placed s)[p]? = s[sourceIndex s.length p]? := by
  have hlen := alternate_length s
  unfold placed sourceIndex
  by_cases h : p < (s.length + 1) / 2
  · rw [if_pos h, List.getElem?_append_left (by omega)]
    exact (alternate_getElem? s p).1
  · rw [if_neg h, List.getElem?_append_right (by omega), List.getElem?_reverse (by omega),
      (alternate_getElem? s _).2]
    congr 2
    omega

theorem placeLoop_length (copied : List (Option Document)) (i : Nat)
    (ret : List (Option Document)) : (placeLoop copied i ret).length = ret.length := by
  induction copied generalizing i ret with
  | nil => rfl
  | cons d rest ih =>
    rw [placeLoop, ih]
    split <;> simp

theorem placeLoop_getElem? (n : Nat) (copied : List (Option Document)) (i : Nat)
    (ret : List (Option Document)) (hret : ret.length = n) (hi : i + copied.length = n)
    (p : Nat) (hp : p < n) :
    (placeLoop copied i ret)[p]? =
      if i ≤ sourceIndex n p then copied[sourceIndex n p - i]? else ret[p]? := by
  induction copied generalizing i ret with
  | nil =>
    have hlt : sourceIndex n p < n := by
      unfold sourceIndex
      split <;> omega
    simp only [List.length_nil, Nat.add_zero] at hi
    rw [placeLoop, if_neg (show ¬ i ≤ sourceIndex n p by omega)]
  | cons d rest ih =>
    simp only [List.length_cons] at hi
    have hlen : (if i % 2 = 0 then ret.set (i / 2) d
        else ret.set (ret.length - 1 - i / 2) d).length = n := by
      split <;> simp [hret]
    rw [placeLoop, ih (i + 1) _ hlen (by omega)]
    by_cases h₁ : i + 1 ≤ sourceIndex n p
    · rw [if_pos h₁, if_pos (show i ≤ sourceIndex n p by omega)]
      have : sourceIndex n p - i = (sourceIndex n p - (i + 1)) + 1 := by omega
      rw [this, List.getElem?_cons_succ]
    · rw [if_neg h₁]
      by_cases h₂ : i = sourceIndex n p
      · rw [if_pos (show i ≤ sourceIndex n p by omega)]
        have h₀ : sourceIndex n p - i = 0 := by omega
        rw [h₀, List.getElem?_cons_zero]
        by_cases h₃ : i % 2 = 0
        · rw [if_pos h₃]
          have : i / 2 = p := by
            clear hlen ih
            unfold sourceIndex at h₂
            split at h₂ <;> omega
          rw [this, List.getElem?_set_self (by omega)]
        · rw [if_neg h₃]
          have : ret.length - 1 - i / 2 = p := by
            clear hlen ih
            unfold sourceIndex at h₂
            split at h₂ <;> omega
          rw [this, List.getElem?_set_self (by omega)]
      · rw [if_neg (show ¬ i ≤ sourceIndex n p by omega)]
        by_cases h₃ : i % 2 = 0
        · rw [if_pos h₃, List.getElem?_set_ne]
          have hlt : sourceIndex n p < i := by omega
          clear hlen ih h₁ h₂
          unfold sourceIndex at hlt
          split at hlt <;> omega
        · rw [if_neg h₃, List.getElem?_set_ne]
          have hlt : sourceIndex n p < i := by omega
          clear hlen ih h₁ h₂
          unfold sourceIndex at hlt
          split at hlt <;> omega

theorem placeLoop_eq_placed (s : List (Option Document)) :
    placeLoop s 0 (List.replicate s.length none) = placed s := by
  apply List.ext_getElem?
  intro p
  by_cases hp : p < s.length
  · rw [placeLoop_getElem? s.length s 0 _ (by simp) (by simp) p hp, if_pos (Nat.zero_le _),
      placed_getElem? s p hp]
    rfl
  · rw [List.getElem?_eq_none (by simp [placeLoop_length]; omega),
      List.getElem?_eq_none (by rw [placed_length]; omega)]

theorem sorted_getElem? (S : List ℚ) (hS : S.Pairwise (fun a b => a ≥ b)) (i j : Nat) (x y : ℚ)
    (hij : i ≤ j) (hx : S[i]? = some x) (hy : S[j]? = some y) : y ≤ x := by
  obtain ⟨hi, rfl⟩ := List.getElem?_eq_some_iff.mp hx
  obtain ⟨hj, rfl⟩ := List.getElem?_eq_some_iff.mp hy
  rcases Nat.eq_or_lt_of_le hij with h | h
  · subst h
    exact le_refl _
  · exact List.pairwise_iff_getElem.mp hS i j hi hj h

theorem placed_valley (S : List ℚ) (hS : S.Pairwise (fun a b => a ≥ b)) (p q : Nat) (x y : ℚ)
    (hpq : p ≤ q) (hx : (placed S)[p]? = some x) (hy : (placed S)[q]? = some y) :
    (q ≤ S.length / 2 → y ≤ x) ∧ (S.length / 2 ≤ p → x ≤ y) := by
  have hp : p < S.length := by
    have := (List.getElem?_eq_some_iff.mp hx).1
    rwa [placed_length] at this
  have hq : q < S.length := by
    have := (List.getElem?_eq_some_iff.mp hy).1
    rwa [placed_length] at this
  rw [placed_getElem? S p hp] at hx
  rw [placed_getElem? S q hq] at hy
  constructor
  · intro hm
    refine sorted_getElem? S hS _ _ x y ?_ hx hy
    unfold sourceIndex
    split <;> split <;> omega
  · intro hm
    refine sorted_getElem? S hS _ _ y x ?_ hy hx
    unfold sourceIndex
    split <;> split <;> omega

theorem eq_map_some_of_perm (l : List (Option Document)) (ds : List Document)
    (h : l.Perm (ds.map some)) : ∃ s : List Document, l = s.map some ∧ s.Perm ds := by
  refine ⟨l.reduceOption, ?_, ?_⟩
  · have hall : ∀ x ∈ l, x ≠ none := by
      intro x hx hnone
      have := h.subset hx
      rw [hnone] at this
      simp at this
    clear h
    induction l with
    | nil => rfl
    | cons a rest ih =>
      cases a with
      | none => exact absurd rfl (hall none (List.mem_cons_self _ _))
      | some d =>
        rw [List.reduceOption_cons_of_some, List.map_cons,
          ← ih (fun x hx => hall x (List.mem_cons_of_mem _ hx))]
  · have := h.filterMap id
    simpa [List.reduceOption] using this

theorem rerankerOf_scoreGetter (config : Config) (d : Document) :
    (rerankerOf config).scoreGetter (some d) = some (scoreOf config d) := by
  obtain ⟨key⟩ := config
  cases key with
  | none => rfl
  | some key =>
    simp only [rerankerOf, NewReranker, scoreOf, Option.getD_some]
    cases h : d.MetaData.get key with
    | none => rfl
    | some v => cases v <;> rfl

theorem rerankerOf_any (config : Config) (ds : List Document) :
    (ds.map some).any (fun d => ((rerankerOf config).scoreGetter d).isNone) = false := by
  induction ds with
  | nil => rfl
  | cons d rest ih => simp [rerankerOf_scoreGetter, ih]

/-- The relation `Transform` on a slice without nil entries. -/
theorem Transform_map_some (config : Config) (ds : List Document) (out : Option Transformed) :
    reranker.Transform (rerankerOf config) (ds.map some) out ↔
      ∃ s : List Document, s.Perm ds ∧ (s.map (scoreOf config)).Pairwise (fun a b => a ≥ b) ∧
        out = some { src := ds.map some, ret := (placed s).map some } := by
  simp only [reranker.Transform, rerankerOf_any, Bool.false_eq_true, and_false, if_false]
  constructor
  · rintro ⟨sorted, hperm, hsorted, rfl⟩
    obtain ⟨s, rfl, hs⟩ := eq_map_some_of_perm sorted ds hperm
    refine ⟨s, hs, ?_, ?_⟩
    · rw [List.pairwise_map] at hsorted ⊢
      refine hsorted.imp ?_
      intro a b hab
      simp only [sortedDocuments.Less, rerankerOf_scoreGetter, Option.getD_some, not_lt] at hab
      exact hab
    · have hlen : (ds.map some).length = (s.map some).length := by
        simp [hs.length_eq]
      rw [hlen, placeLoop_eq_placed, placed_map]
  · rintro ⟨s, hs, hsorted, rfl⟩
    refine ⟨s.map some, hs.map some, ?_, ?_⟩
    · rw [List.pairwise_map] at hsorted ⊢
      refine hsorted.imp ?_
      intro a b hab
      simp only [sortedDocuments.Less, rerankerOf_scoreGetter, Option.getD_some, not_lt]
      exact hab
    · have hlen : (ds.map some).length = (s.map some).length := by
        simp [hs.length_eq]
      rw [hlen, placeLoop_eq_placed, placed_map]

/-- The stable run is one of the runs of `Transform`. -/
theorem Transform_stable (r : reranker) (src : List (Option Document)) :
    reranker.Transform r src (reranker.TransformStable r src) := by
  simp only [reranker.Transform, reranker.TransformStable]
  split
  · rfl
  · refine ⟨_, List.perm_insertionSort _ _, ?_, rfl⟩
    haveI : IsTotal (Option Document)
        (fun a b => (r.scoreGetter a).getD 0 ≥ (r.scoreGetter b).getD 0) :=
      ⟨fun a b => le_total _ _⟩
    haveI : IsTrans (Option Document)
        (fun a b => (r.scoreGetter a).getD 0 ≥ (r.scoreGetter b).getD 0) :=
      ⟨fun a b c hab hbc => le_trans hbc hab⟩
    have hs := List.sorted_insertionSort
      (fun a b : Option Document => (r.scoreGetter a).getD 0 ≥ (r.scoreGetter b).getD 0) src
    have hs' : List.Pairwise
        (fun a b : Option Document => (r.scoreGetter a).getD 0 ≥ (r.scoreGetter b).getD 0)
        (src.insertionSort
          (fun a b => (r.scoreGetter a).getD 0 ≥ (r.scoreGetter b).getD 0)) := hs
    exact hs'.imp (fun h => not_lt.mpr h)

theorem TransformStable_of_sorted (config : Config) (ds : List Document)
    (h : (ds.map (scoreOf config)).Pairwise (fun a b => a ≥ b)) :
    reranker.TransformStable (rerankerOf config) (ds.map some) =
      some { src := ds.map some, ret := (placed ds).map some } := by
  simp only [reranker.TransformStable, rerankerOf_any, Bool.false_eq_true, and_false, if_false]
  have hsorted : (ds.map some).Sorted
      (fun a b => ((rerankerOf config).scoreGetter a).getD 0 ≥
        ((rerankerOf config).scoreGetter b).getD 0) := by
    rw [List.pairwise_map] at h
    unfold List.Sorted
    rw [List.pairwise_map]
    refine h.imp ?_
    intro a b hab
    simp only [rerankerOf_scoreGetter, Option.getD_some]
    exact hab
  rw [hsorted.insertionSort_eq, placeLoop_eq_placed, placed_map]

theorem sorted_scores_unique (config : Config) (s ds : List Document) (hperm : s.Perm ds)
    (hs : (s.map (scoreOf config)).Pairwise (fun a b => a ≥ b))
    (hds : (ds.map (scoreOf config)).Pairwise (fun a b => a ≥ b)) :
    s.map (scoreOf config) = ds.map (scoreOf config) := by
  haveI : IsAntisymm ℚ (fun a b => a ≥ b) := ⟨fun a b hab hba => le_antisymm hba hab⟩
  exact List.eq_of_perm_of_sorted (hperm.map _) hs hds

theorem sorted_strict_unique (config : Config) (s ds : List Document) (hperm : s.Perm ds)
    (hs : (s.map (scoreOf config)).Pairwise (fun a b => a ≥ b))
    (hds : (ds.map (scoreOf config)).Pairwise (fun a b => a > b)) : s = ds := by
  have heq := sorted_scores_unique config s ds hperm hs (hds.imp (fun h => le_of_lt h))
  have hs' : (s.map (scoreOf config)).Pairwise (fun a b => a > b) := by
    rw [heq]
    exact hds
  rw [List.pairwise_map] at hs' hds
  haveI : IsAntisymm Document (fun a b => scoreOf config a > scoreOf config b) :=
    ⟨fun a b hab hba => absurd hab (not_lt.mpr (le_of_lt hba))⟩
  exact List.eq_of_perm_of_sorted hperm hs' hds

/-- C26: on a slice `ds` of documents `Transform` of the score reranker built from
`config` returns (some run returns, none panics), and every run returns a slice `ret`
for which, `s` being an arrangement of `ds` sorted by descending score: `ret` is a
permutation of `ds` of the same length, `ret[k] = s[2k]` and `ret[n-1-k] = s[2k+1]`, the
scores do not increase up to position `n/2` and do not decrease from there on, and the
slice of the caller is what it was.  For five documents `a, b, c, d, e` whose scores do
not increase, every run returns the scores of `[a, c, e, d, b]`, the stable run returns
`[a, c, e, d, b]` itself, and so does every run when the scores are strictly descending. -/
theorem C26_transform_placement (config : Config) (ds : List Document) :
    (∃ t : Transformed, reranker.Transform (rerankerOf config) (ds.map some) (some t)) ∧
    (∀ out : Option Transformed, reranker.Transform (rerankerOf config) (ds.map some) out →
      ∃ s ret : List Document,
        s.Perm ds ∧ (s.map (scoreOf config)).Pairwise (fun a b => a ≥ b) ∧
        out = some { src := ds.map some, ret := ret.map some } ∧
        ret.Perm ds ∧ ret.length = ds.length ∧
        (∀ k : Nat, 2 * k < ds.length → ret[k]? = s[2 * k]?) ∧
        (∀ k : Nat, 2 * k + 1 < ds.length → ret[ds.length - 1 - k]? = s[2 * k + 1]?) ∧
        (∀ (p q : Nat) (x y : ℚ), p ≤ q →
          (ret.map (scoreOf config))[p]? = some x → (ret.map (scoreOf config))[q]? = some y →
            (q ≤ ds.length / 2 → y ≤ x) ∧ (ds.length / 2 ≤ p → x ≤ y))) ∧
    (∀ a b c d e : Document,
      ds = [a, b, c, d, e] →
      scoreOf config a ≥ scoreOf config b → scoreOf config b ≥ scoreOf config c →
      scoreOf config c ≥ scoreOf config d → scoreOf config d ≥ scoreOf config e →
        reranker.TransformStable (rerankerOf config) (ds.map some) =
            some { src := ds.map some, ret := [some a, some c, some e, some d, some b] } ∧
        ∀ out : Option Transformed, reranker.Transform (rerankerOf config) (ds.map some) out →
          ∃ ret : List Document,
            out = some { src := ds.map some, ret := ret.map some } ∧
            ret.map (scoreOf config) = [a, c, e, d, b].map (scoreOf config) ∧
            (scoreOf config a > scoreOf config b → scoreOf config b > scoreOf config c →
              scoreOf config c > scoreOf config d → scoreOf config d > scoreOf config e →
                ret = [a, c, e, d, b])) := by
  refine ⟨?_, ?_, ?_⟩
  · have h := Transform_stable (rerankerOf config) (ds.map some)
    obtain ⟨s, -, -, hout⟩ := (Transform_map_some config ds _).mp h
    rw [hout] at h
    exact ⟨_, h⟩
  · intro out hrun
    obtain ⟨s, hperm, hsorted, rfl⟩ := (Transform_map_some config ds out).mp hrun
    have hlen : s.length = ds.length := hperm.length_eq
    refine ⟨s, placed s, hperm, hsorted, rfl, (placed_perm s).trans hperm,
      (placed_length s).trans hlen, ?_, ?_, ?_⟩
    · intro k hk
      rw [placed_getElem? s k (by omega), sourceIndex, if_pos (by omega)]
    · intro k hk
      rw [placed_getElem? s _ (by omega), sourceIndex, if_neg (by omega)]
      congr 1
      omega
    · intro p q x y hpq hx hy
      rw [← placed_map] at hx hy
      have := placed_valley (s.map (scoreOf config)) hsorted p q x y hpq hx hy
      rw [List.length_map, hlen] at this
      exact this
  · intro a b c d e hds hab hbc hcd hde
    subst hds
    have hsorted : ([a, b, c, d, e].map (scoreOf config)).Pairwise (fun a b => a ≥ b) := by
      simp only [List.map_cons, List.map_nil, List.pairwise_cons, List.mem_cons,
        List.mem_singleton, List.not_mem_nil, forall_eq_or_imp, forall_eq, List.Pairwise.nil,
        and_true, IsEmpty.forall_iff, implies_true]
      refine ⟨⟨hab, ?_, ?_, ?_⟩, ⟨hbc, ?_, ?_⟩, ⟨hcd, ?_⟩, hde⟩ <;> linarith
    refine ⟨TransformStable_of_sorted config _ hsorted, ?_⟩
    intro out hrun
    obtain ⟨s, hperm, hs, rfl⟩ := (Transform_map_some config _ out).mp hrun
    refine ⟨placed s, rfl, ?_, ?_⟩
    · rw [← placed_map, sorted_scores_unique config s _ hperm hs hsorted]
      rfl
    · intro hab' hbc' hcd' hde'
      have hstrict : ([a, b, c, d, e].map (scoreOf config)).Pairwise (fun a b => a > b) := by
        simp only [List.map_cons, List.map_nil, List.pairwise_cons, List.mem_cons,
          List.mem_singleton, List.not_mem_nil, forall_eq_or_imp, forall_eq, List.Pairwise.nil,
          and_true, IsEmpty.forall_iff, implies_true]
        refine ⟨⟨hab', ?_, ?_, ?_⟩, ⟨hbc', ?_, ?_⟩, ⟨hcd', ?_⟩, hde'⟩ <;> linarith
      rw [sorted_strict_unique config s _ hperm hs hstrict]
      rfl

/-- C26 at the slice `[c, a, e, b, d]` (scores 3, 5, 1, 4, 2) and at the sorted slice
`[a, b, c, d, e]`, with the default getter: the stable run returns `[a, c, e, d, b]`. -/
theorem C26_transform_placement_witness :
    reranker.TransformStable (rerankerOf { ScoreFieldKey := none })
        ([docC, docA, docE, docB, docD].map some) =
      some { src := [some docC, some docA, some docE, some docB, some docD],
             ret := [some docA, some docC, some docE, some docD, some docB] } ∧
    (∃ s ret : List Document,
      s.Perm [docC, docA, docE, docB, docD] ∧
      (s.map (scoreOf { ScoreFieldKey := none })).Pairwise (fun a b => a ≥ b) ∧
      reranker.TransformStable (rerankerOf { ScoreFieldKey := none })
          ([docC, docA, docE, docB, docD].map some) =
        some { src := [docC, docA, docE, docB, docD].map some, ret := ret.map some } ∧
      ret.Perm [docC, docA, docE, docB, docD] ∧
      ret.length = [docC, docA, docE, docB, docD].length ∧
      (∀ k : Nat, 2 * k < [docC, docA, docE, docB, docD].length → ret[k]? = s[2 * k]?) ∧
      (∀ k : Nat, 2 * k + 1 < [docC, docA, docE, docB, docD].length →
        ret[[docC, docA, docE, docB, docD].length - 1 - k]? = s[2 * k + 1]?) ∧
      (∀ (p q : Nat) (x y : ℚ), p ≤ q →
        (ret.map (scoreOf { ScoreFieldKey := none }))[p]? = some x →
        (ret.map (scoreOf { ScoreFieldKey := none }))[q]? = some y →
          (q ≤ [docC, docA, docE, docB, docD].length / 2 → y ≤ x) ∧
            ([docC, docA, docE, docB, docD].length / 2 ≤ p → x ≤ y))) ∧
    reranker.TransformStable (rerankerOf { ScoreFieldKey := none })
        ([docA, docB, docC, docD, docE].map some) =
      some { src := [docA, docB, docC, docD, docE].map some,
             ret := [some docA, some docC, some docE, some docD, some docB] } ∧
    (∃ ret : List Document,
      reranker.TransformStable (rerankerOf { ScoreFieldKey := none })
          ([docA, docB, docC, docD, docE].map some) =
        some { src := [docA, docB, docC, docD, docE].map some, ret := ret.map some } ∧
      ret = [docA, docC, docE, docD, docB]) :=
  ⟨by decide,
    (C26_transform_placement { ScoreFieldKey := none } [docC, docA, docE, docB, docD]).2.1 _
      (Transform_stable _ _),
    ((C26_transform_placement { ScoreFieldKey := none } [docA, docB, docC, docD, docE]).2.2
      docA docB docC docD docE rfl (by decide) (by decide) (by decide) (by decide)).1,
    by
      obtain ⟨ret, h₁, -, h₃⟩ :=
        ((C26_transform_placement { ScoreFieldKey := none } [docA, docB, docC, docD, docE]).2.2
          docA docB docC docD docE rfl (by decide) (by decide) (by decide) (by decide)).2 _
          (Transform_stable _ _)
      exact ⟨ret, h₁, h₃ (by decide) (by decide) (by decide) (by decide)⟩⟩

theorem utf8EncodeChar_last (c : Char) :
    ∃ init b, utf8EncodeChar c = init ++ [b] ∧ b < 0xC0 := by
  unfold utf8EncodeChar
  simp only []
  split
  · exact ⟨[], _, rfl, by omega⟩
  · split
    · exact ⟨[_], _, rfl, by omega⟩
    · split
      · exact ⟨[_, _], _, rfl, by omega⟩
      · exact ⟨[_, _, _], _, rfl, by omega⟩

theorem utf8Encode_last (s : String) (b : Nat) (h : (utf8Encode s).getLast? = some b) :
    b < 0xC0 := by
  obtain ⟨cs⟩ := s
  unfold utf8Encode at h
  simp only [] at h
  rcases List.eq_nil_or_concat cs with rfl | ⟨l, c, rfl⟩
  · simp at h
  · obtain ⟨init, b', hb, hlt⟩ := utf8EncodeChar_last c
    rw [List.concat_eq_append, List.flatMap_append, List.flatMap_cons, List.flatMap_nil,
      List.append_nil, hb, ← List.append_assoc, List.getLast?_append] at h
    have hb' : b' = b := by
      simpa [Option.or] using h
    omega

theorem utf8Encode_replicate_a (n : Nat) :
    (List.replicate n 'a').flatMap utf8EncodeChar = List.replicate n 97 := by
  induction n with
  | zero => rfl
  | succ n ih =>
    rw [List.replicate_succ, List.flatMap_cons, ih]
    rfl

theorem utf8Encode_append (a b : List Char) :
    utf8Encode (String.mk (a ++ b)) = utf8Encode (String.mk a) ++ utf8Encode (String.mk b) := by
  simp [utf8Encode, List.flatMap_append]

theorem utf8Encode_splitContent :
    utf8Encode splitContent = List.replicate 9999 97 ++ [195, 169] := by
  rw [splitContent, utf8Encode_append]
  simp only [utf8Encode, utf8Encode_replicate_a]
  rfl

theorem promptContent_splitContent :
    promptContent splitContent = List.replicate 9999 97 ++ [195] := by
  have hlen : (utf8Encode splitContent).length > 10000 := by
    rw [utf8Encode_splitContent, List.length_append, List.length_replicate]
    decide
  rw [promptContent, if_pos hlen, utf8Encode_splitContent]
  have h := @List.take_append _ (List.replicate 9999 97) [195, 169] 1
  rw [List.length_replicate] at h
  exact h

theorem promptContent_initial (content : String) :
    promptContent content <+: utf8Encode content := by
  unfold promptContent
  simp only []
  split
  · exact List.take_prefix _ _
  · exact List.prefix_refl _

theorem promptContent_length (content : String) : (promptContent content).length ≤ 10000 := by
  unfold promptContent
  simp only []
  split
  · simp
  · omega

theorem promptContent_of_short (content : String) (h : (utf8Encode content).length ≤ 10000) :
    promptContent content = utf8Encode content := by
  unfold promptContent
  simp only []
  rw [if_neg (by omega)]

theorem promptContent_of_boundary (content : String) (k : Nat)
    (h : (utf8Encode (String.mk (content.data.take k))).length = 10000) :
    promptContent content = utf8Encode (String.mk (content.data.take k)) := by
  have hsplit : utf8Encode content =
      utf8Encode (String.mk (content.data.take k)) ++
        utf8Encode (String.mk (content.data.drop k)) := by
    rw [← utf8Encode_append, List.take_append_drop]
  unfold promptContent
  simp only []
  rw [hsplit]
  split
  · exact List.take_left' h
  · rename_i hle
    rw [List.length_append, h] at hle
    have : utf8Encode (String.mk (content.data.drop k)) = [] :=
      List.eq_nil_of_length_eq_zero (by omega)
    rw [this, List.append_nil]

/-- C30 fails as stated: for the content of 9999 letters `a` followed by `é`, 10001 bytes
of well-formed UTF-8, the content put into the prompt is the first 10000 bytes, which end
with the first byte of `é` alone; no text has this encoding. -/
theorem C30_counterexample :
    utf8Encode splitContent = List.replicate 9999 97 ++ [195, 169] ∧
    WellFormedUTF8 (utf8Encode splitContent) ∧
    promptContent splitContent = List.replicate 9999 97 ++ [195] ∧
    ¬ WellFormedUTF8 (promptContent splitContent) := by
  refine ⟨utf8Encode_splitContent, ⟨splitContent, rfl⟩, promptContent_splitContent, ?_⟩
  rintro ⟨s, hs⟩
  rw [promptContent_splitContent] at hs
  have h := utf8Encode_last s 195 (by rw [hs, List.getLast?_append]; rfl)
  omega

/-- C30, amended: the content put into the prompt is a prefix of the bytes of the
document content, of at most 10000 bytes, equal to the whole content when that has at
most 10000 bytes, and equal to the encoding of the first `k` characters when these take
exactly 10000 bytes; so it is well-formed UTF-8 when the content has at most 10000
bytes or one of its characters ends at byte 10000. -/
theorem C30_prompt_content (content : String) :
    promptContent content <+: utf8Encode content ∧
    (promptContent content).length ≤ 10000 ∧
    ((utf8Encode content).length ≤ 10000 → promptContent content = utf8Encode content) ∧
    (∀ k : Nat, (utf8Encode (String.mk (content.data.take k))).length = 10000 →
      promptContent content = utf8Encode (String.mk (content.data.take k))) ∧
    (((utf8Encode content).length ≤ 10000 ∨
        ∃ k : Nat, (utf8Encode (String.mk (content.data.take k))).length = 10000) →
      WellFormedUTF8 (promptContent content)) := by
  refine ⟨promptContent_initial content, promptContent_length content,
    promptContent_of_short content, promptContent_of_boundary content, ?_⟩
  rintro (h | ⟨k, h⟩)
  · exact ⟨content, (promptContent_of_short content h).symm⟩
  · exact ⟨_, (promptContent_of_boundary content k h).symm⟩

theorem utf8Encode_boundary_take :
    utf8Encode (String.mk (boundaryContent.data.take 10000)) = List.replicate 10000 97 := by
  have h : boundaryContent.data.take 10000 = List.replicate 10000 'a' :=
    List.take_left' (List.length_replicate _ _)
  rw [h]
  exact utf8Encode_replicate_a 10000

/-- C30, amended, at the two-character content `甲乙` (six bytes) and at the content of
10000 letters `a` followed by `é`, where the cut falls between two characters. -/
theorem C30_prompt_content_witness :
    ((utf8Encode "甲乙").length ≤ 10000 ∧
      promptContent "甲乙" = [231, 148, 178, 228, 185, 153]) ∧
    ((utf8Encode (String.mk (boundaryContent.data.take 10000))).length = 10000 ∧
      promptContent boundaryContent = List.replicate 10000 97) ∧
    WellFormedUTF8 (promptContent boundaryContent) :=
  ⟨⟨by decide, ((C30_prompt_content "甲乙").2.2.1 (by decide)).trans (by decide)⟩,
    ⟨by rw [utf8Encode_boundary_take, List.length_replicate],
      ((C30_prompt_content boundaryContent).2.2.2.1 10000
        (by rw [utf8Encode_boundary_take, List.length_replicate])).trans
        utf8Encode_boundary_take⟩,
    (C30_prompt_content boundaryContent).2.2.2.2
      (Or.inr ⟨10000, by rw [utf8Encode_boundary_take, List.length_replicate]⟩)⟩

theorem dropWhile_append_of_all (p : Char → Bool) (pre cs : List Char)
    (h : pre.all p = true) : (pre ++ cs).dropWhile p = cs.dropWhile p := by
  induction pre with
  | nil => rfl
  | cons a l ih =>
    simp only [List.all_cons, Bool.and_eq_true] at h
    rw [List.cons_append, List.dropWhile_cons, if_pos h.1]
    exact ih h.2

theorem dropWhile_append_cons (p : Char → Bool) (cs post : List Char) (x : Char)
    (r : List Char) (h : cs.dropWhile p = x :: r) :
    (cs ++ post).dropWhile p = x :: (r ++ post) := by
  induction cs with
  | nil => simp at h
  | cons a l ih =>
    rw [List.dropWhile_cons] at h
    rw [List.cons_append, List.dropWhile_cons]
    by_cases ha : p a = true
    · rw [if_pos ha] at h ⊢
      exact ih h
    · rw [if_neg ha] at h ⊢
      cases h
      rfl

theorem dropWhile_all_eq_nil (p : Char → Bool) (post : List Char) (h : post.all p = true) :
    post.dropWhile p = [] := by
  have := dropWhile_append_of_all p post [] h
  simpa using this

theorem dropWhile_append_nil (p : Char → Bool) (cs post : List Char)
    (h : cs.dropWhile p = []) (hpost : post.all p = true) :
    (cs ++ post).dropWhile p = [] := by
  have hall : cs.all p = true := by
    induction cs with
    | nil => rfl
    | cons a l ih =>
      rw [List.dropWhile_cons] at h
      by_cases ha : p a = true
      · rw [if_pos ha] at h
        simp [ha, ih h]
      · rw [if_neg ha] at h
        cases h
  rw [dropWhile_append_of_all p cs post hall]
  exact dropWhile_all_eq_nil p post hpost

/-- What follows the white space is the same character with and without a white
tail. -/
theorem dropWhile_append_head (cs post : List Char) (hpost : post.all isJsonSpace = true) :
    ((cs ++ post).dropWhile isJsonSpace).head? = (cs.dropWhile isJsonSpace).head? := by
  cases h : cs.dropWhile isJsonSpace with
  | nil => rw [dropWhile_append_nil _ cs post h hpost]
  | cons x r => rw [dropWhile_append_cons _ cs post x r h]; rfl

theorem digitValue_space (c : Char) (h : isJsonSpace c = true) : digitValue c = none := by
  simp only [isJsonSpace, Bool.or_eq_true, decide_eq_true_eq] at h
  rcases h with ((rfl | rfl) | rfl) | rfl <;> decide

theorem takeDigits_append (cs post : List Char) (count value : Nat)
    (hpost : post.all isJsonSpace = true) :
    takeDigits (cs ++ post) count value =
      ((takeDigits cs count value).1, (takeDigits cs count value).2.1,
        (takeDigits cs count value).2.2 ++ post) := by
  induction cs generalizing count value with
  | nil =>
    cases post with
    | nil => rfl
    | cons w rest =>
      simp only [List.all_cons, Bool.and_eq_true] at hpost
      simp [takeDigits, digitValue_space w hpost.1]
  | cons c rest ih =>
    rw [List.cons_append]
    simp only [takeDigits]
    cases h : digitValue c with
    | none => rfl
    | some d => exact ih _ _

theorem takeDigits_count_pos (cs : List Char) (count value : Nat)
    (h : (takeDigits cs count value).1 ≠ count) : ∃ c rest, cs = c :: rest ∧ digitValue c ≠ none := by
  cases cs with
  | nil => simp [takeDigits] at h
  | cons c rest =>
    refine ⟨c, rest, rfl, ?_⟩
    intro hc
    simp [takeDigits, hc] at h

theorem parseJsonUnsigned_eq (cs : List Char) :
    parseJsonUnsigned cs =
      if (takeDigits cs 0 0).1 = 0 then none
      else if (takeDigits cs 0 0).1 > 1 ∧ cs.head? = some '0' then none
      else
        match jsonFraction (takeDigits cs 0 0).2.1 (takeDigits cs 0 0).2.2 with
        | none => none
        | some (m, rest) => jsonExponent m rest := by
  rfl

theorem space_cases (w : Char) (h : isJsonSpace w = true) :
    w = ' ' ∨ w = '\t' ∨ w = '\n' ∨ w = '\r' := by
  simp only [isJsonSpace, Bool.or_eq_true, decide_eq_true_eq] at h
  tauto

theorem jsonFraction_of_ne (n : Nat) (y : Char) (r : List Char) (hy : y ≠ '.') :
    jsonFraction n (y :: r) = some ((n : ℚ), y :: r) := by
  unfold jsonFraction
  split
  · rename_i heq
    injection heq with h₁ h₂
    exact absurd h₁ hy
  · rfl

theorem jsonFraction_space (n : Nat) (post : List Char) (hpost : post.all isJsonSpace = true) :
    jsonFraction n post = some ((n : ℚ), post) := by
  cases post with
  | nil => rfl
  | cons w ws =>
    simp only [List.all_cons, Bool.and_eq_true] at hpost
    apply jsonFraction_of_ne
    rintro rfl
    exact absurd hpost.1 (by decide)

theorem jsonFraction_append (n : Nat) (r post : List Char) (m : ℚ) (rest : List Char)
    (hpost : post.all isJsonSpace = true) (h : jsonFraction n r = some (m, rest)) :
    jsonFraction n (r ++ post) = some (m, rest ++ post) := by
  cases r with
  | nil =>
    have : jsonFraction n [] = some ((n : ℚ), []) := rfl
    rw [this] at h
    cases h
    exact jsonFraction_space n post hpost
  | cons y r' =>
    by_cases hy : y = '.'
    · subst hy
      simp only [jsonFraction, List.cons_append] at h ⊢
      rw [takeDigits_append r' post 0 0 hpost]
      simp only []
      split at h
      · cases h
      · rename_i hne
        rw [if_neg hne]
        cases h
        rfl
    · rw [jsonFraction_of_ne n y r' hy] at h
      cases h
      exact jsonFraction_of_ne n y (r' ++ post) hy

theorem jsonExponent_of_not_e (m : ℚ) (y : Char) (r : List Char) (hy : ¬ (y = 'e' ∨ y = 'E')) :
    jsonExponent m (y :: r) = some (m, y :: r) := by
  simp only [jsonExponent, if_neg hy]

theorem jsonExponent_space (m : ℚ) (post : List Char) (hpost : post.all isJsonSpace = true) :
    jsonExponent m post = some (m, post) := by
  cases post with
  | nil => rfl
  | cons w ws =>
    simp only [List.all_cons, Bool.and_eq_true] at hpost
    apply jsonExponent_of_not_e
    rintro (rfl | rfl) <;> exact absurd hpost.1 (by decide)

theorem jsonExponent_of_e (m : ℚ) (y : Char) (r : List Char) (hy : y = 'e' ∨ y = 'E') :
    jsonExponent m (y :: r) =
      if (takeDigits (jsonExponentSign r).2 0 0).1 = 0 then none
      else if (jsonExponentSign r).1 then
        some (m / (10 : ℚ) ^ (takeDigits (jsonExponentSign r).2 0 0).2.1,
          (takeDigits (jsonExponentSign r).2 0 0).2.2)
      else
        some (m * (10 : ℚ) ^ (takeDigits (jsonExponentSign r).2 0 0).2.1,
          (takeDigits (jsonExponentSign r).2 0 0).2.2) := by
  simp only [jsonExponent, if_pos hy]
  rfl

theorem jsonExponentSign_append (r post : List Char)
    (h : (takeDigits (jsonExponentSign r).2 0 0).1 ≠ 0) :
    jsonExponentSign (r ++ post) = ((jsonExponentSign r).1, (jsonExponentSign r).2 ++ post) := by
  cases r with
  | nil =>
    exact absurd rfl h
  | cons y r' =>
    by_cases h₁ : y = '+'
    · subst h₁; rfl
    · by_cases h₂ : y = '-'
      · subst h₂; rfl
      · have hdef : ∀ l : List Char, jsonExponentSign (y :: l) = (false, y :: l) := by
          intro l
          unfold jsonExponentSign
          split
          · rename_i heq
            injection heq with h₃ h₄
            exact absurd h₃ h₁
          · rename_i heq
            injection heq with h₃ h₄
            exact absurd h₃ h₂
          · rfl
        rw [List.cons_append, hdef, hdef]
        rfl

theorem jsonExponent_append (m : ℚ) (r post : List Char) (x : ℚ) (rest : List Char)
    (hpost : post.all isJsonSpace = true) (h : jsonExponent m r = some (x, rest)) :
    jsonExponent m (r ++ post) = some (x, rest ++ post) := by
  cases r with
  | nil =>
    have : jsonExponent m [] = some (m, []) := rfl
    rw [this] at h
    cases h
    exact jsonExponent_space m post hpost
  | cons y r' =>
    by_cases hy : y = 'e' ∨ y = 'E'
    · rw [jsonExponent_of_e m y r' hy] at h
      rw [List.cons_append, jsonExponent_of_e m y _ hy]
      by_cases h0 : (takeDigits (jsonExponentSign r').2 0 0).1 = 0
      · rw [if_pos h0] at h
        cases h
      · rw [if_neg h0] at h
        rw [jsonExponentSign_append r' post h0]
        simp only []
        rw [takeDigits_append _ post 0 0 hpost]
        simp only []
        rw [if_neg h0]
        split at h
        · rename_i hs
          rw [if_pos hs]
          cases h
          rfl
        · rename_i hs
          rw [if_neg hs]
          cases h
          rfl
    · rw [jsonExponent_of_not_e m y r' hy] at h
      cases h
      exact jsonExponent_of_not_e m y (r' ++ post) hy

theorem parseJsonUnsigned_append (cs post : List Char) (x : ℚ) (rest : List Char)
    (hpost : post.all isJsonSpace = true) (h : parseJsonUnsigned cs = some (x, rest)) :
    parseJsonUnsigned (cs ++ post) = some (x, rest ++ post) := by
  rw [parseJsonUnsigned_eq] at h ⊢
  rw [takeDigits_append cs post 0 0 hpost]
  simp only []
  by_cases h0 : (takeDigits cs 0 0).1 = 0
  · rw [if_pos h0] at h
    cases h
  rw [if_neg h0] at h ⊢
  obtain ⟨c, cs', rfl, hc⟩ := takeDigits_count_pos cs 0 0 h0
  simp only [List.cons_append, List.head?_cons] at h ⊢
  split at h
  · cases h
  rename_i h1
  rw [if_neg h1]
  cases hf : jsonFraction (takeDigits (c :: cs') 0 0).2.1 (takeDigits (c :: cs') 0 0).2.2 with
  | none =>
    rw [hf] at h
    cases h
  | some mr =>
    obtain ⟨m, r⟩ := mr
    rw [hf] at h
    simp only [] at h
    rw [jsonFraction_append _ _ post m r hpost hf]
    simp only []
    exact jsonExponent_append m r post x rest hpost h

theorem parseJsonString_succ (fuel : Nat) (cs acc : List Char) :
    parseJsonString (fuel + 1) cs acc = jsonStringStep (parseJsonString fuel) cs acc := by
  cases cs <;> rfl

theorem parseHex4_append (cs post : List Char) (n : Nat) (rest : List Char)
    (h : parseHex4 cs = some (n, rest)) : parseHex4 (cs ++ post) = some (n, rest ++ post) := by
  match cs, h with
  | a :: b :: c :: d :: r, h =>
    simp only [parseHex4, List.cons_append] at h ⊢
    cases ha : hexValue a <;> cases hb : hexValue b <;> cases hc : hexValue c <;>
      cases hd : hexValue d <;> simp only [ha, hb, hc, hd] at h ⊢ <;>
      first | (cases h; done) | (cases h; rfl)
  | [], h => simp [parseHex4] at h
  | [_], h => simp [parseHex4] at h
  | [_, _], h => simp [parseHex4] at h
  | [_, _, _], h => simp [parseHex4] at h

theorem jsonStringEscapeLow_default (k : List Char → List Char → Option (String × List Char))
    (hi : Nat) (rest'' acc : List Char) (hne : ∀ rest3, rest'' ≠ '\\' :: 'u' :: rest3) :
    jsonStringEscapeLow k hi rest'' acc = k rest'' (Char.ofNat 0xFFFD :: acc) := by
  unfold jsonStringEscapeLow
  split
  · rename_i rest3
    exact absurd rfl (hne rest3)
  · rfl

theorem jsonStringEscapeLow_append
    (k k' : List Char → List Char → Option (String × List Char)) (post : List Char)
    (hk : ∀ cs acc s rest, k cs acc = some (s, rest) → k' (cs ++ post) acc = some (s, rest ++ post))
    (hnil : ∀ acc, k [] acc = none) (hbs : ∀ acc, k ['\\'] acc = none)
    (hi : Nat) (rest'' acc : List Char) (s : String) (r : List Char)
    (h : jsonStringEscapeLow k hi rest'' acc = some (s, r)) :
    jsonStringEscapeLow k' hi (rest'' ++ post) acc = some (s, r ++ post) := by
  by_cases hm : ∃ rest3, rest'' = '\\' :: 'u' :: rest3
  · obtain ⟨rest3, rfl⟩ := hm
    simp only [jsonStringEscapeLow, List.cons_append] at h ⊢
    cases hhex : parseHex4 rest3 with
    | none =>
      rw [hhex] at h
      cases h
    | some lr =>
      obtain ⟨lo, rest4⟩ := lr
      rw [hhex] at h
      rw [parseHex4_append rest3 post lo rest4 hhex]
      simp only [] at h ⊢
      split at h
      · rename_i hlo
        rw [if_pos hlo]
        exact hk _ _ _ _ h
      · rename_i hlo
        rw [if_neg hlo]
        exact hk _ _ _ _ h
  · have hne : ∀ rest3, rest'' ≠ '\\' :: 'u' :: rest3 := fun rest3 h' => hm ⟨rest3, h'⟩
    rw [jsonStringEscapeLow_default k hi rest'' acc hne] at h
    have hne' : ∀ rest3, rest'' ++ post ≠ '\\' :: 'u' :: rest3 := by
      intro rest3 h'
      match rest'', h, hne, h' with
      | [], h, _, _ => rw [hnil] at h; cases h
      | [x], h, _, h' =>
        simp only [List.cons_append, List.nil_append, List.cons.injEq] at h'
        rw [h'.1, hbs] at h
        cases h
      | x :: y :: l, _, hne, h' =>
        simp only [List.cons_append, List.cons.injEq] at h'
        exact hne l (by rw [h'.1, h'.2.1])
    rw [jsonStringEscapeLow_default k' hi _ acc hne']
    exact hk _ _ _ _ h

theorem jsonStringEscape_append
    (k k' : List Char → List Char → Option (String × List Char)) (post : List Char)
    (hk : ∀ cs acc s rest, k cs acc = some (s, rest) → k' (cs ++ post) acc = some (s, rest ++ post))
    (hnil : ∀ acc, k [] acc = none) (hbs : ∀ acc, k ['\\'] acc = none)
    (rest acc : List Char) (s : String) (r : List Char)
    (h : jsonStringEscape k rest acc = some (s, r)) :
    jsonStringEscape k' (rest ++ post) acc = some (s, r ++ post) := by
  cases rest with
  | nil =>
    have : jsonStringEscape k [] acc = none := rfl
    rw [this] at h
    cases h
  | cons e rest' =>
    by_cases he : e = 'u'
    · subst he
      simp only [jsonStringEscape, List.cons_append] at h ⊢
      cases hhex : parseHex4 rest' with
      | none =>
        rw [hhex] at h
        cases h
      | some hr =>
        obtain ⟨hi, rest''⟩ := hr
        rw [hhex] at h
        rw [parseHex4_append rest' post hi rest'' hhex]
        simp only [] at h ⊢
        split at h
        · rename_i h₁
          rw [if_pos h₁]
          exact jsonStringEscapeLow_append k k' post hk hnil hbs hi rest'' acc s r h
        · rename_i h₁
          rw [if_neg h₁]
          split at h
          · rename_i h₂
            rw [if_pos h₂]
            exact hk _ _ _ _ h
          · rename_i h₂
            rw [if_neg h₂]
            exact hk _ _ _ _ h
    · have hdef : ∀ (q : List Char → List Char → Option (String × List Char)) (l : List Char),
          jsonStringEscape q (e :: l) acc =
            match (if e = '"' then some '"' else if e = '\\' then some '\\'
              else if e = '/' then some '/' else if e = 'b' then some (Char.ofNat 8)
              else if e = 'f' then some (Char.ofNat 12) else if e = 'n' then some '\n'
              else if e = 'r' then some '\r' else if e = 't' then some '\t' else none :
                Option Char) with
            | some x => q l (x :: acc)
            | none => none := by
        intro q l
        unfold jsonStringEscape
        split
        · rename_i heq
          injection heq with h₁ h₂
          exact absurd h₁ he
        · rename_i heq
          injection heq with h₁ h₂
          subst h₁ h₂
          rfl
        · rename_i heq
          cases heq
      rw [hdef] at h
      rw [List.cons_append, hdef]
      split at h
      · exact hk _ _ _ _ h
      · cases h

theorem parseJsonString_nil (fuel : Nat) (acc : List Char) : parseJsonString fuel [] acc = none := by
  cases fuel <;> rfl

theorem parseJsonString_backslash (fuel : Nat) (acc : List Char) :
    parseJsonString fuel ['\\'] acc = none := by
  cases fuel <;> rfl

theorem parseJsonString_append (fuel : Nat) :
    ∀ (fuel' : Nat) (cs post acc : List Char) (s : String) (rest : List Char),
      fuel ≤ fuel' → parseJsonString fuel cs acc = some (s, rest) →
        parseJsonString fuel' (cs ++ post) acc = some (s, rest ++ post) := by
  induction fuel with
  | zero =>
    intro fuel' cs post acc s rest _ h
    have : parseJsonString 0 cs acc = none := by
      cases cs <;> rfl
    rw [this] at h
    cases h
  | succ fuel ih =>
    intro fuel' cs post acc s rest hle h
    obtain ⟨fuel'', rfl⟩ : ∃ n, fuel' = n + 1 := ⟨fuel' - 1, by omega⟩
    have hk : ∀ cs acc s rest, parseJsonString fuel cs acc = some (s, rest) →
        parseJsonString fuel'' (cs ++ post) acc = some (s, rest ++ post) :=
      fun cs acc s rest h => ih fuel'' cs post acc s rest (by omega) h
    rw [parseJsonString_succ] at h ⊢
    cases cs with
    | nil =>
      have : jsonStringStep (parseJsonString fuel) [] acc = none := rfl
      rw [this] at h
      cases h
    | cons c rest0 =>
      simp only [jsonStringStep, List.cons_append] at h ⊢
      split at h
      · rename_i h₁
        rw [if_pos h₁]
        cases h
        rfl
      · rename_i h₁
        rw [if_neg h₁]
        split at h
        · rename_i h₂
          rw [if_pos h₂]
          exact jsonStringEscape_append _ _ post hk (parseJsonString_nil fuel)
            (parseJsonString_backslash fuel) rest0 acc s rest h
        · rename_i h₂
          rw [if_neg h₂]
          split at h
          · cases h
          · rename_i h₃
            rw [if_neg h₃]
            exact hk _ _ _ _ h

theorem parseJson_zero (t : JsonTask) (cs : List Char) : parseJson 0 t cs = none := by
  cases t <;> rfl

theorem parseJson_value (fuel : Nat) (cs : List Char) :
    parseJson (fuel + 1) JsonTask.value cs =
      jsonValueOf (parseJson fuel) (cs.dropWhile isJsonSpace) := by
  rfl

theorem parseJson_elems (fuel : Nat) (acc : List Json) (cs : List Char) :
    parseJson (fuel + 1) (JsonTask.elems acc) cs =
      match parseJson fuel JsonTask.value cs with
      | none => none
      | some (v, rest) => jsonElemsNext (parseJson fuel) v acc (rest.dropWhile isJsonSpace) := by
  rfl

theorem parseJson_members (fuel : Nat) (acc : List (String × Json)) (cs : List Char) :
    parseJson (fuel + 1) (JsonTask.members acc) cs =
      jsonMembersOf (parseJson fuel) acc (cs.dropWhile isJsonSpace) := by
  rfl

theorem dropWhile_append_of_ne_nil (cs post : List Char)
    (h : cs.dropWhile isJsonSpace ≠ []) :
    (cs ++ post).dropWhile isJsonSpace = cs.dropWhile isJsonSpace ++ post := by
  cases hd : cs.dropWhile isJsonSpace with
  | nil => exact absurd hd h
  | cons x r => exact dropWhile_append_cons _ cs post x r hd

theorem parseJsonUnsigned_digit (d : List Char) (x : ℚ) (rest : List Char)
    (h : parseJsonUnsigned d = some (x, rest)) :
    ∃ c r, d = c :: r ∧ digitValue c ≠ none := by
  rw [parseJsonUnsigned_eq] at h
  by_cases h0 : (takeDigits d 0 0).1 = 0
  · rw [if_pos h0] at h
    cases h
  · exact takeDigits_count_pos d 0 0 h0

theorem jsonArrayOpen_append (k k' : JsonTask → List Char → Option (Json × List Char))
    (post : List Char) (hpost : post.all isJsonSpace = true)
    (hk : ∀ t cs v rest, k t cs = some (v, rest) → k' t (cs ++ post) = some (v, rest ++ post))
    (rest : List Char) (v : Json) (r : List Char) (h : jsonArrayOpen k rest = some (v, r)) :
    jsonArrayOpen k' (rest ++ post) = some (v, r ++ post) := by
  unfold jsonArrayOpen at h ⊢
  cases hd : rest.dropWhile isJsonSpace with
  | nil =>
    rw [hd] at h
    rw [dropWhile_append_nil _ rest post hd hpost]
    exact hk _ _ _ _ h
  | cons y d =>
    rw [hd] at h
    rw [dropWhile_append_cons _ rest post y d hd]
    split at h
    · rename_i heq
      injection heq with h₁ h₂
      subst h₁ h₂
      cases h
      rfl
    · rename_i hne
      split
      · rename_i heq
        injection heq with h₁ h₂
        subst h₁
        exact absurd rfl (hne d)
      · exact hk _ _ _ _ h

theorem jsonObjectOpen_append (k k' : JsonTask → List Char → Option (Json × List Char))
    (post : List Char) (hpost : post.all isJsonSpace = true)
    (hk : ∀ t cs v rest, k t cs = some (v, rest) → k' t (cs ++ post) = some (v, rest ++ post))
    (rest : List Char) (v : Json) (r : List Char) (h : jsonObjectOpen k rest = some (v, r)) :
    jsonObjectOpen k' (rest ++ post) = some (v, r ++ post) := by
  unfold jsonObjectOpen at h ⊢
  cases hd : rest.dropWhile isJsonSpace with
  | nil =>
    rw [hd] at h
    rw [dropWhile_append_nil _ rest post hd hpost]
    exact hk _ _ _ _ h
  | cons y d =>
    rw [hd] at h
    rw [dropWhile_append_cons _ rest post y d hd]
    split at h
    · rename_i heq
      injection heq with h₁ h₂
      subst h₁ h₂
      cases h
      rfl
    · rename_i hne
      split
      · rename_i heq
        injection heq with h₁ h₂
        subst h₁
        exact absurd rfl (hne d)
      · exact hk _ _ _ _ h

theorem jsonValueOf_append (k k' : JsonTask → List Char → Option (Json × List Char))
    (post : List Char) (hpost : post.all isJsonSpace = true)
    (hk : ∀ t cs v rest, k t cs = some (v, rest) → k' t (cs ++ post) = some (v, rest ++ post))
    (d : List Char) (v : Json) (r : List Char) (h : jsonValueOf k d = some (v, r)) :
    jsonValueOf k' (d ++ post) = some (v, r ++ post) := by
  unfold jsonValueOf at h
  split at h
  · cases h
    rfl
  · cases h
    rfl
  · cases h
    rfl
  · rename_i rest
    cases hps : parseJsonString (rest.length + 1) rest [] with
    | none =>
      rw [hps] at h
      cases h
    | some sr =>
      obtain ⟨s, rest'⟩ := sr
      rw [hps] at h
      have := parseJsonString_append (rest.length + 1) ((rest ++ post).length + 1) rest post []
        s rest' (by simp) hps
      cases h
      simp only [jsonValueOf, List.cons_append, this]
  · rename_i rest
    exact jsonArrayOpen_append k k' post hpost hk rest v r h
  · rename_i rest
    exact jsonObjectOpen_append k k' post hpost hk rest v r h
  · rename_i rest
    cases hpu : parseJsonUnsigned rest with
    | none =>
      rw [hpu] at h
      cases h
    | some xr =>
      obtain ⟨x, rest'⟩ := xr
      rw [hpu] at h
      have := parseJsonUnsigned_append rest post x rest' hpost hpu
      cases h
      simp only [jsonValueOf, List.cons_append, this]
  · cases hpu : parseJsonUnsigned d with
    | none =>
      rw [hpu] at h
      cases h
    | some xr =>
      obtain ⟨x, rest'⟩ := xr
      rw [hpu] at h
      obtain ⟨c, l, rfl, hc⟩ := parseJsonUnsigned_digit d x rest' hpu
      have happ := parseJsonUnsigned_append (c :: l) post x rest' hpost hpu
      cases h
      rw [List.cons_append] at happ ⊢
      unfold jsonValueOf
      split
      all_goals first
        | (rw [happ])
        | (rename_i heq; injection heq with e₁ e₂; subst e₁; exact absurd (by decide) hc)

theorem jsonElemsNext_append (k k' : JsonTask → List Char → Option (Json × List Char))
    (post : List Char)
    (hk : ∀ t cs v rest, k t cs = some (v, rest) → k' t (cs ++ post) = some (v, rest ++ post))
    (v : Json) (acc : List Json) (d : List Char) (w : Json) (r : List Char)
    (h : jsonElemsNext k v acc d = some (w, r)) :
    d ≠ [] ∧ jsonElemsNext k' v acc (d ++ post) = some (w, r ++ post) := by
  unfold jsonElemsNext at h
  split at h
  · exact ⟨by simp, hk _ _ _ _ h⟩
  · cases h
    exact ⟨by simp, rfl⟩
  · cases h

theorem jsonMembersNext_append (k k' : JsonTask → List Char → Option (Json × List Char))
    (post : List Char)
    (hk : ∀ t cs v rest, k t cs = some (v, rest) → k' t (cs ++ post) = some (v, rest ++ post))
    (key : String) (v : Json) (acc : List (String × Json)) (d : List Char) (w : Json)
    (r : List Char) (h : jsonMembersNext k key v acc d = some (w, r)) :
    d ≠ [] ∧ jsonMembersNext k' key v acc (d ++ post) = some (w, r ++ post) := by
  unfold jsonMembersNext at h
  split at h
  · exact ⟨by simp, hk _ _ _ _ h⟩
  · cases h
    exact ⟨by simp, rfl⟩
  · cases h

theorem jsonMemberColon_append (k k' : JsonTask → List Char → Option (Json × List Char))
    (post : List Char)
    (hk : ∀ t cs v rest, k t cs = some (v, rest) → k' t (cs ++ post) = some (v, rest ++ post))
    (key : String) (acc : List (String × Json)) (d : List Char) (w : Json) (r : List Char)
    (h : jsonMemberColon k key acc d = some (w, r)) :
    d ≠ [] ∧ jsonMemberColon k' key acc (d ++ post) = some (w, r ++ post) := by
  unfold jsonMemberColon at h
  split at h
  · rename_i rest''
    refine ⟨by simp, ?_⟩
    cases hv : k JsonTask.value rest'' with
    | none =>
      rw [hv] at h
      cases h
    | some vr =>
      obtain ⟨v, rest3⟩ := vr
      rw [hv] at h
      simp only [] at h
      obtain ⟨hne, hnext⟩ := jsonMembersNext_append k k' post hk key v acc _ w r h
      simp only [jsonMemberColon, List.cons_append, hk _ _ _ _ hv,
        dropWhile_append_of_ne_nil rest3 post hne, hnext]
  · cases h

theorem jsonMembersOf_append (k k' : JsonTask → List Char → Option (Json × List Char))
    (post : List Char)
    (hk : ∀ t cs v rest, k t cs = some (v, rest) → k' t (cs ++ post) = some (v, rest ++ post))
    (acc : List (String × Json)) (d : List Char) (w : Json) (r : List Char)
    (h : jsonMembersOf k acc d = some (w, r)) :
    d ≠ [] ∧ jsonMembersOf k' acc (d ++ post) = some (w, r ++ post) := by
  unfold jsonMembersOf at h
  split at h
  · rename_i rest
    refine ⟨by simp, ?_⟩
    cases hps : parseJsonString (rest.length + 1) rest [] with
    | none =>
      rw [hps] at h
      cases h
    | some sr =>
      obtain ⟨key, rest'⟩ := sr
      rw [hps] at h
      simp only [] at h
      have hstr := parseJsonString_append (rest.length + 1) ((rest ++ post).length + 1) rest
        post [] key rest' (by simp) hps
      obtain ⟨hne, hcolon⟩ := jsonMemberColon_append k k' post hk key acc _ w r h
      simp only [jsonMembersOf, List.cons_append, hstr,
        dropWhile_append_of_ne_nil rest' post hne, hcolon]
  · cases h

theorem jsonValueOf_ne_nil (k : JsonTask → List Char → Option (Json × List Char))
    (d : List Char) (v : Json) (r : List Char) (h : jsonValueOf k d = some (v, r)) : d ≠ [] := by
  rintro rfl
  have : jsonValueOf k [] = none := by
    unfold jsonValueOf
    rfl
  rw [this] at h
  cases h

/-- A successful parse stays what it is when the parser gets more fuel and white space
is appended to the text. -/
theorem parseJson_append (fuel : Nat) :
    ∀ (fuel' : Nat) (t : JsonTask) (cs post : List Char) (v : Json) (rest : List Char),
      fuel ≤ fuel' → post.all isJsonSpace = true → parseJson fuel t cs = some (v, rest) →
        parseJson fuel' t (cs ++ post) = some (v, rest ++ post) := by
  induction fuel with
  | zero =>
    intro fuel' t cs post v rest _ _ h
    rw [parseJson_zero] at h
    cases h
  | succ fuel ih =>
    intro fuel' t cs post v rest hle hpost h
    obtain ⟨fuel'', rfl⟩ : ∃ n, fuel' = n + 1 := ⟨fuel' - 1, by omega⟩
    have hk : ∀ t cs v rest, parseJson fuel t cs = some (v, rest) →
        parseJson fuel'' t (cs ++ post) = some (v, rest ++ post) :=
      fun t cs v rest h => ih fuel'' t cs post v rest (by omega) hpost h
    cases t with
    | value =>
      rw [parseJson_value] at h ⊢
      rw [dropWhile_append_of_ne_nil cs post (jsonValueOf_ne_nil _ _ _ _ h)]
      exact jsonValueOf_append _ _ post hpost hk _ v rest h
    | elems acc =>
      rw [parseJson_elems] at h ⊢
      cases hv : parseJson fuel JsonTask.value cs with
      | none =>
        rw [hv] at h
        cases h
      | some vr =>
        obtain ⟨x, rest₁⟩ := vr
        rw [hv] at h
        simp only [] at h
        obtain ⟨hne, hnext⟩ := jsonElemsNext_append _ _ post hk x acc _ v rest h
        rw [hk _ _ _ _ hv]
        simp only []
        rw [dropWhile_append_of_ne_nil rest₁ post hne]
        exact hnext
    | members acc =>
      rw [parseJson_members] at h ⊢
      obtain ⟨hne, hm⟩ := jsonMembersOf_append _ _ post hk acc _ v rest h
      rw [dropWhile_append_of_ne_nil cs post hne]
      exact hm

theorem parseJson_value_skip (fuel : Nat) (pre cs : List Char)
    (hpre : pre.all isJsonSpace = true) :
    parseJson fuel JsonTask.value (pre ++ cs) = parseJson fuel JsonTask.value cs := by
  cases fuel with
  | zero => rfl
  | succ fuel =>
    rw [parseJson_value, parseJson_value, dropWhile_append_of_all _ pre cs hpre]

/-- White space around a JSON text does not change what it decodes to. -/
theorem parseJsonText_pad (pre j post : List Char) (v : Json)
    (hpre : pre.all isJsonSpace = true) (hpost : post.all isJsonSpace = true)
    (h : parseJsonText (String.mk j) = some v) :
    parseJsonText (String.mk (pre ++ (j ++ post))) = some v := by
  unfold parseJsonText at h ⊢
  simp only [String.length, String.data] at h ⊢
  cases hp : parseJson (2 * j.length + 2) JsonTask.value j with
  | none =>
    rw [hp] at h
    cases h
  | some vr =>
    obtain ⟨x, rest⟩ := vr
    rw [hp] at h
    simp only [] at h
    split at h
    · rename_i hall
      cases h
      rw [parseJson_value_skip _ pre _ hpre,
        parseJson_append (2 * j.length + 2) (2 * (pre ++ (j ++ post)).length + 2)
          JsonTask.value j post v rest (by simp; omega) hpost hp]
      simp only []
      rw [if_pos (by simp [List.all_append, hall, hpost])]
    · cases h

theorem trimSpace_of_ends (cs : List Char) (a b : Char) (hfirst : cs.head? = some a)
    (ha : isUnicodeSpace a = false) (hlast : cs.getLast? = some b)
    (hb : isUnicodeSpace b = false) : trimSpace cs = cs := by
  unfold trimSpace
  have h₁ : cs.dropWhile isUnicodeSpace = cs := by
    cases cs with
    | nil => rfl
    | cons x l =>
      simp only [List.head?_cons, Option.some.injEq] at hfirst
      subst hfirst
      simp [List.dropWhile_cons, ha]
  rw [h₁]
  obtain ⟨ys, rfl⟩ := List.getLast?_eq_some_iff.mp hlast
  simp [List.dropWhile_cons, hb]

theorem TrimPrefix_of_head (cs pre : List Char) (a p : Char)
    (hfirst : cs.head? = some a) (hpre : pre.head? = some p) (hne : a ≠ p) :
    TrimPrefix cs pre = cs := by
  have : pre.isPrefixOf cs = false := by
    cases cs with
    | nil => simp at hfirst
    | cons x l =>
      cases pre with
      | nil => simp at hpre
      | cons y m =>
        simp only [List.head?_cons, Option.some.injEq] at hfirst hpre
        subst hfirst hpre
        simp [List.isPrefixOf, Ne.symm hne]
  simp [TrimPrefix, this]

theorem TrimPrefix_append (pre rest : List Char) : TrimPrefix (pre ++ rest) pre = rest := by
  have : pre.isPrefixOf (pre ++ rest) = true := by
    rw [ List.isPrefixOf_iff_prefix]
    exact List.prefix_append _ _
  simp [TrimPrefix, this]

theorem TrimSuffix_of_last (cs suf : List Char) (b q : Char) (hlast : cs.getLast? = some b)
    (hsuf : suf.getLast? = some q) (hne : b ≠ q) : TrimSuffix cs suf = cs := by
  have : suf.isSuffixOf cs = false := by
    rw [Bool.eq_false_iff]
    intro h
    rw [ List.isSuffixOf_iff_suffix] at h
    obtain ⟨t, rfl⟩ := h
    rw [List.getLast?_append, hsuf] at hlast
    simp only [Option.or_some, Option.some.injEq] at hlast
    exact hne hlast.symm
  simp [TrimSuffix, this]

theorem TrimSuffix_append (body suf : List Char) : TrimSuffix (body ++ suf) suf = body := by
  have : suf.isSuffixOf (body ++ suf) = true := by
    rw [ List.isSuffixOf_iff_suffix]
    exact List.suffix_append _ _
  rw [TrimSuffix, if_pos this]
  apply List.take_left'
  simp

theorem stripFences_object (j : String) (hfirst : j.data.head? = some '{')
    (hlast : j.data.getLast? = some '}') : stripFences j = j := by
  unfold stripFences
  simp only []
  rw [trimSpace_of_ends j.data '{' '}' hfirst (by decide) hlast (by decide),
    TrimPrefix_of_head j.data "```json".data '{' _ hfirst rfl (by decide),
    TrimPrefix_of_head j.data "```".data '{' _ hfirst rfl (by decide),
    TrimSuffix_of_last j.data "```".data '}' _ hlast rfl (by decide)]

theorem stripFences_fenced (j : String) :
    stripFences (fenced j) = String.mk ('\n' :: (j.data ++ ['\n'])) := by
  unfold stripFences fenced
  simp only []
  have hdata : "```json\n".data ++ (j.data ++ "\n```".data) =
      "```json".data ++ (('\n' :: (j.data ++ ['\n'])) ++ "```".data) := by
    have h₁ : "```json\n".data = "```json".data ++ ['\n'] := rfl
    have h₂ : "\n```".data = '\n' :: "```".data := rfl
    rw [h₁, h₂]
    simp
  have hlast : ("```json".data ++ (('\n' :: (j.data ++ ['\n'])) ++ "```".data)).getLast? =
      some (Char.ofNat 96) := by
    rw [List.getLast?_append, List.getLast?_append]
    rfl
  rw [hdata, trimSpace_of_ends
      ("```json".data ++ (('\n' :: (j.data ++ ['\n'])) ++ "```".data))
      (Char.ofNat 96) (Char.ofNat 96) rfl (by decide) hlast (by decide),
    TrimPrefix_append,
    TrimPrefix_of_head (('\n' :: (j.data ++ ['\n'])) ++ "```".data) "```".data '\n'
      (Char.ofNat 96) rfl rfl (by decide),
    TrimSuffix_append]

theorem jsonUnmarshalRawData_pad (j : String) (record : ContractRawData)
    (h : jsonUnmarshalRawData j = some record) :
    jsonUnmarshalRawData (String.mk ('\n' :: (j.data ++ ['\n']))) = some record := by
  unfold jsonUnmarshalRawData at h ⊢
  cases hp : parseJsonText j with
  | none =>
    rw [hp] at h
    cases h
  | some v =>
    have hpad := parseJsonText_pad ['\n'] j.data ['\n'] v (by decide) (by decide) hp
    rw [hp] at h
    rw [show '\n' :: (j.data ++ ['\n']) = ['\n'] ++ (j.data ++ ['\n']) from rfl, hpad]
    exact h

/-- C24: `ExtractAndClean` fails exactly when the call of the model fails or the
answer, stripped by `stripFences` (surrounding white space, a leading marker ```json, a
leading marker ```, a trailing marker ```), does not decode into a
`types.ContractRawData`; and for every text `j` of a JSON object that decodes to `record`,
the answer `j` and the answer ```json, newline, `j`, newline, ``` both decode to
`record` without error. -/
theorem C24_extract_and_clean (today : String) (generate : List Nat → Option String)
    (unmarshal : String → Option ContractRawData) (data : Document) :
    (ExtractAndClean today generate unmarshal data = none ↔
      generate (extractPrompt today data.Content) = none ∨
        ∃ content : String, generate (extractPrompt today data.Content) = some content ∧
          unmarshal (stripFences content) = none) ∧
    (∀ (j : String) (record : ContractRawData),
      j.data.head? = some '{' → j.data.getLast? = some '}' →
      jsonUnmarshalRawData j = some record →
        jsonUnmarshalRawData (stripFences j) = some record ∧
        jsonUnmarshalRawData (stripFences (fenced j)) = some record ∧
        (generate (extractPrompt today data.Content) = some j →
          ExtractAndClean today generate jsonUnmarshalRawData data = some record) ∧
        (generate (extractPrompt today data.Content) = some (fenced j) →
          ExtractAndClean today generate jsonUnmarshalRawData data = some record)) := by
  constructor
  · unfold ExtractAndClean
    simp only []
    cases hgen : generate (extractPrompt today data.Content) with
    | none => simp
    | some content => simp
  · intro j record hfirst hlast hdec
    have h₁ : jsonUnmarshalRawData (stripFences j) = some record := by
      rw [stripFences_object j hfirst hlast]
      exact hdec
    have h₂ : jsonUnmarshalRawData (stripFences (fenced j)) = some record := by
      rw [stripFences_fenced]
      exact jsonUnmarshalRawData_pad j record hdec
    refine ⟨h₁, h₂, ?_, ?_⟩
    · intro hgen
      simp only [ExtractAndClean, hgen]
      exact h₁
    · intro hgen
      simp only [ExtractAndClean, hgen]
      exact h₂

/-- C24 at a model that answers `sampleAnswer`, bare and in a code fence, at a model
that fails, and at a model that answers in prose. -/
theorem C24_extract_and_clean_witness :
    jsonUnmarshalRawData sampleAnswer = some sampleRecord ∧
    ExtractAndClean "2025-06-01" (fun _ => some sampleAnswer) jsonUnmarshalRawData sampleDoc =
      some sampleRecord ∧
    ExtractAndClean "2025-06-01" (fun _ => some (fenced sampleAnswer)) jsonUnmarshalRawData
      sampleDoc = some sampleRecord ∧
    ExtractAndClean "2025-06-01" (fun _ => none) jsonUnmarshalRawData sampleDoc = none ∧
    ExtractAndClean "2025-06-01" (fun _ => some "Sorry, I cannot read this.")
      jsonUnmarshalRawData sampleDoc = none :=
  ⟨by decide,
    ((C24_extract_and_clean "2025-06-01" (fun _ => some sampleAnswer) jsonUnmarshalRawData
      sampleDoc).2 sampleAnswer sampleRecord (by decide) (by decide) (by decide)).2.2.1 rfl,
    ((C24_extract_and_clean "2025-06-01" (fun _ => some (fenced sampleAnswer))
      jsonUnmarshalRawData sampleDoc).2 sampleAnswer sampleRecord (by decide) (by decide)
      (by decide)).2.2.2 rfl,
    (C24_extract_and_clean "2025-06-01" (fun _ => none) jsonUnmarshalRawData sampleDoc).1.mpr
      (Or.inl rfl),
    (C24_extract_and_clean "2025-06-01" (fun _ => some "Sorry, I cannot read this.")
      jsonUnmarshalRawData sampleDoc).1.mpr
      (Or.inr ⟨"Sorry, I cannot read this.", rfl, by decide⟩)⟩

theorem filterMap_id_append_map_some (a b : List (Option Document)) :
    ((a.filterMap id).map some ++ (b.filterMap id).map some).filterMap id =
      (a ++ b).filterMap id := by
  rw [← List.map_append, filterMap_id_map_some, List.filterMap_append]

theorem ne_none_of_mem_map_some (a b : List Document) :
    ∀ d ∈ a.map some ++ b.map some, d ≠ none := by
  intro d hd
  rcases List.mem_append.mp hd with h | h <;>
    (obtain ⟨x, -, rfl⟩ := List.mem_map.mp h; exact Option.some_ne_none x)

/-- C3, the code at an input with a nil entry, for `TopK ≥ 0`: no run of
`HybridReranker` returns an output (every run panics in `normalizeScores`, before the nil
guards of the merge loops), whereas on the two lists with the nil entries removed a run
returns an output that is sorted by `FinalScore` in descending order and has the length
the claim states, `min(TopK, number of distinct IDs among the non-nil input documents)`. -/
theorem C3_nil_entry_no_output (milvusDocs esDocs : List (Option Document))
    (config : Option HybridRerankerConfig)
    (hk : 0 ≤ (config.getD DefaultHybridRerankerConfig).TopK)
    (hnil : none ∈ milvusDocs ∨ none ∈ esDocs) :
    HybridReranker milvusDocs esDocs config none ∧
    (¬ ∃ out, HybridReranker milvusDocs esDocs config (some out)) ∧
    ∃ out, HybridReranker ((milvusDocs.filterMap id).map some)
        ((esDocs.filterMap id).map some) config (some out) ∧
      out.Pairwise (fun a b => a.FinalScore ≥ b.FinalScore) ∧
      (out.length : Int) = min (config.getD DefaultHybridRerankerConfig).TopK
        ((((milvusDocs ++ esDocs).filterMap id).map Document.ID).dedup.length : Int) := by
  have hnone := mergeResults_none_of_nil milvusDocs esDocs
    (config.getD DefaultHybridRerankerConfig) hnil
  refine ⟨?_, ?_, ?_⟩
  · simp only [HybridReranker, hnone]
  · rintro ⟨out, hrun⟩
    simp only [HybridReranker, hnone] at hrun
    exact Option.noConfusion hrun
  · have h := HybridReranker_sorted_topK ((milvusDocs.filterMap id).map some)
      ((esDocs.filterMap id).map some) config hk
    obtain ⟨out, hrun⟩ := (h.1 (ne_none_of_mem_map_some _ _)).1
    obtain ⟨hsorted, hlen, -⟩ := h.2 out hrun
    rw [filterMap_id_append_map_some] at hlen
    exact ⟨out, hrun, hsorted, hlen⟩

/-- C3 at the vector list `[A, nil]`, an empty keyword list and a nil configuration
(`TopK` 10): the stable run panics, and the claim's length is 1. -/
theorem C3_nil_entry_no_output_witness :
    0 ≤ ((none : Option HybridRerankerConfig).getD DefaultHybridRerankerConfig).TopK ∧
    (none ∈ [some (mkDoc "A" 10), none] ∨ none ∈ ([] : List (Option Document))) ∧
    HybridRerankerStable [some (mkDoc "A" 10), none] [] none = none ∧
    (HybridReranker [some (mkDoc "A" 10), none] [] none none ∧
      (¬ ∃ out, HybridReranker [some (mkDoc "A" 10), none] [] none (some out)) ∧
      ∃ out, HybridReranker (([some (mkDoc "A" 10), none].filterMap id).map some)
          ((([] : List (Option Document)).filterMap id).map some) none (some out) ∧
        out.Pairwise (fun a b => a.FinalScore ≥ b.FinalScore) ∧
        (out.length : Int) =
          min ((none : Option HybridRerankerConfig).getD DefaultHybridRerankerConfig).TopK
            (((([some (mkDoc "A" 10), none] ++ []).filterMap id).map
              Document.ID).dedup.length : Int)) ∧
    min ((none : Option HybridRerankerConfig).getD DefaultHybridRerankerConfig).TopK
      (((([some (mkDoc "A" 10), none] ++ []).filterMap id).map
        Document.ID).dedup.length : Int) = 1 :=
  ⟨by decide, by decide, by decide,
    C3_nil_entry_no_output [some (mkDoc "A" 10), none] [] none (by decide) (by decide),
    by decide⟩

/-- C9, the code at a failing lookup: when the query of `GetByFileName` fails, the
lookup returns `nil, err` whatever the store holds, the error is never read, and the
document is processed as if its file name were not stored; when the stages succeed the
relational store holds one more row with that file name, so at least two when one was
there. -/
theorem C9_failed_lookup_ingests_again (env : Env) (st st' : Stores) (doc : Document)
    (d : String) (entity : ContractRawData) (chunks : List Document)
    (hstored : ∃ c ∈ st.pg, c.FileName = fileNameOf doc)
    (hfail : env.pgGetFails (fileNameOf doc) = true)
    (hextract : env.extract doc = some entity) (hsplit : env.split doc = some chunks)
    (hdone : processDoc env st doc = (Outcome.done d, st')) :
    ContractRepo.GetByFileName env st.pg (fileNameOf doc) = (none, true) ∧
    countFileName (fileNameOf doc) st'.pg = countFileName (fileNameOf doc) st.pg + 1 ∧
    2 ≤ countFileName (fileNameOf doc) st'.pg := by
  have hcount : countFileName (fileNameOf doc) st'.pg =
      countFileName (fileNameOf doc) st.pg + 1 := by
    obtain ⟨-, hpg, -⟩ := processDoc_done env st st' doc d entity chunks hextract hsplit hdone
    rw [hpg]
    simp [countFileName, List.filter_append]
  have hpos : 0 < countFileName (fileNameOf doc) st.pg := by
    obtain ⟨c, hc, hcf⟩ := hstored
    unfold countFileName
    exact List.length_pos_of_mem (List.mem_filter.mpr ⟨hc, by simp [hcf]⟩)
  exact ⟨GetByFileName_of_failure env st.pg _ hfail, hcount, by omega⟩

/-- C9 at the sample file uploaded twice, the lookup failing at the second upload: the
second upload returns a new document ID and no error, and the relational store then holds
two rows named `a.pdf`; with a working lookup the second upload changes nothing. -/
theorem C9_failed_lookup_ingests_again_witness :
    (ContractService.UploadAndProcess sampleEnv sampleFile emptyStores).docsID = ["u"] ∧
    (ContractService.UploadAndProcess sampleEnv sampleFile emptyStores).stores.pg.map
      Contract.FileName = ["a.pdf"] ∧
    (ContractService.UploadAndProcess lookupFailEnv sampleFile
      (ContractService.UploadAndProcess sampleEnv sampleFile emptyStores).stores).docsID =
        ["uuu"] ∧
    (ContractService.UploadAndProcess lookupFailEnv sampleFile
      (ContractService.UploadAndProcess sampleEnv sampleFile emptyStores).stores).err = false ∧
    (ContractService.UploadAndProcess lookupFailEnv sampleFile
      (ContractService.UploadAndProcess sampleEnv sampleFile emptyStores).stores).stores.pg.map
        Contract.FileName = ["a.pdf", "a.pdf"] ∧
    (ContractService.UploadAndProcess sampleEnv sampleFile
      (ContractService.UploadAndProcess sampleEnv sampleFile emptyStores).stores).docsID = [] ∧
    (ContractRepo.GetByFileName lookupFailEnv
        (ContractService.UploadAndProcess sampleEnv sampleFile emptyStores).stores.pg
        (fileNameOf sampleDoc) = (none, true) ∧
      countFileName (fileNameOf sampleDoc)
        (processDoc lookupFailEnv
          (ContractService.UploadAndProcess sampleEnv sampleFile emptyStores).stores
          sampleDoc).2.pg =
        countFileName (fileNameOf sampleDoc)
          (ContractService.UploadAndProcess sampleEnv sampleFile emptyStores).stores.pg + 1 ∧
      2 ≤ countFileName (fileNameOf sampleDoc)
        (processDoc lookupFailEnv
          (ContractService.UploadAndProcess sampleEnv sampleFile emptyStores).stores
          sampleDoc).2.pg) :=
  ⟨by decide, by decide, by decide, by decide, by decide, by decide,
    C9_failed_lookup_ingests_again lookupFailEnv
      (ContractService.UploadAndProcess sampleEnv sampleFile emptyStores).stores _ sampleDoc
      "uuu" sampleEntity [sampleDoc] (by decide) rfl rfl rfl
      (Prod.ext (by decide) rfl)⟩

end ContractRag
